import Mathlib

/-!
# gstar: packed phylogenetic trees and Neighbor-Joining

A shallow embedding of `src/src/nj.cpp` and `src/src/tree.cpp`.

Conventions of the embedding.

* A `node_t*` is an `Option Nat`: `none` is `nullptr`, `some a` is the node stored at
  address `a` of a heap, and a heap is a `List node_t`.  For a `tree_t` the heap is the packed
  array `_tree` (address = slot); a node obtained by `new node_t` gets the next free address.
* `float`/`double` values are rationals.  The functions `nj`, `join_pair`, `join_final`,
  `calc_distance` and `parent_distance` compute with exact arithmetic.  Where a property
  depends on rounding, the function is given with the rounding of every floating-point
  operation as an argument (`nj_fl`, `join_pair_fl`, `join_final_fl`, `calc_distance_fl`,
  `parent_distance_fl`, `tree_t.set_weights`): the identity gives the exact function,
  `round_single` and `round_double` give the `float` and `double` arithmetic of the program.
  The one place where the source computes in integers (`1/(2*(2*_row_size-2))`) is kept as a
  division of naturals.
* Dereferencing `nullptr`, reading outside a node array and `unordered_map::at` on a missing
  key end the run: the embedded function returns `none`.
* `assert_string` is a test followed by `abort()` in a build with `DEBUG` and empty in a build
  without it (`debug.h`).  An embedded function without a build argument (`nj`, `join_final`,
  `make_unrooted`, `set_outgroup`, `tree_t.sort`, ..) is the function of the build with
  `DEBUG`: a failing assertion ends the run and the function returns `none`.  `nj_fl`,
  `join_final_fl`, `make_unrooted_build` and `set_outgroup_build` take the build as an
  argument.
* Loops whose termination depends on the pointer graph take a fuel argument; the callers pass
  a bound computed from the size of the heap.
* `std::vector<float>` reads use `List.getD _ _ 0`; they are in bounds whenever the matrix has
  `_row_size * _row_size` entries.
-/

namespace Gstar

/-! ## Nodes and heaps -/

/-- Modelled from the spec: the struct `node_t` is declared in `tree.h`, which is not part of
the sources; its fields are the ones `tree.cpp` and `nj.cpp` use (spec section 3, Node). -/
structure node_t where
  _label : String
  _weight : ℚ
  _lchild : Option Nat
  _rchild : Option Nat
  _parent : Option Nat
  _children : Bool
deriving DecidableEq, Repr

/-- Modelled from the spec: the default constructor of `node_t` (declared in `tree.h`): empty
label, weight 0 ("default weight 0"), no children, no parent. -/
def node_t.fresh : node_t := ⟨"", 0, none, none, none, false⟩

/-- Write through a pointer: apply `f` to the node at address `a`; `none` when `a` is not an
address of the heap. -/
def store (h : List node_t) (a : Nat) (f : node_t → node_t) : Option (List node_t) :=
  match h[a]? with
  | some n => some (h.set a (f n))
  | none => none

/-- The packed tree `tree_t`: the node array, the unroot set (pointers into the array) and the
array size. -/
structure tree_t where
  _tree : List node_t
  _unroot : List Nat
  _size : Nat
deriving DecidableEq, Repr

/-! ## `tree_t::make_flat_tree` -/

/-- First loop of `make_flat_tree`: pop the top of the stack, and when the node has both child
pointers push them on the stack and append them to the queue.  The head of `stack` is the top.
Returns the final queue. -/
def flat_traverse (h : List node_t) : Nat → List Nat → List Nat → Option (List Nat)
  | _, [], q => some q
  | 0, _ :: _, _ => none
  | fuel + 1, cur :: stack, q =>
    match h[cur]? with
    | none => none
    | some n =>
      match n._lchild, n._rchild with
      | some l, some r => flat_traverse h fuel (r :: l :: stack) (q ++ [l, r])
      | _, _ => flat_traverse h fuel stack q

/-- Second loop of `make_flat_tree`: copy the queued nodes into the new array, in queue order.
`none` when a queued pointer is not an address of the heap. -/
def flat_copy (h : List node_t) : List Nat → Option (List node_t)
  | [] => some []
  | a :: q =>
    match h[a]?, flat_copy h q with
    | some n, some rest => some (n :: rest)
    | _, _ => none

/-- The map `node_map` filled by the second loop: `node_map[cur] = _tree + cur_index`, a later
insertion of the same key replacing the earlier one.  `cur_index` starts at `k`. -/
def flat_node_map : List Nat → Nat → List (Nat × Nat) → List (Nat × Nat)
  | [], _, m => m
  | a :: q, k, m => flat_node_map q (k + 1) ((a, k) :: m)

/-- The lookup `node_map.at(p)`: `none` for a missing key (the null pointer is never a key). -/
def node_map_at (m : List (Nat × Nat)) (p : Option Nat) : Option Nat :=
  match p with
  | none => none
  | some a => m.lookup a

/-- The recursion `node_t::update_children(node_map, p)` run on slot `self` of the new array. -/
def update_children (m : List (Nat × Nat)) :
    Nat → List node_t → Nat → Option Nat → Option (List node_t)
  | 0, _, _, _ => none
  | fuel + 1, t, self, p =>
    match t[self]? with
    | none => none
    | some n =>
      if n._children then
        match node_map_at m n._lchild, node_map_at m n._rchild with
        | some l, some r =>
          let t1 := t.set self { n with _parent := p, _lchild := some l, _rchild := some r }
          match update_children m fuel t1 l (some self) with
          | none => none
          | some t2 =>
            match t2[self]? with
            | none => none
            | some n2 =>
              match n2._rchild with
              | none => none
              | some r2 => update_children m fuel t2 r2 (some self)
        | _, _ => none
      else some (t.set self { n with _parent := p })

/-- Last loop of `make_flat_tree`: for every member of `unroot`, push its new slot on `_unroot`
and run `update_children` from it with the default argument `p = nullptr`. -/
def flat_update (m : List (Nat × Nat)) (fuel : Nat) :
    List Nat → List node_t → List Nat → Option (List node_t × List Nat)
  | [], t, ur => some (t, ur)
  | i :: rest, t, ur =>
    match m.lookup i with
    | none => none
    | some s =>
      match update_children m fuel t s none with
      | none => none
      | some t1 => flat_update m fuel rest t1 (ur ++ [s])

/-- The function `tree_t::make_flat_tree(unroot)`, reading the nodes from heap `h`.  The fuel of
the traversal is the number of pops the stack can need when no node is visited twice. -/
def make_flat_tree (h : List node_t) (unroot : List Nat) : Option tree_t :=
  match flat_traverse h h.length unroot.reverse unroot with
  | none => none
  | some q =>
    match flat_copy h q with
    | none => none
    | some t0 =>
      match flat_update (flat_node_map q 0 []) q.length unroot t0 [] with
      | none => none
      | some (t, ur) => some ⟨t, ur, q.length⟩

/-! ## `nj_t`: the Neighbor-Joining engine -/

/-- The working state of `nj_t` (the class is declared in `nj.h`; the fields are the members
`nj.cpp` uses), together with the heap holding the nodes created by `new node_t`. -/
structure nj_t where
  _dists : List ℚ
  _tree : List Nat
  _row_size : Nat
  _r_vec : List ℚ
  _q_vec : List ℚ
  _i : Nat
  _j : Nat
  heap : List node_t
deriving DecidableEq, Repr

/-- The call `v.resize(n, d)` of `std::vector`: existing elements are kept, missing ones are
filled with `d`. -/
def vec_resize (v : List ℚ) (n : Nat) (d : ℚ) : List ℚ :=
  v.take n ++ List.replicate (n - v.length) d

/-- The function `nj_t::compute_r`: `_r_vec[i] += _dists[i*_row_size+j]` for all `i`, `j`, after
`_r_vec.resize(_row_size, 0.0)`. -/
def compute_r (s : nj_t) : nj_t :=
  let n := s._row_size
  let r_vec :=
    (List.range n).foldl (fun r i =>
      (List.range n).foldl (fun r j => r.set i (r.getD i 0 + s._dists.getD (i * n + j) 0)) r)
      (vec_resize s._r_vec n 0)
  { s with _r_vec := r_vec }

/-- The function `nj_t::compute_q`. -/
def compute_q (s0 : nj_t) : nj_t :=
  let s := compute_r s0
  let n := s._row_size
  let q_vec :=
    (List.range n).foldl (fun q i =>
      (List.range n).foldl (fun q j =>
        q.set (i * n + j)
          (((n - 2 : Nat) : ℚ) * s._dists.getD (i * n + j) 0 - s._r_vec.getD i 0
            - s._r_vec.getD j 0)) q)
      (vec_resize s._q_vec (n * n) 0)
  { s with _q_vec := q_vec }

/-- One test of the inner loop of `find_pair`: `(i, j)` replaces the current best when its Q
value is `<=` the best one. -/
def find_pair_step (q : List ℚ) (n : Nat) (low : Nat × Nat) (i j : Nat) : Nat × Nat :=
  if q.getD (i * n + j) 0 ≤ q.getD (low.1 * n + low.2) 0 then (i, j) else low

/-- The scan of `find_pair`: `i` from `0` to `_row_size - 1`, `j` from `0` to `i - 1`, starting
from `low_i = 0`, `low_j = 1`. -/
def find_pair_scan (q : List ℚ) (n : Nat) : Nat × Nat :=
  (List.range n).foldl (fun low i =>
    (List.range i).foldl (fun low j => find_pair_step q n low i j) low) (0, 1)

/-- The function `nj_t::find_pair`. -/
def find_pair (s0 : nj_t) : nj_t :=
  let s := compute_q s0
  let low := find_pair_scan s._q_vec s._row_size
  { s with _i := low.1, _j := low.2 }

/-- First loop of `join_pair`: the clusters other than `_i` and `_j`, in order. -/
def join_collect (tree : List Nat) (si sj : Nat) : List Nat → List Nat → Option (List Nat)
  | [], acc => some acc
  | i :: rest, acc =>
    if i = si ∨ i = sj then join_collect tree si sj rest acc
    else
      match tree[i]? with
      | some p => join_collect tree si sj rest (acc ++ [p])
      | none => none

/-- The index shift of `join_pair`: `cur--` once for each of `_i`, `_j` below `i`. -/
def join_shift (si sj i : Nat) : Nat :=
  (if i > si then (i - 1) else i) - (if i > sj then 1 else 0)

/-- Second matrix loop of `join_pair`: copy the entries of the surviving clusters. -/
def join_copy (d : List ℚ) (n si sj : Nat) (tmp : List ℚ) : List ℚ :=
  (List.range n).foldl (fun t i =>
    if i = si ∨ i = sj then t
    else
      (List.range n).foldl (fun t j =>
        if j = sj ∨ j = si then t
        else t.set (join_shift si sj i * (n - 1) + join_shift sj si j) (d.getD (i * n + j) 0)) t)
    tmp

/-- Third matrix loop of `join_pair` ("reflect the matrix"): last column and last row. -/
def join_reflect (d : List ℚ) (n si sj : Nat) (tmp : List ℚ) : List ℚ :=
  (List.range (n - 1)).foldl (fun t i =>
    let t1 := t.set (i * (n - 1) + (n - 1 - 1))
      ((1 / 2 : ℚ) * (d.getD (i * n + si) 0 + d.getD (i * n + sj) 0 - d.getD (si * n + sj) 0))
    t1.set ((n - 1) * (n - 1 - 1) + i) (t1.getD (i * (n - 1) + (n - 1 - 1)) 0))
    tmp

/-- The function `nj_t::join_pair`.  The new node `tmp` gets the next free heap address.  The
factor `1/(2*(2*_row_size-2))` is an integer division in the source (`int` by `size_t`). -/
def join_pair (s0 : nj_t) : Option nj_t :=
  let s := find_pair s0
  let n := s._row_size
  match join_collect s._tree s._i s._j (List.range n) [], s._tree[s._i]?, s._tree[s._j]? with
  | some tmp_tree, some ti, some tj =>
    let tmp := s.heap.length
    let h0 := s.heap ++ [{ node_t.fresh with _lchild := some ti, _rchild := some tj,
                                             _children := true }]
    let lw : ℚ := (1 / 2 : ℚ) * s._dists.getD (s._i * n + s._j) 0
      + ((1 / (2 * (2 * n - 2)) : Nat) : ℚ) * (s._r_vec.getD s._i 0 - s._r_vec.getD s._j 0)
    match store h0 ti (fun x => { x with _parent := some tmp }) with
    | none => none
    | some h1 =>
      match store h1 tj (fun x => { x with _parent := some tmp }) with
      | none => none
      | some h2 =>
        match store h2 ti (fun x => { x with _weight := lw }) with
        | none => none
        | some h3 =>
          match store h3 tj
              (fun x => { x with _weight := s._dists.getD (s._i * n + s._j) 0 - lw }) with
          | none => none
          | some h4 =>
            let tmp_dists :=
              join_reflect s._dists n s._i s._j
                (join_copy s._dists n s._i s._j (List.replicate ((n - 1) * (n - 1)) 0))
            some { s with _tree := tmp_tree ++ [tmp], heap := h4, _dists := tmp_dists,
                          _row_size := n - 1 }
  | _, _, _ => none

/-- One assignment of the loop of `join_final`. -/
def join_final_step (s : nj_t) (h : List node_t) (i : Nat) : Option (List node_t) :=
  let n := s._row_size
  let y := (i + 1) % n
  let z := (i + 2) % n
  match s._tree[i]? with
  | none => none
  | some p =>
    store h p (fun x => { x with _weight :=
      (s._dists.getD (i * n + y) 0 + s._dists.getD (i * n + z) 0 - s._dists.getD (y * n + z) 0)
        * (1 / 2 : ℚ) })

/-- The loop of `join_final` over the indices in `is`. -/
def join_final_loop (s : nj_t) : List Nat → List node_t → Option (List node_t)
  | [], h => some h
  | i :: rest, h =>
    match join_final_step s h i with
    | none => none
    | some h1 => join_final_loop s rest h1

/-- The function `nj_t::join_final`; the `assert_string` on `_row_size == 3` ends the run. -/
def join_final (s : nj_t) : Option nj_t :=
  if s._row_size = 3 then
    match join_final_loop s (List.range s._row_size) s.heap with
    | none => none
    | some h => some { s with heap := h }
  else none

/-- The leaves created by the constructor: one `new node_t` per index below `_row_size`, with
`_label = labels[i]`. -/
def nj_leaves (labels : List String) : List Nat → Option (List node_t)
  | [] => some []
  | i :: rest =>
    match labels[i]?, nj_leaves labels rest with
    | some l, some ns => some ({ node_t.fresh with _label := l } :: ns)
    | _, _ => none

/-- The state of `nj_t` before the loop of the constructor: `_row_size = sqrt(dists.size())`,
leaf `i` at heap address `i`. -/
def nj_init (dists : List ℚ) (labels : List String) : Option nj_t :=
  let n := Nat.sqrt dists.length
  match nj_leaves labels (List.range n) with
  | none => none
  | some h => some ⟨dists, List.range n, n, [], [], 0, 0, h⟩

/-- The loop `while(_row_size>3) join_pair();`. -/
def nj_loop : Nat → nj_t → Option nj_t
  | 0, s => if s._row_size > 3 then none else some s
  | fuel + 1, s =>
    if s._row_size > 3 then
      match join_pair s with
      | none => none
      | some s1 => nj_loop fuel s1
    else some s

/-- The state at the end of the constructor, before `make_tree`. -/
def nj_run (dists : List ℚ) (labels : List String) : Option nj_t :=
  match nj_init dists labels with
  | none => none
  | some s0 =>
    match nj_loop s0._row_size s0 with
    | none => none
    | some s1 => join_final s1

/-- The constructor `nj_t::nj_t(dists, labels)` followed by `get_tree()`: the tree built by
`make_tree` from the three remaining clusters. -/
def nj (dists : List ℚ) (labels : List String) : Option tree_t :=
  match nj_run dists labels with
  | none => none
  | some s => make_flat_tree s.heap s._tree

end Gstar

/-! ## Distances in a packed tree -/

namespace Gstar

/-- The loop of `tree_t::get_parents_of`, `cur` being the current node: push the parent while it
is neither null nor the node itself, then push the `nullptr` sentinel when the walk ended on a
parentless node. -/
def parents_walk (h : List node_t) : Nat → Nat → Option (List (Option Nat))
  | 0, _ => none
  | fuel + 1, cur =>
    match h[cur]? with
    | none => none
    | some n =>
      match n._parent with
      | none => some [none]
      | some p =>
        if p = cur then some []
        else
          match parents_walk h fuel p with
          | none => none
          | some rest => some (some p :: rest)

/-- The function `tree_t::get_parents_of`. -/
def get_parents_of (t : tree_t) (cur : Nat) : Option (List (Option Nat)) :=
  match parents_walk t._tree (t._size + 1) cur with
  | none => none
  | some rest => some (some cur :: rest)

/-- The function `tree_t::parent_distance`: add the weights from `child` upwards until `parent`
is reached (`parent` may be `nullptr`). -/
def parent_distance (h : List node_t) : Nat → Option Nat → Option Nat → Option ℚ
  | 0, child, parent => if child = parent then some 0 else none
  | fuel + 1, child, parent =>
    if child = parent then some 0
    else
      match child with
      | none => none
      | some c =>
        match h[c]? with
        | none => none
        | some n =>
          match parent_distance h fuel n._parent parent with
          | none => none
          | some d => some (n._weight + d)

/-- The loop of `calc_distance` that walks both parent lists from the back.  The indices are
`size_t` in the source; here an index that would drop below `0` ends the run, as does a read
outside a list.  Returns the indices after the final `src_index++; dst_index++`. -/
def diverge_walk (sl dl : List (Option Nat)) : Nat → Nat → Nat → Option (Nat × Nat)
  | 0, _, _ => none
  | fuel + 1, si, di =>
    match sl[si]?, dl[di]? with
    | some a, some b =>
      if a ≠ b then some (si + 1, di + 1)
      else
        match si, di with
        | si1 + 1, di1 + 1 => diverge_walk sl dl fuel si1 di1
        | _, _ => none
    | _, _ => none

/-- The function `tree_t::calc_distance(src, dst)` on slots of the array. -/
def calc_distance (t : tree_t) (src dst : Nat) : Option ℚ :=
  if src = dst then some 0
  else
    match get_parents_of t src, get_parents_of t dst with
    | some sl, some dl =>
      match diverge_walk sl dl (sl.length + 1) (sl.length - 1) (dl.length - 1) with
      | none => none
      | some (si, di) =>
        match sl[si]?, dl[di]? with
        | some a, some b =>
          match parent_distance t._tree (t._size + 1) (some src) a,
                parent_distance t._tree (t._size + 1) (some dst) b with
          | some x, some y => some (x + y)
          | _, _ => none
        | _, _ => none
    | _, _ => none

/-- The loop of `tree_t::make_label_map`: `label_map[_tree[i]._label] = label_index++` for the
leaves in array order; a repeated label keeps one key, whose value is the last one written. -/
def label_map_loop : List node_t → Nat → List (String × Nat) → List (String × Nat)
  | [], _, m => m
  | n :: rest, k, m =>
    if n._children then label_map_loop rest k m
    else label_map_loop rest (k + 1) ((n._label, k) :: m.filter (fun e => e.1 ≠ n._label))

/-- The function `tree_t::make_label_map`. -/
def make_label_map (t : tree_t) : List (String × Nat) :=
  label_map_loop (t._tree.take t._size) 0 []

/-- The inner loop of `calc_distance_matrix(label_map, dists)` for the leaf at slot `i`. -/
def dist_row (t : tree_t) (lm : List (String × Nat)) (i mi : Nat) :
    List Nat → List ℚ → Option (List ℚ)
  | [], d => some d
  | j :: rest, d =>
    match t._tree[j]? with
    | none => none
    | some nj =>
      if nj._children then dist_row t lm i mi rest d
      else
        match lm.lookup nj._label, calc_distance t i j with
        | some mj, some x => dist_row t lm i mi rest (d.set (lm.length * mi + mj) x)
        | _, _ => none

/-- The outer loop of `calc_distance_matrix(label_map, dists)`. -/
def dist_rows (t : tree_t) (lm : List (String × Nat)) : List Nat → List ℚ → Option (List ℚ)
  | [], d => some d
  | i :: rest, d =>
    match t._tree[i]? with
    | none => none
    | some ni =>
      if ni._children then dist_rows t lm rest d
      else
        match lm.lookup ni._label with
        | none => none
        | some mi =>
          match dist_row t lm i mi (List.range t._size) (d.set (mi * lm.length) 0) with
          | none => none
          | some d1 => dist_rows t lm rest d1

/-- The function `tree_t::calc_distance_matrix()`: the matrix over the label map of the tree
itself.  The freshly allocated array is modelled as filled with zeros. -/
def calc_distance_matrix (t : tree_t) : Option (List ℚ) :=
  let lm := make_label_map t
  dist_rows t lm (List.range t._size) (List.replicate (lm.length * lm.length) 0)

/-! ## Serialisation and sorting -/

/-- The function `node_t::to_string(p)`.  The rendering of a weight by
`std::fixed << std::setprecision(p)` is the parameter `fmt`. -/
def node_to_string (fmt : ℚ → String) (h : List node_t) : Nat → Nat → Option String
  | 0, _ => none
  | fuel + 1, a =>
    match h[a]? with
    | none => none
    | some n =>
      let body : Option String :=
        match n._lchild, n._rchild with
        | some l, some r =>
          match node_to_string fmt h fuel l, node_to_string fmt h fuel r with
          | some sl, some sr => some ("(" ++ sl ++ "," ++ sr ++ ")")
          | _, _ => none
        | _, _ => some n._label
      match body with
      | none => none
      | some b => some (if n._weight ≠ 0 then b ++ ":" ++ fmt n._weight else b)

/-- The loop of `tree_t::to_string` over the unroot set: members separated by commas. -/
def unroot_to_string (fmt : ℚ → String) (h : List node_t) (fuel : Nat) :
    List Nat → Option String
  | [] => some ""
  | [a] => node_to_string fmt h fuel a
  | a :: b :: rest =>
    match node_to_string fmt h fuel a, unroot_to_string fmt h fuel (b :: rest) with
    | some x, some y => some (x ++ "," ++ y)
    | _, _ => none

/-- The function `tree_t::to_string(p)`. -/
def tree_t.to_string (fmt : ℚ → String) (t : tree_t) : Option String :=
  match unroot_to_string fmt t._tree (t._size + 1) t._unroot with
  | none => none
  | some body =>
    let s := if t._unroot.length > 1 then "(" ++ body ++ ")" else body
    some (if s ≠ "" then s ++ ";" else s)

/-- The function `node_t::sort()`: returns the array after the swaps and the returned label.
The members `_lchild`, `_rchild` and `_label` are read again after each recursive call. -/
def node_sort : Nat → List node_t → Nat → Option (List node_t × String)
  | 0, _, _ => none
  | fuel + 1, h, a =>
    match h[a]? with
    | none => none
    | some n =>
      if n._children then
        match n._lchild with
        | none => none
        | some l =>
          match node_sort fuel h l with
          | none => none
          | some (h1, ls) =>
            match h1[a]? with
            | none => none
            | some n1 =>
              match n1._rchild with
              | none => none
              | some r =>
                match node_sort fuel h1 r with
                | none => none
                | some (h2, rs) =>
                  match h2[a]? with
                  | none => none
                  | some n2 =>
                    let h3 :=
                      if rs < ls then
                        h2.set a { n2 with _lchild := n2._rchild, _rchild := n2._lchild }
                      else h2
                    let ls1 := if rs < ls then rs else ls
                    if ls1 < n2._label ∨ n2._label = "" then some (h3, ls1)
                    else some (h3, n2._label)
      else some (h, n._label)

/-- The first loop of `tree_t::sort`: `label_vector.push_back(n->sort())` for every member. -/
def sort_members (fuel : Nat) : List Nat → List node_t → Option (List node_t × List String)
  | [], h => some (h, [])
  | a :: rest, h =>
    match node_sort fuel h a with
    | none => none
    | some (h1, s) =>
      match sort_members fuel rest h1 with
      | none => none
      | some (h2, ss) => some (h2, s :: ss)

/-- One test of the double loop of `tree_t::sort` (for `i < k`): swap the labels and the unroot
members at positions `i` and `k` when `label_vector[i] > label_vector[k]`. -/
def sort_swap (st : List String × List Nat) (i k : Nat) : List String × List Nat :=
  match st.1[i]?, st.1[k]?, st.2[i]?, st.2[k]? with
  | some li, some lk, some ui, some uk =>
    if lk < li then ((st.1.set i lk).set k li, (st.2.set i uk).set k ui) else st
  | _, _, _, _ => st

/-- The function `tree_t::sort()`. -/
def tree_t.sort (t : tree_t) : Option tree_t :=
  if t._unroot.length ≤ 3 then
    match sort_members (t._size + 1) t._unroot t._tree with
    | none => none
    | some (h, labels) =>
      let n := t._unroot.length
      let st := (List.range n).foldl (fun st i =>
        (List.range n).foldl (fun st k => if k ≤ i then st else sort_swap st i k) st)
        (labels, t._unroot)
      some { t with _tree := h, _unroot := st.2 }
  else none

end Gstar

/-! ## Rerooting and unrooting -/

namespace Gstar

/-- The recursion `node_t::swap_parent(p)` run on the node at address `self`. -/
def swap_parent : Nat → List node_t → Nat → Option Nat → Option (List node_t)
  | 0, _, _, _ => none
  | fuel + 1, h, self, p =>
    match h[self]? with
    | none => none
    | some n =>
      if p = n._lchild then
        match n._parent with
        | none => none
        | some q =>
          swap_parent fuel (h.set self { n with _parent := n._lchild, _lchild := n._parent })
            q (some self)
      else if p = n._rchild then
        match n._parent with
        | none => none
        | some q =>
          swap_parent fuel (h.set self { n with _parent := n._rchild, _rchild := n._parent })
            q (some self)
      else some h

/-- The search loop of `set_root`: the first index of `outgroup` in the unroot set, or its size
when it is not a member. -/
def unroot_index (unroot : List Nat) (outgroup : Nat) : Nat :=
  unroot.findIdx (fun u => u = outgroup)

/-- The function `tree_t::set_root(outgroup)`.  The node created by `new node_t` (`tmp`, resp.
`ur`) is put at the first address after the packed array. -/
def set_root (t : tree_t) (outgroup : Nat) : Option tree_t :=
  let fresh := t._tree.length
  match t._tree[outgroup]? with
  | none => none
  | some o =>
    match o._parent with
    | none =>
      let idx := unroot_index t._unroot outgroup
      if idx < t._unroot.length then
        let ur1 := t._unroot.eraseIdx idx
        match ur1[0]?, ur1[1]? with
        | some u0, some u1 =>
          let h0 := t._tree ++ [{ node_t.fresh with _lchild := some u0, _rchild := some u1,
                                                    _children := true }]
          match store h0 u1 (fun x => { x with _parent := some fresh }) with
          | none => none
          | some h1 =>
            match store h1 u0 (fun x => { x with _parent := some fresh }) with
            | none => none
            | some h2 => make_flat_tree h2 [outgroup, fresh]
        | _, _ => none
      else none
    | some _ =>
      match t._unroot[0]?, t._unroot[1]?, t._unroot[2]? with
      | some u0, some u1, some u2 =>
        let h0 := t._tree ++ [{ node_t.fresh with _parent := some u0, _lchild := some u1,
                                                  _rchild := some u2 }]
        match store h0 u1 (fun x => { x with _parent := some fresh }) with
        | none => none
        | some h1 =>
          match store h1 u2 (fun x => { x with _parent := some fresh }) with
          | none => none
          | some h2 =>
            match store h2 u0 (fun x => { x with _parent := some fresh }) with
            | none => none
            | some h3 =>
              match store h3 fresh (fun x => { x with _children := true }) with
              | none => none
              | some h4 =>
                match h4[outgroup]? with
                | none => none
                | some o4 =>
                  match o4._parent with
                  | none => none
                  | some p =>
                    match store h4 outgroup (fun x => { x with _parent := none }) with
                    | none => none
                    | some h5 =>
                      match store h5 p (fun x =>
                          if some outgroup ≠ x._lchild then
                            { x with _lchild := x._rchild, _rchild := x._lchild }
                          else x) with
                      | none => none
                      | some h6 =>
                        match store h6 p (fun x => { x with _lchild := none }) with
                        | none => none
                        | some h7 =>
                          match swap_parent (h7.length + 1) h7 p none with
                          | none => none
                          | some h8 => make_flat_tree h8 [outgroup, p]
      | _, _, _ => none

/-- The function `tree_t::is_rooted`. -/
def tree_t.is_rooted (t : tree_t) : Bool := decide (t._unroot.length ≤ 2)

/-- The search loop of `make_unrooted`: the first unroot member with `_children` set, with its
index. -/
def first_internal (h : List node_t) : List Nat → Nat → Option (Option (Nat × Nat))
  | [], _ => some none
  | u :: rest, i =>
    match h[u]? with
    | none => none
    | some n => if n._children then some (some (u, i)) else first_internal h rest (i + 1)

/-- The loop `while(_unroot.size()!=3)` of `make_unrooted`. -/
def unroot_loop : Nat → List node_t → List Nat → Option (List node_t × List Nat)
  | 0, h, ur => if ur.length ≠ 3 then none else some (h, ur)
  | fuel + 1, h, ur =>
    if ur.length ≠ 3 then
      match first_internal h ur 0 with
      | some (some (tmp_n, idx)) =>
        match h[tmp_n]? with
        | none => none
        | some n =>
          match n._lchild, n._rchild with
          | some l, some r =>
            match store h l (fun x => { x with _parent := none }) with
            | none => none
            | some h1 =>
              match store h1 r (fun x => { x with _parent := none }) with
              | none => none
              | some h2 =>
                match store h2 tmp_n (fun x =>
                    { x with _lchild := none, _rchild := none, _children := false }) with
                | none => none
                | some h3 => unroot_loop fuel h3 (ur.eraseIdx idx ++ [l, r])
          | _, _ => none
      | _ => none
    else some (h, ur)

/-- The function `tree_t::make_unrooted`. -/
def make_unrooted (t : tree_t) : Option tree_t :=
  if t.is_rooted ∧ t._size > 2 then
    match unroot_loop (t._size + 1) t._tree t._unroot with
    | none => none
    | some (h, ur) => make_flat_tree h ur
  else none

/-- The search loop of `set_outgroup`: the last slot whose label is `outgroup`. -/
def find_outgroup (outgroup : String) : List node_t → Nat → Option Nat → Option Nat
  | [], _, o => o
  | n :: rest, i, o => find_outgroup outgroup rest (i + 1) (if n._label = outgroup then some i else o)

/-- The function `tree_t::set_outgroup(outgroup)`. -/
def set_outgroup (t : tree_t) (outgroup : String) : Option tree_t :=
  if t._size ≤ 2 then some t
  else
    let t1? := if t.is_rooted then make_unrooted t else some t
    match t1? with
    | none => none
    | some t1 =>
      if t1._unroot.length = 3 then
        match find_outgroup outgroup (t1._tree.take t1._size) 0 none with
        | none => none
        | some o => set_root t1 o
      else none

/-- The copy constructor `tree_t::tree_t(const tree_t&)`. -/
def tree_t.copy (t : tree_t) : Option tree_t :=
  make_flat_tree t._tree t._unroot

/-- The constructor `tree_t::tree_t(const vector<node_t*>&)`. -/
def tree_t.of_unroot (h : List node_t) (unroot : List Nat) : Option tree_t :=
  make_flat_tree h unroot

end Gstar

/-! ## Concrete inputs -/

namespace Gstar

/-- The distance of two leaves given by their labels: the entry of `calc_distance_matrix()` at
the indices `make_label_map()` gives the two labels. -/
def label_distance (t : tree_t) (a b : String) : Option ℚ :=
  let lm := make_label_map t
  match calc_distance_matrix t, lm.lookup a, lm.lookup b with
  | some m, some ia, some ib => m[ia * lm.length + ib]?
  | _, _, _ => none

/-- The labels of the leaves in the order of `make_label_map()` (array order). -/
def leaf_labels (t : tree_t) : List String :=
  ((t._tree.take t._size).filter (fun n => !n._children)).map (fun n => n._label)

/-- The four-leaf scenario of the spec: labels `A, B, C, D`. -/
def scenario_labels : List String := ["A", "B", "C", "D"]

/-- The four-leaf scenario of the spec: the row-major distance matrix. -/
def scenario_dists : List ℚ := [0, 5, 9, 9, 5, 0, 10, 10, 9, 10, 0, 8, 9, 10, 8, 0]

/-- The packed unrooted tree `(A:1,B:1,(C:1,D:3):1);`. -/
def tree_abcd : tree_t :=
  { _tree := [⟨"A", 1, none, none, none, false⟩, ⟨"B", 1, none, none, none, false⟩,
              ⟨"", 1, some 3, some 4, none, true⟩, ⟨"C", 1, none, none, some 2, false⟩,
              ⟨"D", 3, none, none, some 2, false⟩],
    _unroot := [0, 1, 2], _size := 5 }

/-- The packed unrooted tree `((A:1,B:1):1,C:1,D:1);`. -/
def tree_cherry : tree_t :=
  { _tree := [⟨"", 1, some 3, some 4, none, true⟩, ⟨"C", 1, none, none, none, false⟩,
              ⟨"D", 1, none, none, none, false⟩, ⟨"A", 1, none, none, some 0, false⟩,
              ⟨"B", 1, none, none, some 0, false⟩],
    _unroot := [0, 1, 2], _size := 5 }

end Gstar

/-! ## Tree shapes: the specification side -/

namespace Gstar

/-- The shape of a binary tree whose nodes sit at heap addresses. -/
inductive Shape where
  | leaf (a : Nat) : Shape
  | node (a : Nat) (l r : Shape) : Shape
deriving DecidableEq, Repr

/-- The address of the root of a shape. -/
def Shape.root : Shape → Nat
  | .leaf a => a
  | .node a _ _ => a

/-- The addresses of a shape, root first. -/
def Shape.addrs : Shape → List Nat
  | .leaf a => [a]
  | .node a l r => a :: (l.addrs ++ r.addrs)

/-- The addresses of the leaves of a shape, left to right. -/
def Shape.leaves : Shape → List Nat
  | .leaf a => [a]
  | .node _ l r => l.leaves ++ r.leaves

/-- The number of nodes of a shape. -/
def Shape.size : Shape → Nat
  | .leaf _ => 1
  | .node _ l r => l.size + r.size + 1

/-- Renaming of the addresses of a shape. -/
def Shape.map (f : Nat → Nat) : Shape → Shape
  | .leaf a => .leaf (f a)
  | .node a l r => .node (f a) (l.map f) (r.map f)

/-- The addresses appended to the queue of `make_flat_tree` while the stack entry holding the
root of the shape is processed: the two children, then what the right child (pushed last,
popped first) appends, then what the left child appends. -/
def Shape.ord1 : Shape → List Nat
  | .leaf _ => []
  | .node _ l r => l.root :: r.root :: (r.ord1 ++ l.ord1)

/-- The final queue of `make_flat_tree` for a forest: the roots, then the entries appended
while the stack (last root on top) is emptied. -/
def queue_of (F : List Shape) : List Nat :=
  F.map Shape.root ++ F.reverse.flatMap Shape.ord1

/-- A node with no children: flag cleared and both child pointers null. -/
def node_t.is_leaf (n : node_t) : Prop :=
  n._children = false ∧ n._lchild = none ∧ n._rchild = none

/-- A node with the two children `l` and `r`. -/
def node_t.is_inner (n : node_t) (l r : Nat) : Prop :=
  n._children = true ∧ n._lchild = some l ∧ n._rchild = some r

/-- The child pointers of heap `h` realise the shape: every leaf of the shape is a childless
node of the heap, every inner node has exactly the two children the shape gives it. -/
def Shape.RepC (h : List node_t) : Shape → Prop
  | .leaf a => ∃ n, h[a]? = some n ∧ n.is_leaf
  | .node a l r => (∃ n, h[a]? = some n ∧ n.is_inner l.root r.root) ∧ l.RepC h ∧ r.RepC h

/-- The child and parent pointers of heap `h` realise the shape below the parent `par`. -/
def Shape.Rep (h : List node_t) : Option Nat → Shape → Prop
  | par, .leaf a => ∃ n, h[a]? = some n ∧ n.is_leaf ∧ n._parent = par
  | par, .node a l r =>
    (∃ n, h[a]? = some n ∧ n.is_inner l.root r.root ∧ n._parent = par)
      ∧ l.Rep h (some a) ∧ r.Rep h (some a)

/-- The node at address `a` of a heap (the default node outside the heap). -/
def node_at (h : List node_t) (a : Nat) : node_t := (h[a]?).getD node_t.fresh

/-- The copy of a node that `make_flat_tree` leaves in the new array: same label, weight and
flag, parent `par`, child pointers renamed by `σ`. -/
def node_t.moved (n : node_t) (par : Option Nat) (σ : Nat → Nat) : node_t :=
  { n with _parent := par, _lchild := n._lchild.map σ, _rchild := n._rchild.map σ }

/-- The array `t` holds, at the slots `σ a`, the moved copies of the nodes of the shape read
from heap `h`, the root having parent `par`. -/
def Shape.Img (h t : List node_t) (σ : Nat → Nat) : Option Nat → Shape → Prop
  | par, .leaf a => t[σ a]? = some ((node_at h a).moved par σ)
  | par, .node a l r =>
    t[σ a]? = some ((node_at h a).moved par σ)
      ∧ l.Img h t σ (some (σ a)) ∧ r.Img h t σ (some (σ a))

/-- The slot that `make_flat_tree` gives the node at address `a`: its position in the queue. -/
def slot_of (F : List Shape) (a : Nat) : Nat := (queue_of F).indexOf a

/-- The packed tree `t` is the forest `F`: the array has `_size` slots, the unroot set lists
the roots of `F` in order, every tree of `F` is realised by the array with a parentless root,
and every slot is the address of exactly one node of `F`. -/
def tree_t.Forest (t : tree_t) (F : List Shape) : Prop :=
  t._tree.length = t._size ∧ F.map Shape.root = t._unroot ∧
    (∀ s ∈ F, s.Rep t._tree none) ∧ (F.flatMap Shape.addrs).Perm (List.range t._size)

/-- A well-formed packed tree: invariants I1 and I2 hold, the unroot members have no parent and
the array holds exactly the nodes below the unroot members. -/
def tree_t.WF (t : tree_t) : Prop := ∃ F, t.Forest F

/-- What a structural edit never changes in a node: the `_children` flag and the label. -/
def node_t.key (n : node_t) : Bool × String := (n._children, n._label)

/-- The flag and the child pointers of a node. -/
def node_t.kids (n : node_t) : Bool × Option Nat × Option Nat :=
  (n._children, n._lchild, n._rchild)

/-- Every node of heap `h` is still present in `h'` with the same flag and child pointers. -/
def KidsLe (h h' : List node_t) : Prop :=
  ∀ (a : Nat) (n : node_t), h[a]? = some n → ∃ n' : node_t, h'[a]? = some n' ∧ n'.kids = n.kids

/-- The total form of a write through a pointer (`store` without the bounds check). -/
def upd (h : List node_t) (a : Nat) (f : node_t → node_t) : List node_t :=
  h.set a (f (node_at h a))

/-- One step of the path from a node up to the root of its tree: the address of the ancestor,
whether the path enters it from its left child, and the subtree of its other child. -/
structure Frame where
  addr : Nat
  onLeft : Bool
  sib : Shape

/-- The shape obtained by putting `s` below the frames, listed from the bottom up. -/
def plug : List Frame → Shape → Shape
  | [], s => s
  | f :: fs, s =>
    plug fs (if f.onLeft then Shape.node f.addr s f.sib else Shape.node f.addr f.sib s)

/-- The addresses a frame contributes: the ancestor and the subtree of the other child. -/
def Frame.addrs (f : Frame) : List Nat := f.addr :: f.sib.addrs

/-- The address of the topmost frame of the path `f :: fs`. -/
def last_addr : Frame → List Frame → Nat
  | f, [] => f.addr
  | _, g :: fs => last_addr g fs

/-- The shape of the reversed path: every ancestor keeps the subtree of its other child and
gets, in place of the child the path came from, its old parent; above the topmost ancestor
sits the shape `U`. -/
def reroot_up : List Frame → Shape → Shape
  | [], U => U
  | f :: fs, U =>
    if f.onLeft then Shape.node f.addr (reroot_up fs U) f.sib
    else Shape.node f.addr f.sib (reroot_up fs U)

/-- The exchange `std::swap(_parent, _lchild)` of `swap_parent`. -/
def swapL (n : node_t) : node_t := { n with _parent := n._lchild, _lchild := n._parent }

/-- The exchange `std::swap(_parent, _rchild)` of `swap_parent`. -/
def swapR (n : node_t) : node_t := { n with _parent := n._rchild, _rchild := n._parent }

/-- The heap after `swap_parent` has exchanged parent and child along the path. -/
def path_upd (h : List node_t) : List Frame → List node_t
  | [] => h
  | f :: fs => path_upd (upd h f.addr (if f.onLeft then swapL else swapR)) fs

/-- The pointers along a path in a realised tree: every ancestor lists the node below it on
the side the frame says and the root of the frame's subtree on the other side, its parent is
the next ancestor (`par` for the topmost one), and the frame's subtree is realised below it. -/
def PathRep (h : List node_t) : Nat → List Frame → Option Nat → Prop
  | _, [], _ => True
  | c, f :: fs, par =>
    (∃ n : node_t, h[f.addr]? = some n ∧
        n.is_inner (if f.onLeft then c else f.sib.root) (if f.onLeft then f.sib.root else c) ∧
        n._parent = (match fs with
          | [] => par
          | g :: _ => some g.addr)) ∧
      f.sib.Rep h (some f.addr) ∧ PathRep h f.addr fs par

/-- The address above a frame: the next ancestor of the path `fs`, or `N` when there is
none. -/
def next_addr (N : Nat) : List Frame → Nat
  | [] => N
  | g :: _ => g.addr

/-- What `swap_parent` needs along the path when it is entered with argument `c` at the first
frame: the node lists `c` on the side the frame says, and (when that side is the right one)
not on the left, and its parent pointer is the next ancestor, `fresh` for the topmost one. -/
def Chain (h : List node_t) (fresh : Nat) : Option Nat → List Frame → Prop
  | _, [] => True
  | c, f :: fs =>
    (∃ n : node_t, h[f.addr]? = some n ∧
        (if f.onLeft then c = n._lchild else c ≠ n._lchild ∧ c = n._rchild) ∧
        n._parent = some (next_addr fresh fs)) ∧
      Chain h fresh (some f.addr) fs

/-- The parent pointer of the old node at address `a` after the first writes of the second
case of `set_root`: cleared for the outgroup `o`, the new node `N` for the three unroot
members, unchanged otherwise. -/
def reparent (N o u0 u1 u2 a : Nat) (old : Option Nat) : Option Nat :=
  if a = o then none else if a = u0 ∨ a = u1 ∨ a = u2 then some N else old

/-- The node `ur` of the second case of `set_root` as first written: parent pointer `u0`,
children `u1` and `u2`, flag not yet set. -/
def ur_node (u0 u1 u2 : Nat) : node_t :=
  { node_t.fresh with _parent := some u0, _lchild := some u1, _rchild := some u2 }

/-- The heap of the second case of `set_root` after the new node `ur` has been linked in and
the outgroup `o` detached: the array followed by `ur` (parent `u0`, children `u1`, `u2`), the
parent pointers of `u1`, `u2`, `u0` set to `ur`, and the parent pointer of `o` cleared. -/
def root_heap5 (T0 : List node_t) (u0 u1 u2 o : Nat) : List node_t :=
  upd (upd (upd (upd (upd
    (T0 ++ [ur_node u0 u1 u2])
    u1 (fun x => { x with _parent := some T0.length }))
    u2 (fun x => { x with _parent := some T0.length }))
    u0 (fun x => { x with _parent := some T0.length }))
    T0.length (fun x => { x with _children := true }))
    o (fun x => { x with _parent := none })

/-- The heap of the second case of `set_root` just before `swap_parent` is called: in
addition the children of `p` are exchanged when `o` is not the left one, and the left child
pointer of `p` is cleared. -/
def root_heap7 (T0 : List node_t) (u0 u1 u2 o p : Nat) : List node_t :=
  upd (upd (root_heap5 T0 u0 u1 u2 o) p
    (fun x => if some o ≠ x._lchild then { x with _lchild := x._rchild, _rchild := x._lchild }
              else x))
    p (fun x => { x with _lchild := none })

/-- The pointers along the path in the heap on which `swap_parent` is started: every ancestor
has its flag set, lists `c` (the node the path comes from, or null) on the side the frame says
and the root of the frame's subtree on the other side, the two being different, and its parent
pointer is the next ancestor, `N` for the topmost one. -/
def PathPtr (h : List node_t) (N : Nat) : Option Nat → List Frame → Prop
  | _, [] => True
  | c, f :: fs =>
    (∃ m : node_t, h[f.addr]? = some m ∧ m._children = true ∧
        m._lchild = (if f.onLeft then c else some f.sib.root) ∧
        m._rchild = (if f.onLeft then some f.sib.root else c) ∧
        c ≠ some f.sib.root ∧
        m._parent = some (next_addr N fs)) ∧
      PathPtr h N (some f.addr) fs

/-- What `set_root(o)` achieves on a packed tree `t`: the result `t'` is well-formed, has one
node more, has the slots 0 and 1 as unroot set, holds the flags and labels of `t` and those of
one new internal node with empty label, its slot 0 carries the flag and label of the old slot
`o`, and its slot 1 is an internal node. -/
def Rerooted (t t' : tree_t) (o : Nat) : Prop :=
  t'.WF ∧ t'._size = t._size + 1 ∧ t'._unroot = [0, 1] ∧
    (t'._tree.map node_t.key).Perm (t._tree.map node_t.key ++ [(true, "")]) ∧
    (t'._tree[0]?).map node_t.key = (t._tree[o]?).map node_t.key ∧
    (t'._tree[1]?).map (fun n => n._children) = some true

/-- The suffix `:<weight>` of `node_t::to_string`, absent for weight 0. -/
def weight_suffix (fmt : ℚ → String) (body : String) (w : ℚ) : String :=
  if w ≠ 0 then body ++ ":" ++ fmt w else body

/-- The serialisation of a shape whose labels and weights are read from heap `h`. -/
def Shape.str (fmt : ℚ → String) (h : List node_t) : Shape → String
  | .leaf a => weight_suffix fmt (node_at h a)._label (node_at h a)._weight
  | .node a l r =>
    weight_suffix fmt ("(" ++ l.str fmt h ++ "," ++ r.str fmt h ++ ")") (node_at h a)._weight

/-- Strings separated by commas, as `tree_t::to_string` joins the unroot members. -/
def comma_join : List String → String
  | [] => ""
  | [x] => x
  | x :: y :: rest => x ++ "," ++ comma_join (y :: rest)

/-- The pairs `(i, j)` with `j < i < n` in the order `find_pair` scans them: `i` ascending,
then `j` ascending. -/
def scan_pairs (n : Nat) : List (Nat × Nat) :=
  (List.range n).flatMap (fun i => (List.range i).map (fun j => (i, j)))

/-- The pair `b` is scanned after the pair `a`. -/
def scanned_after (a b : Nat × Nat) : Prop := a.1 < b.1 ∨ (a.1 = b.1 ∧ a.2 < b.2)

/-- The entry `Q[a][b]` of the matrix `_q_vec` of a state. -/
def nj_t.Q (s : nj_t) (a b : Nat) : ℚ := s._q_vec.getD (a * s._row_size + b) 0

/-- The entry `D[a][b]` of the matrix `_dists` of a state. -/
def nj_t.D (s : nj_t) (a b : Nat) : ℚ := s._dists.getD (a * s._row_size + b) 0

/-- The test of the first loop of `join_pair`: the index is neither `si` nor `sj`. -/
def keeps (si sj x : Nat) : Bool := decide (¬ (x = si ∨ x = sj))

/-- The invariant of the loop of the constructor of `nj_t` after `k` joins: the cluster list
has `_row_size` entries, `k` clusters have been merged away, the clusters are the roots of a
forest realised by the heap and covering it, and the heap holds the leaves with the input
labels, in order, followed by `k` internal nodes with empty label. -/
def NJInv (labels : List String) (k : Nat) (s : nj_t) : Prop :=
  s._tree.length = s._row_size ∧ s._row_size + k = labels.length ∧
    (∃ F : List Shape, F.map Shape.root = s._tree ∧ (∀ x ∈ F, x.RepC s.heap) ∧
      (F.flatMap Shape.addrs).Perm (List.range s.heap.length)) ∧
    s.heap.map node_t.key = labels.map (fun l => (false, l)) ++ List.replicate k (true, "")

/-- The run of `k` calls of `join_pair`. -/
def join_pair_iter : Nat → nj_t → Option nj_t
  | 0, s => some s
  | k + 1, s =>
    match join_pair s with
    | none => none
    | some s1 => join_pair_iter k s1

/-- Slot `b` is reachable from slot `a` by following child pointers. -/
inductive Reach (h : List node_t) : Nat → Nat → Prop where
  | refl (a : Nat) : Reach h a a
  | left {a b c : Nat} {n : node_t} :
      Reach h a b → h[b]? = some n → n._lchild = some c → Reach h a c
  | right {a b c : Nat} {n : node_t} :
      Reach h a b → h[b]? = some n → n._rchild = some c → Reach h a c

/-- Invariant I1 on the array: every node is either a leaf with no children or an internal
node with exactly two children, which are slots of the array. -/
def tree_t.I1 (t : tree_t) : Prop :=
  ∀ (k : Nat) (n : node_t), t._tree[k]? = some n →
    (n._children = false ∧ n._lchild = none ∧ n._rchild = none) ∨
    (n._children = true ∧ ∃ l r, n._lchild = some l ∧ n._rchild = some r ∧ l ≠ r ∧
      l < t._size ∧ r < t._size)

/-- Invariant I2 on the array: the parent reference of every child is the slot of the node
that lists it as a child, and a node with a parent reference is listed by that parent. -/
def tree_t.I2 (t : tree_t) : Prop :=
  (∀ (k : Nat) (n : node_t) (c : Nat), t._tree[k]? = some n →
      (n._lchild = some c ∨ n._rchild = some c) →
      ∃ nc : node_t, t._tree[c]? = some nc ∧ nc._parent = some k) ∧
  (∀ (k : Nat) (n : node_t) (p : Nat), t._tree[k]? = some n → n._parent = some p →
      ∃ np : node_t, t._tree[p]? = some np ∧ (np._lchild = some k ∨ np._rchild = some k))

/-- Every unroot member is a slot whose node has no parent. -/
def tree_t.roots_parentless (t : tree_t) : Prop :=
  ∀ u ∈ t._unroot, ∃ n : node_t, t._tree[u]? = some n ∧ n._parent = none

/-- Every array slot is reachable from exactly one unroot member. -/
def tree_t.covered (t : tree_t) : Prop :=
  ∀ k, k < t._size → ∃ u, (u ∈ t._unroot ∧ Reach t._tree u k) ∧
    ∀ v, v ∈ t._unroot ∧ Reach t._tree v k → v = u

end Gstar

namespace Gstar

/-- The tree emitted in the four-leaf scenario, after `sort()`. -/
def scenario_sorted : tree_t :=
  { _tree := [⟨"A", 2, none, none, none, false⟩, ⟨"B", 3, none, none, none, false⟩,
              ⟨"", 3, some 4, some 3, none, true⟩, ⟨"D", 4, none, none, some 2, false⟩,
              ⟨"C", 4, none, none, some 2, false⟩],
    _unroot := [0, 1, 2], _size := 5 }

/-- The forest of the sorted scenario tree: the leaves at slots 0 and 1 and the internal node
at slot 2, whose left child is slot 4 and whose right child is slot 3. -/
def scenario_forest : List Shape :=
  [Shape.leaf 0, Shape.leaf 1, Shape.node 2 (Shape.leaf 4) (Shape.leaf 3)]

/-- The packed unrooted tree `(A:1,B:1,(C:1,D:1)A:1);`, whose internal node carries the label
`A` of one of its leaves. -/
def tree_inner_label : tree_t :=
  { _tree := [⟨"A", 1, none, none, none, false⟩, ⟨"B", 1, none, none, none, false⟩,
              ⟨"A", 1, some 3, some 4, none, true⟩, ⟨"C", 1, none, none, some 2, false⟩,
              ⟨"D", 1, none, none, some 2, false⟩],
    _unroot := [0, 1, 2], _size := 5 }

/-- The packed rooted tree `(A:1,((C:1,D:1),B:1):1);`, the result of `set_outgroup("A")` on
`((A:1,B:1):1,C:1,D:1);`. -/
def tree_cherry_rooted : tree_t :=
  { _tree := [⟨"A", 1, none, none, none, false⟩, ⟨"", 1, some 2, some 3, none, true⟩,
              ⟨"", 0, some 4, some 5, some 1, true⟩, ⟨"B", 1, none, none, some 1, false⟩,
              ⟨"C", 1, none, none, some 2, false⟩, ⟨"D", 1, none, none, some 2, false⟩],
    _unroot := [0, 1], _size := 6 }

/-- The state of `nj_t` at the start of the four-leaf scenario. -/
def scenario_state : nj_t :=
  ⟨scenario_dists, [0, 1, 2, 3], 4, [], [], 0, 0,
    [⟨"A", 0, none, none, none, false⟩, ⟨"B", 0, none, none, none, false⟩,
     ⟨"C", 0, none, none, none, false⟩, ⟨"D", 0, none, none, none, false⟩]⟩

/-- The four properties of a packed tree named by invariants I1 and I2 and by the role of the
unroot set: every node is a leaf or has two children, parent and child references agree, the
unroot members have no parent, and every slot is reachable from exactly one unroot member. -/
def tree_t.invariants_hold (t : tree_t) : Prop :=
  t.I1 ∧ t.I2 ∧ t.roots_parentless ∧ t.covered

end Gstar

namespace Gstar

/-! ## Further concrete inputs -/

/-- Five labels `A .. E`. -/
def five_labels : List String := ["A", "B", "C", "D", "E"]

/-- The leaf distances of the tree `((A:1,B:1):1,C:1,(D:1,E:1):1);`, row-major. -/
def five_dists : List ℚ :=
  [0, 2, 3, 4, 4, 2, 0, 3, 4, 4, 3, 3, 0, 3, 3, 4, 4, 3, 0, 2, 4, 4, 3, 2, 0]

/-- The row sums of the current distance matrix of a state: `sum_j D[i][j]` for `i` below
`_row_size`. -/
def row_sums (s : nj_t) : List ℚ :=
  (List.range s._row_size).map (fun i => ((List.range s._row_size).map (fun j => s.D i j)).sum)

/-- A distance vector of 10 entries: not a square number of entries. -/
def ten_dists : List ℚ := [0, 5, 5, 5, 0, 6, 5, 6, 0, 7]

/-- A distance vector of 5 entries. -/
def five_entries : List ℚ := [0, 5, 5, 0, 7]

/-- The packed rooted tree `(A:1,B:1)` with a single root: the unroot set is the root alone. -/
def tree_root_ab : tree_t :=
  { _tree := [⟨"", 0, some 1, some 2, none, true⟩, ⟨"A", 1, none, none, some 0, false⟩,
              ⟨"B", 1, none, none, some 0, false⟩],
    _unroot := [0], _size := 3 }

/-- The packed tree with the single leaf `A`. -/
def tree_single : tree_t :=
  { _tree := [⟨"A", 0, none, none, none, false⟩], _unroot := [0], _size := 1 }

/-- The packed unrooted tree `(A:1,B:1,(C:1,D:1)X:1);`, whose internal node carries the label
`X`. -/
def tree_named_inner : tree_t :=
  { _tree := [⟨"A", 1, none, none, none, false⟩, ⟨"B", 1, none, none, none, false⟩,
              ⟨"X", 1, some 3, some 4, none, true⟩, ⟨"C", 1, none, none, some 2, false⟩,
              ⟨"D", 1, none, none, some 2, false⟩],
    _unroot := [0, 1, 2], _size := 5 }

end Gstar

namespace Gstar

/-! ## Distances: the specification side -/

/-- The chain of a node: the node, its parent, the parent of its parent and so on, as long as
there is a parent (at most `fuel` nodes). -/
def up_chain (h : List node_t) : Nat → Nat → List Nat
  | 0, _ => []
  | fuel + 1, a =>
    a :: (match (node_at h a)._parent with
      | none => []
      | some p => up_chain h fuel p)

/-- The chain of slot `a` of a packed tree, from `a` up to the unroot member above it. -/
def tree_t.chain (t : tree_t) (a : Nat) : List Nat := up_chain t._tree t._size a

/-- The longest common prefix of two lists. -/
def common_start : List Nat → List Nat → List Nat
  | x :: xs, y :: ys => if x = y then x :: common_start xs ys else []
  | _, _ => []

/-- The number of nodes two chains share at their upper end: the lowest common ancestor of
the two nodes and everything above it (`0` when the nodes lie below different unroot
members). -/
def shared_top (ca cb : List Nat) : Nat := (common_start ca.reverse cb.reverse).length

/-- The number of edges from `a` up to the lowest common ancestor of `a` and `b`; when the two
lie below different unroot members, up to the point where the unroot members meet (the
branch of an unroot member counts as an edge). -/
def tree_t.up_edges (t : tree_t) (a b : Nat) : Nat :=
  (t.chain a).length - shared_top (t.chain a) (t.chain b)

/-- The sum of the weights of the nodes at the given slots. -/
def weight_sum (h : List node_t) (l : List Nat) : ℚ := (l.map (fun x => (node_at h x)._weight)).sum

/-- The length of the path from `a` up to the lowest common ancestor of `a` and `b`: the sum of
the weights of the nodes passed, `a` included and the ancestor excluded. -/
def tree_t.up_weight (t : tree_t) (a b : Nat) : ℚ :=
  weight_sum t._tree ((t.chain a).take (t.up_edges a b))

/-- The list is a chain of parent references in heap `h`: every node has the next one as its
parent, and the last one has no parent. -/
def ParentChain (h : List node_t) : List Nat → Prop
  | [] => True
  | [a] => ∃ n : node_t, h[a]? = some n ∧ n._parent = none
  | a :: b :: rest => (∃ n : node_t, h[a]? = some n ∧ n._parent = some b) ∧
      ParentChain h (b :: rest)

/-- The slots of the leaves of a packed tree, in array order. -/
def leaf_slots (t : tree_t) : List Nat :=
  (List.range t._size).filter (fun i => !(node_at t._tree i)._children)

/-- The packed balanced tree `(((A,B),(C,D)),((E,F),(G,H)))` of depth 3 with a single root, all
weights 0, in the array order of `make_flat_tree`. -/
def tree_balanced3 : tree_t :=
  { _tree := [⟨"", 0, some 1, some 2, none, true⟩, ⟨"", 0, some 9, some 10, some 0, true⟩,
      ⟨"", 0, some 3, some 4, some 0, true⟩, ⟨"", 0, some 7, some 8, some 2, true⟩,
      ⟨"", 0, some 5, some 6, some 2, true⟩, ⟨"G", 0, none, none, some 4, false⟩,
      ⟨"H", 0, none, none, some 4, false⟩, ⟨"E", 0, none, none, some 3, false⟩,
      ⟨"F", 0, none, none, some 3, false⟩, ⟨"", 0, some 13, some 14, some 1, true⟩,
      ⟨"", 0, some 11, some 12, some 1, true⟩, ⟨"C", 0, none, none, some 10, false⟩,
      ⟨"D", 0, none, none, some 10, false⟩, ⟨"A", 0, none, none, some 9, false⟩,
      ⟨"B", 0, none, none, some 9, false⟩],
    _unroot := [0], _size := 15 }

/-! ## `set_weights_constant` -/

/-- The recursion `node_t::set_weights_constant(c)` run on slot `self`. -/
def node_set_weights_constant (c : ℚ) : Nat → List node_t → Nat → Option (List node_t)
  | 0, _, _ => none
  | fuel + 1, h, self =>
    match h[self]? with
    | none => none
    | some n =>
      let h1 := h.set self { n with _weight := c }
      if n._children then
        match n._lchild, n._rchild with
        | some l, some r =>
          match node_set_weights_constant c fuel h1 l with
          | none => none
          | some h2 => node_set_weights_constant c fuel h2 r
        | _, _ => none
      else some h1

/-- The loop of `tree_t::set_weights_constant(c)` over the unroot members. -/
def set_weights_loop (c : ℚ) (fuel : Nat) : List Nat → List node_t → Option (List node_t)
  | [], h => some h
  | u :: rest, h =>
    match node_set_weights_constant c fuel h u with
    | none => none
    | some h1 => set_weights_loop c fuel rest h1

/-- The function `tree_t::set_weights_constant(c)`. -/
def tree_t.set_weights_constant (t : tree_t) (c : ℚ) : Option tree_t :=
  match set_weights_loop c t._size t._unroot t._tree with
  | none => none
  | some h => some { t with _tree := h }

end Gstar

namespace Gstar

/-! ## Sorting: the specification side -/

/-- A binary tree with labelled, weighted leaves and weighted, unlabelled internal nodes: what
two packed trees have in common when they differ in array layout only. -/
inductive LTree where
  | leaf (label : String) (w : ℚ) : LTree
  | node (w : ℚ) (l r : LTree) : LTree
deriving DecidableEq, Repr

/-- The labelled tree realised by a shape in heap `h`. -/
def Shape.abs (h : List node_t) : Shape → LTree
  | .leaf a => .leaf (node_at h a)._label (node_at h a)._weight
  | .node a l r => .node (node_at h a)._weight (l.abs h) (r.abs h)

/-- The leaf labels of a labelled tree, left to right. -/
def LTree.labels : LTree → List String
  | .leaf l _ => [l]
  | .node _ l r => l.labels ++ r.labels

/-- The string `node_t::sort()` returns for a tree with unlabelled internal nodes: the label
of a leaf, and for an internal node the smaller of the strings of its children (the one of the
left child when neither is smaller). -/
def LTree.key : LTree → String
  | .leaf l _ => l
  | .node _ l r => if r.key < l.key then r.key else l.key

/-- The tree with the children of every internal node put in the order `node_t::sort()` leaves
them in: the child with the smaller string first. -/
def LTree.canon : LTree → LTree
  | .leaf l w => .leaf l w
  | .node w l r =>
    if r.key < l.key then .node w r.canon l.canon else .node w l.canon r.canon

/-- The serialisation of a labelled tree, as `node_t::to_string` writes it. -/
def LTree.str (fmt : ℚ → String) : LTree → String
  | .leaf l w => weight_suffix fmt l w
  | .node w l r => weight_suffix fmt ("(" ++ l.str fmt ++ "," ++ r.str fmt ++ ")") w

/-- Two labelled trees differ only by exchanging the left and the right child at some internal
nodes. -/
inductive LTree.SwapEq : LTree → LTree → Prop where
  | leaf (l : String) (w : ℚ) : LTree.SwapEq (.leaf l w) (.leaf l w)
  | same (w : ℚ) {l l' r r' : LTree} :
      LTree.SwapEq l l' → LTree.SwapEq r r' → LTree.SwapEq (.node w l r) (.node w l' r')
  | swap (w : ℚ) {l l' r r' : LTree} :
      LTree.SwapEq l l' → LTree.SwapEq r r' → LTree.SwapEq (.node w l r) (.node w r' l')

/-- Two forests differ only by the order of their trees and by exchanges of children. -/
def ForestEq (A B : List LTree) : Prop :=
  ∃ C, A.Perm C ∧ List.Forall₂ LTree.SwapEq C B

/-- One test of the double loop of `tree_t::sort` on a list of labels and a parallel list of
items of any kind. -/
def net_swap {α : Type} (st : List String × List α) (i k : Nat) : List String × List α :=
  match st.1[i]?, st.1[k]?, st.2[i]?, st.2[k]? with
  | some li, some lk, some ui, some uk =>
    if lk < li then ((st.1.set i lk).set k li, (st.2.set i uk).set k ui) else st
  | _, _, _, _ => st

/-- The double loop of `tree_t::sort` on a list of labels and a parallel list of items. -/
def net_sort {α : Type} (n : Nat) (st : List String × List α) : List String × List α :=
  (List.range n).foldl (fun st i =>
    (List.range n).foldl (fun st k => if k ≤ i then st else net_swap st i k) st) st

/-- The closing of `tree_t::to_string`: parentheses around more than one unroot member, and a
semicolon after a non-empty string. -/
def wrap_string (n : Nat) (body : String) : String :=
  if (if n > 1 then "(" ++ body ++ ")" else body) ≠ ""
  then (if n > 1 then "(" ++ body ++ ")" else body) ++ ";"
  else (if n > 1 then "(" ++ body ++ ")" else body)

/-- The packed unrooted tree `(D:1,(B:1,A:1):1,C:1);`: the tree `((A:1,B:1):1,C:1,D:1);` with
the children of the internal node exchanged and the unroot members in another order. -/
def tree_cherry_swapped : tree_t :=
  { _tree := [⟨"D", 1, none, none, none, false⟩, ⟨"", 1, some 3, some 4, none, true⟩,
              ⟨"C", 1, none, none, none, false⟩, ⟨"B", 1, none, none, some 1, false⟩,
              ⟨"A", 1, none, none, some 1, false⟩],
    _unroot := [0, 1, 2], _size := 5 }

end Gstar

namespace Gstar

/-! ## Further inputs for the Neighbor-Joining engine -/

/-- The leaf distances of the tree `(A:1,B:1,(C:1,D:3):1);`, row-major: symmetric, zero
diagonal, with row sums `10, 10, 10, 14`. -/
def skew_dists : List ℚ := [0, 2, 3, 5, 2, 0, 3, 5, 3, 3, 0, 4, 5, 5, 4, 0]

/-- The leaf distances of the tree `((A:1,B:1):4,C:5,D:5,E:5);`, row-major: symmetric, zero
diagonal; `A` and `B` are at distance 2, every other pair at distance 10. -/
def star_dists : List ℚ :=
  [0, 2, 10, 10, 10, 2, 0, 10, 10, 10, 10, 10, 0, 10, 10, 10, 10, 10, 0, 10, 10, 10, 10, 10, 0]

/-- A `4 x 4` matrix with zero diagonal that is not symmetric: `D[0][1] = 1`, `D[1][0] = 20`,
every other entry off the diagonal is 10. -/
def asym_dists : List ℚ := [0, 1, 10, 10, 20, 0, 10, 10, 10, 10, 0, 10, 10, 10, 10, 0]

/-- The state of `nj_t` before the first `join_pair` for the labels `A .. D` and the matrix
`asym_dists`. -/
def asym_state : nj_t :=
  { _dists := asym_dists, _tree := [0, 1, 2, 3], _row_size := 4, _r_vec := [], _q_vec := [],
    _i := 0, _j := 0,
    heap := [⟨"A", 0, none, none, none, false⟩, ⟨"B", 0, none, none, none, false⟩,
             ⟨"C", 0, none, none, none, false⟩, ⟨"D", 0, none, none, none, false⟩] }

/-- The index a surviving cluster gets in `join_pair`: its old index minus the number of
joined indices below it. -/
def new_index (si sj a : Nat) : Nat :=
  a - (if si < a then 1 else 0) - (if sj < a then 1 else 0)

/-- The old index of the surviving cluster with new index `p`, the joined clusters having had
the indices `si` and `sj`. -/
def old_index (si sj p : Nat) : Nat :=
  if p < min si sj then p else if p + 1 < max si sj then p + 1 else p + 2

/-- The value the third matrix loop of `join_pair` computes in its round `i`. -/
def reflect_value (d : List ℚ) (n si sj i : Nat) : ℚ :=
  (1 / 2 : ℚ) * (d.getD (i * n + si) 0 + d.getD (i * n + sj) 0 - d.getD (si * n + sj) 0)

/-- The reduced matrix `join_pair` builds, entry by entry: the last column and the last row
hold the values of the third loop, every other entry is the distance of the two surviving
clusters. -/
def reduced_entry (d : List ℚ) (n si sj k : Nat) : ℚ :=
  if k % (n - 1) = n - 2 then reflect_value d n si sj (k / (n - 1))
  else if k / (n - 1) = n - 2 then reflect_value d n si sj (k % (n - 1))
  else d.getD (old_index si sj (k / (n - 1)) * n + old_index si sj (k % (n - 1))) 0

/-- The weight of the left child of a join as the specification writes it, evaluated in exact
arithmetic on the state after `find_pair`:
`0.5*D[i,j] + (R[i]-R[j]) / (2*(2*row_size-2))`. -/
def left_weight_formula (s : nj_t) : ℚ :=
  (1 / 2 : ℚ) * s.D s._i s._j
    + (s._r_vec.getD s._i 0 - s._r_vec.getD s._j 0) / (2 * (2 * (s._row_size : ℚ) - 2))

/-- The entry of the merged cluster and the surviving cluster with old index `k` as the
specification writes it, on the state after `find_pair`:
`0.5*(D[k,i] + D[k,j] - D[i,j])`. -/
def merged_distance_formula (s : nj_t) (k : Nat) : ℚ :=
  (1 / 2 : ℚ) * (s.D k s._i + s.D k s._j - s.D s._i s._j)

/-- The weight of cluster `x` at the final join as the specification writes it:
`0.5*(D[x,y] + D[x,z] - D[y,z])` with `y = (x+1) mod 3` and `z = (x+2) mod 3`. -/
def final_weight (s : nj_t) (x : Nat) : ℚ :=
  (1 / 2 : ℚ) * (s.D x ((x + 1) % 3) + s.D x ((x + 2) % 3) - s.D ((x + 1) % 3) ((x + 2) % 3))

/-- The state of `nj_t` before `join_final` for the labels `A`, `B`, `C` and the distances
`D[A][B] = 3`, `D[A][C] = 4`, `D[B][C] = 5`. -/
def three_state : nj_t :=
  { _dists := [0, 3, 4, 3, 0, 5, 4, 5, 0], _tree := [0, 1, 2], _row_size := 3, _r_vec := [],
    _q_vec := [], _i := 0, _j := 0,
    heap := [⟨"A", 0, none, none, none, false⟩, ⟨"B", 0, none, none, none, false⟩,
             ⟨"C", 0, none, none, none, false⟩] }

/-- The matrix of a state is symmetric. -/
def nj_t.symmetric (s : nj_t) : Prop :=
  ∀ a, a < s._row_size → ∀ b, b < s._row_size → s.D a b = s.D b a

/-- The matrix of a state has a zero diagonal. -/
def nj_t.zero_diagonal (s : nj_t) : Prop :=
  ∀ a, a < s._row_size → s.D a a = 0

instance nj_t.decidable_symmetric (s : nj_t) : Decidable s.symmetric :=
  inferInstanceAs (Decidable (∀ a, a < s._row_size → ∀ b, b < s._row_size → s.D a b = s.D b a))

instance nj_t.decidable_zero_diagonal (s : nj_t) : Decidable s.zero_diagonal :=
  inferInstanceAs (Decidable (∀ a, a < s._row_size → s.D a a = 0))

/-! ## `set_weights`

The weights are `double` values.  Every function below takes the rounding `rnd` of the
floating-point operations as an argument: the sum `total + w_func(i)` and the difference
`max - total` are computed exactly and then rounded by `rnd`.  With `rnd` the identity the
arithmetic is exact; with `round_double` it is the arithmetic of the program. -/

/-- The loop `for(i = 0; i < depth; ++i) total += w_func(i)`, `total` starting at `init`; every
addition is rounded. -/
def weight_total (rnd : ℚ → ℚ) (w : Nat → ℚ) (init : ℚ) (depth : Nat) : ℚ :=
  (List.range depth).foldl (fun total i => rnd (total + w i)) init

/-- The recursion `node_t::set_weights(w_func, depth, max)` run on slot `self`. -/
def node_set_weights (rnd : ℚ → ℚ) (w : Nat → ℚ) (max : ℚ) :
    Nat → List node_t → Nat → Nat → Option (List node_t)
  | 0, _, _, _ => none
  | fuel + 1, h, self, depth =>
    match h[self]? with
    | none => none
    | some n =>
      if n._children then
        match n._lchild, n._rchild with
        | some l, some r =>
          match node_set_weights rnd w max fuel h l (depth + 1) with
          | none => none
          | some h1 =>
            match node_set_weights rnd w max fuel h1 r (depth + 1) with
            | none => none
            | some h2 => store h2 self (fun x => { x with _weight := w depth })
        | _, _ => none
      else some (h.set self { n with _weight := rnd (max - weight_total rnd w 0 depth) })

/-- The function `node_t::set_weights_as_root(w_func, depth, max)` run on slot `self`. -/
def node_set_weights_as_root (rnd : ℚ → ℚ) (w : Nat → ℚ) (max : ℚ) (fuel : Nat)
    (h : List node_t) (self depth : Nat) : Option (List node_t) :=
  match h[self]? with
  | none => none
  | some n =>
    if n._children then
      match n._lchild, n._rchild with
      | some l, some r =>
        match node_set_weights rnd w max fuel (h.set self { n with _weight := 0 }) l depth with
        | none => none
        | some h1 => node_set_weights rnd w max fuel h1 r depth
      | _, _ => none
    else some (h.set self { n with _weight := 0 })

/-- The recursion `node_t::calc_max_depth()` run on slot `self`. -/
def calc_max_depth : Nat → List node_t → Nat → Option Nat
  | 0, _, _ => none
  | fuel + 1, h, self =>
    match h[self]? with
    | none => none
    | some n =>
      if n._children then
        match n._lchild, n._rchild with
        | some l, some r =>
          match calc_max_depth fuel h l, calc_max_depth fuel h r with
          | some ld, some rd => some (if ld > rd then ld + 1 else rd + 1)
          | _, _ => none
        | _, _ => none
      else some 1

/-- The loop of `tree_t::get_depth` over the unroot members. -/
def depth_loop (fuel : Nat) (h : List node_t) : List Nat → Nat → Option Nat
  | [], max => some max
  | u :: rest, max =>
    match calc_max_depth fuel h u with
    | none => none
    | some tmp => depth_loop fuel h rest (if max < tmp then tmp else max)

/-- The function `tree_t::get_depth()`.  The subtraction `max -= 1` is on `size_t`; it is
only reached with one unroot member, whose depth is at least 1. -/
def tree_t.get_depth (t : tree_t) : Option Nat :=
  match depth_loop t._size t._tree t._unroot 0 with
  | none => none
  | some max => some (if t._unroot.length = 1 then max - 1 else max)

/-- The loop of `tree_t::set_weights` over the unroot members. -/
def set_weights_members (rnd : ℚ → ℚ) (w : Nat → ℚ) (max : ℚ) (fuel : Nat) :
    List Nat → List node_t → Option (List node_t)
  | [], h => some h
  | u :: rest, h =>
    match node_set_weights rnd w max fuel h u 0 with
    | none => none
    | some h1 => set_weights_members rnd w max fuel rest h1

/-- The function `tree_t::set_weights(w_func, max)`. -/
def tree_t.set_weights (t : tree_t) (rnd : ℚ → ℚ) (w : Nat → ℚ) (max : ℚ) : Option tree_t :=
  match t.get_depth with
  | none => none
  | some depth =>
    let max1 := if max = 0 then weight_total rnd w max depth else max
    if t._unroot.length = 1 then
      match t._unroot.head? with
      | none => none
      | some u =>
        match node_set_weights_as_root rnd w max1 t._size t._tree u 0 with
        | none => none
        | some h => some { t with _tree := h }
    else
      match set_weights_members rnd w max1 t._size t._unroot t._tree with
      | none => none
      | some h => some { t with _tree := h }

/-- The number `node_t::calc_max_depth()` returns on the root of a shape. -/
def Shape.height : Shape → Nat
  | .leaf _ => 1
  | .node _ l r => if l.height > r.height then l.height + 1 else r.height + 1

/-- The weights `node_t::set_weights(w_func, depth, max)` leaves in a tree: `w_func(d)` at an
internal node of depth `d`, and `max` minus the sum of `w_func` over the depths above at a
leaf. -/
def Shape.Weighted (h : List node_t) (rnd : ℚ → ℚ) (w : Nat → ℚ) (max : ℚ) :
    Nat → Shape → Prop
  | d, .leaf a => (node_at h a)._weight = rnd (max - weight_total rnd w 0 d)
  | d, .node a l r =>
    (node_at h a)._weight = w d ∧ l.Weighted h rnd w max (d + 1) ∧
      r.Weighted h rnd w max (d + 1)

/-- A node with its weight cleared: what `set_weights` leaves alone. -/
def node_t.unweighted (n : node_t) : node_t := { n with _weight := 0 }

/-- The weight function `d -> d + 1`. -/
def w_succ (d : Nat) : ℚ := (d : ℚ) + 1

end Gstar

namespace Gstar

/-! ## Rounding of the floating-point operations -/

/-- The number of binary digits of `n`, by repeated halving; `fuel` bounds the number of
halvings and `bit_length n n` is the number of digits of `n`. -/
def bit_length : Nat → Nat → Nat
  | 0, _ => 0
  | fuel + 1, n => if n = 0 then 0 else bit_length fuel (n / 2) + 1

/-- The test `2^e <= a/d` on integers. -/
def pow_two_le (e : Int) (a d : Nat) : Bool :=
  decide (d * 2 ^ e.toNat ≤ a * 2 ^ (-e).toNat)

/-- Rounding of a rational number to the nearest binary floating-point number with a
significand of `p` bits, ties going to the even significand (the default rounding of IEEE 754
arithmetic); the exponent range is not bounded, so neither overflow nor subnormal numbers are
modelled.  With `x = +-(a/d)` and `2^E <= a/d < 2^(E+1)` the spacing of the floating-point
numbers around `x` is `2^(E-p+1)`. -/
def round_to (p : Nat) (x : ℚ) : ℚ :=
  if x = 0 then 0 else
  let a : Nat := x.num.natAbs
  let d : Nat := x.den
  let e0 : Int := (bit_length a a : Int) - (bit_length d d : Int)
  let E : Int := if pow_two_le e0 a d then e0 else e0 - 1
  let sc : Int := E - ((p : Int) - 1)
  let N : Nat := a * 2 ^ (-sc).toNat
  let M : Nat := d * 2 ^ sc.toNat
  let n : Nat := N / M
  let r : Nat := N % M
  let n1 : Nat := if 2 * r < M then n else if M < 2 * r then n + 1
    else if n % 2 = 0 then n else n + 1
  let v : ℚ := (n1 : ℚ) * 2 ^ sc.toNat / 2 ^ (-sc).toNat
  if x < 0 then -v else v

/-- Rounding to `double` (53 bits of significand). -/
def round_double (x : ℚ) : ℚ := round_to 53 x

/-- Rounding to `float` (24 bits of significand). -/
def round_single (x : ℚ) : ℚ := round_to 24 x

/-! ## Distances in the arithmetic of the program

`tree_t::parent_distance` and `tree_t::calc_distance` compute in `double`, and the weight of a
node is taken to be a `double`.  The functions below are the functions of the source with the
rounding `rnd` of every floating-point addition as an argument: with `rnd` the identity they
are `parent_distance` and `calc_distance`, with `round_double` they compute what the program
computes. -/

/-- The function `tree_t::parent_distance`, the rounding explicit: `dist` is the value of the
variable `distance` (`0` at the call), and every `distance += child->_weight` is rounded. -/
def parent_distance_fl (rnd : ℚ → ℚ) (h : List node_t) :
    Nat → Option Nat → Option Nat → ℚ → Option ℚ
  | 0, child, parent, dist => if child = parent then some dist else none
  | fuel + 1, child, parent, dist =>
    if child = parent then some dist
    else
      match child with
      | none => none
      | some c =>
        match h[c]? with
        | none => none
        | some n => parent_distance_fl rnd h fuel n._parent parent (rnd (dist + n._weight))

/-- The function `tree_t::calc_distance(src, dst)`, the rounding explicit: the two values of
`parent_distance` are added and the sum is rounded. -/
def calc_distance_fl (rnd : ℚ → ℚ) (t : tree_t) (src dst : Nat) : Option ℚ :=
  if src = dst then some 0
  else
    match get_parents_of t src, get_parents_of t dst with
    | some sl, some dl =>
      match diverge_walk sl dl (sl.length + 1) (sl.length - 1) (dl.length - 1) with
      | none => none
      | some (si, di) =>
        match sl[si]?, dl[di]? with
        | some a, some b =>
          match parent_distance_fl rnd t._tree (t._size + 1) (some src) a 0,
                parent_distance_fl rnd t._tree (t._size + 1) (some dst) b 0 with
          | some x, some y => some (rnd (x + y))
          | _, _ => none
        | _, _ => none
    | _, _ => none

/-- The weights of the nodes at the slots `l` added one after the other to `init`, every sum
rounded. -/
def weight_acc (rnd : ℚ → ℚ) (h : List node_t) (l : List Nat) (init : ℚ) : ℚ :=
  l.foldl (fun d x => rnd (d + (node_at h x)._weight)) init

/-- The number `c` added `k` times to `0`, every sum rounded. -/
def repeat_add (rnd : ℚ → ℚ) (c : ℚ) : Nat → ℚ
  | 0 => 0
  | k + 1 => rnd (repeat_add rnd c k + c)

/-- The `double` nearest to `0.1`. -/
def tenth : ℚ := round_double (1 / 10)

/-- The packed tree `(B,(C,(D,(E,(A,F)))))` with a single root, all weights 0: leaf `A` (slot
9) is five edges below the root, leaf `B` (slot 1) one edge. -/
def tree_caterpillar : tree_t :=
  { _tree := [⟨"", 0, some 1, some 2, none, true⟩, ⟨"B", 0, none, none, some 0, false⟩,
      ⟨"", 0, some 3, some 4, some 0, true⟩, ⟨"C", 0, none, none, some 2, false⟩,
      ⟨"", 0, some 5, some 6, some 2, true⟩, ⟨"D", 0, none, none, some 4, false⟩,
      ⟨"", 0, some 7, some 8, some 4, true⟩, ⟨"E", 0, none, none, some 6, false⟩,
      ⟨"", 0, some 9, some 10, some 6, true⟩, ⟨"A", 0, none, none, some 8, false⟩,
      ⟨"F", 0, none, none, some 8, false⟩],
    _unroot := [0], _size := 11 }

/-- The depth with which `set_weights` reaches slot `a`: the number of nodes above `a`, the
single root not counted. -/
def tree_t.leaf_depth (t : tree_t) (a : Nat) : Nat :=
  (t.chain a).length - 1 - (if t._unroot.length = 1 then 1 else 0)

/-- The weight function `d -> 0.1 * (d + 1)` in `double`: the values `0.1`, `0.2`, `0.3`, ..
as the nearest `double`. -/
def w_tenths (d : Nat) : ℚ := round_double (((d : ℚ) + 1) / 10)

/-! ## The Neighbor-Joining engine in the arithmetic of the program

The distance vector `_dists` is a `vector<float>` (the argument of the constructor and
`tmp_dists` are), and `_r_vec` and `_q_vec` are taken to be `vector<float>` as well; the weight
of a node is taken to be a `double`.  The functions below are the functions of the source with
two roundings as arguments: `rf` rounds the result of an operation on `float` operands (and a
conversion to `float`), `rd` the result of an operation with a `double` operand.  The
assertion of `join_final` exists only in a build with `DEBUG` defined (`debug = true`). -/

/-- The function `nj_t::compute_r`: `_r_vec[i] += _dists[i*_row_size+j]` in `float`. -/
def compute_r_fl (rf : ℚ → ℚ) (s : nj_t) : nj_t :=
  let n := s._row_size
  let r_vec :=
    (List.range n).foldl (fun r i =>
      (List.range n).foldl (fun r j =>
        r.set i (rf (r.getD i 0 + s._dists.getD (i * n + j) 0))) r)
      (vec_resize s._r_vec n 0)
  { s with _r_vec := r_vec }

/-- The function `nj_t::compute_q`: `(_row_size-2)*_dists[..] - _r_vec[i] - _r_vec[j]` in
`float`, from left to right; `_row_size-2` is converted to `float` first. -/
def compute_q_fl (rf : ℚ → ℚ) (s0 : nj_t) : nj_t :=
  let s := compute_r_fl rf s0
  let n := s._row_size
  let q_vec :=
    (List.range n).foldl (fun q i =>
      (List.range n).foldl (fun q j =>
        q.set (i * n + j)
          (rf (rf (rf (rf ((n - 2 : Nat) : ℚ) * s._dists.getD (i * n + j) 0)
            - s._r_vec.getD i 0) - s._r_vec.getD j 0))) q)
      (vec_resize s._q_vec (n * n) 0)
  { s with _q_vec := q_vec }

/-- The function `nj_t::find_pair`. -/
def find_pair_fl (rf : ℚ → ℚ) (s0 : nj_t) : nj_t :=
  let s := compute_q_fl rf s0
  let low := find_pair_scan s._q_vec s._row_size
  { s with _i := low.1, _j := low.2 }

/-- Third matrix loop of `join_pair`: the sum and the difference are `float` operations, the
product with `.5` is a `double` operation, and the result is converted to `float`. -/
def join_reflect_fl (rf rd : ℚ → ℚ) (d : List ℚ) (n si sj : Nat) (tmp : List ℚ) : List ℚ :=
  (List.range (n - 1)).foldl (fun t i =>
    let t1 := t.set (i * (n - 1) + (n - 1 - 1))
      (rf (rd ((1 / 2 : ℚ) * rf (rf (d.getD (i * n + si) 0 + d.getD (i * n + sj) 0)
        - d.getD (si * n + sj) 0))))
    t1.set ((n - 1) * (n - 1 - 1) + i) (t1.getD (i * (n - 1) + (n - 1 - 1)) 0))
    tmp

/-- The function `nj_t::join_pair`.  In the weight of the left child `.5*_dists[..]` is a
`double` product, `1/(2*(2*_row_size-2))` an integer division whose result is converted to
`float`, the difference of the two row sums and its product with that factor are `float`
operations, and the sum is a `double` sum; the weight of the right child is a `double`
difference. -/
def join_pair_fl (rf rd : ℚ → ℚ) (s0 : nj_t) : Option nj_t :=
  let s := find_pair_fl rf s0
  let n := s._row_size
  match join_collect s._tree s._i s._j (List.range n) [], s._tree[s._i]?, s._tree[s._j]? with
  | some tmp_tree, some ti, some tj =>
    let tmp := s.heap.length
    let h0 := s.heap ++ [{ node_t.fresh with _lchild := some ti, _rchild := some tj,
                                             _children := true }]
    let lw : ℚ := rd (rd ((1 / 2 : ℚ) * s._dists.getD (s._i * n + s._j) 0)
      + rf (rf ((1 / (2 * (2 * n - 2)) : Nat) : ℚ)
          * rf (s._r_vec.getD s._i 0 - s._r_vec.getD s._j 0)))
    match store h0 ti (fun x => { x with _parent := some tmp }) with
    | none => none
    | some h1 =>
      match store h1 tj (fun x => { x with _parent := some tmp }) with
      | none => none
      | some h2 =>
        match store h2 ti (fun x => { x with _weight := lw }) with
        | none => none
        | some h3 =>
          let rw : ℚ := rd (s._dists.getD (s._i * n + s._j) 0 - lw)
          match store h3 tj (fun x => { x with _weight := rw }) with
          | none => none
          | some h4 =>
            let tmp_dists :=
              join_reflect_fl rf rd s._dists n s._i s._j
                (join_copy s._dists n s._i s._j (List.replicate ((n - 1) * (n - 1)) 0))
            some { s with _tree := tmp_tree ++ [tmp], heap := h4, _dists := tmp_dists,
                          _row_size := n - 1 }
  | _, _, _ => none

/-- The weight `join_final` gives cluster `x`: the sum and the difference of the three
distances are `float` operations, `_weight *= .5` is a `double` operation. -/
def final_weight_fl (rf rd : ℚ → ℚ) (s : nj_t) (x : Nat) : ℚ :=
  rd (rf (rf (s.D x ((x + 1) % s._row_size) + s.D x ((x + 2) % s._row_size))
    - s.D ((x + 1) % s._row_size) ((x + 2) % s._row_size)) * (1 / 2 : ℚ))

/-- One round of the loop of `join_final`. -/
def join_final_step_fl (rf rd : ℚ → ℚ) (s : nj_t) (h : List node_t) (i : Nat) :
    Option (List node_t) :=
  let n := s._row_size
  let y := (i + 1) % n
  let z := (i + 2) % n
  let w : ℚ := rd (rf (rf (s._dists.getD (i * n + y) 0 + s._dists.getD (i * n + z) 0)
    - s._dists.getD (y * n + z) 0) * (1 / 2 : ℚ))
  match s._tree[i]? with
  | none => none
  | some p => store h p (fun x => { x with _weight := w })

/-- The loop of `join_final` over the indices in `is`. -/
def join_final_loop_fl (rf rd : ℚ → ℚ) (s : nj_t) :
    List Nat → List node_t → Option (List node_t)
  | [], h => some h
  | i :: rest, h =>
    match join_final_step_fl rf rd s h i with
    | none => none
    | some h1 => join_final_loop_fl rf rd s rest h1

/-- The function `nj_t::join_final`.  In a build with `DEBUG` the `assert_string` on
`_row_size == 3` ends the run; in a build without it there is no check and the loop runs over
the `_row_size` clusters there are. -/
def join_final_fl (debug : Bool) (rf rd : ℚ → ℚ) (s : nj_t) : Option nj_t :=
  if debug = true ∧ s._row_size ≠ 3 then none
  else
    match join_final_loop_fl rf rd s (List.range s._row_size) s.heap with
    | none => none
    | some h => some { s with heap := h }

/-- The loop `while(_row_size>3) join_pair();`. -/
def nj_loop_fl (rf rd : ℚ → ℚ) : Nat → nj_t → Option nj_t
  | 0, s => if s._row_size > 3 then none else some s
  | fuel + 1, s =>
    if s._row_size > 3 then
      match join_pair_fl rf rd s with
      | none => none
      | some s1 => nj_loop_fl rf rd fuel s1
    else some s

/-- The state at the end of the constructor, before `make_tree`. -/
def nj_run_fl (debug : Bool) (rf rd : ℚ → ℚ) (dists : List ℚ) (labels : List String) :
    Option nj_t :=
  match nj_init dists labels with
  | none => none
  | some s0 =>
    match nj_loop_fl rf rd s0._row_size s0 with
    | none => none
    | some s1 => join_final_fl debug rf rd s1

/-- The constructor `nj_t::nj_t(dists, labels)` followed by `get_tree()`, in a build with or
without `DEBUG` and with the roundings `rf`, `rd`. -/
def nj_fl (debug : Bool) (rf rd : ℚ → ℚ) (dists : List ℚ) (labels : List String) :
    Option tree_t :=
  match nj_run_fl debug rf rd dists labels with
  | none => none
  | some s => make_flat_tree s.heap s._tree

/-- No operation of the final join rounds: for every cluster the `float` sum and the `float`
difference are exact, the weight is a `double`, and the sum of two weights is a `double`. -/
def final_join_exact (rf rd : ℚ → ℚ) (s : nj_t) : Prop :=
  ∀ x, x < 3 →
    rf (s.D x ((x + 1) % 3) + s.D x ((x + 2) % 3))
      = s.D x ((x + 1) % 3) + s.D x ((x + 2) % 3) ∧
    rf (s.D x ((x + 1) % 3) + s.D x ((x + 2) % 3) - s.D ((x + 1) % 3) ((x + 2) % 3))
      = s.D x ((x + 1) % 3) + s.D x ((x + 2) % 3) - s.D ((x + 1) % 3) ((x + 2) % 3) ∧
    rd (final_weight s x) = final_weight s x ∧
    ∀ y, y < 3 → rd (final_weight s x + final_weight s y)
      = final_weight s x + final_weight s y

instance final_join_exact_decidable (rf rd : ℚ → ℚ) (s : nj_t) :
    Decidable (final_join_exact rf rd s) :=
  inferInstanceAs (Decidable (∀ x, x < 3 →
    rf (s.D x ((x + 1) % 3) + s.D x ((x + 2) % 3))
      = s.D x ((x + 1) % 3) + s.D x ((x + 2) % 3) ∧
    rf (s.D x ((x + 1) % 3) + s.D x ((x + 2) % 3) - s.D ((x + 1) % 3) ((x + 2) % 3))
      = s.D x ((x + 1) % 3) + s.D x ((x + 2) % 3) - s.D ((x + 1) % 3) ((x + 2) % 3) ∧
    rd (final_weight s x) = final_weight s x ∧
    ∀ y, y < 3 → rd (final_weight s x + final_weight s y)
      = final_weight s x + final_weight s y))

/-- The `float` values nearest to `0.1`, `0.2` and `0.3` as the distances `D[A][B]`,
`D[A][C]` and `D[B][C]` of three leaves, row-major, with zero diagonal. -/
def tenths_dists : List ℚ :=
  [0, round_single (1 / 10), round_single (2 / 10),
   round_single (1 / 10), 0, round_single (3 / 10),
   round_single (2 / 10), round_single (3 / 10), 0]

/-- A symmetric `4 x 4` matrix of `float` values with zero diagonal: the `float` values
nearest to `D[0][1] = 0.4`, `D[0][2] = 41.7`, `D[0][3] = 7.4`, `D[1][2] = 91.2`,
`D[1][3] = 33.9` and `D[2][3] = 4.3`. -/
def float_sym_dists : List ℚ :=
  [0, round_single (4 / 10), round_single (417 / 10), round_single (74 / 10),
   round_single (4 / 10), 0, round_single (912 / 10), round_single (339 / 10),
   round_single (417 / 10), round_single (912 / 10), 0, round_single (43 / 10),
   round_single (74 / 10), round_single (339 / 10), round_single (43 / 10), 0]

/-! ## The Q-criterion of the current matrix -/

/-- The Q-criterion of Neighbor-Joining for the clusters `a` and `b` of the current matrix:
`(n-2)*D[a][b] - R(a) - R(b)`, `R(x)` being the sum of row `x` of the current matrix. -/
def nj_t.criterion (s : nj_t) (a b : Nat) : ℚ :=
  ((s._row_size - 2 : Nat) : ℚ) * s.D a b - (row_sums s).getD a 0 - (row_sums s).getD b 0

/-- The leaf distances of the tree `((A:3,B:3):1,C:4,(D:1,E:5):1);`, row-major. -/
def uneven_dists : List ℚ :=
  [0, 6, 8, 6, 10, 6, 0, 8, 6, 10, 8, 8, 0, 6, 10, 6, 6, 6, 0, 6, 10, 10, 10, 6, 0]

/-- The state of `nj_t` after the first `join_pair` on `uneven_dists`: `D` and `E` have been
joined, the clusters are `A`, `B`, `C`, `(D,E)`, and `_r_vec`, `_q_vec`, `_i`, `_j` are what
the first `find_pair` left. -/
def uneven_state : nj_t :=
  { _dists := [0, 6, 8, 5, 6, 0, 8, 5, 8, 8, 0, 5, 5, 5, 5, 0], _tree := [0, 1, 2, 5],
    _row_size := 4, _r_vec := [30, 30, 32, 24, 36],
    _q_vec := [-60, -42, -38, -36, -36, -42, -60, -38, -36, -36, -38, -38, -64, -38, -38,
      -36, -36, -38, -48, -42, -36, -36, -38, -42, -72],
    _i := 4, _j := 3,
    heap := [⟨"A", 0, none, none, none, false⟩, ⟨"B", 0, none, none, none, false⟩,
             ⟨"C", 0, none, none, none, false⟩, ⟨"D", 3, none, none, some 5, false⟩,
             ⟨"E", 3, none, none, some 5, false⟩, ⟨"", 0, some 4, some 3, none, true⟩] }

/-! ## Sorting keeps the links -/

/-- Heap `h'` is heap `h` with the two child pointers of some nodes exchanged: same length,
and every node has the parent and the `_children` flag it had and the two child pointers it
had, in the same or in the other order. -/
def SwapLe (h h' : List node_t) : Prop :=
  h'.length = h.length ∧
    ∀ (k : Nat) (n : node_t), h[k]? = some n →
      ∃ n' : node_t, h'[k]? = some n' ∧ n'._parent = n._parent ∧
      n'._children = n._children ∧
      ((n'._lchild = n._lchild ∧ n'._rchild = n._rchild) ∨
        (n'._lchild = n._rchild ∧ n'._rchild = n._lchild))

/-! ## `set_outgroup` and `make_unrooted` in the two builds

`assert_string` is compiled to a test followed by `abort()` when `DEBUG` is defined, and to
nothing otherwise (`debug.h`).  Below `debug = true` is the build with `DEBUG`.  A run that is
aborted and a run that leaves the defined behaviour of C++ (a read through the null pointer)
both return nothing. -/

/-- The function `tree_t::make_unrooted` in the given build.  The assertion inside the loop
needs no case of its own: when no unroot member has children, the build with `DEBUG` aborts
at the assertion and the build without it reads `tmp_n->_lchild` through the null pointer. -/
def make_unrooted_build (debug : Bool) (t : tree_t) : Option tree_t :=
  if debug = true ∧ ¬ (t.is_rooted = true ∧ t._size > 2) then none
  else
    match unroot_loop (t._size + 1) t._tree t._unroot with
    | none => none
    | some (h, ur) => make_flat_tree h ur

/-- The function `tree_t::set_outgroup(outgroup)` in the given build.  When no node carries
the label, the build with `DEBUG` aborts at the assertion `o != nullptr`; the build without it
calls `set_root(nullptr)`, whose first statement reads `outgroup->_parent` through the null
pointer. -/
def set_outgroup_build (debug : Bool) (t : tree_t) (outgroup : String) : Option tree_t :=
  if t._size ≤ 2 then some t
  else
    let t1? := if t.is_rooted then make_unrooted_build debug t else some t
    match t1? with
    | none => none
    | some t1 =>
      if debug = true ∧ t1._unroot.length ≠ 3 then none
      else
        match find_outgroup outgroup (t1._tree.take t1._size) 0 none with
        | none => none
        | some o => set_root t1 o

/-- The four leaves `A`, `B`, `C`, `D` as a tree with four unroot members. -/
def tree_four_leaves : tree_t :=
  { _tree := [⟨"A", 1, none, none, none, false⟩, ⟨"B", 1, none, none, none, false⟩,
              ⟨"C", 1, none, none, none, false⟩, ⟨"D", 1, none, none, none, false⟩],
    _unroot := [0, 1, 2, 3], _size := 4 }

/-- How a run of a member function of `tree_t` ends in a build with `DEBUG`: it returns, with
the tree object in the state given; or a failed `assert_string` calls `abort()`, with the tree
object in the state given at that moment; or it leaves the defined behaviour of C++ (or the
fuel of the model runs out). -/
inductive Outcome where
  | returned (t : tree_t)
  | aborted (t : tree_t)
  | undefined
deriving DecidableEq, Repr

/-- The tree a run returns. -/
def Outcome.result : Outcome → Option tree_t
  | .returned t => some t
  | _ => none

/-- The state of the tree object at the moment a run is aborted. -/
def Outcome.stopped : Outcome → Option tree_t
  | .aborted t => some t
  | _ => none

/-- The loop `while(_unroot.size()!=3)` of `make_unrooted` in a build with `DEBUG`, on the
tree object with the array `h`, the unroot set `ur` and `_size = size`: the nodes are changed
in place, and the assertion `tmp_n != nullptr` ends the run with what has been changed so
far. -/
def unroot_loop_run (size : Nat) : Nat → List node_t → List Nat → Outcome
  | 0, h, ur => if ur.length ≠ 3 then .undefined else .returned ⟨h, ur, size⟩
  | fuel + 1, h, ur =>
    if ur.length ≠ 3 then
      match first_internal h ur 0 with
      | some (some (tmp_n, idx)) =>
        match h[tmp_n]? with
        | none => .undefined
        | some n =>
          match n._lchild, n._rchild with
          | some l, some r =>
            match store h l (fun x => { x with _parent := none }) with
            | none => .undefined
            | some h1 =>
              match store h1 r (fun x => { x with _parent := none }) with
              | none => .undefined
              | some h2 =>
                match store h2 tmp_n (fun x =>
                    { x with _lchild := none, _rchild := none, _children := false }) with
                | none => .undefined
                | some h3 => unroot_loop_run size fuel h3 (ur.eraseIdx idx ++ [l, r])
          | _, _ => .undefined
      | some none => .aborted ⟨h, ur, size⟩
      | none => .undefined
    else .returned ⟨h, ur, size⟩

/-- The function `tree_t::make_unrooted` in a build with `DEBUG`, with the state of the tree
object at the end of the run. -/
def make_unrooted_run (t : tree_t) : Outcome :=
  if t.is_rooted = true ∧ t._size > 2 then
    match unroot_loop_run t._size (t._size + 1) t._tree t._unroot with
    | .returned t1 =>
      match make_flat_tree t1._tree t1._unroot with
      | none => .undefined
      | some t2 => .returned t2
    | .aborted t1 => .aborted t1
    | .undefined => .undefined
  else .aborted t

/-- The function `tree_t::set_outgroup(outgroup)` in a build with `DEBUG`, with the state of
the tree object at the end of the run. -/
def set_outgroup_run (t : tree_t) (outgroup : String) : Outcome :=
  if t._size ≤ 2 then .returned t
  else
    match (if t.is_rooted then make_unrooted_run t else .returned t) with
    | .returned t1 =>
      if t1._unroot.length = 3 then
        match find_outgroup outgroup (t1._tree.take t1._size) 0 none with
        | none => .aborted t1
        | some o =>
          match set_root t1 o with
          | none => .undefined
          | some t2 => .returned t2
      else .aborted t1
    | .aborted t1 => .aborted t1
    | .undefined => .undefined

end Gstar

namespace Gstar

/-! ## Shapes: basic facts -/

@[simp] theorem Shape.root_leaf (a : Nat) : (Shape.leaf a).root = a := rfl

@[simp] theorem Shape.root_node (a : Nat) (l r : Shape) : (Shape.node a l r).root = a := rfl

theorem Shape.root_mem_addrs (s : Shape) : s.root ∈ s.addrs := by
  cases s with
  | leaf a => simp [Shape.addrs]
  | node a l r => simp [Shape.addrs]

theorem Shape.length_addrs (s : Shape) : s.addrs.length = s.size := by
  induction s with
  | leaf a => simp [Shape.addrs, Shape.size]
  | node a l r ihl ihr => simp [Shape.addrs, Shape.size, ihl, ihr]

theorem Shape.size_pos (s : Shape) : 0 < s.size := by
  cases s <;> simp [Shape.size]

theorem Shape.root_map (f : Nat → Nat) (s : Shape) : (s.map f).root = f s.root := by
  cases s <;> simp [Shape.map]

theorem Shape.addrs_map (f : Nat → Nat) (s : Shape) : (s.map f).addrs = s.addrs.map f := by
  induction s with
  | leaf a => simp [Shape.map, Shape.addrs]
  | node a l r ihl ihr => simp [Shape.map, Shape.addrs, ihl, ihr]

theorem Shape.ord1_map (f : Nat → Nat) (s : Shape) : (s.map f).ord1 = s.ord1.map f := by
  induction s with
  | leaf a => simp [Shape.map, Shape.ord1]
  | node a l r ihl ihr => simp [Shape.map, Shape.ord1, ihl, ihr, Shape.root_map]

theorem Shape.size_map (f : Nat → Nat) (s : Shape) : (s.map f).size = s.size := by
  induction s with
  | leaf a => simp [Shape.map, Shape.size]
  | node a l r ihl ihr => simp [Shape.map, Shape.size, ihl, ihr]

/-- The queue entries of a shape are its addresses other than the root. -/
theorem Shape.ord1_perm (s : Shape) : (s.root :: s.ord1).Perm s.addrs := by
  induction s with
  | leaf a => simp [Shape.ord1, Shape.addrs]
  | node a l r ihl ihr =>
    simp only [Shape.ord1, Shape.addrs, Shape.root_node]
    refine List.Perm.cons a ?_
    have h1 : (l.root :: r.root :: (r.ord1 ++ l.ord1)).Perm
        ((l.root :: l.ord1) ++ (r.root :: r.ord1)) := by
      have : (r.root :: (r.ord1 ++ l.ord1)).Perm (l.ord1 ++ r.root :: r.ord1) := by
        rw [← List.cons_append]
        exact List.perm_append_comm
      exact (List.Perm.cons _ this)
    exact h1.trans (List.Perm.append ihl ihr)

theorem Shape.RepC.root_lt {h : List node_t} {s : Shape} (hs : s.RepC h) :
    s.root < h.length := by
  cases s with
  | leaf a =>
    obtain ⟨n, hn, -⟩ := hs
    exact (List.getElem?_eq_some_iff.1 hn).1
  | node a l r =>
    obtain ⟨⟨n, hn, -⟩, -, -⟩ := hs
    exact (List.getElem?_eq_some_iff.1 hn).1

theorem Shape.RepC.addrs_lt {h : List node_t} :
    ∀ {s : Shape}, s.RepC h → ∀ a ∈ s.addrs, a < h.length := by
  intro s
  induction s with
  | leaf a =>
    intro hs b hb
    simp [Shape.addrs] at hb
    subst hb
    exact hs.root_lt
  | node a l r ihl ihr =>
    intro hs b hb
    have hroot := hs.root_lt
    obtain ⟨-, hl, hr⟩ := hs
    simp [Shape.addrs] at hb
    rcases hb with rfl | hb | hb
    · exact hroot
    · exact ihl hl b hb
    · exact ihr hr b hb

/-! ## `make_flat_tree`: the traversal -/

theorem flat_traverse_nil (h : List node_t) (fuel : Nat) (q : List Nat) :
    flat_traverse h fuel [] q = some q := by
  cases fuel <;> simp [flat_traverse]

/-- Processing the stack entry of a realised shape appends `ord1` to the queue and uses as
many pops as the shape has nodes. -/
theorem flat_traverse_shape (h : List node_t) :
    ∀ s : Shape, s.RepC h → ∀ (fuel : Nat) (rest q : List Nat),
      flat_traverse h (fuel + s.size) (s.root :: rest) q
        = flat_traverse h fuel rest (q ++ s.ord1) := by
  intro s
  induction s with
  | leaf a =>
    intro hs fuel rest q
    obtain ⟨n, hn, -, hl, -⟩ := hs
    simp [Shape.size, Shape.ord1, flat_traverse, hn, hl]
  | node a l r ihl ihr =>
    intro hs fuel rest q
    obtain ⟨⟨n, hn, -, hl, hr⟩, hL, hR⟩ := hs
    have e : fuel + (l.size + r.size + 1) = (fuel + l.size + r.size) + 1 := by omega
    simp only [Shape.size, Shape.root_node, Shape.ord1, e]
    rw [flat_traverse]
    simp only [hn, hl, hr]
    rw [ihr hR, ihl hL]
    simp

theorem flat_traverse_stack (h : List node_t) :
    ∀ st : List Shape, (∀ s ∈ st, s.RepC h) → ∀ (fuel : Nat) (q : List Nat),
      flat_traverse h (fuel + (st.map Shape.size).sum) (st.map Shape.root) q
        = some (q ++ st.flatMap Shape.ord1) := by
  intro st
  induction st with
  | nil => intro _ fuel q; simp [flat_traverse_nil]
  | cons s st ih =>
    intro hst fuel q
    have hs := hst s (List.mem_cons_self _ _)
    have hrest : ∀ x ∈ st, x.RepC h := fun x hx => hst x (List.mem_cons_of_mem _ hx)
    have e : fuel + ((s :: st).map Shape.size).sum = (fuel + (st.map Shape.size).sum) + s.size := by
      simp; omega
    rw [e]
    simp only [List.map_cons]
    rw [flat_traverse_shape h s hs, ih hrest]
    simp

theorem length_flatMap_addrs (F : List Shape) :
    (F.flatMap Shape.addrs).length = (F.map Shape.size).sum := by
  induction F with
  | nil => simp
  | cons s F ih => simp [List.flatMap_cons, Shape.length_addrs, ih]

theorem nodup_length_le {l : List Nat} {n : Nat} (hd : l.Nodup) (hl : ∀ a ∈ l, a < n) :
    l.length ≤ n := by
  have hsub : l ⊆ List.range n := fun a ha => List.mem_range.2 (hl a ha)
  have := (List.subperm_of_subset hd hsub).length_le
  simpa using this

/-- The queue of a forest is a rearrangement of its addresses. -/
theorem queue_of_perm (F : List Shape) : (queue_of F).Perm (F.flatMap Shape.addrs) := by
  unfold queue_of
  induction F with
  | nil => simp
  | cons s F ih =>
    simp only [List.map_cons, List.reverse_cons, List.flatMap_append, List.flatMap_cons,
      List.flatMap_nil, List.append_nil, List.cons_append]
    have h1 : (s.root :: (F.map Shape.root ++ ((F.reverse.flatMap Shape.ord1) ++ s.ord1))).Perm
        ((s.root :: s.ord1) ++ (F.map Shape.root ++ F.reverse.flatMap Shape.ord1)) := by
      simp only [List.cons_append]
      refine List.Perm.cons _ ?_
      rw [← List.append_assoc]
      exact List.perm_append_comm
    exact h1.trans (List.Perm.append (Shape.ord1_perm s) ih)

/-- The traversal of `make_flat_tree` on a realised forest with pairwise distinct addresses
returns the queue of the forest. -/
theorem flat_traverse_forest (h : List node_t) (F : List Shape)
    (hF : ∀ s ∈ F, s.RepC h) (hd : (F.flatMap Shape.addrs).Nodup) :
    flat_traverse h h.length (F.map Shape.root).reverse (F.map Shape.root) = some (queue_of F) := by
  have hlt : ∀ a ∈ F.flatMap Shape.addrs, a < h.length := by
    intro a ha
    obtain ⟨s, hs, has⟩ := List.mem_flatMap.1 ha
    exact (hF s hs).addrs_lt a has
  have hle := nodup_length_le hd hlt
  rw [length_flatMap_addrs] at hle
  have hle2 : (F.reverse.map Shape.size).sum ≤ h.length := by
    rw [List.map_reverse, List.sum_reverse]; exact hle
  obtain ⟨k, hk⟩ := Nat.exists_eq_add_of_le hle2
  have hk2 : h.length = k + (F.reverse.map Shape.size).sum := by omega
  rw [← List.map_reverse, hk2]
  rw [flat_traverse_stack h F.reverse (fun s hs => hF s (List.mem_reverse.1 hs))]
  rfl

end Gstar

namespace Gstar

/-! ## `make_flat_tree`: copy, node map, `update_children` -/

theorem node_at_of_get {h : List node_t} {a : Nat} {n : node_t} (hn : h[a]? = some n) :
    node_at h a = n := by
  simp [node_at, hn]

theorem get_eq_node_at {h : List node_t} {a : Nat} (ha : a < h.length) :
    h[a]? = some (node_at h a) := by
  simp [node_at, List.getElem?_eq_getElem ha]

theorem flat_copy_eq (h : List node_t) :
    ∀ q : List Nat, (∀ a ∈ q, a < h.length) → flat_copy h q = some (q.map (node_at h)) := by
  intro q
  induction q with
  | nil => intro _; simp [flat_copy]
  | cons a q ih =>
    intro hq
    have ha := hq a (List.mem_cons_self _ _)
    have := ih (fun b hb => hq b (List.mem_cons_of_mem _ hb))
    simp [flat_copy, this, get_eq_node_at ha]

theorem flat_node_map_not_mem :
    ∀ (q : List Nat) (k : Nat) (m : List (Nat × Nat)) (a : Nat), a ∉ q →
      (flat_node_map q k m).lookup a = m.lookup a := by
  intro q
  induction q with
  | nil => intro k m a _; simp [flat_node_map]
  | cons b q ih =>
    intro k m a ha
    simp only [List.mem_cons, not_or] at ha
    rw [flat_node_map, ih _ _ _ ha.2, List.lookup_cons]
    have : (a == b) = false := by simpa using ha.1
    simp [this]

theorem flat_node_map_lookup :
    ∀ (q : List Nat) (k : Nat) (m : List (Nat × Nat)), q.Nodup → ∀ a ∈ q,
      (flat_node_map q k m).lookup a = some (k + q.indexOf a) := by
  intro q
  induction q with
  | nil => intro k m _ a ha; simp at ha
  | cons b q ih =>
    intro k m hd a ha
    rw [List.nodup_cons] at hd
    rw [flat_node_map]
    by_cases hab : a = b
    · subst hab
      rw [flat_node_map_not_mem _ _ _ _ hd.1]
      simp [List.lookup_cons]
    · have haq : a ∈ q := by
        rcases List.mem_cons.1 ha with h | h
        · exact absurd h hab
        · exact h
      rw [ih _ _ hd.2 a haq]
      have hba : ¬ b = a := fun h => hab h.symm
      simp [List.indexOf_cons, hba]
      omega

theorem Shape.Img.frame_img {h t t' : List node_t} {σ : Nat → Nat} :
    ∀ {s : Shape} {par : Option Nat}, (∀ a ∈ s.addrs, t'[σ a]? = t[σ a]?) →
      s.Img h t σ par → s.Img h t' σ par := by
  intro s
  induction s with
  | leaf a =>
    intro par hfr himg
    simp only [Shape.Img] at himg ⊢
    rw [hfr a (by simp [Shape.addrs])]
    exact himg
  | node a l r ihl ihr =>
    intro par hfr himg
    simp only [Shape.Img] at himg ⊢
    refine ⟨?_, ihl (fun b hb => hfr b (by simp [Shape.addrs, hb])) himg.2.1,
      ihr (fun b hb => hfr b (by simp [Shape.addrs, hb])) himg.2.2⟩
    rw [hfr a (by simp [Shape.addrs])]
    exact himg.1

/-- The recursion `update_children` started at the slot of the root of a realised shape, on
an array that still holds the plain copies of the nodes of the shape: it succeeds, touches only
the slots of the shape and leaves the moved copies there. -/
theorem update_children_shape (h : List node_t) (m : List (Nat × Nat)) (σ : Nat → Nat)
    (dom : List Nat) (hm : ∀ a ∈ dom, m.lookup a = some (σ a))
    (hinj : ∀ a ∈ dom, ∀ b ∈ dom, σ a = σ b → a = b) :
    ∀ s : Shape, s.RepC h → s.addrs.Nodup → (∀ a ∈ s.addrs, a ∈ dom) →
      ∀ (fuel : Nat) (t : List node_t) (p : Option Nat), s.size ≤ fuel →
        (∀ a ∈ s.addrs, t[σ a]? = h[a]?) →
        ∃ t', update_children m fuel t (σ s.root) p = some t' ∧ t'.length = t.length ∧
          (∀ k, k ∉ s.addrs.map σ → t'[k]? = t[k]?) ∧ s.Img h t' σ p := by
  intro s
  induction s with
  | leaf a =>
    intro hs _ _ fuel t p hfuel ht
    obtain ⟨n, hn, hflag, hl, hr⟩ := hs
    have hta : t[σ a]? = some n := by rw [ht a (by simp [Shape.addrs]), hn]
    have hlt : σ a < t.length := (List.getElem?_eq_some_iff.1 hta).1
    cases fuel with
    | zero => simp [Shape.size] at hfuel
    | succ f =>
      refine ⟨t.set (σ a) { n with _parent := p }, ?_, by simp, ?_, ?_⟩
      · simp [update_children, hta, hflag]
      · intro k hk
        simp [Shape.addrs] at hk
        exact List.getElem?_set_ne (fun e => hk e.symm)
      · simp only [Shape.Img]
        rw [List.getElem?_set_self hlt, node_at_of_get hn]
        simp [node_t.moved, hl, hr]
  | node a l r ihl ihr =>
    intro hs hnd hdom fuel t p hfuel ht
    obtain ⟨⟨n, hn, hflag, hl, hr⟩, hL, hR⟩ := hs
    have hta : t[σ a]? = some n := by rw [ht a (by simp [Shape.addrs]), hn]
    have hlt : σ a < t.length := (List.getElem?_eq_some_iff.1 hta).1
    simp only [Shape.addrs, List.nodup_cons, List.mem_append, not_or, List.nodup_append] at hnd
    obtain ⟨⟨hal, har⟩, hndl, hndr, hdisj⟩ := hnd
    have ha_dom : a ∈ dom := hdom a (by simp [Shape.addrs])
    have hl_dom : ∀ b ∈ l.addrs, b ∈ dom := fun b hb => hdom b (by simp [Shape.addrs, hb])
    have hr_dom : ∀ b ∈ r.addrs, b ∈ dom := fun b hb => hdom b (by simp [Shape.addrs, hb])
    have hσl : ∀ b ∈ l.addrs, σ b ≠ σ a := fun b hb e =>
      hal ((hinj b (hl_dom b hb) a ha_dom e) ▸ hb)
    have hσr : ∀ b ∈ r.addrs, σ b ≠ σ a := fun b hb e =>
      har ((hinj b (hr_dom b hb) a ha_dom e) ▸ hb)
    have hσlr : ∀ b ∈ r.addrs, σ b ∉ l.addrs.map σ := by
      intro b hb hmem
      obtain ⟨c, hc, e⟩ := List.mem_map.1 hmem
      have := hinj c (hl_dom c hc) b (hr_dom b hb) e
      exact hdisj (this ▸ hc) hb
    have hσrl : ∀ b ∈ l.addrs, σ b ∉ r.addrs.map σ := by
      intro b hb hmem
      obtain ⟨c, hc, e⟩ := List.mem_map.1 hmem
      have := hinj c (hr_dom c hc) b (hl_dom b hb) e
      exact hdisj hb (this ▸ hc)
    have hal' : σ a ∉ l.addrs.map σ := by
      intro hmem
      obtain ⟨c, hc, e⟩ := List.mem_map.1 hmem
      exact hσl c hc e
    have har' : σ a ∉ r.addrs.map σ := by
      intro hmem
      obtain ⟨c, hc, e⟩ := List.mem_map.1 hmem
      exact hσr c hc e
    cases fuel with
    | zero => simp [Shape.size] at hfuel
    | succ f =>
      simp only [Shape.size] at hfuel
      let n' : node_t := ⟨n._label, n._weight, some (σ l.root), some (σ r.root), p, true⟩
      have ht1 : ∀ b ∈ l.addrs, (t.set (σ a) n')[σ b]? = h[b]? := by
        intro b hb
        rw [List.getElem?_set_ne (fun e => hσl b hb e.symm)]
        exact ht b (by simp [Shape.addrs, hb])
      obtain ⟨t2, hrun2, hlen2, hfr2, himg2⟩ :=
        ihl hL hndl hl_dom f (t.set (σ a) n') (some (σ a)) (by omega) ht1
      have ht2a : t2[σ a]? = some n' := by
        rw [hfr2 _ hal', List.getElem?_set_self hlt]
      have ht2 : ∀ b ∈ r.addrs, t2[σ b]? = h[b]? := by
        intro b hb
        rw [hfr2 _ (hσlr b hb), List.getElem?_set_ne (fun e => hσr b hb e.symm)]
        exact ht b (by simp [Shape.addrs, hb])
      obtain ⟨t3, hrun3, hlen3, hfr3, himg3⟩ :=
        ihr hR hndr hr_dom f t2 (some (σ a)) (by omega) ht2
      refine ⟨t3, ?_, ?_, ?_, ?_⟩
      · have hml : node_map_at m n._lchild = some (σ l.root) := by
          rw [hl]; exact hm _ (hl_dom _ l.root_mem_addrs)
        have hmr : node_map_at m n._rchild = some (σ r.root) := by
          rw [hr]; exact hm _ (hr_dom _ r.root_mem_addrs)
        simp only [Shape.root_node]
        rw [update_children]
        simp only [hta, hflag, hml, hmr, if_true]
        show (match update_children m f (t.set (σ a) n') (σ l.root) (some (σ a)) with
          | none => none
          | some t2 =>
            match t2[σ a]? with
            | none => none
            | some n2 =>
              match n2._rchild with
              | none => none
              | some r2 => update_children m f t2 r2 (some (σ a))) = some t3
        rw [hrun2]
        simp only [ht2a]
        exact hrun3
      · rw [hlen3, hlen2]; simp
      · intro k hk
        simp only [Shape.addrs, List.map_cons, List.map_append, List.mem_cons, List.mem_append,
          not_or] at hk
        rw [hfr3 k hk.2.2, hfr2 k hk.2.1, List.getElem?_set_ne (fun e => hk.1 e.symm)]
      · simp only [Shape.Img]
        refine ⟨?_, ?_, himg3⟩
        · rw [hfr3 _ har', ht2a, node_at_of_get hn]
          simp [n', node_t.moved, hl, hr, hflag]
        · exact Shape.Img.frame_img (fun b hb => hfr3 _ (hσrl b hb)) himg2

end Gstar

namespace Gstar

/-! ## `make_flat_tree`: the result on a forest -/

theorem flat_update_forest (h : List node_t) (m : List (Nat × Nat)) (σ : Nat → Nat)
    (dom : List Nat) (hm : ∀ a ∈ dom, m.lookup a = some (σ a))
    (hinj : ∀ a ∈ dom, ∀ b ∈ dom, σ a = σ b → a = b) (fuel : Nat) :
    ∀ F : List Shape, (∀ s ∈ F, s.RepC h) → (F.flatMap Shape.addrs).Nodup →
      (∀ a ∈ F.flatMap Shape.addrs, a ∈ dom) → (∀ s ∈ F, s.size ≤ fuel) →
      ∀ (t : List node_t) (ur : List Nat), (∀ a ∈ F.flatMap Shape.addrs, t[σ a]? = h[a]?) →
        ∃ t', flat_update m fuel (F.map Shape.root) t ur
              = some (t', ur ++ F.map (fun s => σ s.root)) ∧
          t'.length = t.length ∧
          (∀ k, k ∉ (F.flatMap Shape.addrs).map σ → t'[k]? = t[k]?) ∧
          ∀ s ∈ F, s.Img h t' σ none := by
  intro F
  induction F with
  | nil =>
    intro _ _ _ _ t ur _
    exact ⟨t, by simp [flat_update], rfl, fun _ _ => rfl, by simp⟩
  | cons s F ih =>
    intro hF hnd hdom hfuel t ur ht
    simp only [List.flatMap_cons, List.nodup_append] at hnd
    obtain ⟨hnds, hndF, hdisj⟩ := hnd
    have hs := hF s (List.mem_cons_self _ _)
    have hs_dom : ∀ a ∈ s.addrs, a ∈ dom := fun a ha => hdom a (by simp [List.flatMap_cons, ha])
    have hF_dom : ∀ a ∈ F.flatMap Shape.addrs, a ∈ dom :=
      fun a ha => hdom a (by rw [List.flatMap_cons]; exact List.mem_append_right _ ha)
    obtain ⟨t1, hrun1, hlen1, hfr1, himg1⟩ :=
      update_children_shape h m σ dom hm hinj s hs hnds hs_dom fuel t none
        (hfuel s (List.mem_cons_self _ _))
        (fun a ha => ht a (by simp [List.flatMap_cons, ha]))
    have hσF : ∀ a ∈ F.flatMap Shape.addrs, σ a ∉ s.addrs.map σ := by
      intro a ha hmem
      obtain ⟨c, hc, e⟩ := List.mem_map.1 hmem
      have := hinj c (hs_dom c hc) a (hF_dom a ha) e
      exact hdisj (this ▸ hc) ha
    have hσs : ∀ a ∈ s.addrs, σ a ∉ (F.flatMap Shape.addrs).map σ := by
      intro a ha hmem
      obtain ⟨c, hc, e⟩ := List.mem_map.1 hmem
      have := hinj c (hF_dom c hc) a (hs_dom a ha) e
      exact hdisj ha (this ▸ hc)
    have ht1 : ∀ a ∈ F.flatMap Shape.addrs, t1[σ a]? = h[a]? := by
      intro a ha
      rw [hfr1 _ (hσF a ha)]
      exact ht a (by rw [List.flatMap_cons]; exact List.mem_append_right _ ha)
    obtain ⟨t2, hrun2, hlen2, hfr2, himg2⟩ :=
      ih (fun x hx => hF x (List.mem_cons_of_mem _ hx)) hndF hF_dom
        (fun x hx => hfuel x (List.mem_cons_of_mem _ hx)) t1 (ur ++ [σ s.root]) ht1
    refine ⟨t2, ?_, by rw [hlen2, hlen1], ?_, ?_⟩
    · simp only [List.map_cons]
      rw [flat_update, hm _ (hs_dom _ s.root_mem_addrs)]
      simp only [hrun1, hrun2]
      simp
    · intro k hk
      simp only [List.flatMap_cons, List.map_append, List.mem_append, not_or] at hk
      rw [hfr2 k hk.2, hfr1 k hk.1]
    · intro x hx
      rcases List.mem_cons.1 hx with rfl | hx
      · exact Shape.Img.frame_img (fun a ha => hfr2 _ (hσs a ha)) himg1
      · exact himg2 x hx

theorem slot_of_inj (F : List Shape) :
    ∀ a ∈ queue_of F, ∀ b ∈ queue_of F, slot_of F a = slot_of F b → a = b := by
  intro a ha b hb e
  unfold slot_of at e
  have h1 := List.getElem_indexOf (List.indexOf_lt_length.2 ha)
  have h2 := List.getElem_indexOf (List.indexOf_lt_length.2 hb)
  rw [← h1, ← h2]
  simp only [e]

theorem slot_of_lt (F : List Shape) {a : Nat} (ha : a ∈ queue_of F) :
    slot_of F a < (queue_of F).length :=
  List.indexOf_lt_length.2 ha

theorem queue_of_nodup {F : List Shape} (hd : (F.flatMap Shape.addrs).Nodup) :
    (queue_of F).Nodup :=
  (queue_of_perm F).nodup_iff.2 hd

theorem mem_queue_of {F : List Shape} {a : Nat} :
    a ∈ queue_of F ↔ a ∈ F.flatMap Shape.addrs :=
  (queue_of_perm F).mem_iff

theorem length_queue_of (F : List Shape) :
    (queue_of F).length = (F.map Shape.size).sum := by
  rw [(queue_of_perm F).length_eq, length_flatMap_addrs]

theorem size_le_sum {F : List Shape} {s : Shape} (hs : s ∈ F) :
    s.size ≤ (F.map Shape.size).sum :=
  List.single_le_sum (fun _ _ => Nat.zero_le _) _ (List.mem_map_of_mem _ hs)

/-- The function `make_flat_tree` on a realised forest with pairwise distinct addresses: it
returns the array of the moved copies in queue order, the slots of the roots as unroot set and
the number of nodes of the forest as size. -/
theorem make_flat_tree_forest (h : List node_t) (F : List Shape)
    (hF : ∀ s ∈ F, s.RepC h) (hd : (F.flatMap Shape.addrs).Nodup) :
    ∃ T, make_flat_tree h (F.map Shape.root)
          = some ⟨T, F.map (fun s => slot_of F s.root), (queue_of F).length⟩ ∧
      T.length = (queue_of F).length ∧ ∀ s ∈ F, s.Img h T (slot_of F) none := by
  have hq := queue_of_nodup hd
  have hlt : ∀ a ∈ queue_of F, a < h.length := by
    intro a ha
    obtain ⟨s, hs, has⟩ := List.mem_flatMap.1 (mem_queue_of.1 ha)
    exact (hF s hs).addrs_lt a has
  have hm : ∀ a ∈ queue_of F,
      (flat_node_map (queue_of F) 0 []).lookup a = some (slot_of F a) := by
    intro a ha
    rw [flat_node_map_lookup _ _ _ hq a ha]
    simp [slot_of]
  have ht0 : ∀ a ∈ F.flatMap Shape.addrs,
      ((queue_of F).map (node_at h))[slot_of F a]? = h[a]? := by
    intro a ha
    have haq := mem_queue_of.2 ha
    rw [List.getElem?_map, List.getElem?_eq_getElem (slot_of_lt F haq)]
    simp only [slot_of, List.getElem_indexOf, Option.map_some']
    exact (get_eq_node_at (hlt a haq)).symm
  obtain ⟨T, hrun, hlen, -, himg⟩ :=
    flat_update_forest h (flat_node_map (queue_of F) 0 []) (slot_of F) (queue_of F) hm
      (slot_of_inj F) (queue_of F).length F hF hd (fun a ha => mem_queue_of.2 ha)
      (fun s hs => by rw [length_queue_of]; exact size_le_sum hs)
      ((queue_of F).map (node_at h)) [] ht0
  refine ⟨T, ?_, by simpa using hlen, himg⟩
  unfold make_flat_tree
  rw [flat_traverse_forest h F hF hd]
  simp only [flat_copy_eq h _ hlt, hrun]
  simp

end Gstar

namespace Gstar

/-! ## `make_flat_tree`: the result is a well-formed packed tree -/

theorem Shape.Rep.repC {h : List node_t} :
    ∀ {s : Shape} {par : Option Nat}, s.Rep h par → s.RepC h := by
  intro s
  induction s with
  | leaf a =>
    intro par hs
    obtain ⟨n, hn, hl, -⟩ := hs
    exact ⟨n, hn, hl⟩
  | node a l r ihl ihr =>
    intro par hs
    obtain ⟨⟨n, hn, hi, -⟩, hl, hr⟩ := hs
    exact ⟨⟨n, hn, hi⟩, ihl hl, ihr hr⟩

/-- The moved copies of a realised shape realise the renamed shape, parents included. -/
theorem Shape.Img.rep {h t : List node_t} {σ : Nat → Nat} :
    ∀ {s : Shape} {par : Option Nat}, s.RepC h → s.Img h t σ par → (s.map σ).Rep t par := by
  intro s
  induction s with
  | leaf a =>
    intro par hs himg
    obtain ⟨n, hn, hflag, hl, hr⟩ := hs
    simp only [Shape.Img, node_at_of_get hn] at himg
    exact ⟨_, himg, ⟨hflag, by simp [node_t.moved, hl], by simp [node_t.moved, hr]⟩, rfl⟩
  | node a l r ihl ihr =>
    intro par hs himg
    obtain ⟨⟨n, hn, hflag, hl, hr⟩, hL, hR⟩ := hs
    simp only [Shape.Img, node_at_of_get hn] at himg
    refine ⟨⟨_, himg.1, ⟨hflag, ?_, ?_⟩, rfl⟩, ihl hL himg.2.1, ihr hR himg.2.2⟩
    · simp [node_t.moved, hl, Shape.root_map]
    · simp [node_t.moved, hr, Shape.root_map]

/-- Every node of the shape has its moved copy, under some parent, in the array. -/
theorem Shape.Img.get {h t : List node_t} {σ : Nat → Nat} :
    ∀ {s : Shape} {par : Option Nat}, s.Img h t σ par → ∀ a ∈ s.addrs,
      ∃ p, t[σ a]? = some ((node_at h a).moved p σ) := by
  intro s
  induction s with
  | leaf a =>
    intro par himg b hb
    simp [Shape.addrs] at hb
    subst hb
    exact ⟨par, himg⟩
  | node a l r ihl ihr =>
    intro par himg b hb
    simp only [Shape.Img] at himg
    simp [Shape.addrs] at hb
    rcases hb with rfl | hb | hb
    · exact ⟨par, himg.1⟩
    · exact ihl himg.2.1 b hb
    · exact ihr himg.2.2 b hb

theorem map_indexOf_eq_range {q : List Nat} (hq : q.Nodup) :
    q.map (fun a => q.indexOf a) = List.range q.length := by
  apply List.ext_getElem
  · simp
  · intro i h1 h2
    simp only [List.getElem_map, List.getElem_range]
    exact List.indexOf_getElem hq i _

theorem flatMap_addrs_map (σ : Nat → Nat) (F : List Shape) :
    (F.map (Shape.map σ)).flatMap Shape.addrs = (F.flatMap Shape.addrs).map σ := by
  induction F with
  | nil => simp
  | cons s F ih => simp [List.flatMap_cons, Shape.addrs_map, ih]

/-- The roots of the forest get the first slots, in order. -/
theorem slot_of_root {F : List Shape} (hd : (F.flatMap Shape.addrs).Nodup) :
    F.map (fun s => slot_of F s.root) = List.range F.length := by
  have hq := queue_of_nodup hd
  apply List.ext_getElem
  · simp
  · intro i h1 h2
    simp only [List.length_map] at h1
    simp only [List.getElem_map, List.getElem_range]
    have hi : i < (queue_of F).length := by
      simp only [queue_of, List.length_append, List.length_map]; omega
    have : (queue_of F)[i] = F[i].root := by
      simp only [queue_of]
      rw [List.getElem_append_left (by simpa using h1)]
      simp
    rw [← this]
    exact List.indexOf_getElem hq i hi

/-- The result of `make_flat_tree` on a realised forest is the packed tree of the renamed
forest. -/
theorem make_flat_tree_wf (h : List node_t) (F : List Shape)
    (hF : ∀ s ∈ F, s.RepC h) (hd : (F.flatMap Shape.addrs).Nodup) :
    ∃ t, make_flat_tree h (F.map Shape.root) = some t ∧
      t.Forest (F.map (Shape.map (slot_of F))) ∧
      t._size = (F.map Shape.size).sum ∧
      t._unroot = List.range F.length ∧
      (∀ s ∈ F, s.Img h t._tree (slot_of F) none) := by
  obtain ⟨T, hrun, hlen, himg⟩ := make_flat_tree_forest h F hF hd
  refine ⟨_, hrun, ⟨hlen, ?_, ?_, ?_⟩, length_queue_of F, slot_of_root hd, himg⟩
  · simp [List.map_map, Function.comp_def, Shape.root_map]
  · intro s' hs'
    obtain ⟨s, hs, rfl⟩ := List.mem_map.1 hs'
    exact (himg s hs).rep (hF s hs)
  · rw [flatMap_addrs_map]
    have h1 : ((F.flatMap Shape.addrs).map (slot_of F)).Perm ((queue_of F).map (slot_of F)) :=
      (queue_of_perm F).symm.map _
    refine h1.trans ?_
    have : (queue_of F).map (slot_of F) = List.range (queue_of F).length :=
      map_indexOf_eq_range (queue_of_nodup hd)
    rw [this]

end Gstar

namespace Gstar

/-! ## The pointwise invariants of a well-formed packed tree -/

/-- In a realised shape the node at an address of the shape is a leaf, or lists two different
addresses of the shape as its children, whose parent reference it is. -/
theorem Shape.Rep.node_cases {h : List node_t} :
    ∀ {s : Shape} {par : Option Nat}, s.Rep h par → s.addrs.Nodup → ∀ a ∈ s.addrs,
      ∀ n, h[a]? = some n →
        n.is_leaf ∨ ∃ l r, n.is_inner l r ∧ l ≠ r ∧ l ∈ s.addrs ∧ r ∈ s.addrs ∧
          (∃ nl, h[l]? = some nl ∧ nl._parent = some a) ∧
          (∃ nr, h[r]? = some nr ∧ nr._parent = some a) := by
  intro s
  induction s with
  | leaf a =>
    intro par hs _ b hb n hn
    simp [Shape.addrs] at hb
    subst hb
    obtain ⟨n', hn', hleaf, -⟩ := hs
    rw [hn] at hn'
    cases hn'
    exact Or.inl hleaf
  | node a l r ihl ihr =>
    intro par hs hnd b hb n hn
    obtain ⟨⟨n', hn', hin, -⟩, hL, hR⟩ := hs
    simp only [Shape.addrs, List.nodup_cons, List.mem_append, not_or, List.nodup_append] at hnd
    obtain ⟨⟨hal, har⟩, hndl, hndr, hdisj⟩ := hnd
    simp only [Shape.addrs, List.mem_cons, List.mem_append] at hb
    rcases hb with rfl | hb | hb
    · rw [hn] at hn'
      cases hn'
      refine Or.inr ⟨l.root, r.root, hin, ?_, ?_, ?_, ?_, ?_⟩
      · intro e
        exact hdisj l.root_mem_addrs (e ▸ r.root_mem_addrs)
      · simp [Shape.addrs, l.root_mem_addrs]
      · simp [Shape.addrs, r.root_mem_addrs]
      · cases l with
        | leaf x => obtain ⟨m, hm, -, hp⟩ := hL; exact ⟨m, hm, hp⟩
        | node x l1 l2 => obtain ⟨⟨m, hm, -, hp⟩, -, -⟩ := hL; exact ⟨m, hm, hp⟩
      · cases r with
        | leaf x => obtain ⟨m, hm, -, hp⟩ := hR; exact ⟨m, hm, hp⟩
        | node x l1 l2 => obtain ⟨⟨m, hm, -, hp⟩, -, -⟩ := hR; exact ⟨m, hm, hp⟩
    · rcases ihl hL hndl b hb n hn with h1 | ⟨x, y, h1, h2, h3, h4, h5, h6⟩
      · exact Or.inl h1
      · exact Or.inr ⟨x, y, h1, h2, by simp [Shape.addrs, h3], by simp [Shape.addrs, h4], h5, h6⟩
    · rcases ihr hR hndr b hb n hn with h1 | ⟨x, y, h1, h2, h3, h4, h5, h6⟩
      · exact Or.inl h1
      · exact Or.inr ⟨x, y, h1, h2, by simp [Shape.addrs, h3], by simp [Shape.addrs, h4], h5, h6⟩

/-- In a realised shape a node other than the root has a parent reference to an address of
the shape that lists it as a child; the root has the parent reference `par`. -/
theorem Shape.Rep.parent_cases {h : List node_t} :
    ∀ {s : Shape} {par : Option Nat}, s.Rep h par → ∀ a ∈ s.addrs, ∀ n, h[a]? = some n →
      (a = s.root ∧ n._parent = par) ∨
      (∃ p np, n._parent = some p ∧ p ∈ s.addrs ∧ h[p]? = some np ∧
        (np._lchild = some a ∨ np._rchild = some a)) := by
  intro s
  induction s with
  | leaf a =>
    intro par hs b hb n hn
    simp [Shape.addrs] at hb
    subst hb
    obtain ⟨n', hn', -, hp⟩ := hs
    rw [hn] at hn'
    cases hn'
    exact Or.inl ⟨rfl, hp⟩
  | node a l r ihl ihr =>
    intro par hs b hb n hn
    obtain ⟨⟨n', hn', hin, hp⟩, hL, hR⟩ := hs
    simp only [Shape.addrs, List.mem_cons, List.mem_append] at hb
    by_cases hba : b = a
    · subst hba
      rw [hn] at hn'
      cases hn'
      exact Or.inl ⟨rfl, hp⟩
    · have hb' : b ∈ l.addrs ∨ b ∈ r.addrs := by
        rcases hb with h1 | h1 | h1
        · exact absurd h1 hba
        · exact Or.inl h1
        · exact Or.inr h1
      rcases hb' with hb' | hb'
      · rcases ihl hL b hb' n hn with ⟨h1, h2⟩ | ⟨p, np, h1, h2, h3, h4⟩
        · exact Or.inr ⟨a, n', h2, by simp [Shape.addrs], hn', Or.inl (h1 ▸ hin.2.1)⟩
        · exact Or.inr ⟨p, np, h1, by simp [Shape.addrs, h2], h3, h4⟩
      · rcases ihr hR b hb' n hn with ⟨h1, h2⟩ | ⟨p, np, h1, h2, h3, h4⟩
        · exact Or.inr ⟨a, n', h2, by simp [Shape.addrs], hn', Or.inr (h1 ▸ hin.2.2)⟩
        · exact Or.inr ⟨p, np, h1, by simp [Shape.addrs, h2], h3, h4⟩

theorem Shape.RepC.child_mem {h : List node_t} :
    ∀ {s : Shape}, s.RepC h → ∀ a ∈ s.addrs, ∀ n c, h[a]? = some n →
      (n._lchild = some c ∨ n._rchild = some c) → c ∈ s.addrs := by
  intro s
  induction s with
  | leaf a =>
    intro hs b hb n c hn hc
    simp [Shape.addrs] at hb
    subst hb
    obtain ⟨n', hn', -, hl, hr⟩ := hs
    rw [hn] at hn'
    cases hn'
    rcases hc with hc | hc
    · rw [hl] at hc; cases hc
    · rw [hr] at hc; cases hc
  | node a l r ihl ihr =>
    intro hs b hb n c hn hc
    obtain ⟨⟨n', hn', -, hl, hr⟩, hL, hR⟩ := hs
    simp only [Shape.addrs, List.mem_cons, List.mem_append] at hb ⊢
    by_cases hba : b = a
    · subst hba
      rw [hn] at hn'
      cases hn'
      rcases hc with hc | hc
      · rw [hl] at hc; cases hc; exact Or.inr (Or.inl l.root_mem_addrs)
      · rw [hr] at hc; cases hc; exact Or.inr (Or.inr r.root_mem_addrs)
    · rcases hb with h1 | h1 | h1
      · exact absurd h1 hba
      · exact Or.inr (Or.inl (ihl hL b h1 n c hn hc))
      · exact Or.inr (Or.inr (ihr hR b h1 n c hn hc))

theorem Shape.RepC.reach_mem {h : List node_t} {s : Shape} (hs : s.RepC h) {a k : Nat}
    (ha : a ∈ s.addrs) (hr : Reach h a k) : k ∈ s.addrs := by
  induction hr with
  | refl => exact ha
  | left _ hn hc ih => exact hs.child_mem _ ih _ _ hn (Or.inl hc)
  | right _ hn hc ih => exact hs.child_mem _ ih _ _ hn (Or.inr hc)

theorem Reach.trans_reach {h : List node_t} {a b c : Nat} (h1 : Reach h a b) (h2 : Reach h b c) :
    Reach h a c := by
  induction h2 with
  | refl => exact h1
  | left _ hn hc ih => exact Reach.left ih hn hc
  | right _ hn hc ih => exact Reach.right ih hn hc

theorem Shape.RepC.reach_of_mem {h : List node_t} :
    ∀ {s : Shape}, s.RepC h → ∀ k ∈ s.addrs, Reach h s.root k := by
  intro s
  induction s with
  | leaf a =>
    intro _ k hk
    simp [Shape.addrs] at hk
    subst hk
    exact Reach.refl _
  | node a l r ihl ihr =>
    intro hs k hk
    obtain ⟨⟨n, hn, -, hl, hr⟩, hL, hR⟩ := hs
    simp only [Shape.addrs, List.mem_cons, List.mem_append] at hk
    rcases hk with rfl | hk | hk
    · exact Reach.refl _
    · exact Reach.trans_reach (Reach.left (Reach.refl _) hn hl) (ihl hL k hk)
    · exact Reach.trans_reach (Reach.right (Reach.refl _) hn hr) (ihr hR k hk)

theorem mem_unique_of_nodup_flatMap :
    ∀ {F : List Shape}, (F.flatMap Shape.addrs).Nodup → ∀ {s s' : Shape} {k : Nat},
      s ∈ F → s' ∈ F → k ∈ s.addrs → k ∈ s'.addrs → s = s' := by
  intro F
  induction F with
  | nil => intro _ s s' k hs; simp at hs
  | cons x F ih =>
    intro hnd s s' k hs hs' hk hk'
    simp only [List.flatMap_cons, List.nodup_append] at hnd
    obtain ⟨-, hndF, hdisj⟩ := hnd
    rcases List.mem_cons.1 hs with h1 | h1 <;> rcases List.mem_cons.1 hs' with h2 | h2
    · rw [h1, h2]
    · subst h1
      exact absurd (List.mem_flatMap.2 ⟨s', h2, hk'⟩) (fun hmem => hdisj hk hmem)
    · subst h2
      exact absurd (List.mem_flatMap.2 ⟨s, h1, hk⟩) (fun hmem => hdisj hk' hmem)
    · exact ih hndF h1 h2 hk hk'

theorem tree_t.Forest.nodup {t : tree_t} {F : List Shape} (hF : t.Forest F) :
    (F.flatMap Shape.addrs).Nodup :=
  hF.2.2.2.nodup_iff.2 (List.nodup_range _)

theorem tree_t.Forest.mem_iff {t : tree_t} {F : List Shape} (hF : t.Forest F) {k : Nat} :
    k ∈ F.flatMap Shape.addrs ↔ k < t._size := by
  rw [hF.2.2.2.mem_iff, List.mem_range]

theorem Shape.nodup_of_mem {F : List Shape} (hnd : (F.flatMap Shape.addrs).Nodup) {s : Shape}
    (hs : s ∈ F) : s.addrs.Nodup := by
  induction F with
  | nil => simp at hs
  | cons x F ih =>
    simp only [List.flatMap_cons, List.nodup_append] at hnd
    rcases List.mem_cons.1 hs with rfl | hs
    · exact hnd.1
    · exact ih hnd.2.1 hs

/-- A well-formed packed tree satisfies the pointwise invariants. -/
theorem tree_t.WF.invariants {t : tree_t} (hwf : t.WF) :
    t.I1 ∧ t.I2 ∧ t.roots_parentless ∧ t.covered := by
  obtain ⟨F, hF⟩ := hwf
  have hnd := hF.nodup
  obtain ⟨hlen, hroots, hrep, hperm⟩ := hF
  have hF : t.Forest F := ⟨hlen, hroots, hrep, hperm⟩
  have hfind : ∀ k n, t._tree[k]? = some n → ∃ s ∈ F, k ∈ s.addrs := by
    intro k n hk
    have : k < t._size := by rw [← hlen]; exact (List.getElem?_eq_some_iff.1 hk).1
    exact List.mem_flatMap.1 (hF.mem_iff.2 this)
  have hsub : ∀ s ∈ F, ∀ a ∈ s.addrs, a < t._size :=
    fun s hs a ha => hF.mem_iff.1 (List.mem_flatMap.2 ⟨s, hs, ha⟩)
  refine ⟨?_, ⟨?_, ?_⟩, ?_, ?_⟩
  · intro k n hk
    obtain ⟨s, hs, hks⟩ := hfind k n hk
    rcases (hrep s hs).node_cases (Shape.nodup_of_mem hnd hs) k hks n hk with
      h1 | ⟨l, r, h1, h2, h3, h4, -, -⟩
    · exact Or.inl h1
    · exact Or.inr ⟨h1.1, l, r, h1.2.1, h1.2.2, h2, hsub s hs l h3, hsub s hs r h4⟩
  · intro k n c hk hc
    obtain ⟨s, hs, hks⟩ := hfind k n hk
    rcases (hrep s hs).node_cases (Shape.nodup_of_mem hnd hs) k hks n hk with
      h1 | ⟨l, r, h1, -, -, -, h5, h6⟩
    · rcases hc with hc | hc
      · rw [h1.2.1] at hc; cases hc
      · rw [h1.2.2] at hc; cases hc
    · rcases hc with hc | hc
      · rw [h1.2.1] at hc; cases hc; exact h5
      · rw [h1.2.2] at hc; cases hc; exact h6
  · intro k n p hk hp
    obtain ⟨s, hs, hks⟩ := hfind k n hk
    rcases (hrep s hs).parent_cases k hks n hk with ⟨-, h2⟩ | ⟨p', np, h1, -, h3, h4⟩
    · rw [h2] at hp; cases hp
    · rw [h1] at hp; cases hp; exact ⟨np, h3, h4⟩
  · intro u hu
    rw [← hroots] at hu
    obtain ⟨s, hs, rfl⟩ := List.mem_map.1 hu
    have := hrep s hs
    cases s with
    | leaf a => obtain ⟨n, hn, -, hp⟩ := this; exact ⟨n, hn, hp⟩
    | node a l r => obtain ⟨⟨n, hn, -, hp⟩, -, -⟩ := this; exact ⟨n, hn, hp⟩
  · intro k hk
    obtain ⟨s, hs, hks⟩ := List.mem_flatMap.1 (hF.mem_iff.2 hk)
    refine ⟨s.root, ⟨?_, (hrep s hs).repC.reach_of_mem k hks⟩, ?_⟩
    · rw [← hroots]; exact List.mem_map_of_mem _ hs
    · rintro v ⟨hv, hreach⟩
      rw [← hroots] at hv
      obtain ⟨s', hs', rfl⟩ := List.mem_map.1 hv
      have hk' := (hrep s' hs').repC.reach_mem s'.root_mem_addrs hreach
      rw [mem_unique_of_nodup_flatMap hnd hs hs' hks hk']

end Gstar

namespace Gstar

/-! ## Writes through pointers -/

theorem store_eq_upd {h : List node_t} {a : Nat} (f : node_t → node_t) (ha : a < h.length) :
    store h a f = some (upd h a f) := by
  simp [store, upd, node_at, List.getElem?_eq_getElem ha]

theorem store_some {h h' : List node_t} {a : Nat} {f : node_t → node_t}
    (hs : store h a f = some h') : a < h.length ∧ h' = upd h a f := by
  unfold store at hs
  cases hn : h[a]? with
  | none => simp [hn] at hs
  | some n =>
    have ha := (List.getElem?_eq_some_iff.1 hn).1
    simp only [hn] at hs
    cases hs
    exact ⟨ha, by simp [upd, node_at, hn]⟩

@[simp] theorem length_upd (h : List node_t) (a : Nat) (f : node_t → node_t) :
    (upd h a f).length = h.length := by
  simp [upd]

theorem getElem?_upd (h : List node_t) (a b : Nat) (f : node_t → node_t) :
    (upd h a f)[b]? = if b = a then (h[b]?).map f else h[b]? := by
  unfold upd
  by_cases hba : b = a
  · subst hba
    simp only [if_true]
    by_cases hb : b < h.length
    · rw [List.getElem?_set_self hb]
      simp [node_at, List.getElem?_eq_getElem hb]
    · have hb' : h.length ≤ b := Nat.le_of_not_lt hb
      rw [List.getElem?_eq_none (by simpa using hb'), List.getElem?_eq_none hb']
      rfl
  · simp only [hba, if_false]
    exact List.getElem?_set_ne (fun e => hba e.symm)

theorem getElem?_upd_ne {h : List node_t} {a b : Nat} (f : node_t → node_t) (hba : b ≠ a) :
    (upd h a f)[b]? = h[b]? := by
  rw [getElem?_upd, if_neg hba]

theorem getElem?_upd_self {h : List node_t} {a : Nat} (f : node_t → node_t) :
    (upd h a f)[a]? = (h[a]?).map f := by
  rw [getElem?_upd, if_pos rfl]

/-- A realised shape stays realised when the nodes at its addresses keep their flag and their
child pointers. -/
theorem Shape.RepC.congr {h h' : List node_t} :
    ∀ {s : Shape}, (∀ a ∈ s.addrs, ∀ n, h[a]? = some n → ∃ n', h'[a]? = some n' ∧
        n'._children = n._children ∧ n'._lchild = n._lchild ∧ n'._rchild = n._rchild) →
      s.RepC h → s.RepC h' := by
  intro s
  induction s with
  | leaf a =>
    intro hc hs
    obtain ⟨n, hn, h1, h2, h3⟩ := hs
    obtain ⟨n', hn', e1, e2, e3⟩ := hc a (by simp [Shape.addrs]) n hn
    exact ⟨n', hn', by rw [e1, h1], by rw [e2, h2], by rw [e3, h3]⟩
  | node a l r ihl ihr =>
    intro hc hs
    obtain ⟨⟨n, hn, h1, h2, h3⟩, hL, hR⟩ := hs
    obtain ⟨n', hn', e1, e2, e3⟩ := hc a (by simp [Shape.addrs]) n hn
    exact ⟨⟨n', hn', by rw [e1, h1], by rw [e2, h2], by rw [e3, h3]⟩,
      ihl (fun b hb => hc b (by simp [Shape.addrs, hb])) hL,
      ihr (fun b hb => hc b (by simp [Shape.addrs, hb])) hR⟩

/-- A realised shape stays realised when the heap is unchanged at its addresses. -/
theorem Shape.RepC.frame {h h' : List node_t} {s : Shape}
    (hfr : ∀ a ∈ s.addrs, h'[a]? = h[a]?) (hs : s.RepC h) : s.RepC h' :=
  Shape.RepC.congr (fun a ha n hn => ⟨n, by rw [hfr a ha, hn], rfl, rfl, rfl⟩) hs

/-! ## Flags and labels through `make_flat_tree` -/

theorem key_moved (n : node_t) (p : Option Nat) (σ : Nat → Nat) : (n.moved p σ).key = n.key := rfl

/-- The array built by `make_flat_tree` lists the flags and labels of the source nodes in queue
order. -/
theorem flat_keys {h T : List node_t} {F : List Shape}
    (hlen : T.length = (queue_of F).length) (himg : ∀ s ∈ F, s.Img h T (slot_of F) none)
    (hd : (F.flatMap Shape.addrs).Nodup) :
    T.map node_t.key = (queue_of F).map (fun a => (node_at h a).key) := by
  apply List.ext_getElem
  · simp [hlen]
  · intro i h1 h2
    simp only [List.length_map] at h1 h2
    simp only [List.getElem_map]
    have hmem : (queue_of F)[i] ∈ F.flatMap Shape.addrs :=
      mem_queue_of.1 (List.getElem_mem _)
    obtain ⟨s, hs, has⟩ := List.mem_flatMap.1 hmem
    obtain ⟨p, hp⟩ := (himg s hs).get _ has
    have hslot : slot_of F (queue_of F)[i] = i := List.indexOf_getElem (queue_of_nodup hd) i h2
    rw [hslot, List.getElem?_eq_getElem h1] at hp
    have hp' : T[i] = (node_at h (queue_of F)[i]).moved p (slot_of F) := Option.some.inj hp
    rw [hp']
    rfl

/-- Summary of `make_flat_tree` for a realised forest that covers the whole heap: the result
is well-formed, has as many slots as the heap has nodes, has the slots `0, 1, ...` as unroot
set, keeps the flag and label of every root at its slot, and holds the same flags and labels
as the heap, up to order. -/
theorem make_flat_tree_summary (h : List node_t) (F : List Shape)
    (hF : ∀ s ∈ F, s.RepC h) (hp : (F.flatMap Shape.addrs).Perm (List.range h.length)) :
    ∃ t, make_flat_tree h (F.map Shape.root) = some t ∧ t.WF ∧ t._size = h.length ∧
      t._tree.length = h.length ∧
      t._unroot = List.range F.length ∧
      (t._tree.map node_t.key).Perm (h.map node_t.key) ∧
      (∀ i (hi : i < F.length), (t._tree[i]?).map node_t.key = some (node_at h F[i].root).key) := by
  have hd : (F.flatMap Shape.addrs).Nodup := hp.nodup_iff.2 (List.nodup_range _)
  obtain ⟨t, hrun, hforest, hsize, hur, himg⟩ := make_flat_tree_wf h F hF hd
  have hlenq : (queue_of F).length = h.length := by
    rw [(queue_of_perm F).length_eq, hp.length_eq, List.length_range]
  have hsz : t._size = h.length := by rw [hsize, ← length_queue_of, hlenq]
  have hlenT : t._tree.length = (queue_of F).length := by rw [hforest.1, hsz, hlenq]
  have hkeys := flat_keys hlenT himg hd
  refine ⟨t, hrun, ⟨_, hforest⟩, hsz, by rw [hforest.1, hsz], hur, ?_, ?_⟩
  · rw [hkeys]
    have h1 : (queue_of F).Perm (List.range h.length) := (queue_of_perm F).trans hp
    have h2 : h.map node_t.key = (List.range h.length).map (fun a => (node_at h a).key) := by
      apply List.ext_getElem
      · simp
      · intro i h1 h2
        simp only [List.length_map] at h1
        simp [node_at, List.getElem?_eq_getElem h1]
    rw [h2]
    exact h1.map _
  · intro i hi
    have hiq : i < (queue_of F).length := by
      simp only [queue_of, List.length_append, List.length_map]; omega
    have hqi : (queue_of F)[i] = F[i].root := by
      simp only [queue_of]
      rw [List.getElem_append_left (by simpa using hi)]
      simp
    have : (t._tree.map node_t.key)[i]? = some (node_at h F[i].root).key := by
      rw [hkeys, List.getElem?_map, List.getElem?_eq_getElem hiq, hqi]
      rfl
    rw [← this, List.getElem?_map]

end Gstar

namespace Gstar

/-! ## Edits that keep flags, child pointers, labels -/

theorem KidsLe.refl (h : List node_t) : KidsLe h h := fun _ n hn => ⟨n, hn, rfl⟩

theorem KidsLe.trans {h1 h2 h3 : List node_t} (a : KidsLe h1 h2) (b : KidsLe h2 h3) :
    KidsLe h1 h3 := by
  intro x n hn
  obtain ⟨n', hn', e⟩ := a x n hn
  obtain ⟨n'', hn'', e'⟩ := b x n' hn'
  exact ⟨n'', hn'', e'.trans e⟩

theorem KidsLe.append (h : List node_t) (x : List node_t) : KidsLe h (h ++ x) := by
  intro a n hn
  have ha := (List.getElem?_eq_some_iff.1 hn).1
  exact ⟨n, by rw [List.getElem?_append_left ha, hn], rfl⟩

theorem KidsLe.upd (h : List node_t) (a : Nat) {f : node_t → node_t}
    (hf : ∀ n, (f n).kids = n.kids) : KidsLe h (upd h a f) := by
  intro b n hn
  rw [getElem?_upd]
  by_cases hba : b = a
  · simp only [hba, if_true]
    rw [← hba, hn]
    exact ⟨f n, rfl, hf n⟩
  · simp only [hba, if_false]
    exact ⟨n, hn, rfl⟩

theorem Shape.RepC.of_kidsLe {h h' : List node_t} {s : Shape} (hk : KidsLe h h')
    (hs : s.RepC h) : s.RepC h' := by
  refine Shape.RepC.congr (fun a _ n hn => ?_) hs
  obtain ⟨n', hn', e⟩ := hk a n hn
  simp only [node_t.kids, Prod.mk.injEq] at e
  exact ⟨n', hn', e.1, e.2.1, e.2.2⟩

theorem map_key_upd (h : List node_t) (a : Nat) {f : node_t → node_t}
    (hf : ∀ n, (f n).key = n.key) : (upd h a f).map node_t.key = h.map node_t.key := by
  apply List.ext_getElem?
  intro i
  rw [List.getElem?_map, List.getElem?_map, getElem?_upd]
  by_cases hia : i = a
  · simp only [hia, if_true]
    cases h[a]? with
    | none => rfl
    | some n => simp [hf n]
  · simp only [hia, if_false]

theorem node_at_upd_key (h : List node_t) (a b : Nat) {f : node_t → node_t}
    (hf : ∀ n, (f n).key = n.key) : (node_at (upd h a f) b).key = (node_at h b).key := by
  have := congrArg (fun l => l[b]?) (map_key_upd h a hf)
  simp only [List.getElem?_map] at this
  unfold node_at
  cases h1 : (upd h a f)[b]? with
  | none =>
    cases h2 : h[b]? with
    | none => rfl
    | some n => rw [h1, h2] at this; simp at this
  | some n' =>
    cases h2 : h[b]? with
    | none => rw [h1, h2] at this; simp at this
    | some n => rw [h1, h2] at this; simpa using this

/-! ## `set_root`, first case: the outgroup is an unroot member -/

/-- The heap edit of the first case of `set_root`, for the outgroup tree `so` and the two other
trees `sa`, `sb` of the forest: the two stores succeed and the edited heap realises the forest
`[so, node fresh sa sb]`, which covers it. -/
theorem set_root_A_heap (h : List node_t) (so sa sb : Shape)
    (ho : so.RepC h) (ha : sa.RepC h) (hb : sb.RepC h)
    (hp : (so.addrs ++ (sa.addrs ++ sb.addrs)).Perm (List.range h.length)) :
    ∃ h1 h2,
      store (h ++ [{ node_t.fresh with _lchild := some sa.root, _rchild := some sb.root,
                                       _children := true }]) sb.root
               (fun x => { x with _parent := some h.length }) = some h1 ∧
      store h1 sa.root (fun x => { x with _parent := some h.length }) = some h2 ∧
      h2.length = h.length + 1 ∧
      (∀ s ∈ [so, Shape.node h.length sa sb], s.RepC h2) ∧
      (([so, Shape.node h.length sa sb]).flatMap Shape.addrs).Perm (List.range h2.length) ∧
      h2.map node_t.key = h.map node_t.key ++ [(true, "")] := by
  let x0 : node_t := { node_t.fresh with _lchild := some sa.root, _rchild := some sb.root,
                                         _children := true }
  let f : node_t → node_t := fun x => { x with _parent := some h.length }
  have hfk : ∀ n, (f n).kids = n.kids := fun _ => rfl
  have hfkey : ∀ n, (f n).key = n.key := fun _ => rfl
  have hsa : sa.root < (h ++ [x0]).length := by
    have := ha.root_lt; simp; omega
  have hsb : sb.root < (h ++ [x0]).length := by
    have := hb.root_lt; simp; omega
  refine ⟨upd (h ++ [x0]) sb.root f, upd (upd (h ++ [x0]) sb.root f) sa.root f,
    store_eq_upd f hsb, store_eq_upd f (by simpa using hsa), by simp, ?_, ?_, ?_⟩
  · have hk : KidsLe h (upd (upd (h ++ [x0]) sb.root f) sa.root f) :=
      ((KidsLe.append h [x0]).trans (KidsLe.upd _ _ hfk)).trans (KidsLe.upd _ _ hfk)
    intro s hs
    simp only [List.mem_cons, List.mem_singleton, List.not_mem_nil, or_false] at hs
    rcases hs with rfl | rfl
    · exact ho.of_kidsLe hk
    · refine ⟨⟨x0, ?_, rfl, rfl, rfl⟩, ha.of_kidsLe hk, hb.of_kidsLe hk⟩
      have h1 : h.length ≠ sa.root := Nat.ne_of_gt ha.root_lt
      have h2 : h.length ≠ sb.root := Nat.ne_of_gt hb.root_lt
      rw [getElem?_upd_ne f h1, getElem?_upd_ne f h2]
      simp
  · simp only [List.flatMap_cons, List.flatMap_nil, List.append_nil, Shape.addrs, length_upd,
      List.length_append, List.length_singleton, List.range_succ]
    have h1 : (so.addrs ++ h.length :: (sa.addrs ++ sb.addrs)).Perm
        ((so.addrs ++ (sa.addrs ++ sb.addrs)) ++ [h.length]) := by
      have : (h.length :: (sa.addrs ++ sb.addrs)).Perm ((sa.addrs ++ sb.addrs) ++ [h.length]) := by
        simpa using (@List.perm_append_comm _ [h.length] (sa.addrs ++ sb.addrs))
      have := List.Perm.append_left so.addrs this
      simpa [List.append_assoc] using this
    exact h1.trans (List.Perm.append_right _ hp)
  · rw [map_key_upd _ _ hfkey, map_key_upd _ _ hfkey]
    simp [x0, node_t.key, node_t.fresh]

end Gstar

namespace Gstar

/-! ## Paths in shapes -/

theorem plug_append (fs gs : List Frame) (s : Shape) :
    plug (fs ++ gs) s = plug gs (plug fs s) := by
  induction fs generalizing s with
  | nil => rfl
  | cons f fs ih => simp [plug, ih]

/-- Every address of a shape is the root of a subtree reached by a path from the root. -/
theorem exists_plug (s : Shape) : ∀ o ∈ s.addrs, ∃ fs sub, s = plug fs sub ∧ sub.root = o := by
  induction s with
  | leaf a =>
    intro o ho
    simp [Shape.addrs] at ho
    exact ⟨[], Shape.leaf a, rfl, by simp [ho]⟩
  | node a l r ihl ihr =>
    intro o ho
    simp only [Shape.addrs, List.mem_cons, List.mem_append] at ho
    rcases ho with rfl | ho | ho
    · exact ⟨[], Shape.node o l r, rfl, rfl⟩
    · obtain ⟨fs, sub, e, hr⟩ := ihl o ho
      refine ⟨fs ++ [⟨a, true, r⟩], sub, ?_, hr⟩
      rw [plug_append, ← e]
      simp [plug]
    · obtain ⟨fs, sub, e, hr⟩ := ihr o ho
      refine ⟨fs ++ [⟨a, false, l⟩], sub, ?_, hr⟩
      rw [plug_append, ← e]
      simp [plug]

theorem root_plug_cons (f : Frame) (fs : List Frame) (s : Shape) :
    (plug (f :: fs) s).root = last_addr f fs := by
  induction fs generalizing f s with
  | nil => cases hf : f.onLeft <;> simp [plug, last_addr, hf]
  | cons g fs ih =>
    have := ih g (if f.onLeft then Shape.node f.addr s f.sib else Shape.node f.addr f.sib s)
    simpa [plug, last_addr] using this

theorem addrs_plug (fs : List Frame) (s : Shape) :
    (plug fs s).addrs.Perm (s.addrs ++ fs.flatMap Frame.addrs) := by
  induction fs generalizing s with
  | nil => simp [plug]
  | cons f fs ih =>
    simp only [plug, List.flatMap_cons]
    refine (ih _).trans ?_
    rw [← List.append_assoc]
    refine List.Perm.append_right _ ?_
    cases hf : f.onLeft
    · simp only [Bool.false_eq_true, if_false, Shape.addrs, Frame.addrs]
      simpa using (@List.perm_append_comm _ (f.addr :: f.sib.addrs) s.addrs)
    · simp only [if_true, Shape.addrs, Frame.addrs]
      have h1 : (f.addr :: (s.addrs ++ f.sib.addrs)).Perm (s.addrs ++ f.addr :: f.sib.addrs) := by
        simpa using (@List.perm_middle _ f.addr s.addrs f.sib.addrs).symm
      exact h1

theorem root_reroot_up_cons (f : Frame) (fs : List Frame) (U : Shape) :
    (reroot_up (f :: fs) U).root = f.addr := by
  cases hf : f.onLeft <;> simp [reroot_up, hf]

theorem addrs_reroot_up (fs : List Frame) (U : Shape) :
    (reroot_up fs U).addrs.Perm (fs.flatMap Frame.addrs ++ U.addrs) := by
  induction fs with
  | nil => simp [reroot_up]
  | cons f fs ih =>
    simp only [List.flatMap_cons, List.append_assoc]
    cases hf : f.onLeft
    · simp only [reroot_up, hf, Bool.false_eq_true, if_false, Shape.addrs, Frame.addrs,
        List.cons_append]
      exact List.Perm.cons _ (List.Perm.append_left _ ih)
    · simp only [reroot_up, hf, if_true, Shape.addrs, Frame.addrs, List.cons_append]
      refine List.Perm.cons _ ?_
      exact (List.perm_append_comm).trans (List.Perm.append_left _ ih)

/-- The pointers along the path of a realised shape. -/
theorem rep_plug {h : List node_t} :
    ∀ (fs : List Frame) (sub : Shape) (par : Option Nat), (plug fs sub).Rep h par →
      sub.Rep h (match fs with
        | [] => par
        | f :: _ => some f.addr) ∧ PathRep h sub.root fs par := by
  intro fs
  induction fs with
  | nil => intro sub par hs; exact ⟨hs, trivial⟩
  | cons f fs ih =>
    intro sub par hs
    simp only [plug] at hs
    have := ih _ par hs
    obtain ⟨hnode, hpath⟩ := this
    cases hf : f.onLeft
    · simp only [hf, Bool.false_eq_true, if_false] at hnode hpath
      obtain ⟨⟨n, hn, hin, hp⟩, hsib, hsub⟩ := hnode
      refine ⟨hsub, ⟨n, hn, ?_, hp⟩, hsib, ?_⟩
      · simpa [hf] using hin
      · simpa using hpath
    · simp only [hf, if_true] at hnode hpath
      obtain ⟨⟨n, hn, hin, hp⟩, hsub, hsib⟩ := hnode
      refine ⟨hsub, ⟨n, hn, ?_, hp⟩, hsib, ?_⟩
      · simpa [hf] using hin
      · simpa using hpath

end Gstar

namespace Gstar

/-! ## `swap_parent` along a path -/

theorem Chain.frame_chain {h h' : List node_t} {fresh : Nat} :
    ∀ {fs : List Frame} {c : Option Nat}, (∀ g ∈ fs, h'[g.addr]? = h[g.addr]?) →
      Chain h fresh c fs → Chain h' fresh c fs := by
  intro fs
  induction fs with
  | nil => intro _ _ _; trivial
  | cons f fs ih =>
    intro c hfr hc
    obtain ⟨⟨n, hn, h1, h2⟩, hrest⟩ := hc
    refine ⟨⟨n, ?_, h1, h2⟩, ih (fun g hg => hfr g (List.mem_cons_of_mem _ hg)) hrest⟩
    rw [hfr f (List.mem_cons_self _ _), hn]

theorem getElem?_path_upd_of_not_mem :
    ∀ (fs : List Frame) (h : List node_t) (a : Nat), a ∉ fs.map Frame.addr →
      (path_upd h fs)[a]? = h[a]? := by
  intro fs
  induction fs with
  | nil => intro h a _; rfl
  | cons f fs ih =>
    intro h a ha
    simp only [List.map_cons, List.mem_cons, not_or] at ha
    rw [path_upd, ih _ _ ha.2, getElem?_upd_ne _ ha.1]

theorem getElem?_path_upd_of_mem :
    ∀ (fs : List Frame) (h : List node_t), (fs.map Frame.addr).Nodup → ∀ f ∈ fs,
      (path_upd h fs)[f.addr]? = (h[f.addr]?).map (if f.onLeft then swapL else swapR) := by
  intro fs
  induction fs with
  | nil => intro h _ f hf; simp at hf
  | cons g fs ih =>
    intro h hnd f hf
    simp only [List.map_cons, List.nodup_cons] at hnd
    rw [path_upd]
    rcases List.mem_cons.1 hf with rfl | hf
    · rw [getElem?_path_upd_of_not_mem _ _ _ hnd.1, getElem?_upd_self]
    · have hne : f.addr ≠ g.addr := by
        intro e
        exact hnd.1 (e ▸ List.mem_map_of_mem _ hf)
      rw [ih _ hnd.2 f hf, getElem?_upd_ne _ hne]

@[simp] theorem length_path_upd (fs : List Frame) (h : List node_t) :
    (path_upd h fs).length = h.length := by
  induction fs generalizing h with
  | nil => rfl
  | cons f fs ih => rw [path_upd, ih, length_upd]

theorem map_key_path_upd (fs : List Frame) (h : List node_t) :
    (path_upd h fs).map node_t.key = h.map node_t.key := by
  induction fs generalizing h with
  | nil => rfl
  | cons f fs ih =>
    rw [path_upd, ih]
    apply map_key_upd
    intro n
    cases f.onLeft <;> rfl

theorem swap_parent_left {h : List node_t} {x q : Nat} {n : node_t} {c : Option Nat}
    (fuel : Nat) (hn : h[x]? = some n) (hc : c = n._lchild) (hq : n._parent = some q) :
    swap_parent (fuel + 1) h x c = swap_parent fuel (upd h x swapL) q (some x) := by
  rw [swap_parent]
  simp only [hn, if_pos hc]
  unfold upd
  rw [node_at_of_get hn]
  simp only [swapL, hq]

theorem swap_parent_right {h : List node_t} {x q : Nat} {n : node_t} {c : Option Nat}
    (fuel : Nat) (hn : h[x]? = some n) (hl : c ≠ n._lchild) (hc : c = n._rchild)
    (hq : n._parent = some q) :
    swap_parent (fuel + 1) h x c = swap_parent fuel (upd h x swapR) q (some x) := by
  rw [swap_parent]
  simp only [hn, if_neg hl, if_pos hc]
  unfold upd
  rw [node_at_of_get hn]
  simp only [swapR, hq]

theorem swap_parent_stop {h : List node_t} {x : Nat} {n : node_t} {c : Option Nat}
    (fuel : Nat) (hn : h[x]? = some n) (hl : c ≠ n._lchild) (hr : c ≠ n._rchild) :
    swap_parent (fuel + 1) h x c = some h := by
  rw [swap_parent]
  simp only [hn, if_neg hl, if_neg hr]

/-- The calls of `swap_parent` along the path: they exchange parent and child at every
ancestor and end with the call on `fresh`, with the topmost ancestor as argument. -/
theorem swap_path (fresh : Nat) :
    ∀ (fs : List Frame) (f : Frame) (h : List node_t) (c : Option Nat) (fuel : Nat),
      Chain h fresh c (f :: fs) → ((f :: fs).map Frame.addr).Nodup →
      swap_parent (fuel + (fs.length + 1)) h f.addr c
        = swap_parent fuel (path_upd h (f :: fs)) fresh (some (last_addr f fs)) := by
  intro fs
  induction fs with
  | nil =>
    intro f h c fuel hc _
    obtain ⟨⟨n, hn, hside, hp⟩, -⟩ := hc
    replace hp : n._parent = some fresh := hp
    simp only [List.length_nil, Nat.zero_add, path_upd, last_addr]
    cases hf : f.onLeft
    · simp only [hf, Bool.false_eq_true, if_false] at hside ⊢
      exact swap_parent_right fuel hn hside.1 hside.2 hp
    · simp only [hf, if_true] at hside ⊢
      exact swap_parent_left fuel hn hside hp
  | cons g fs ih =>
    intro f h c fuel hc hnd
    obtain ⟨⟨n, hn, hside, hp⟩, hrest⟩ := hc
    replace hp : n._parent = some g.addr := hp
    have hnd' : ((g :: fs).map Frame.addr).Nodup := by
      simp only [List.map_cons, List.nodup_cons] at hnd ⊢
      exact hnd.2
    have hfa : ∀ x ∈ g :: fs, x.addr ≠ f.addr := by
      intro x hx e
      simp only [List.map_cons, List.nodup_cons] at hnd
      exact hnd.1 (e ▸ (by simpa using List.mem_map_of_mem Frame.addr hx))
    have e1 : fuel + ((g :: fs).length + 1) = (fuel + (fs.length + 1)) + 1 := by
      simp; omega
    rw [e1]
    have key : ∀ sw : node_t → node_t,
        swap_parent (fuel + (fs.length + 1)) (upd h f.addr sw) g.addr (some f.addr)
          = swap_parent fuel (path_upd (upd h f.addr sw) (g :: fs)) fresh
              (some (last_addr g fs)) := by
      intro sw
      exact ih g (upd h f.addr sw) (some f.addr) fuel
        (Chain.frame_chain (fun x hx => getElem?_upd_ne _ (hfa x hx)) hrest) hnd'
    cases hf : f.onLeft
    · simp only [hf, Bool.false_eq_true, if_false] at hside
      rw [swap_parent_right _ hn hside.1 hside.2 hp, key swapR]
      simp [path_upd, last_addr, hf]
    · simp only [hf, if_true] at hside
      rw [swap_parent_left _ hn hside hp, key swapL]
      simp [path_upd, last_addr, hf]

/-- The last calls of `swap_parent`, on the new node `fresh` whose children are `u1`, `u2` and
whose parent pointer is `u0`, entered from the unroot member `x`. -/
theorem swap_top (g : List node_t) (fresh u0 u1 u2 x : Nat) (ur : node_t) (fuel : Nat)
    (hur : g[fresh]? = some ur) (hl : ur._lchild = some u1) (hr : ur._rchild = some u2)
    (hp : ur._parent = some u0) (h01 : u0 ≠ u1) (h02 : u0 ≠ u2) (h12 : u1 ≠ u2)
    (h0f : u0 ≠ fresh)
    (hx : x = u0 ∨ ((x = u1 ∨ x = u2) ∧ ∃ n0 : node_t, g[u0]? = some n0 ∧
      n0._lchild ≠ some fresh ∧ n0._rchild ≠ some fresh)) :
    swap_parent (fuel + 2) g fresh (some x)
      = some (if x = u1 then upd g fresh swapL else if x = u2 then upd g fresh swapR else g) := by
  rcases hx with rfl | ⟨hx, n0, hn0, hnl, hnr⟩
  · rw [if_neg h01, if_neg h02]
    refine swap_parent_stop (fuel + 1) hur ?_ ?_
    · rw [hl]; exact fun e => h01 (Option.some.inj e)
    · rw [hr]; exact fun e => h02 (Option.some.inj e)
  · have hstop : ∀ sw : node_t → node_t,
        swap_parent (fuel + 1) (upd g fresh sw) u0 (some fresh) = some (upd g fresh sw) := by
      intro sw
      refine swap_parent_stop fuel (n := n0) ?_ (fun e => hnl e.symm) (fun e => hnr e.symm)
      rw [getElem?_upd_ne _ h0f, hn0]
    rcases hx with rfl | rfl
    · rw [if_pos rfl, swap_parent_left (fuel + 1) hur hl.symm hp, hstop]
    · rw [if_neg (Ne.symm h12), if_pos rfl]
      rw [swap_parent_right (fuel + 1) hur ?_ hr.symm hp, hstop]
      rw [hl]; exact fun e => h12 (Option.some.inj e).symm

end Gstar

namespace Gstar

/-! ## `set_root`, second case: the heap before `swap_parent` -/

theorem root_heap5_length (T0 : List node_t) (u0 u1 u2 o : Nat) :
    (root_heap5 T0 u0 u1 u2 o).length = T0.length + 1 := by
  simp [root_heap5]

theorem root_heap7_length (T0 : List node_t) (u0 u1 u2 o p : Nat) :
    (root_heap7 T0 u0 u1 u2 o p).length = T0.length + 1 := by
  simp [root_heap7, root_heap5_length]

/-- The old nodes in `root_heap5`: only parent pointers changed. -/
theorem root_heap5_old (T0 : List node_t) (u0 u1 u2 o a : Nat) (n : node_t)
    (hn : T0[a]? = some n) :
    (root_heap5 T0 u0 u1 u2 o)[a]?
      = some { n with _parent := reparent T0.length o u0 u1 u2 a n._parent } := by
  have ha : a < T0.length := (List.getElem?_eq_some_iff.1 hn).1
  have haN : a ≠ T0.length := Nat.ne_of_lt ha
  have step : ∀ (h : List node_t) (b : Nat) (v : Option Nat) (m : node_t), h[a]? = some m →
      (upd h b (fun x => { x with _parent := v }))[a]?
        = some ⟨m._label, m._weight, m._lchild, m._rchild, if a = b then v else m._parent,
            m._children⟩ := by
    intro h b v m hm
    rw [getElem?_upd, hm]
    by_cases hab : a = b
    · rw [if_pos hab, if_pos hab]; rfl
    · rw [if_neg hab, if_neg hab]
  have e0 : (T0 ++ [ur_node u0 u1 u2])[a]? = some n := by
    rw [List.getElem?_append_left ha, hn]
  unfold root_heap5
  have e1 := step _ u1 (some T0.length) n e0
  have e2 := step _ u2 (some T0.length) _ e1
  have e3 := step _ u0 (some T0.length) _ e2
  have e4 : (upd (upd (upd (upd (T0 ++ [ur_node u0 u1 u2])
      u1 (fun x => { x with _parent := some T0.length }))
      u2 (fun x => { x with _parent := some T0.length }))
      u0 (fun x => { x with _parent := some T0.length }))
      T0.length (fun x => { x with _children := true }))[a]? = _ :=
    (getElem?_upd_ne _ haN).trans e3
  rw [step _ o none _ e4]
  simp only [reparent, Option.some.injEq, node_t.mk.injEq, true_and, and_true]
  split_ifs <;> first | rfl | (exfalso; tauto)

/-- The new node in `root_heap5`. -/
theorem root_heap5_new (T0 : List node_t) (u0 u1 u2 o : Nat)
    (h0 : u0 < T0.length) (h1 : u1 < T0.length) (h2 : u2 < T0.length) (ho : o < T0.length) :
    (root_heap5 T0 u0 u1 u2 o)[T0.length]?
      = some ⟨"", 0, some u1, some u2, some u0, true⟩ := by
  have e0 : T0.length ≠ u0 := Nat.ne_of_gt h0
  have e1 : T0.length ≠ u1 := Nat.ne_of_gt h1
  have e2 : T0.length ≠ u2 := Nat.ne_of_gt h2
  have eo : T0.length ≠ o := Nat.ne_of_gt ho
  unfold root_heap5
  rw [getElem?_upd_ne _ eo, getElem?_upd_self, getElem?_upd_ne _ e0, getElem?_upd_ne _ e2,
    getElem?_upd_ne _ e1, List.getElem?_append_right (Nat.le_refl _)]
  simp [ur_node, node_t.fresh]

theorem root_heap7_ne (T0 : List node_t) (u0 u1 u2 o p a : Nat) (hap : a ≠ p) :
    (root_heap7 T0 u0 u1 u2 o p)[a]? = (root_heap5 T0 u0 u1 u2 o)[a]? := by
  simp [root_heap7, getElem?_upd, hap]

/-- The node `p` in `root_heap7`, when its children in the array are `o` and `sib` in either
order: left child pointer cleared, right child `sib`. -/
theorem root_heap7_p (T0 : List node_t) (u0 u1 u2 o p sib : Nat) (n : node_t)
    (hn : T0[p]? = some n) (hos : o ≠ sib)
    (hkids : (n._lchild = some o ∧ n._rchild = some sib) ∨
      (n._lchild = some sib ∧ n._rchild = some o)) :
    (root_heap7 T0 u0 u1 u2 o p)[p]?
      = some ⟨n._label, n._weight, none, some sib, reparent T0.length o u0 u1 u2 p n._parent,
          n._children⟩ := by
  simp only [root_heap7, getElem?_upd, if_true, root_heap5_old T0 u0 u1 u2 o p n hn,
    Option.map_some']
  rcases hkids with ⟨hl, hr⟩ | ⟨hl, hr⟩
  · simp [hl, hr]
  · have : ¬ (sib = o) := fun e => hos e.symm
    simp [hl, hr, hos, this]

theorem root_heap7_key (T0 : List node_t) (u0 u1 u2 o p : Nat)
    (h0 : u0 < T0.length) (h1 : u1 < T0.length) (h2 : u2 < T0.length) (ho : o < T0.length) :
    (root_heap7 T0 u0 u1 u2 o p).map node_t.key = T0.map node_t.key ++ [(true, "")] := by
  have hk7 : ∀ n : node_t, ({ n with _lchild := none } : node_t).key = n.key := fun _ => rfl
  have hk6 : ∀ n : node_t, (if some o ≠ n._lchild then
      ({ n with _lchild := n._rchild, _rchild := n._lchild } : node_t) else n).key = n.key := by
    intro n; split <;> rfl
  unfold root_heap7
  rw [map_key_upd _ _ hk7, map_key_upd _ _ hk6]
  apply List.ext_getElem?
  intro i
  rw [List.getElem?_map]
  rcases Nat.lt_trichotomy i T0.length with hi | hi | hi
  · have hn := List.getElem?_eq_getElem hi
    rw [root_heap5_old T0 u0 u1 u2 o i _ hn, List.getElem?_append_left (by simpa using hi),
      List.getElem?_map, hn]
    rfl
  · subst hi
    rw [root_heap5_new T0 u0 u1 u2 o h0 h1 h2 ho,
      List.getElem?_append_right (by simp)]
    simp [node_t.key]
  · rw [List.getElem?_eq_none (by rw [root_heap5_length]; omega),
      List.getElem?_eq_none (by simp; omega)]
    rfl

end Gstar

namespace Gstar

/-! ## `set_root`, second case: the path before and after `swap_parent` -/

theorem PathPtr.chain {h : List node_t} {N : Nat} :
    ∀ {fs : List Frame} {c : Option Nat}, PathPtr h N c fs → Chain h N c fs := by
  intro fs
  induction fs with
  | nil => intro _ _; trivial
  | cons f fs ih =>
    intro c hp
    obtain ⟨⟨m, hm, -, hl, hr, hne, hpar⟩, hrest⟩ := hp
    refine ⟨⟨m, hm, ?_, hpar⟩, ih hrest⟩
    cases hf : f.onLeft
    · simp only [hf, Bool.false_eq_true, if_false] at hl hr ⊢
      exact ⟨by rw [hl]; exact hne, hr.symm⟩
    · simp only [hf, if_true] at hl ⊢
      exact hl.symm

/-- The ancestors above the parent of the outgroup, read in `root_heap7`. -/
theorem pathPtr_tail (T0 : List node_t) (u0 u1 u2 o p : Nat)
    (hroot : ∀ (a : Nat) (n : node_t), T0[a]? = some n →
      (n._parent = none ↔ a = u0 ∨ a = u1 ∨ a = u2)) :
    ∀ (fs : List Frame) (c : Nat), PathRep T0 c fs none → c ∉ fs.flatMap Frame.addrs →
      (fs.flatMap Frame.addrs).Nodup → (∀ f ∈ fs, f.addr ≠ o ∧ f.addr ≠ p) →
      PathPtr (root_heap7 T0 u0 u1 u2 o p) T0.length (some c) fs := by
  intro fs
  induction fs with
  | nil => intro _ _ _ _ _; trivial
  | cons f fs ih =>
    intro c hpr hc hnd hop
    obtain ⟨⟨n, hn, ⟨hflag, hl, hr⟩, hpar⟩, -, hrest⟩ := hpr
    simp only [List.flatMap_cons, List.mem_append, not_or, Frame.addrs, List.mem_cons] at hc
    simp only [List.flatMap_cons, List.nodup_append, Frame.addrs, List.nodup_cons] at hnd
    obtain ⟨⟨hfs, -⟩, hndfs, hdisj⟩ := hnd
    have hfo := (hop f (List.mem_cons_self _ _)).1
    have hfp := (hop f (List.mem_cons_self _ _)).2
    have hcs : c ≠ f.sib.root := fun e => hc.1.2 (e ▸ f.sib.root_mem_addrs)
    have hget : (root_heap7 T0 u0 u1 u2 o p)[f.addr]?
        = some { n with _parent := reparent T0.length o u0 u1 u2 f.addr n._parent } := by
      rw [root_heap7_ne _ _ _ _ _ _ _ hfp, root_heap5_old _ _ _ _ _ _ _ hn]
    refine ⟨⟨_, hget, hflag, ?_, ?_, ?_, ?_⟩, ?_⟩
    · cases hf : f.onLeft <;> simp [hf, hl]
    · cases hf : f.onLeft <;> simp [hf, hr]
    · exact fun e => hcs (Option.some.inj e)
    · simp only [reparent, if_neg hfo]
      cases fs with
      | nil =>
        simp only at hpar
        rw [if_pos ((hroot _ _ hn).1 hpar)]
        rfl
      | cons g gs =>
        simp only at hpar
        have : ¬ (f.addr = u0 ∨ f.addr = u1 ∨ f.addr = u2) := by
          intro e
          have := (hroot _ _ hn).2 e
          rw [hpar] at this
          cases this
        rw [if_neg this, hpar]
        rfl
    · refine ih f.addr hrest ?_ hndfs (fun g hg => hop g (List.mem_cons_of_mem _ hg))
      intro hmem
      exact hdisj (List.mem_cons_self _ _) hmem

/-- After the exchanges along the path, the reversed path is realised: every ancestor has its
old parent in place of the child the path came from. -/
theorem repC_reroot_up {h7 h8 : List node_t} {N : Nat} :
    ∀ (fs : List Frame) (c : Option Nat), PathPtr h7 N c fs →
      (∀ f ∈ fs, h8[f.addr]? = (h7[f.addr]?).map (if f.onLeft then swapL else swapR)) →
      (∀ f ∈ fs, f.sib.RepC h8) →
      ∀ U : Shape, U.RepC h8 → U.root = N → (reroot_up fs U).RepC h8 := by
  intro fs
  induction fs with
  | nil => intro _ _ _ _ U hU _; exact hU
  | cons f fs ih =>
    intro c hp h8f hsib U hU hUr
    obtain ⟨⟨m, hm, hflag, hl, hr, -, hpar⟩, hrest⟩ := hp
    have hrec := ih (some f.addr) hrest (fun g hg => h8f g (List.mem_cons_of_mem _ hg))
      (fun g hg => hsib g (List.mem_cons_of_mem _ hg)) U hU hUr
    have hnx : (reroot_up fs U).root = next_addr N fs := by
      cases fs with
      | nil => exact hUr
      | cons g gs => exact root_reroot_up_cons g gs U
    have h8m := h8f f (List.mem_cons_self _ _)
    rw [hm] at h8m
    have hs := hsib f (List.mem_cons_self _ _)
    cases hf : f.onLeft
    · simp only [hf, Bool.false_eq_true, if_false, Option.map_some'] at h8m hl hr
      simp only [reroot_up, hf, Bool.false_eq_true, if_false]
      exact ⟨⟨_, h8m, ⟨hflag, hl, by simp [swapR, hpar, hnx]⟩⟩, hs, hrec⟩
    · simp only [hf, if_true, Option.map_some'] at h8m hl hr
      simp only [reroot_up, hf, if_true]
      exact ⟨⟨_, h8m, ⟨hflag, by simp [swapL, hpar, hnx], hr⟩⟩, hrec, hs⟩

end Gstar

namespace Gstar

/-! ## `set_root`, second case: the heap after `swap_parent` -/

theorem perm_nodup_range {l : List Nat} {n : Nat} (h : l.Perm (List.range n)) : l.Nodup :=
  h.nodup_iff.2 (List.nodup_range _)

theorem map_addr_sublist (fs : List Frame) :
    (fs.map Frame.addr).Sublist (fs.flatMap Frame.addrs) := by
  induction fs with
  | nil => simp
  | cons f fs ih =>
    simp only [List.map_cons, List.flatMap_cons, Frame.addrs, List.cons_append]
    exact List.Sublist.cons₂ _ (List.Sublist.trans ih (List.sublist_append_right _ _))

theorem sib_not_on_path :
    ∀ (fs : List Frame), (fs.flatMap Frame.addrs).Nodup → ∀ f ∈ fs, ∀ a ∈ f.sib.addrs,
      a ∉ fs.map Frame.addr := by
  intro fs
  induction fs with
  | nil => intro _ f hf; simp at hf
  | cons g fs ih =>
    intro hnd f hf a ha hmem
    simp only [List.flatMap_cons, Frame.addrs, List.nodup_append, List.nodup_cons] at hnd
    obtain ⟨⟨hg, -⟩, hndfs, hdisj⟩ := hnd
    simp only [List.map_cons, List.mem_cons] at hmem
    rcases List.mem_cons.1 hf with rfl | hf
    · rcases hmem with e | hmem
      · exact hg (e ▸ ha)
      · exact hdisj (List.mem_cons_of_mem _ ha) ((map_addr_sublist fs).subset hmem)
    · rcases hmem with e | hmem
      · have h1 : a ∈ g.addr :: g.sib.addrs := by simp [e]
        have h2 : a ∈ fs.flatMap Frame.addrs :=
          List.mem_flatMap.2 ⟨f, hf, by simp [Frame.addrs, ha]⟩
        exact hdisj h1 h2
      · exact ih hndfs f hf a ha hmem

theorem PathRep.sib_repC {h : List node_t} :
    ∀ {fs : List Frame} {c : Nat} {par : Option Nat}, PathRep h c fs par →
      ∀ f ∈ fs, f.sib.RepC h := by
  intro fs
  induction fs with
  | nil => intro _ _ _ f hf; simp at hf
  | cons g fs ih =>
    intro c par hp f hf
    obtain ⟨-, hsib, hrest⟩ := hp
    rcases List.mem_cons.1 hf with rfl | hf
    · exact hsib.repC
    · exact ih hrest f hf

/-- The second case of `set_root` on the heap: `swap_parent` succeeds, and the heap it leaves
realises the forest made of the outgroup subtree and the reversed path. -/
theorem reroot_core (T0 : List node_t) (u0 u1 u2 : Nat) (f1 : Frame) (fs : List Frame)
    (sub A B : Shape) (h01 : u0 ≠ u1) (h02 : u0 ≠ u2) (h12 : u1 ≠ u2)
    (hS : (plug (f1 :: fs) sub).Rep T0 none) (hA : A.RepC T0) (hB : B.RepC T0)
    (hperm : ((plug (f1 :: fs) sub).addrs ++ (A.addrs ++ B.addrs)).Perm (List.range T0.length))
    (hroot : ∀ (a : Nat) (n : node_t), T0[a]? = some n →
      (n._parent = none ↔ a = u0 ∨ a = u1 ∨ a = u2))
    (hx : last_addr f1 fs = u0 ∨ last_addr f1 fs = u1 ∨ last_addr f1 fs = u2)
    (hAr : A.root = if last_addr f1 fs = u1 then u0 else u1)
    (hBr : B.root = if last_addr f1 fs = u2 then u0 else u2)
    (hu0 : u0 < T0.length) (hu1 : u1 < T0.length) (hu2 : u2 < T0.length)
    (hkid : ∀ (a : Nat) (n : node_t) (c : Nat), T0[a]? = some n →
      (n._lchild = some c ∨ n._rchild = some c) → c < T0.length) :
    ∃ h8, swap_parent (T0.length + 1 + 1) (root_heap7 T0 u0 u1 u2 sub.root f1.addr) f1.addr none
        = some h8 ∧
      h8.length = T0.length + 1 ∧
      (∀ s ∈ [sub, reroot_up (⟨f1.addr, true, f1.sib⟩ :: fs) (Shape.node T0.length A B)],
        s.RepC h8) ∧
      (([sub, reroot_up (⟨f1.addr, true, f1.sib⟩ :: fs) (Shape.node T0.length A B)]).flatMap
        Shape.addrs).Perm (List.range h8.length) ∧
      h8.map node_t.key = T0.map node_t.key ++ [(true, "")] := by
  -- the pointers along the path in the array
  obtain ⟨hsubRep, hpath⟩ := rep_plug (f1 :: fs) sub none hS
  obtain ⟨⟨n1, hn1, ⟨hflag1, hl1, hr1⟩, hpar1⟩, hsib1, hpathfs⟩ := hpath
  -- distinctness of all addresses
  have hndall := perm_nodup_range hperm
  have hndS : (sub.addrs ++ (f1 :: fs).flatMap Frame.addrs).Nodup :=
    (addrs_plug (f1 :: fs) sub).nodup_iff.1 (List.nodup_append.1 hndall).1
  have hdisjS : ∀ a, a ∈ sub.addrs ++ (f1 :: fs).flatMap Frame.addrs → a ∉ A.addrs ++ B.addrs := by
    intro a ha hab
    exact (List.nodup_append.1 hndall).2.2 ((addrs_plug (f1 :: fs) sub).mem_iff.2 ha) hab
  have hltS : ∀ a, a ∈ sub.addrs ++ (f1 :: fs).flatMap Frame.addrs → a < T0.length := by
    intro a ha
    have : a ∈ (plug (f1 :: fs) sub).addrs ++ (A.addrs ++ B.addrs) :=
      List.mem_append_left _ ((addrs_plug (f1 :: fs) sub).mem_iff.2 ha)
    exact List.mem_range.1 (hperm.mem_iff.1 this)
  simp only [List.flatMap_cons, Frame.addrs, List.nodup_append, List.nodup_cons,
    List.mem_append, List.mem_cons, not_or] at hndS
  obtain ⟨hndsub, ⟨⟨hp_sib, hndsib1⟩, hndfs, hdisj1⟩, hdisj0⟩ := hndS
  have ho_mem : sub.root ∈ sub.addrs := sub.root_mem_addrs
  have hop : sub.root ≠ f1.addr := fun e => hdisj0 ho_mem (by simp [e])
  have hos : sub.root ≠ f1.sib.root :=
    fun e => hdisj0 ho_mem (by simp [e, f1.sib.root_mem_addrs])
  have hp_fs : f1.addr ∉ fs.flatMap Frame.addrs := fun hm => hdisj1 (by simp) hm
  have hfs_op : ∀ f ∈ fs, f.addr ≠ sub.root ∧ f.addr ≠ f1.addr := by
    intro f hf
    have hmem : f.addr ∈ fs.flatMap Frame.addrs :=
      List.mem_flatMap.2 ⟨f, hf, by simp [Frame.addrs]⟩
    exact ⟨fun e => hdisj0 (e ▸ ho_mem) (List.mem_append_right _ hmem),
      fun e => hp_fs (e ▸ hmem)⟩
  -- the path in the heap handed to `swap_parent`
  have hpp : PathPtr (root_heap7 T0 u0 u1 u2 sub.root f1.addr) T0.length none
      (⟨f1.addr, true, f1.sib⟩ :: fs) := by
    have hkids : (n1._lchild = some sub.root ∧ n1._rchild = some f1.sib.root) ∨
        (n1._lchild = some f1.sib.root ∧ n1._rchild = some sub.root) := by
      cases hf : f1.onLeft
      · right; simpa [hf] using And.intro hl1 hr1
      · left; simpa [hf] using And.intro hl1 hr1
    have hget := root_heap7_p T0 u0 u1 u2 sub.root f1.addr f1.sib.root n1 hn1 hos hkids
    refine ⟨⟨_, hget, hflag1, rfl, rfl, by simp, ?_⟩,
      pathPtr_tail T0 u0 u1 u2 sub.root f1.addr hroot fs f1.addr hpathfs hp_fs hndfs hfs_op⟩
    simp only [reparent, if_neg (Ne.symm hop)]
    cases fs with
    | nil =>
      simp only at hpar1
      rw [if_pos ((hroot _ _ hn1).1 hpar1)]
      rfl
    | cons g gs =>
      simp only at hpar1
      have : ¬ (f1.addr = u0 ∨ f1.addr = u1 ∨ f1.addr = u2) := by
        intro e
        have := (hroot _ _ hn1).2 e
        rw [hpar1] at this
        cases this
      rw [if_neg this, hpar1]
      rfl
  -- the addresses of the ancestors
  have hpa_nd : ((⟨f1.addr, true, f1.sib⟩ :: fs : List Frame).map Frame.addr).Nodup := by
    simp only [List.map_cons, List.nodup_cons]
    exact ⟨fun hm => hp_fs ((map_addr_sublist fs).subset hm),
      (map_addr_sublist fs).nodup hndfs⟩
  have hpa_lt : ∀ a ∈ (⟨f1.addr, true, f1.sib⟩ :: fs : List Frame).map Frame.addr,
      a < T0.length := by
    intro a ha
    simp only [List.map_cons, List.mem_cons] at ha
    refine hltS a (List.mem_append_right _ ?_)
    rcases ha with rfl | ha
    · simp [Frame.addrs]
    · simp only [List.flatMap_cons, List.mem_append]
      exact Or.inr ((map_addr_sublist fs).subset ha)
  have hlen_le := nodup_length_le hpa_nd hpa_lt
  simp only [List.length_map, List.length_cons] at hlen_le
  obtain ⟨k, hk⟩ := Nat.exists_eq_add_of_le hlen_le
  have hfuel : T0.length + 1 + 1 = (k + 2) + (fs.length + 1) := by omega
  have hN_pa : T0.length ∉ (⟨f1.addr, true, f1.sib⟩ :: fs : List Frame).map Frame.addr :=
    fun hm => Nat.lt_irrefl _ (hpa_lt _ hm)
  have ho_lt : sub.root < T0.length := hltS _ (List.mem_append_left _ ho_mem)
  -- the heap after the exchanges along the path
  have hg_N : (path_upd (root_heap7 T0 u0 u1 u2 sub.root f1.addr)
      (⟨f1.addr, true, f1.sib⟩ :: fs))[T0.length]?
        = some ⟨"", 0, some u1, some u2, some u0, true⟩ := by
    rw [getElem?_path_upd_of_not_mem _ _ _ hN_pa,
      root_heap7_ne _ _ _ _ _ _ _ (Nat.ne_of_gt (hltS _ (by simp [Frame.addrs]))),
      root_heap5_new T0 u0 u1 u2 sub.root hu0 hu1 hu2 ho_lt]
  have hx' : last_addr f1 fs = last_addr ⟨f1.addr, true, f1.sib⟩ fs := by
    cases fs <;> rfl
  have hplug_root : last_addr f1 fs ∈ (plug (f1 :: fs) sub).addrs := by
    rw [← root_plug_cons f1 fs sub]; exact Shape.root_mem_addrs _
  have hA_notS : ∀ a ∈ A.addrs, a ∉ (plug (f1 :: fs) sub).addrs := fun a ha hS' =>
    (List.nodup_append.1 hndall).2.2 hS' (List.mem_append_left _ ha)
  have hB_notS : ∀ a ∈ B.addrs, a ∉ (plug (f1 :: fs) sub).addrs := fun a ha hS' =>
    (List.nodup_append.1 hndall).2.2 hS' (List.mem_append_right _ ha)
  have hpa_S : ∀ a ∈ (⟨f1.addr, true, f1.sib⟩ :: fs : List Frame).map Frame.addr,
      a ∈ (plug (f1 :: fs) sub).addrs := by
    intro a ha
    refine (addrs_plug (f1 :: fs) sub).mem_iff.2 (List.mem_append_right _ ?_)
    simp only [List.map_cons, List.mem_cons] at ha
    rcases ha with rfl | ha
    · simp [Frame.addrs]
    · simp only [List.flatMap_cons, List.mem_append]
      exact Or.inr ((map_addr_sublist fs).subset ha)
  -- the top of the path
  have htop : last_addr f1 fs = u0 ∨ ((last_addr f1 fs = u1 ∨ last_addr f1 fs = u2) ∧
      ∃ n0 : node_t, (path_upd (root_heap7 T0 u0 u1 u2 sub.root f1.addr)
        (⟨f1.addr, true, f1.sib⟩ :: fs))[u0]? = some n0 ∧
        n0._lchild ≠ some T0.length ∧ n0._rchild ≠ some T0.length) := by
    rcases hx with hx | hx
    · exact Or.inl hx
    · right
      refine ⟨hx, ?_⟩
      have hu0AB : u0 ∈ A.addrs ∨ u0 ∈ B.addrs := by
        rcases hx with hx | hx
        · left; rw [hx, if_pos rfl] at hAr; exact hAr ▸ A.root_mem_addrs
        · right; rw [hx, if_pos rfl] at hBr; exact hBr ▸ B.root_mem_addrs
      have hu0S : u0 ∉ (plug (f1 :: fs) sub).addrs := by
        rcases hu0AB with h | h
        · exact hA_notS _ h
        · exact hB_notS _ h
      have hu0pa : u0 ∉ (⟨f1.addr, true, f1.sib⟩ :: fs : List Frame).map Frame.addr :=
        fun hm => hu0S (hpa_S _ hm)
      have hu0p : u0 ≠ f1.addr := fun e => hu0pa (by simp [e])
      have hn0 := List.getElem?_eq_getElem hu0
      have hget := (getElem?_path_upd_of_not_mem (⟨f1.addr, true, f1.sib⟩ :: fs)
        (root_heap7 T0 u0 u1 u2 sub.root f1.addr) u0 hu0pa).trans
        ((root_heap7_ne _ _ _ _ _ _ _ hu0p).trans (root_heap5_old _ _ _ _ sub.root _ _ hn0))
      refine ⟨_, hget, ?_, ?_⟩
      · intro e
        exact Nat.lt_irrefl _ (hkid u0 _ _ hn0 (Or.inl e))
      · intro e
        exact Nat.lt_irrefl _ (hkid u0 _ _ hn0 (Or.inr e))
  have hrun := swap_path T0.length fs ⟨f1.addr, true, f1.sib⟩
    (root_heap7 T0 u0 u1 u2 sub.root f1.addr) none (k + 2) hpp.chain hpa_nd
  have htoprun := swap_top (path_upd (root_heap7 T0 u0 u1 u2 sub.root f1.addr)
      (⟨f1.addr, true, f1.sib⟩ :: fs)) T0.length u0 u1 u2 (last_addr f1 fs) _ k hg_N rfl rfl rfl
      h01 h02 h12 (Nat.ne_of_lt hu0) htop
  rw [← hx'] at hrun
  -- the final heap
  have hpa_p : f1.addr ∈ (⟨f1.addr, true, f1.sib⟩ :: fs : List Frame).map Frame.addr := by simp
  have hswL : ∀ n : node_t, (swapL n).key = n.key := fun _ => rfl
  have hswR : ∀ n : node_t, (swapR n).key = n.key := fun _ => rfl
  generalize hg : path_upd (root_heap7 T0 u0 u1 u2 sub.root f1.addr)
    (⟨f1.addr, true, f1.sib⟩ :: fs) = g at hg_N htop hrun htoprun
  have hg_len : g.length = T0.length + 1 := by
    rw [← hg, length_path_upd, root_heap7_length]
  have hg_old : ∀ (a : Nat) (n : node_t), T0[a]? = some n →
      a ∉ (⟨f1.addr, true, f1.sib⟩ :: fs : List Frame).map Frame.addr →
      g[a]? = some { n with _parent := reparent T0.length sub.root u0 u1 u2 a n._parent } := by
    intro a n hn hapa
    have hap : a ≠ f1.addr := fun e => hapa (e ▸ hpa_p)
    rw [← hg, getElem?_path_upd_of_not_mem _ _ _ hapa, root_heap7_ne _ _ _ _ _ _ _ hap,
      root_heap5_old _ _ _ _ _ _ _ hn]
  have hg_path : ∀ f ∈ (⟨f1.addr, true, f1.sib⟩ :: fs : List Frame),
      g[f.addr]? = ((root_heap7 T0 u0 u1 u2 sub.root f1.addr)[f.addr]?).map
        (if f.onLeft then swapL else swapR) := by
    intro f hf
    rw [← hg]
    exact getElem?_path_upd_of_mem _ _ hpa_nd f hf
  generalize hh8 : (if last_addr f1 fs = u1 then upd g T0.length swapL
    else if last_addr f1 fs = u2 then upd g T0.length swapR else g) = h8 at htoprun
  have h8_ne : ∀ a, a ≠ T0.length → h8[a]? = g[a]? := by
    intro a ha
    rw [← hh8]
    split_ifs
    · exact getElem?_upd_ne _ ha
    · exact getElem?_upd_ne _ ha
    · rfl
  have h8_N : ∃ m : node_t, h8[T0.length]? = some m ∧ m.is_inner A.root B.root := by
    rw [← hh8]
    by_cases e1 : last_addr f1 fs = u1
    · have e2 : last_addr f1 fs ≠ u2 := fun e => h12 (e1.symm.trans e)
      rw [if_pos e1, getElem?_upd_self, hg_N, hAr, hBr, if_pos e1, if_neg e2]
      exact ⟨_, rfl, rfl, rfl, rfl⟩
    · by_cases e2 : last_addr f1 fs = u2
      · rw [if_neg e1, if_pos e2, getElem?_upd_self, hg_N, hAr, hBr, if_neg e1, if_pos e2]
        exact ⟨_, rfl, rfl, rfl, rfl⟩
      · rw [if_neg e1, if_neg e2, hg_N, hAr, hBr, if_neg e1, if_neg e2]
        exact ⟨_, rfl, rfl, rfl, rfl⟩
  have h8_key : h8.map node_t.key = g.map node_t.key := by
    rw [← hh8]
    split_ifs
    · exact map_key_upd _ _ hswL
    · exact map_key_upd _ _ hswR
    · rfl
  have h8_len : h8.length = T0.length + 1 := by
    have := congrArg List.length h8_key
    simpa [hg_len] using this
  -- shapes that the edit leaves alone
  have hold : ∀ s : Shape, s.RepC T0 →
      (∀ a ∈ s.addrs, a ∉ (⟨f1.addr, true, f1.sib⟩ :: fs : List Frame).map Frame.addr) →
      s.RepC h8 := by
    intro s hs hdis
    refine Shape.RepC.congr (fun a ha n hn => ?_) hs
    have haN : a ≠ T0.length := Nat.ne_of_lt (List.getElem?_eq_some_iff.1 hn).1
    exact ⟨_, (h8_ne a haN).trans (hg_old a n hn (hdis a ha)), rfl, rfl, rfl⟩
  have hnd_frames : ((⟨f1.addr, true, f1.sib⟩ :: fs : List Frame).flatMap Frame.addrs).Nodup := by
    simp only [List.flatMap_cons, Frame.addrs, List.nodup_append, List.nodup_cons]
    exact ⟨⟨hp_sib, hndsib1⟩, hndfs, hdisj1⟩
  have hsibs : ∀ f ∈ (⟨f1.addr, true, f1.sib⟩ :: fs : List Frame), f.sib.RepC h8 := by
    intro f hf
    refine hold f.sib ?_ (sib_not_on_path _ hnd_frames f hf)
    rcases List.mem_cons.1 hf with rfl | hf
    · exact hsib1.repC
    · exact hpathfs.sib_repC f hf
  have hA8 : A.RepC h8 := hold A hA (fun a ha hm => hA_notS a ha (hpa_S a hm))
  have hB8 : B.RepC h8 := hold B hB (fun a ha hm => hB_notS a ha (hpa_S a hm))
  have hsub8 : sub.RepC h8 := by
    refine hold sub hsubRep.repC (fun a ha hm => ?_)
    simp only [List.map_cons, List.mem_cons] at hm
    refine hdisj0 ha ?_
    rcases hm with rfl | hm
    · simp
    · exact List.mem_append_right _ ((map_addr_sublist fs).subset hm)
  have hU8 : (Shape.node T0.length A B).RepC h8 := ⟨h8_N, hA8, hB8⟩
  have hP8 := repC_reroot_up (⟨f1.addr, true, f1.sib⟩ :: fs) none hpp
    (fun f hf => (h8_ne _ (Nat.ne_of_lt (hpa_lt _ (List.mem_map_of_mem _ hf)))).trans
      (hg_path f hf)) hsibs (Shape.node T0.length A B) hU8 rfl
  refine ⟨h8, ?_, h8_len, ?_, ?_, ?_⟩
  · rw [hfuel, hrun, htoprun]
  · intro s hs
    simp only [List.mem_cons, List.mem_singleton, List.not_mem_nil, or_false] at hs
    rcases hs with rfl | rfl
    · exact hsub8
    · exact hP8
  · rw [List.perm_iff_count]
    intro a
    have c1 := (addrs_reroot_up (⟨f1.addr, true, f1.sib⟩ :: fs)
      (Shape.node T0.length A B)).count_eq a
    have c2 := hperm.count_eq a
    have c3 := (addrs_plug (f1 :: fs) sub).count_eq a
    simp only [List.flatMap_cons, List.flatMap_nil, List.append_nil, List.count_append,
      Frame.addrs, Shape.addrs, List.count_cons, h8_len, List.range_succ] at c1 c2 c3 ⊢
    rw [c1]
    simp only [List.count_nil] at c2 c3 ⊢
    omega
  · rw [h8_key, ← hg, map_key_path_upd,
      root_heap7_key T0 u0 u1 u2 sub.root f1.addr hu0 hu1 hu2 ho_lt]

end Gstar

namespace Gstar

/-! ## `set_root` on a well-formed unrooted tree -/

theorem tree_t.Forest.parent_none_iff {t : tree_t} {F : List Shape} (hF : t.Forest F)
    (a : Nat) (n : node_t) (hn : t._tree[a]? = some n) :
    n._parent = none ↔ a ∈ t._unroot := by
  obtain ⟨hlen, hroots, hrep, hperm⟩ := hF
  have hF : t.Forest F := ⟨hlen, hroots, hrep, hperm⟩
  have ha : a < t._size := by rw [← hlen]; exact (List.getElem?_eq_some_iff.1 hn).1
  obtain ⟨s, hs, has⟩ := List.mem_flatMap.1 (hF.mem_iff.2 ha)
  constructor
  · intro hp
    rcases (hrep s hs).parent_cases a has n hn with ⟨h1, -⟩ | ⟨p, np, h1, -⟩
    · rw [← hroots, h1]; exact List.mem_map_of_mem _ hs
    · rw [hp] at h1; cases h1
  · intro hu
    rw [← hroots] at hu
    obtain ⟨s', hs', e⟩ := List.mem_map.1 hu
    have := hrep s' hs'
    cases s' with
    | leaf x =>
      obtain ⟨m, hm, -, hp⟩ := this
      simp only [Shape.root_leaf] at e
      rw [e, hn] at hm; cases hm; exact hp
    | node x l r =>
      obtain ⟨⟨m, hm, -, hp⟩, -, -⟩ := this
      simp only [Shape.root_node] at e
      rw [e, hn] at hm; cases hm; exact hp

theorem tree_t.Forest.child_lt {t : tree_t} {F : List Shape} (hF : t.Forest F)
    (a : Nat) (n : node_t) (c : Nat) (hn : t._tree[a]? = some n)
    (hc : n._lchild = some c ∨ n._rchild = some c) : c < t._tree.length := by
  have hI1 := (tree_t.WF.invariants ⟨F, hF⟩).1
  rw [hF.1]
  rcases hI1 a n hn with ⟨-, h1, h2⟩ | ⟨-, l, r, h1, h2, -, h3, h4⟩
  · rcases hc with hc | hc
    · rw [h1] at hc; cases hc
    · rw [h2] at hc; cases hc
  · rcases hc with hc | hc
    · rw [h1] at hc; cases hc; exact h3
    · rw [h2] at hc; cases hc; exact h4

/-- The second case of `set_root` as a run of `swap_parent` on `root_heap7` followed by
`make_flat_tree`. -/
theorem set_root_B_unfold (t : tree_t) (o p u0 u1 u2 : Nat) (no : node_t)
    (hn : t._tree[o]? = some no) (hpar : no._parent = some p) (hur : t._unroot = [u0, u1, u2])
    (h0 : u0 < t._tree.length) (h1 : u1 < t._tree.length) (h2 : u2 < t._tree.length)
    (hp : p < t._tree.length) (ho0 : o ≠ u0) (ho1 : o ≠ u1) (ho2 : o ≠ u2) :
    set_root t o =
      match swap_parent (t._tree.length + 1 + 1) (root_heap7 t._tree u0 u1 u2 o p) p none with
      | none => none
      | some h8 => make_flat_tree h8 [o, p] := by
  have ho : o < t._tree.length := (List.getElem?_eq_some_iff.1 hn).1
  have hget4 : (upd (upd (upd (upd (t._tree ++ [ur_node u0 u1 u2])
      u1 (fun x => { x with _parent := some t._tree.length }))
      u2 (fun x => { x with _parent := some t._tree.length }))
      u0 (fun x => { x with _parent := some t._tree.length }))
      t._tree.length (fun x => { x with _children := true }))[o]? = some no := by
    rw [getElem?_upd_ne _ (Nat.ne_of_lt ho), getElem?_upd_ne _ ho0, getElem?_upd_ne _ ho2,
      getElem?_upd_ne _ ho1, List.getElem?_append_left ho, hn]
  unfold set_root
  simp only [hn, hpar, hur, List.getElem?_cons_zero, List.getElem?_cons_succ]
  rw [store_eq_upd _ (by simp; omega)]
  simp only []
  rw [store_eq_upd _ (by simp; omega)]
  simp only []
  rw [store_eq_upd _ (by simp; omega)]
  simp only []
  rw [store_eq_upd _ (by simp)]
  simp only []
  have hget4' := hget4
  simp only [ur_node] at hget4'
  simp only [hget4', hpar]
  rw [store_eq_upd _ (by simp; omega)]
  simp only []
  rw [store_eq_upd _ (by simp; omega)]
  simp only []
  rw [store_eq_upd _ (by simp; omega)]
  simp only [length_upd, List.length_append, List.length_singleton]
  rfl

end Gstar

namespace Gstar

theorem node_at_key_of_map {h h' : List node_t} {x : List (Bool × String)}
    (hk : h'.map node_t.key = h.map node_t.key ++ x) {a : Nat} (ha : a < h.length) :
    (node_at h' a).key = (node_at h a).key := by
  have := congrArg (fun l => l[a]?) hk
  have hlt : a < (h.map node_t.key).length := by simpa using ha
  simp only [List.getElem?_map] at this
  rw [List.getElem?_append_left hlt, List.getElem?_map, List.getElem?_eq_getElem ha] at this
  cases h1 : h'[a]? with
  | none => rw [h1] at this; simp at this
  | some n' =>
    rw [h1] at this
    simp only [Option.map_some', Option.some.injEq] at this
    simp [node_at, h1, List.getElem?_eq_getElem ha, this]

/-- From the edited heap of `set_root` to its result. -/
theorem rerooted_of_heap (t : tree_t) (h' : List node_t) (o a : Nat) (s0 l r : Shape)
    (hsize : t._tree.length = t._size) (ho : o < t._tree.length) (hs0 : s0.root = o)
    (hlen : h'.length = t._tree.length + 1)
    (hrep : ∀ s ∈ [s0, Shape.node a l r], s.RepC h')
    (hperm : (([s0, Shape.node a l r]).flatMap Shape.addrs).Perm (List.range h'.length))
    (hkey : h'.map node_t.key = t._tree.map node_t.key ++ [(true, "")]) :
    ∃ t', make_flat_tree h' [o, a] = some t' ∧ Rerooted t t' o := by
  obtain ⟨t', hrun, hwf, hsz, -, hur, hkeys, hroots⟩ :=
    make_flat_tree_summary h' [s0, Shape.node a l r] hrep hperm
  refine ⟨t', ?_, hwf, ?_, ?_, ?_, ?_, ?_⟩
  · simpa [hs0] using hrun
  · rw [hsz, hlen, hsize]
  · simpa [List.range_succ] using hur
  · rw [← hkey]; exact hkeys
  · have := hroots 0 (by simp)
    simp only [List.getElem_cons_zero, hs0] at this
    rw [this, node_at_key_of_map hkey ho, List.getElem?_eq_getElem ho]
    simp [node_at, List.getElem?_eq_getElem ho]
  · have := hroots 1 (by simp)
    simp only [List.getElem_cons_succ, List.getElem_cons_zero, Shape.root_node] at this
    obtain ⟨⟨n, hn, hflag, -, -⟩, -, -⟩ := hrep (Shape.node a l r) (by simp)
    have hc : (node_at h' a)._children = true := by rw [node_at_of_get hn]; exact hflag
    cases h1 : t'._tree[1]? with
    | none => rw [h1] at this; simp at this
    | some m =>
      rw [h1] at this
      simp only [Option.map_some', Option.some.injEq, node_t.key, Prod.mk.injEq] at this
      simp [this.1, hc]

/-- The first case of `set_root`: the outgroup `so.root` is an unroot member. -/
theorem set_root_A (t : tree_t) (so sa sb : Shape) (no : node_t)
    (hsize : t._tree.length = t._size)
    (hn : t._tree[so.root]? = some no) (hpar : no._parent = none)
    (hidx : unroot_index t._unroot so.root < t._unroot.length)
    (hur : t._unroot.eraseIdx (unroot_index t._unroot so.root) = [sa.root, sb.root])
    (ho : so.RepC t._tree) (ha : sa.RepC t._tree) (hb : sb.RepC t._tree)
    (hp : (so.addrs ++ (sa.addrs ++ sb.addrs)).Perm (List.range t._tree.length)) :
    ∃ t', set_root t so.root = some t' ∧ Rerooted t t' so.root := by
  obtain ⟨h1, h2, hs1, hs2, hlen, hrep, hperm, hkey⟩ :=
    set_root_A_heap t._tree so sa sb ho ha hb hp
  obtain ⟨t', hrun, hre⟩ := rerooted_of_heap t h2 so.root t._tree.length so sa sb hsize
    ho.root_lt rfl hlen hrep hperm hkey
  refine ⟨t', ?_, hre⟩
  unfold set_root
  simp only [hn, hpar, hidx, if_true, hur, List.getElem?_cons_zero, List.getElem?_cons_succ,
    hs1, hs2]
  exact hrun

/-- The second case of `set_root`: the outgroup is the root of the subtree `sub` below the
path `f1 :: fs` in the tree of an unroot member. -/
theorem set_root_B (t : tree_t) (u0 u1 u2 : Nat) (f1 : Frame) (fs : List Frame)
    (sub A B : Shape) (F : List Shape) (hF : t.Forest F) (hur : t._unroot = [u0, u1, u2])
    (h01 : u0 ≠ u1) (h02 : u0 ≠ u2) (h12 : u1 ≠ u2)
    (hS : (plug (f1 :: fs) sub).Rep t._tree none) (hA : A.RepC t._tree) (hB : B.RepC t._tree)
    (hperm : ((plug (f1 :: fs) sub).addrs ++ (A.addrs ++ B.addrs)).Perm
      (List.range t._tree.length))
    (hx : last_addr f1 fs = u0 ∨ last_addr f1 fs = u1 ∨ last_addr f1 fs = u2)
    (hAr : A.root = if last_addr f1 fs = u1 then u0 else u1)
    (hBr : B.root = if last_addr f1 fs = u2 then u0 else u2) :
    ∃ t', set_root t sub.root = some t' ∧ Rerooted t t' sub.root := by
  have hmem : ∀ u ∈ t._unroot, u < t._tree.length := by
    intro u hu
    obtain ⟨n, hn, -⟩ := (tree_t.WF.invariants ⟨F, hF⟩).2.2.1 u hu
    exact (List.getElem?_eq_some_iff.1 hn).1
  have hu0 : u0 < t._tree.length := hmem u0 (by simp [hur])
  have hu1 : u1 < t._tree.length := hmem u1 (by simp [hur])
  have hu2 : u2 < t._tree.length := hmem u2 (by simp [hur])
  have hroot : ∀ (a : Nat) (n : node_t), t._tree[a]? = some n →
      (n._parent = none ↔ a = u0 ∨ a = u1 ∨ a = u2) := by
    intro a n hn
    rw [hF.parent_none_iff a n hn, hur]
    simp
  obtain ⟨h8, hrun, hlen, hrep, hperm8, hkey⟩ :=
    reroot_core t._tree u0 u1 u2 f1 fs sub A B h01 h02 h12 hS hA hB hperm hroot hx hAr hBr
      hu0 hu1 hu2 (fun a n c hn hc => hF.child_lt a n c hn hc)
  obtain ⟨hsubRep, hpath⟩ := rep_plug (f1 :: fs) sub none hS
  obtain ⟨⟨n1, hn1, -, -⟩, -, -⟩ := hpath
  have hp_lt : f1.addr < t._tree.length := (List.getElem?_eq_some_iff.1 hn1).1
  have hsub_node : ∃ no : node_t, t._tree[sub.root]? = some no ∧ no._parent = some f1.addr := by
    cases sub with
    | leaf x => obtain ⟨m, hm, -, hpm⟩ := hsubRep; exact ⟨m, hm, hpm⟩
    | node x l r => obtain ⟨⟨m, hm, -, hpm⟩, -, -⟩ := hsubRep; exact ⟨m, hm, hpm⟩
  obtain ⟨no, hno, hnopar⟩ := hsub_node
  have ho_lt : sub.root < t._tree.length := (List.getElem?_eq_some_iff.1 hno).1
  have ho_notroot : ¬ (sub.root = u0 ∨ sub.root = u1 ∨ sub.root = u2) := by
    intro e
    have := (hroot _ _ hno).2 e
    rw [hnopar] at this
    cases this
  simp only [not_or] at ho_notroot
  have hrep' : ∀ s ∈ [sub, Shape.node f1.addr (reroot_up fs (Shape.node t._tree.length A B))
      f1.sib], s.RepC h8 := by
    simpa [reroot_up] using hrep
  have hperm' : (([sub, Shape.node f1.addr (reroot_up fs (Shape.node t._tree.length A B))
      f1.sib]).flatMap Shape.addrs).Perm (List.range h8.length) := by
    simpa [reroot_up] using hperm8
  obtain ⟨t', hflat, hre⟩ := rerooted_of_heap t h8 sub.root f1.addr sub _ _ hF.1 ho_lt rfl hlen
    hrep' hperm' hkey
  refine ⟨t', ?_, hre⟩
  rw [set_root_B_unfold t sub.root f1.addr u0 u1 u2 no hno hnopar hur hu0 hu1 hu2 hp_lt
    ho_notroot.1 ho_notroot.2.1 ho_notroot.2.2, hrun]
  exact hflat

end Gstar

namespace Gstar

/-! ## `set_root` and `set_outgroup` on a well-formed unrooted tree -/

theorem perm3_a {a b c : List Nat} {n : Nat}
    (h : ([a, b, c].flatMap id).Perm (List.range n)) : (b ++ (a ++ c)).Perm (List.range n) := by
  rw [List.perm_iff_count] at h ⊢
  intro x
  have := h x
  simp only [List.flatMap_cons, List.flatMap_nil, id, List.append_nil, List.count_append] at this ⊢
  omega

theorem perm3_b {a b c : List Nat} {n : Nat}
    (h : ([a, b, c].flatMap id).Perm (List.range n)) : (c ++ (a ++ b)).Perm (List.range n) := by
  rw [List.perm_iff_count] at h ⊢
  intro x
  have := h x
  simp only [List.flatMap_cons, List.flatMap_nil, id, List.append_nil, List.count_append] at this ⊢
  omega

theorem perm3_c {a b c : List Nat} {n : Nat}
    (h : ([a, b, c].flatMap id).Perm (List.range n)) : (c ++ (b ++ a)).Perm (List.range n) := by
  rw [List.perm_iff_count] at h ⊢
  intro x
  have := h x
  simp only [List.flatMap_cons, List.flatMap_nil, id, List.append_nil, List.count_append] at this ⊢
  omega

theorem perm3_d {a b c : List Nat} {n : Nat}
    (h : ([a, b, c].flatMap id).Perm (List.range n)) : (a ++ (b ++ c)).Perm (List.range n) := by
  simpa using h

/-- The function `set_root` on a well-formed tree with three unroot members, for any slot
`o`. -/
theorem set_root_forest (t : tree_t) (s0 s1 s2 : Shape) (hF : t.Forest [s0, s1, s2])
    (o : Nat) (ho : o < t._size) : ∃ t', set_root t o = some t' ∧ Rerooted t t' o := by
  have hnd := hF.nodup
  obtain ⟨hlen, hroots, hrep, hperm⟩ := hF
  have hF : t.Forest [s0, s1, s2] := ⟨hlen, hroots, hrep, hperm⟩
  have hur : t._unroot = [s0.root, s1.root, s2.root] := by simpa using hroots.symm
  have hr0 := hrep s0 (by simp)
  have hr1 := hrep s1 (by simp)
  have hr2 := hrep s2 (by simp)
  have hperm' : ([s0.addrs, s1.addrs, s2.addrs].flatMap id).Perm (List.range t._tree.length) := by
    rw [hlen]; simpa using hperm
  simp only [List.flatMap_cons, List.flatMap_nil, List.append_nil, List.nodup_append] at hnd
  obtain ⟨-, ⟨-, -, hd12⟩, hd0⟩ := hnd
  have h01 : s0.root ≠ s1.root := fun e =>
    hd0 s0.root_mem_addrs (List.mem_append_left _ (e ▸ s1.root_mem_addrs))
  have h02 : s0.root ≠ s2.root := fun e =>
    hd0 s0.root_mem_addrs (List.mem_append_right _ (e ▸ s2.root_mem_addrs))
  have h12 : s1.root ≠ s2.root := fun e => hd12 s1.root_mem_addrs (e ▸ s2.root_mem_addrs)
  have ho' : o < t._tree.length := by rw [hlen]; exact ho
  have hno := List.getElem?_eq_getElem ho'
  cases hpar : (t._tree[o])._parent with
  | none =>
    have hmem := (hF.parent_none_iff o _ hno).1 hpar
    rw [hur] at hmem
    simp only [List.mem_cons, List.mem_singleton, List.not_mem_nil, or_false] at hmem
    rcases hmem with rfl | rfl | rfl
    · refine set_root_A t s0 s1 s2 _ hlen hno hpar ?_ ?_ hr0.repC hr1.repC hr2.repC
        (perm3_d hperm')
      · simp [hur, unroot_index, List.findIdx_cons]
      · simp [hur, unroot_index, List.findIdx_cons]
    · refine set_root_A t s1 s0 s2 _ hlen hno hpar ?_ ?_ hr1.repC hr0.repC hr2.repC
        (perm3_a hperm')
      · simp [hur, unroot_index, List.findIdx_cons, h01]
      · simp [hur, unroot_index, List.findIdx_cons, h01]
    · refine set_root_A t s2 s0 s1 _ hlen hno hpar ?_ ?_ hr2.repC hr0.repC hr1.repC
        (perm3_b hperm')
      · simp [hur, unroot_index, List.findIdx_cons, h02, h12]
      · simp [hur, unroot_index, List.findIdx_cons, h02, h12]
  | some p =>
    have hnotroot : o ∉ t._unroot := by
      intro hm
      have := (hF.parent_none_iff o _ hno).2 hm
      rw [hpar] at this
      cases this
    rw [hur] at hnotroot
    simp only [List.mem_cons, List.mem_singleton, List.not_mem_nil, or_false, not_or] at hnotroot
    have hmem : o ∈ [s0, s1, s2].flatMap Shape.addrs := hF.mem_iff.2 ho
    simp only [List.flatMap_cons, List.flatMap_nil, List.append_nil, List.mem_append] at hmem
    have hplug : ∀ s : Shape, o ∈ s.addrs → o ≠ s.root →
        ∃ f1 fs sub, s = plug (f1 :: fs) sub ∧ sub.root = o := by
      intro s hs hne
      obtain ⟨fs, sub, e, hsub⟩ := exists_plug s o hs
      cases fs with
      | nil =>
        simp only [plug] at e
        exact absurd (e ▸ hsub).symm hne
      | cons f1 fs => exact ⟨f1, fs, sub, e, hsub⟩
    rcases hmem with hm | hm | hm
    · obtain ⟨f1, fs, sub, e, rfl⟩ := hplug s0 hm hnotroot.1
      have hx : last_addr f1 fs = s0.root := by rw [e, root_plug_cons]
      rw [e] at hr0 hperm'
      refine set_root_B t s0.root s1.root s2.root f1 fs sub s1 s2 _ hF hur h01 h02 h12 hr0
        hr1.repC hr2.repC (perm3_d hperm') (Or.inl hx) ?_ ?_
      · rw [hx, if_neg h01]
      · rw [hx, if_neg h02]
    · obtain ⟨f1, fs, sub, e, rfl⟩ := hplug s1 hm hnotroot.2.1
      have hx : last_addr f1 fs = s1.root := by rw [e, root_plug_cons]
      rw [e] at hr1 hperm'
      refine set_root_B t s0.root s1.root s2.root f1 fs sub s0 s2 _ hF hur h01 h02 h12 hr1
        hr0.repC hr2.repC (perm3_a hperm') (Or.inr (Or.inl hx)) ?_ ?_
      · rw [hx, if_pos rfl]
      · rw [hx, if_neg h12]
    · obtain ⟨f1, fs, sub, e, rfl⟩ := hplug s2 hm hnotroot.2.2
      have hx : last_addr f1 fs = s2.root := by rw [e, root_plug_cons]
      rw [e] at hr2 hperm'
      refine set_root_B t s0.root s1.root s2.root f1 fs sub s1 s0 _ hF hur h01 h02 h12 hr2
        hr1.repC hr0.repC (perm3_c hperm') (Or.inr (Or.inr hx)) ?_ ?_
      · rw [hx, if_neg (Ne.symm h12)]
      · rw [hx, if_pos rfl]

/-- The search of `set_outgroup` returns the accumulator or a slot it has scanned. -/
theorem find_outgroup_some (L : String) :
    ∀ (l : List node_t) (i : Nat) (acc : Option Nat) (o : Nat),
      find_outgroup L l i acc = some o →
      acc = some o ∨ (i ≤ o ∧ ∃ n, l[o - i]? = some n ∧ n._label = L) := by
  intro l
  induction l with
  | nil => intro i acc o h; exact Or.inl h
  | cons n l ih =>
    intro i acc o h
    rw [find_outgroup] at h
    rcases ih _ _ _ h with h1 | ⟨h1, m, hm, hL⟩
    · by_cases hn : n._label = L
      · rw [if_pos hn] at h1
        cases h1
        exact Or.inr ⟨Nat.le_refl _, n, by simp, hn⟩
      · rw [if_neg hn] at h1
        exact Or.inl h1
    · refine Or.inr ⟨by omega, m, ?_, hL⟩
      have : o - i = (o - (i + 1)) + 1 := by omega
      rw [this, List.getElem?_cons_succ]
      exact hm

theorem find_outgroup_absent (L : String) :
    ∀ (l : List node_t), (∀ m ∈ l, m._label ≠ L) → ∀ (j : Nat) (acc : Option Nat),
      find_outgroup L l j acc = acc := by
  intro l
  induction l with
  | nil => intro _ j acc; rfl
  | cons x l ih =>
    intro h j acc
    rw [find_outgroup, if_neg (h x (List.mem_cons_self _ _))]
    exact ih (fun m hm => h m (List.mem_cons_of_mem _ hm)) _ _

/-- The search of `set_outgroup` finds a slot as soon as some node carries the label, and no
later slot carries it. -/
theorem find_outgroup_last (L : String) :
    ∀ (l : List node_t) (i : Nat) (acc : Option Nat), (∃ n ∈ l, n._label = L) →
      ∃ o, find_outgroup L l i acc = some o ∧ i ≤ o ∧ o < i + l.length ∧
        (∃ n, l[o - i]? = some n ∧ n._label = L) ∧
        ∀ k m, o - i < k → l[k]? = some m → m._label ≠ L := by
  intro l
  induction l with
  | nil => intro i acc h; obtain ⟨n, hn, -⟩ := h; simp at hn
  | cons n l ih =>
    intro i acc h
    rw [find_outgroup]
    by_cases hl : ∃ m ∈ l, m._label = L
    · obtain ⟨o, hrun, h1, h2, ⟨m, hm, hmL⟩, hlast⟩ := ih (i + 1) _ hl
      have e : o - i = (o - (i + 1)) + 1 := by omega
      refine ⟨o, hrun, by omega, by simp; omega, ⟨m, by rw [e, List.getElem?_cons_succ]; exact hm,
        hmL⟩, ?_⟩
      intro k x hk hx
      cases k with
      | zero => omega
      | succ k =>
        rw [List.getElem?_cons_succ] at hx
        exact hlast k x (by omega) hx
    · have hn : n._label = L := by
        obtain ⟨m, hm, hmL⟩ := h
        rcases List.mem_cons.1 hm with rfl | hm
        · exact hmL
        · exact absurd ⟨m, hm, hmL⟩ hl
      have hrest : ∀ (j : Nat) (acc : Option Nat), find_outgroup L l j acc = acc :=
        fun j acc => find_outgroup_absent L l (fun m hm e => hl ⟨m, hm, e⟩) j acc
      rw [hrest, if_pos hn]
      refine ⟨i, rfl, Nat.le_refl _, by simp, ⟨n, by simp, hn⟩, ?_⟩
      intro k x hk hx hxL
      cases k with
      | zero => omega
      | succ k =>
        rw [List.getElem?_cons_succ] at hx
        exact hl ⟨x, (List.mem_iff_getElem?.2 ⟨_, hx⟩), hxL⟩

end Gstar

namespace Gstar

/-! ## `set_outgroup` on a well-formed unrooted tree -/

theorem tree_t.Forest.size_eq {t : tree_t} {F : List Shape} (hF : t.Forest F) :
    t._size = (F.map Shape.size).sum := by
  have := hF.2.2.2.length_eq
  rw [length_flatMap_addrs, List.length_range] at this
  exact this.symm

/-- The function `set_outgroup` on a well-formed tree with three unroot members, one of whose
nodes carries the label: the search finds the last slot `o` with that label and the tree is
rerooted at `o`. -/
theorem set_outgroup_forest (t : tree_t) (L : String) (hwf : t.WF)
    (h3 : t._unroot.length = 3) (hL : ∃ n ∈ t._tree, n._label = L) :
    ∃ o t', o < t._size ∧ (∃ n, t._tree[o]? = some n ∧ n._label = L) ∧
      (∀ k m, o < k → t._tree[k]? = some m → m._label ≠ L) ∧
      set_outgroup t L = some t' ∧ Rerooted t t' o := by
  obtain ⟨F, hF⟩ := hwf
  have hFlen : F.length = 3 := by
    have := congrArg List.length hF.2.1
    simpa [h3] using this
  obtain ⟨s0, s1, s2, rfl⟩ : ∃ s0 s1 s2, F = [s0, s1, s2] := by
    match F, hFlen with
    | [a, b, c], _ => exact ⟨a, b, c, rfl⟩
  have hsize : 3 ≤ t._size := by
    rw [hF.size_eq]
    have := s0.size_pos
    have := s1.size_pos
    have := s2.size_pos
    simp
    omega
  have htake : t._tree.take t._size = t._tree := by
    rw [← hF.1]; exact List.take_length _
  obtain ⟨o, hrun, -, holt, ⟨n, hn, hnL⟩, hlast⟩ := find_outgroup_last L t._tree 0 none hL
  simp only [Nat.sub_zero, Nat.zero_add] at hn holt hlast
  rw [hF.1] at holt
  obtain ⟨t', hroot, hre⟩ := set_root_forest t s0 s1 s2 hF o holt
  refine ⟨o, t', holt, ⟨n, hn, hnL⟩, hlast, ?_, hre⟩
  unfold set_outgroup
  have h1 : ¬ t._size ≤ 2 := by omega
  have h2 : t.is_rooted = false := by simp [tree_t.is_rooted, h3]
  simp only [h1, if_false, h2, Bool.false_eq_true, h3, if_true, htake, hrun]
  exact hroot

/-! ## `make_unrooted` -/

theorem first_internal_leaf {h : List node_t} {a : Nat} (hs : (Shape.leaf a).RepC h)
    (rest : List Nat) (i : Nat) :
    first_internal h (a :: rest) i = first_internal h rest (i + 1) := by
  obtain ⟨n, hn, hflag, -⟩ := hs
  simp [first_internal, hn, hflag]

theorem first_internal_node {h : List node_t} {a : Nat} {l r : Shape}
    (hs : (Shape.node a l r).RepC h) (rest : List Nat) (i : Nat) :
    first_internal h (a :: rest) i = some (some (a, i)) := by
  obtain ⟨⟨n, hn, hflag, -⟩, -, -⟩ := hs
  simp [first_internal, hn, hflag]

/-- One expansion of `make_unrooted`: the three writes succeed and leave every shape that
does not contain the expanded node realised. -/
theorem unroot_expand (h : List node_t) (a : Nat) (l r : Shape)
    (hs : (Shape.node a l r).RepC h) :
    ∃ n h1 h2 h3, h[a]? = some n ∧ n._lchild = some l.root ∧ n._rchild = some r.root ∧
      store h l.root (fun x => { x with _parent := none }) = some h1 ∧
      store h1 r.root (fun x => { x with _parent := none }) = some h2 ∧
      store h2 a (fun x => { x with _lchild := none, _rchild := none, _children := false })
        = some h3 ∧
      ∀ s : Shape, s.RepC h → a ∉ s.addrs → s.RepC h3 := by
  obtain ⟨⟨n, hn, -, hl, hr⟩, hL, hR⟩ := hs
  have hal : a < h.length := (List.getElem?_eq_some_iff.1 hn).1
  refine ⟨n, _, _, _, hn, hl, hr, store_eq_upd _ hL.root_lt,
    store_eq_upd _ (by simpa using hR.root_lt), store_eq_upd _ (by simpa using hal), ?_⟩
  intro s hs has
  refine Shape.RepC.congr (fun b hb m hm => ?_) hs
  have hba : b ≠ a := fun e => has (e ▸ hb)
  rw [getElem?_upd_ne _ hba]
  have hfk : ∀ x : node_t, ({ x with _parent := none } : node_t).kids = x.kids := fun _ => rfl
  have hk : KidsLe h (upd (upd h l.root (fun x => { x with _parent := none })) r.root
      (fun x => { x with _parent := none })) :=
    (KidsLe.upd h l.root hfk).trans (KidsLe.upd _ r.root hfk)
  obtain ⟨m', hm', e⟩ := hk b m hm
  simp only [node_t.kids, Prod.mk.injEq] at e
  exact ⟨m', hm', e.1, e.2.1, e.2.2⟩

/-- The loop of `make_unrooted` stops at once on three unroot members. -/
theorem unroot_loop_three (fuel : Nat) (h : List node_t) (ur : List Nat) (h3 : ur.length = 3) :
    unroot_loop fuel h ur = some (h, ur) := by
  cases fuel <;> simp [unroot_loop, h3]

/-- The loop of `make_unrooted` on two unroot members: it expands the first internal one, or
fails when both are leaves. -/
theorem unroot_loop_two (fuel : Nat) (h : List node_t) (sx sy : Shape)
    (hx : sx.RepC h) (hy : sy.RepC h) (hnd : ([sx, sy].flatMap Shape.addrs).Nodup) :
    (∃ (h' : List node_t) (F' : List Shape),
        unroot_loop (fuel + 1) h [sx.root, sy.root] = some (h', F'.map Shape.root) ∧
        F'.length = 3 ∧ (∀ s ∈ F', s.RepC h') ∧ (F'.flatMap Shape.addrs).Nodup) ∨
      (unroot_loop (fuel + 1) h [sx.root, sy.root] = none ∧
        (∃ a, sx = Shape.leaf a) ∧ ∃ b, sy = Shape.leaf b) := by
  simp only [List.flatMap_cons, List.flatMap_nil, List.append_nil, List.nodup_append] at hnd
  obtain ⟨hndx, hndy, hdisj⟩ := hnd
  cases sx with
  | node a l r =>
    left
    obtain ⟨n, h1, h2, h3, hn, hl, hr, hs1, hs2, hs3, hkeep⟩ := unroot_expand h a l r hx
    simp only [Shape.addrs, List.nodup_cons, List.mem_append, not_or, List.nodup_append] at hndx
    obtain ⟨⟨hal, har⟩, hndl, hndr, hdlr⟩ := hndx
    have hay : a ∉ sy.addrs := fun hm => hdisj (by simp [Shape.addrs]) hm
    refine ⟨h3, [sy, l, r], ?_, rfl, ?_, ?_⟩
    · rw [unroot_loop]
      simp only [List.length_cons, List.length_nil, Shape.root_node]
      rw [if_pos (by decide), first_internal_node hx]
      simp only [hn, hl, hr, hs1, hs2, hs3]
      rw [unroot_loop_three _ _ _ (by simp)]
      simp
    · intro s hs
      simp only [List.mem_cons, List.mem_singleton, List.not_mem_nil, or_false] at hs
      rcases hs with rfl | rfl | rfl
      · exact hkeep _ hy hay
      · exact hkeep _ hx.2.1 hal
      · exact hkeep _ hx.2.2 har
    · simp only [List.flatMap_cons, List.flatMap_nil, List.append_nil, List.nodup_append]
      refine ⟨hndy, ⟨hndl, hndr, hdlr⟩, ?_⟩
      intro b hb hb'
      refine hdisj ?_ hb
      simp only [Shape.addrs, List.mem_cons, List.mem_append]
      exact Or.inr (List.mem_append.1 hb')
  | leaf a =>
    cases sy with
    | node b l r =>
      left
      obtain ⟨n, h1, h2, h3, hn, hl, hr, hs1, hs2, hs3, hkeep⟩ := unroot_expand h b l r hy
      simp only [Shape.addrs, List.nodup_cons, List.mem_append, not_or, List.nodup_append]
        at hndy
      obtain ⟨⟨hbl, hbr⟩, hndl, hndr, hdlr⟩ := hndy
      have hbx : b ∉ (Shape.leaf a).addrs := fun hm => hdisj hm (by simp [Shape.addrs])
      refine ⟨h3, [Shape.leaf a, l, r], ?_, rfl, ?_, ?_⟩
      · rw [unroot_loop]
        simp only [List.length_cons, List.length_nil, Shape.root_node, Shape.root_leaf]
        rw [if_pos (by decide), first_internal_leaf hx, first_internal_node hy]
        simp only [hn, hl, hr, hs1, hs2, hs3]
        rw [unroot_loop_three _ _ _ (by simp)]
        simp
      · intro s hs
        simp only [List.mem_cons, List.mem_singleton, List.not_mem_nil, or_false] at hs
        rcases hs with rfl | rfl | rfl
        · exact hkeep _ hx hbx
        · exact hkeep _ hy.2.1 hbl
        · exact hkeep _ hy.2.2 hbr
      · simp only [List.flatMap_cons, List.flatMap_nil, List.append_nil, List.nodup_append]
        refine ⟨hndx, ⟨hndl, hndr, hdlr⟩, ?_⟩
        intro c hc hc'
        refine hdisj hc ?_
        simp only [Shape.addrs, List.mem_cons, List.mem_append]
        exact Or.inr (List.mem_append.1 hc')
    | leaf b =>
      right
      refine ⟨?_, ⟨a, rfl⟩, ⟨b, rfl⟩⟩
      rw [unroot_loop]
      simp only [List.length_cons, List.length_nil, Shape.root_leaf]
      rw [if_pos (by decide), first_internal_leaf hx, first_internal_leaf hy]
      simp [first_internal]

/-- The loop of `make_unrooted` on a single root: two expansions, or failure on a tree of at
most three nodes. -/
theorem unroot_loop_one (fuel : Nat) (h : List node_t) (s : Shape)
    (hs : s.RepC h) (hnd : s.addrs.Nodup) :
    (∃ (h' : List node_t) (F' : List Shape),
        unroot_loop (fuel + 2) h [s.root] = some (h', F'.map Shape.root) ∧
        F'.length = 3 ∧ (∀ x ∈ F', x.RepC h') ∧ (F'.flatMap Shape.addrs).Nodup) ∨
      (unroot_loop (fuel + 2) h [s.root] = none ∧ s.size ≤ 3) := by
  cases s with
  | leaf a =>
    right
    refine ⟨?_, by simp [Shape.size]⟩
    rw [unroot_loop]
    simp only [List.length_cons, List.length_nil, Shape.root_leaf]
    rw [if_pos (by decide), first_internal_leaf hs]
    simp [first_internal]
  | node a l r =>
    obtain ⟨n, h1, h2, h3, hn, hl, hr, hs1, hs2, hs3, hkeep⟩ := unroot_expand h a l r hs
    simp only [Shape.addrs, List.nodup_cons, List.mem_append, not_or, List.nodup_append] at hnd
    obtain ⟨⟨hal, har⟩, hndl, hndr, hdlr⟩ := hnd
    have hstep : unroot_loop (fuel + 2) h [(Shape.node a l r).root]
        = unroot_loop (fuel + 1) h3 [l.root, r.root] := by
      rw [unroot_loop]
      simp only [List.length_cons, List.length_nil, Shape.root_node]
      rw [if_pos (by decide), first_internal_node hs]
      simp only [hn, hl, hr, hs1, hs2, hs3]
      simp
    rw [hstep]
    have hnd2 : ([l, r].flatMap Shape.addrs).Nodup := by
      simp only [List.flatMap_cons, List.flatMap_nil, List.append_nil, List.nodup_append]
      exact ⟨hndl, hndr, hdlr⟩
    rcases unroot_loop_two fuel h3 l r (hkeep _ hs.2.1 hal) (hkeep _ hs.2.2 har) hnd2 with
      hok | ⟨hfail, ⟨x, rfl⟩, ⟨y, rfl⟩⟩
    · exact Or.inl hok
    · exact Or.inr ⟨hfail, by simp [Shape.size]⟩

/-- The function `make_unrooted` on a well-formed rooted tree with more than two nodes: it
returns a well-formed tree with three unroot members and as many nodes fewer as it expanded
roots, or it fails, which happens only for the tree with a single root and three nodes. -/
theorem make_unrooted_forest (t : tree_t) (hwf : t.WF) (hr : t.is_rooted = true)
    (hsz : 2 < t._size) :
    (∃ t', make_unrooted t = some t' ∧ t'.WF ∧ t'._unroot.length = 3) ∨
      (make_unrooted t = none ∧ t._unroot.length = 1 ∧ t._size = 3) := by
  obtain ⟨F, hF⟩ := hwf
  have hnd := hF.nodup
  have hlen : F.length ≤ 2 := by
    have := congrArg List.length hF.2.1
    simp only [List.length_map] at this
    simp only [tree_t.is_rooted, decide_eq_true_eq] at hr
    omega
  have hsize := hF.size_eq
  have hfin : ∀ (h' : List node_t) (F' : List Shape), F'.length = 3 → (∀ x ∈ F', x.RepC h') →
      (F'.flatMap Shape.addrs).Nodup →
      ∃ t', make_flat_tree h' (F'.map Shape.root) = some t' ∧ t'.WF ∧ t'._unroot.length = 3 := by
    intro h' F' h3 hrep hnd'
    obtain ⟨t', hrun, hfor, -, hur, -⟩ := make_flat_tree_wf h' F' hrep hnd'
    exact ⟨t', hrun, ⟨_, hfor⟩, by rw [hur, h3]; simp⟩
  have hcond : (t.is_rooted = true ∧ t._size > 2) := ⟨hr, hsz⟩
  unfold make_unrooted
  simp only [hcond, and_self, if_true]
  match F, hF, hnd, hlen, hsize with
  | [], hF, _, _, hsize => simp at hsize; omega
  | [s], hF, hnd, _, hsize =>
    have hur : t._unroot = [s.root] := by simpa using hF.2.1.symm
    obtain ⟨k, hk⟩ : ∃ k, t._size + 1 = k + 2 := ⟨t._size - 1, by omega⟩
    rw [hur, hk]
    have hnd1 : s.addrs.Nodup := by simpa using hnd
    rcases unroot_loop_one k t._tree s (hF.2.2.1 s (by simp)).repC hnd1 with
      ⟨h', F', hrun, h3, hrep, hnd'⟩ | ⟨hfail, hs3⟩
    · left
      obtain ⟨t', hflat, hwf', hur'⟩ := hfin h' F' h3 hrep hnd'
      exact ⟨t', by simp only [hrun]; exact hflat, hwf', hur'⟩
    · right
      refine ⟨by simp only [hfail], by simp, ?_⟩
      simp at hsize
      omega
  | [sx, sy], hF, hnd, _, hsize =>
    have hur : t._unroot = [sx.root, sy.root] := by simpa using hF.2.1.symm
    rw [hur]
    rcases unroot_loop_two t._size t._tree sx sy (hF.2.2.1 sx (by simp)).repC
      (hF.2.2.1 sy (by simp)).repC hnd with
      ⟨h', F', hrun, h3, hrep, hnd'⟩ | ⟨hfail, ⟨a, rfl⟩, ⟨b, rfl⟩⟩
    · left
      obtain ⟨t', hflat, hwf', hur'⟩ := hfin h' F' h3 hrep hnd'
      exact ⟨t', by simp only [hrun]; exact hflat, hwf', hur'⟩
    · exfalso
      simp [Shape.size] at hsize
      omega

end Gstar

namespace Gstar

/-! ## Serialisation of realised shapes -/

theorem node_to_string_shape (fmt : ℚ → String) (h : List node_t) :
    ∀ (s : Shape), s.RepC h → ∀ fuel, s.size ≤ fuel →
      node_to_string fmt h fuel s.root = some (s.str fmt h) := by
  intro s
  induction s with
  | leaf a =>
    intro hs fuel hfuel
    obtain ⟨n, hn, -, hl, -⟩ := hs
    cases fuel with
    | zero => simp [Shape.size] at hfuel
    | succ f =>
      simp [node_to_string, hn, hl, Shape.str, node_at_of_get hn, weight_suffix]
  | node a l r ihl ihr =>
    intro hs fuel hfuel
    obtain ⟨⟨n, hn, -, hl, hr⟩, hL, hR⟩ := hs
    cases fuel with
    | zero => simp [Shape.size] at hfuel
    | succ f =>
      simp only [Shape.size] at hfuel
      simp [node_to_string, hn, hl, hr, Shape.str, node_at_of_get hn, weight_suffix,
        ihl hL f (by omega), ihr hR f (by omega)]

theorem unroot_to_string_forest (fmt : ℚ → String) (h : List node_t) (fuel : Nat) :
    ∀ (F : List Shape), (∀ s ∈ F, s.RepC h) → (∀ s ∈ F, s.size ≤ fuel) →
      unroot_to_string fmt h fuel (F.map Shape.root)
        = some (comma_join (F.map (Shape.str fmt h))) := by
  intro F
  induction F with
  | nil => intro _ _; rfl
  | cons s F ih =>
    intro hrep hfuel
    have h1 := node_to_string_shape fmt h s (hrep s (by simp)) fuel (hfuel s (by simp))
    cases F with
    | nil => simp [unroot_to_string, comma_join, h1]
    | cons s2 F =>
      have h2 := ih (fun x hx => hrep x (List.mem_cons_of_mem _ hx))
        (fun x hx => hfuel x (List.mem_cons_of_mem _ hx))
      simp only [List.map_cons] at h2 ⊢
      simp [unroot_to_string, comma_join, h1, h2]

/-- The moved copies serialise like the source. -/
theorem Shape.Img.str_eq (fmt : ℚ → String) {h t : List node_t} {σ : Nat → Nat} :
    ∀ {s : Shape} {par : Option Nat}, s.Img h t σ par →
      (s.map σ).str fmt t = s.str fmt h := by
  intro s
  induction s with
  | leaf a =>
    intro par himg
    simp only [Shape.Img] at himg
    simp [Shape.map, Shape.str, node_at_of_get himg, node_t.moved]
  | node a l r ihl ihr =>
    intro par himg
    simp only [Shape.Img] at himg
    simp [Shape.map, Shape.str, node_at_of_get himg.1, node_t.moved, ihl himg.2.1,
      ihr himg.2.2]

theorem size_le_length {h : List node_t} {F : List Shape} (hF : ∀ s ∈ F, s.RepC h)
    (hd : (F.flatMap Shape.addrs).Nodup) {s : Shape} (hs : s ∈ F) : s.size ≤ h.length := by
  have hlt : ∀ a ∈ F.flatMap Shape.addrs, a < h.length := by
    intro a ha
    obtain ⟨x, hx, hax⟩ := List.mem_flatMap.1 ha
    exact (hF x hx).addrs_lt a hax
  have := nodup_length_le hd hlt
  rw [length_flatMap_addrs] at this
  exact (size_le_sum hs).trans this

/-- The serialisation of the tree built by `make_flat_tree` is the serialisation of the source
forest. -/
theorem make_flat_tree_to_string (fmt : ℚ → String) (h : List node_t) (F : List Shape)
    (hF : ∀ s ∈ F, s.RepC h) (hd : (F.flatMap Shape.addrs).Nodup) (t : tree_t)
    (hrun : make_flat_tree h (F.map Shape.root) = some t) :
    t.to_string fmt = tree_t.to_string fmt ⟨h, F.map Shape.root, h.length⟩ ∧
      ∃ str, t.to_string fmt = some str := by
  obtain ⟨t', hrun', hforest, hsize, hur, himg⟩ := make_flat_tree_wf h F hF hd
  rw [hrun] at hrun'
  cases hrun'
  have hsrc := unroot_to_string_forest fmt h (h.length + 1) F hF
    (fun s hs => Nat.le_succ_of_le (size_le_length hF hd hs))
  have hrepT : ∀ s ∈ F.map (Shape.map (slot_of F)), s.RepC t._tree :=
    fun s hs => (hforest.2.2.1 s hs).repC
  have hdst := unroot_to_string_forest fmt t._tree (t._size + 1) (F.map (Shape.map (slot_of F)))
    hrepT (by
      intro s hs
      obtain ⟨x, hx, rfl⟩ := List.mem_map.1 hs
      rw [Shape.size_map, hsize]
      exact Nat.le_succ_of_le (size_le_sum hx))
  have hstr : (F.map (Shape.map (slot_of F))).map (Shape.str fmt t._tree)
      = F.map (Shape.str fmt h) := by
    rw [List.map_map]
    apply List.map_congr_left
    intro s hs
    exact (himg s hs).str_eq fmt
  have hroots : (F.map (Shape.map (slot_of F))).map Shape.root = t._unroot := hforest.2.1
  rw [hroots, hstr] at hdst
  have hlen : t._unroot.length = (F.map Shape.root).length := by
    rw [← hroots]; simp
  constructor
  · simp only [tree_t.to_string, hdst, hsrc, hlen]
  · simp only [tree_t.to_string, hdst]
    exact ⟨_, rfl⟩

end Gstar

namespace Gstar

/-! ## Copying a packed tree -/

theorem queue_of_map (σ : Nat → Nat) (F : List Shape) :
    queue_of (F.map (Shape.map σ)) = (queue_of F).map σ := by
  unfold queue_of
  rw [List.map_append, List.map_map, List.map_map]
  congr 1
  · apply List.map_congr_left
    intro s _
    simp [Shape.root_map]
  · rw [← List.map_reverse, List.flatMap_map, List.map_flatMap]
    congr 1
    funext s
    exact Shape.ord1_map σ s

/-- The queue of the renamed forest of a tree built by `make_flat_tree` is `0, 1, 2, ...`. -/
theorem queue_of_flat {F : List Shape} (hd : (F.flatMap Shape.addrs).Nodup) :
    queue_of (F.map (Shape.map (slot_of F))) = List.range (queue_of F).length := by
  rw [queue_of_map]
  exact map_indexOf_eq_range (queue_of_nodup hd)

/-- Moved copies under a renaming that fixes every address of a realised shape are the nodes
themselves. -/
theorem Shape.Img.fixed {t t2 : List node_t} {σ : Nat → Nat} :
    ∀ {s : Shape} {par : Option Nat}, (∀ a ∈ s.addrs, σ a = a) → s.Rep t par →
      s.Img t t2 σ par → ∀ a ∈ s.addrs, t2[a]? = t[a]? := by
  intro s
  induction s with
  | leaf a =>
    intro par hσ hrep himg b hb
    simp [Shape.addrs] at hb
    subst hb
    obtain ⟨n, hn, ⟨-, hl, hr⟩, hp⟩ := hrep
    simp only [Shape.Img, hσ b (by simp [Shape.addrs]), node_at_of_get hn] at himg
    rw [himg, hn]
    cases n
    simp_all [node_t.moved]
  | node a l r ihl ihr =>
    intro par hσ hrep himg b hb
    obtain ⟨⟨n, hn, ⟨-, hl, hr⟩, hp⟩, hL, hR⟩ := hrep
    have hσa := hσ a (by simp [Shape.addrs])
    have hσl := hσ l.root (by simp [Shape.addrs, l.root_mem_addrs])
    have hσr := hσ r.root (by simp [Shape.addrs, r.root_mem_addrs])
    simp only [Shape.Img, hσa, node_at_of_get hn] at himg
    simp only [Shape.addrs, List.mem_cons, List.mem_append] at hb
    rcases hb with rfl | hb | hb
    · rw [himg.1, hn]
      cases n
      simp_all [node_t.moved]
    · exact ihl (fun x hx => hσ x (by simp [Shape.addrs, hx])) hL himg.2.1 b hb
    · exact ihr (fun x hx => hσ x (by simp [Shape.addrs, hx])) hR himg.2.2 b hb

/-- A well-formed packed tree whose array is in queue order is a fixed point of the copy
constructor. -/
theorem tree_t.copy_of_canonical {t : tree_t} {F : List Shape} (hF : t.Forest F)
    (hq : queue_of F = List.range t._size) : t.copy = some t := by
  have hnd := hF.nodup
  have hrepC : ∀ s ∈ F, s.RepC t._tree := fun s hs => (hF.2.2.1 s hs).repC
  obtain ⟨T, hrun, hlen, himg⟩ := make_flat_tree_forest t._tree F hrepC hnd
  have hσ : ∀ a, a < t._size → slot_of F a = a := by
    intro a ha
    unfold slot_of
    rw [hq]
    have := List.indexOf_getElem (List.nodup_range t._size) a (by simpa using ha)
    simpa using this
  have hqlen : (queue_of F).length = t._size := by rw [hq, List.length_range]
  have hT : T = t._tree := by
    apply List.ext_getElem?
    intro k
    by_cases hk : k < t._size
    · obtain ⟨s, hs, hks⟩ := List.mem_flatMap.1 (hF.mem_iff.2 hk)
      exact (himg s hs).fixed
        (fun a ha => hσ a (hF.mem_iff.1 (List.mem_flatMap.2 ⟨s, hs, ha⟩))) (hF.2.2.1 s hs) k hks
    · rw [List.getElem?_eq_none (by rw [hlen, hqlen]; omega),
        List.getElem?_eq_none (by rw [hF.1]; omega)]
  have hur : F.map (fun s => slot_of F s.root) = t._unroot := by
    rw [← hF.2.1]
    apply List.map_congr_left
    intro s hs
    exact hσ _ (hF.mem_iff.1 (List.mem_flatMap.2 ⟨s, hs, s.root_mem_addrs⟩))
  unfold tree_t.copy
  rw [← hF.2.1, hrun, hT, hur, hqlen]

/-- The tree built by `make_flat_tree` from a realised forest is a fixed point of the copy
constructor: copying it gives the same array in the same order. -/
theorem make_flat_tree_copy (h : List node_t) (F : List Shape)
    (hF : ∀ s ∈ F, s.RepC h) (hd : (F.flatMap Shape.addrs).Nodup) (t : tree_t)
    (hrun : make_flat_tree h (F.map Shape.root) = some t) : t.copy = some t := by
  obtain ⟨t', hrun', hforest, hsize, -, -⟩ := make_flat_tree_wf h F hF hd
  rw [hrun] at hrun'
  cases hrun'
  refine tree_t.copy_of_canonical hforest ?_
  rw [queue_of_flat hd, length_queue_of, hsize]

end Gstar

namespace Gstar

/-! ## `find_pair` -/

theorem getD_set (l : List ℚ) (a x : Nat) (v : ℚ) :
    (l.set a v).getD x 0 = if x = a ∧ a < l.length then v else l.getD x 0 := by
  simp only [List.getD_eq_getElem?_getD, List.getElem?_set]
  by_cases hxa : x = a
  · subst hxa
    by_cases hlt : x < l.length
    · simp [hlt]
    · simp [hlt, List.getElem?_eq_none (Nat.le_of_not_lt hlt)]
  · have : ¬ a = x := fun e => hxa e.symm
    simp [hxa, this]

/-- One row of a matrix fill: the entries of row `i` up to column `k` are written, nothing
else changes. -/
theorem fill_row (n i : Nat) (f : Nat → ℚ) :
    ∀ (k : Nat) (q : List ℚ), i * n + k ≤ q.length →
      ((List.range k).foldl (fun q j => q.set (i * n + j) (f j)) q).length = q.length ∧
      (∀ j, j < k → ((List.range k).foldl (fun q j => q.set (i * n + j) (f j)) q).getD
          (i * n + j) 0 = f j) ∧
      (∀ x, (x < i * n ∨ i * n + k ≤ x) →
        ((List.range k).foldl (fun q j => q.set (i * n + j) (f j)) q).getD x 0 = q.getD x 0) := by
  intro k
  induction k with
  | zero => intro q _; simp
  | succ k ih =>
    intro q hq
    obtain ⟨h1, h2, h3⟩ := ih q (by omega)
    simp only [List.range_succ, List.foldl_append, List.foldl_cons, List.foldl_nil]
    refine ⟨by simp [h1], ?_, ?_⟩
    · intro j hj
      rw [getD_set]
      by_cases hjk : j = k
      · subst hjk
        rw [if_pos ⟨rfl, by rw [h1]; omega⟩]
      · rw [if_neg (by intro h; exact hjk (by omega))]
        exact h2 j (by omega)
    · intro x hx
      rw [getD_set, if_neg (by intro h; omega)]
      exact h3 x (by omega)

/-- A matrix fill writes every entry of the first `m` rows. -/
theorem fill_matrix (n : Nat) (f : Nat → Nat → ℚ) :
    ∀ (m : Nat) (q : List ℚ), m ≤ n → n * n ≤ q.length →
      ((List.range m).foldl (fun q i =>
          (List.range n).foldl (fun q j => q.set (i * n + j) (f i j)) q) q).length = q.length ∧
      (∀ i j, i < m → j < n → ((List.range m).foldl (fun q i =>
          (List.range n).foldl (fun q j => q.set (i * n + j) (f i j)) q) q).getD (i * n + j) 0
            = f i j) := by
  intro m
  induction m with
  | zero => intro q _ _; simp
  | succ m ih =>
    intro q hm hq
    obtain ⟨h1, h2⟩ := ih q (by omega) hq
    simp only [List.range_succ, List.foldl_append, List.foldl_cons, List.foldl_nil]
    have hbound : m * n + n ≤ n * n := by
      have : (m + 1) * n ≤ n * n := Nat.mul_le_mul_right n hm
      rw [Nat.succ_mul] at this
      exact this
    obtain ⟨r1, r2, r3⟩ := fill_row n m (f m) n _ (by rw [h1]; omega)
    refine ⟨by rw [r1, h1], ?_⟩
    intro i j hi hj
    by_cases him : i = m
    · subst him
      exact r2 j hj
    · have hlt : i < m := by omega
      rw [r3 (i * n + j) (Or.inl ?_)]
      · exact h2 i j hlt hj
      · have : (i + 1) * n ≤ m * n := Nat.mul_le_mul_right n hlt
        rw [Nat.succ_mul] at this
        omega

@[simp] theorem compute_r_row_size (s : nj_t) : (compute_r s)._row_size = s._row_size := rfl

@[simp] theorem compute_r_dists (s : nj_t) : (compute_r s)._dists = s._dists := rfl

@[simp] theorem compute_q_row_size (s : nj_t) : (compute_q s)._row_size = s._row_size := rfl

@[simp] theorem compute_q_dists (s : nj_t) : (compute_q s)._dists = s._dists := rfl

@[simp] theorem compute_q_r_vec (s : nj_t) : (compute_q s)._r_vec = (compute_r s)._r_vec := rfl

@[simp] theorem find_pair_row_size (s : nj_t) : (find_pair s)._row_size = s._row_size := rfl

@[simp] theorem find_pair_dists (s : nj_t) : (find_pair s)._dists = s._dists := rfl

@[simp] theorem find_pair_q_vec (s : nj_t) : (find_pair s)._q_vec = (compute_q s)._q_vec := rfl

@[simp] theorem find_pair_r_vec (s : nj_t) : (find_pair s)._r_vec = (compute_r s)._r_vec := rfl

theorem length_vec_resize (v : List ℚ) (n : Nat) (d : ℚ) : (vec_resize v n d).length = n := by
  simp [vec_resize]
  omega

/-- The matrix written by `compute_q`. -/
theorem compute_q_entry (s : nj_t) (i j : Nat) (hi : i < s._row_size) (hj : j < s._row_size) :
    (compute_q s).Q i j = ((s._row_size - 2 : Nat) : ℚ) * s.D i j
      - (compute_r s)._r_vec.getD i 0 - (compute_r s)._r_vec.getD j 0 := by
  have := (fill_matrix s._row_size
    (fun i j => ((s._row_size - 2 : Nat) : ℚ) * s._dists.getD (i * s._row_size + j) 0
      - (compute_r s)._r_vec.getD i 0 - (compute_r s)._r_vec.getD j 0)
    s._row_size (vec_resize (compute_r s)._q_vec (s._row_size * s._row_size) 0)
    (Nat.le_refl _) (by rw [length_vec_resize])).2 i j hi hj
  simpa [nj_t.Q, nj_t.D, compute_q] using this

end Gstar

namespace Gstar

/-- A left fold that replaces the current best by every element whose value is `<=` the best
one returns a minimal element, and the last one among the minimal ones. -/
theorem fold_le_last {α : Type} (v : α → ℚ) :
    ∀ (L : List α) (init : α),
      (∀ x ∈ L, v (L.foldl (fun low x => if v x ≤ v low then x else low) init) ≤ v x) ∧
      v (L.foldl (fun low x => if v x ≤ v low then x else low) init) ≤ v init ∧
      ((L.foldl (fun low x => if v x ≤ v low then x else low) init = init ∧
          ∀ x ∈ L, v init < v x) ∨
        ∃ L1 L2, L = L1 ++ L.foldl (fun low x => if v x ≤ v low then x else low) init :: L2 ∧
          ∀ x ∈ L2, v (L.foldl (fun low x => if v x ≤ v low then x else low) init) < v x) := by
  intro L
  induction L with
  | nil => intro init; simp
  | cons y L ih =>
    intro init
    simp only [List.foldl_cons]
    obtain ⟨h1, h2, h3⟩ := ih (if v y ≤ v init then y else init)
    have hle : v (if v y ≤ v init then y else init) ≤ v init ∧
        v (if v y ≤ v init then y else init) ≤ v y := by
      by_cases hy : v y ≤ v init
      · simp [hy]
      · simp only [hy, if_false]
        exact ⟨le_refl _, le_of_lt (lt_of_not_le hy)⟩
    refine ⟨?_, le_trans h2 hle.1, ?_⟩
    · intro x hx
      rcases List.mem_cons.1 hx with rfl | hx
      · exact le_trans h2 hle.2
      · exact h1 x hx
    · rcases h3 with ⟨heq, hall⟩ | ⟨L1, L2, hL, hall⟩
      · by_cases hy : v y ≤ v init
        · right
          simp only [hy, if_true] at heq hall
          refine ⟨[], L, ?_, ?_⟩
          · simp [hy, heq]
          · intro x hx
            simp only [hy, if_true, heq]
            exact hall x hx
        · left
          simp only [hy, if_false] at heq hall
          refine ⟨by simp [hy, heq], ?_⟩
          intro x hx
          rcases List.mem_cons.1 hx with rfl | hx
          · exact lt_of_not_le hy
          · exact hall x hx
      · right
        exact ⟨y :: L1, L2, by rw [List.cons_append, ← hL], hall⟩

theorem foldl_scan_pairs {β : Type} (g : β → Nat → Nat → β) (n : Nat) (init : β) :
    (List.range n).foldl (fun b i => (List.range i).foldl (fun b j => g b i j) b) init
      = (scan_pairs n).foldl (fun b x => g b x.1 x.2) init := by
  unfold scan_pairs
  induction n generalizing init with
  | zero => rfl
  | succ n ih =>
    simp only [List.range_succ, List.foldl_append, List.foldl_cons, List.foldl_nil,
      List.flatMap_append, List.flatMap_cons, List.flatMap_nil, List.append_nil]
    rw [ih, List.foldl_map]

theorem find_pair_scan_eq (q : List ℚ) (n : Nat) :
    find_pair_scan q n = (scan_pairs n).foldl
      (fun low x => if q.getD (x.1 * n + x.2) 0 ≤ q.getD (low.1 * n + low.2) 0 then x else low)
      (0, 1) := by
  unfold find_pair_scan
  rw [foldl_scan_pairs (fun low i j => find_pair_step q n low i j)]
  rfl

theorem mem_scan_pairs {n : Nat} {x : Nat × Nat} : x ∈ scan_pairs n ↔ x.2 < x.1 ∧ x.1 < n := by
  unfold scan_pairs
  simp only [List.mem_flatMap, List.mem_range, List.mem_map]
  constructor
  · rintro ⟨i, hi, j, hj, rfl⟩
    exact ⟨hj, hi⟩
  · rintro ⟨h1, h2⟩
    exact ⟨x.1, h2, x.2, h1, rfl⟩

theorem scan_pairs_sorted (n : Nat) : (scan_pairs n).Pairwise scanned_after := by
  unfold scan_pairs
  induction n with
  | zero => simp
  | succ n ih =>
    rw [List.range_succ, List.flatMap_append, List.pairwise_append]
    refine ⟨ih, ?_, ?_⟩
    · simp only [List.flatMap_cons, List.flatMap_nil, List.append_nil]
      rw [List.pairwise_map]
      refine List.Pairwise.imp ?_ (List.pairwise_lt_range n)
      intro a b hab
      exact Or.inr ⟨rfl, hab⟩
    · intro a ha b hb
      simp only [List.mem_flatMap, List.mem_range, List.mem_map] at ha
      obtain ⟨i, hi, j, -, rfl⟩ := ha
      simp only [List.flatMap_cons, List.flatMap_nil, List.append_nil, List.mem_map] at hb
      obtain ⟨j', -, rfl⟩ := hb
      exact Or.inl hi

theorem scanned_after_asymm {a b : Nat × Nat} (h1 : scanned_after a b)
    (h2 : scanned_after b a) : False := by
  unfold scanned_after at h1 h2
  omega

/-- The pair found by the scan of `find_pair` is `(0, 1)` or a pair of the lower triangle. -/
theorem find_pair_scan_mem (q : List ℚ) (n : Nat) :
    find_pair_scan q n = (0, 1) ∨ find_pair_scan q n ∈ scan_pairs n := by
  rw [find_pair_scan_eq]
  have := (fold_le_last (fun x : Nat × Nat => q.getD (x.1 * n + x.2) 0) (scan_pairs n)
    (0, 1)).2.2
  generalize (scan_pairs n).foldl
    (fun low x => if q.getD (x.1 * n + x.2) 0 ≤ q.getD (low.1 * n + low.2) 0 then x else low)
    (0, 1) = r at this ⊢
  rcases this with ⟨h, -⟩ | ⟨L1, L2, hL, -⟩
  · exact Or.inl h
  · right
    rw [hL]
    simp

end Gstar

namespace Gstar

theorem find_pair_ij (s : nj_t) :
    ((find_pair s)._i, (find_pair s)._j)
      = find_pair_scan (compute_q s)._q_vec s._row_size := rfl

theorem compute_q_symm (s : nj_t)
    (hsym : ∀ i j, i < s._row_size → j < s._row_size → s.D i j = s.D j i)
    (a b : Nat) (ha : a < s._row_size) (hb : b < s._row_size) :
    (compute_q s).Q a b = (compute_q s).Q b a := by
  rw [compute_q_entry s a b ha hb, compute_q_entry s b a hb ha, hsym a b ha hb]
  ring

/-- The statement of C5 for an arbitrary state: on a symmetric matrix with at least two rows
`find_pair` selects a pair of the strict lower triangle whose Q value (as written by
`compute_q` from the vector `R` of `compute_r`) is minimal over the strict lower triangle, and
every pair of the triangle scanned after the selected one has a strictly greater Q value. -/
theorem find_pair_spec (s : nj_t) (hn : 2 ≤ s._row_size)
    (hsym : ∀ i j, i < s._row_size → j < s._row_size → s.D i j = s.D j i) :
    (find_pair s)._j < (find_pair s)._i ∧ (find_pair s)._i < s._row_size ∧
    (∀ a b, a < s._row_size → b < s._row_size →
      (find_pair s).Q a b = ((s._row_size - 2 : Nat) : ℚ) * s.D a b
        - (find_pair s)._r_vec.getD a 0 - (find_pair s)._r_vec.getD b 0) ∧
    (∀ a b, b < a → a < s._row_size →
      (find_pair s).Q (find_pair s)._i (find_pair s)._j ≤ (find_pair s).Q a b) ∧
    (∀ a b, b < a → a < s._row_size →
      scanned_after ((find_pair s)._i, (find_pair s)._j) (a, b) →
      (find_pair s).Q (find_pair s)._i (find_pair s)._j < (find_pair s).Q a b) := by
  have hQ : ∀ a b, (find_pair s).Q a b
      = (fun x : Nat × Nat => (compute_q s)._q_vec.getD (x.1 * s._row_size + x.2) 0) (a, b) :=
    fun _ _ => rfl
  have hij := find_pair_ij s
  rw [find_pair_scan_eq] at hij
  have hfold := fold_le_last
    (fun x : Nat × Nat => (compute_q s)._q_vec.getD (x.1 * s._row_size + x.2) 0)
    (scan_pairs s._row_size) (0, 1)
  rw [← hij] at hfold
  obtain ⟨hmin, -, hlast⟩ := hfold
  have h10 : ((1, 0) : Nat × Nat) ∈ scan_pairs s._row_size :=
    mem_scan_pairs.2 ⟨by decide, by simpa using hn⟩
  have hsym10 : (compute_q s)._q_vec.getD (1 * s._row_size + 0) 0
      = (compute_q s)._q_vec.getD (0 * s._row_size + 1) 0 :=
    compute_q_symm s hsym 1 0 (by omega) (by omega)
  have hsorted := scan_pairs_sorted s._row_size
  rcases hlast with ⟨-, hall⟩ | ⟨L1, L2, hL, hall⟩
  · exfalso
    have := hall (1, 0) h10
    simp only at this
    rw [hsym10] at this
    exact lt_irrefl _ this
  · have hmem : ((find_pair s)._i, (find_pair s)._j) ∈ scan_pairs s._row_size := by
      rw [hL]; simp
    have hlt := mem_scan_pairs.1 hmem
    refine ⟨hlt.1, hlt.2, ?_, ?_, ?_⟩
    · intro a b ha hb
      exact compute_q_entry s a b ha hb
    · intro a b hba ha
      rw [hQ, hQ]
      exact hmin (a, b) (mem_scan_pairs.2 ⟨hba, ha⟩)
    · intro a b hba ha hafter
      rw [hQ, hQ]
      refine hall (a, b) ?_
      have hab : (a, b) ∈ scan_pairs s._row_size := mem_scan_pairs.2 ⟨hba, ha⟩
      rw [hL] at hab hsorted
      rcases List.mem_append.1 hab with h1 | h1
      · exfalso
        have := (List.pairwise_append.1 hsorted).2.2 (a, b) h1 _ (List.mem_cons_self _ _)
        exact scanned_after_asymm hafter this
      · rcases List.mem_cons.1 h1 with h2 | h2
        · exfalso
          rw [h2] at hafter
          exact scanned_after_asymm hafter hafter
        · exact h2

end Gstar

namespace Gstar

/-! ## The constructor of `nj_t` -/

@[simp] theorem find_pair_tree (s : nj_t) : (find_pair s)._tree = s._tree := rfl

@[simp] theorem find_pair_heap (s : nj_t) : (find_pair s).heap = s.heap := rfl

theorem find_pair_valid (s : nj_t) (hn : 2 ≤ s._row_size) :
    (find_pair s)._i ≠ (find_pair s)._j ∧ (find_pair s)._i < s._row_size ∧
      (find_pair s)._j < s._row_size := by
  have h := find_pair_scan_mem (compute_q s)._q_vec s._row_size
  rw [← find_pair_ij] at h
  rcases h with h | h
  · simp only [Prod.mk.injEq] at h
    rw [h.1, h.2]
    exact ⟨by decide, by omega, by omega⟩
  · have := mem_scan_pairs.1 h
    simp only at this
    exact ⟨by omega, by omega, by omega⟩

theorem join_collect_eq (tree : List Nat) (si sj : Nat) :
    ∀ (idxs acc : List Nat), (∀ x ∈ idxs, x < tree.length) →
      join_collect tree si sj idxs acc
        = some (acc ++ (idxs.filter (keeps si sj)).map (fun x => tree.getD x 0)) := by
  intro idxs
  induction idxs with
  | nil => intro acc _; simp [join_collect]
  | cons i idxs ih =>
    intro acc hlt
    have hi := hlt i (List.mem_cons_self _ _)
    have hrest : ∀ x ∈ idxs, x < tree.length := fun x hx => hlt x (List.mem_cons_of_mem _ hx)
    rw [join_collect]
    by_cases hc : i = si ∨ i = sj
    · rw [if_pos hc, ih acc hrest]
      have : keeps si sj i = false := by simp only [keeps, hc, not_true_eq_false, decide_False]
      rw [List.filter_cons_of_neg (by simp [this])]
    · rw [if_neg hc]
      simp only [List.getElem?_eq_getElem hi]
      rw [ih _ hrest]
      have : keeps si sj i = true := by simp only [keeps, hc, not_false_eq_true, decide_True]
      rw [List.filter_cons_of_pos this]
      simp [List.getD_eq_getElem?_getD, List.getElem?_eq_getElem hi]

theorem perm_remove_two (n i j : Nat) (hij : i ≠ j) (hi : i < n) (hj : j < n) :
    ((List.range n).filter (keeps i j) ++ [i, j]).Perm (List.range n) := by
  rw [List.perm_iff_count]
  intro x
  rw [List.count_append]
  have hc : List.count x (List.range n) = if x < n then 1 else 0 := by
    by_cases hx : x < n
    · rw [if_pos hx]
      exact List.count_eq_one_of_mem (List.nodup_range n) (List.mem_range.2 hx)
    · rw [if_neg hx]
      exact List.count_eq_zero_of_not_mem (fun h => hx (List.mem_range.1 h))
  have hdrop : keeps i j x = false → List.count x ((List.range n).filter (keeps i j)) = 0 := by
    intro hk
    apply List.count_eq_zero_of_not_mem
    intro hm
    have := (List.mem_filter.1 hm).2
    rw [hk] at this
    cases this
  by_cases hxi : x = i
  · subst hxi
    rw [hdrop (by simp [keeps]), hc, if_pos hi]
    simp [List.count_cons, hij]
  · by_cases hxj : x = j
    · subst hxj
      rw [hdrop (by simp [keeps]), hc, if_pos hj]
      have : ¬ i = x := fun e => hxi e.symm
      simp [List.count_cons, this]
    · have h1 : ¬ i = x := fun e => hxi e.symm
      have h2 : ¬ j = x := fun e => hxj e.symm
      have hk : keeps i j x = true := by simp [keeps, hxi, hxj]
      rw [List.count_filter hk]
      simp [List.count_cons, h1, h2]

theorem map_getD_range {α : Type} (F : List α) (d : α) :
    (List.range F.length).map (fun x => F.getD x d) = F := by
  apply List.ext_getElem
  · simp
  · intro i h1 h2
    simp [List.getD_eq_getElem?_getD, List.getElem?_eq_getElem h2]

end Gstar

namespace Gstar

/-! ## One call of `join_pair` on the cluster forest -/

theorem join_pair_eq (s0 : nj_t) (tmp_tree : List Nat) (ti tj : Nat)
    (hc : join_collect s0._tree (find_pair s0)._i (find_pair s0)._j
      (List.range s0._row_size) [] = some tmp_tree)
    (hi : s0._tree[(find_pair s0)._i]? = some ti)
    (hj : s0._tree[(find_pair s0)._j]? = some tj)
    (hti : ti < s0.heap.length) (htj : tj < s0.heap.length) :
    ∃ (s1 : nj_t) (lw rw : ℚ), join_pair s0 = some s1 ∧ s1._tree = tmp_tree ++ [s0.heap.length] ∧
      s1._row_size = s0._row_size - 1 ∧
      s1.heap = upd (upd (upd (upd
        (s0.heap ++ [{ node_t.fresh with _lchild := some ti, _rchild := some tj,
                                         _children := true }])
        ti (fun x => { x with _parent := some s0.heap.length }))
        tj (fun x => { x with _parent := some s0.heap.length }))
        ti (fun x => { x with _weight := lw }))
        tj (fun x => { x with _weight := rw }) := by
  have hrs : (find_pair s0)._row_size = s0._row_size := rfl
  unfold join_pair
  simp only [find_pair_tree, find_pair_heap, hrs, hc, hi, hj]
  rw [store_eq_upd _ (by simp; omega)]
  simp only []
  rw [store_eq_upd _ (by simp; omega)]
  simp only []
  rw [store_eq_upd _ (by simp; omega)]
  simp only []
  rw [store_eq_upd _ (by simp; omega)]
  exact ⟨_, _, _, rfl, rfl, rfl, rfl⟩

end Gstar

namespace Gstar

/-- The cluster forest after a join: the clusters other than `i` and `j`, in order, then the
new cluster at address `N` with children the clusters `i` and `j`. -/
theorem forest_join_perm (F : List Shape) (i j N : Nat) (si sj : Shape)
    (hsi : F[i]? = some si) (hsj : F[j]? = some sj) (hij : i ≠ j) :
    ((((List.range F.length).filter (keeps i j)).map (fun x => F.getD x (Shape.leaf 0))
      ++ [Shape.node N si sj]).flatMap Shape.addrs).Perm (F.flatMap Shape.addrs ++ [N]) := by
  have hi : i < F.length := (List.getElem?_eq_some_iff.1 hsi).1
  have hj : j < F.length := (List.getElem?_eq_some_iff.1 hsj).1
  have hp := (perm_remove_two F.length i j hij hi hj).map (fun x => F.getD x (Shape.leaf 0))
  rw [map_getD_range, List.map_append] at hp
  have hp2 := hp.flatMap_right Shape.addrs
  have e1 : F.getD i (Shape.leaf 0) = si := by simp [List.getD, hsi]
  have e2 : F.getD j (Shape.leaf 0) = sj := by simp [List.getD, hsj]
  simp only [List.flatMap_append, List.map_cons, List.map_nil, List.flatMap_cons,
    List.flatMap_nil, List.append_nil, e1, e2] at hp2
  simp only [List.flatMap_append, List.flatMap_cons, List.flatMap_nil, List.append_nil,
    Shape.addrs]
  refine List.Perm.trans ?_ (hp2.append_right [N])
  rw [List.perm_iff_count]
  intro x
  simp only [List.count_append, List.count_cons, List.count_nil]
  omega

theorem forest_join_roots (F : List Shape) (i j : Nat) :
    ((List.range F.length).filter (keeps i j)).map
        (fun x => (F.getD x (Shape.leaf 0)).root)
      = ((List.range F.length).filter (keeps i j)).map
        (fun x => (F.map Shape.root).getD x 0) := by
  apply List.map_congr_left
  intro x hx
  have hx' : x < F.length := List.mem_range.1 (List.mem_filter.1 hx).1
  simp [List.getD, List.getElem?_eq_getElem hx']

theorem forest_join_mem (F : List Shape) (i j : Nat) (x : Shape)
    (hx : x ∈ ((List.range F.length).filter (keeps i j)).map
      (fun x => F.getD x (Shape.leaf 0))) : x ∈ F := by
  obtain ⟨k, hk, rfl⟩ := List.mem_map.1 hx
  have hk' : k < F.length := List.mem_range.1 (List.mem_filter.1 hk).1
  simp [List.getD, List.getElem?_eq_getElem hk']

end Gstar

namespace Gstar

theorem root_lt_of_forest {h : List node_t} {F : List Shape}
    (hperm : (F.flatMap Shape.addrs).Perm (List.range h.length)) {s : Shape} (hs : s ∈ F) :
    s.root < h.length :=
  List.mem_range.1 (hperm.subset (List.mem_flatMap.2 ⟨s, hs, s.root_mem_addrs⟩))

/-- One call of `join_pair` keeps the invariant of the constructor loop and removes one
cluster. -/
theorem join_pair_step (labels : List String) (k : Nat) (s : nj_t) (hinv : NJInv labels k s)
    (hn : 2 ≤ s._row_size) :
    ∃ s1, join_pair s = some s1 ∧ NJInv labels (k + 1) s1 ∧
      s1._row_size = s._row_size - 1 := by
  obtain ⟨hlen, hk, ⟨F, hroots, hrep, hperm⟩, hkeys⟩ := hinv
  obtain ⟨hij, hi, hj⟩ := find_pair_valid s hn
  have hFlen : F.length = s._row_size := by
    rw [← hlen, ← hroots, List.length_map]
  have hi' : (find_pair s)._i < F.length := by omega
  have hj' : (find_pair s)._j < F.length := by omega
  have hsi : F[(find_pair s)._i]? = some F[(find_pair s)._i] := List.getElem?_eq_getElem hi'
  have hsj : F[(find_pair s)._j]? = some F[(find_pair s)._j] := List.getElem?_eq_getElem hj'
  generalize F[(find_pair s)._i] = si at hsi
  generalize F[(find_pair s)._j] = sj at hsj
  have hsiF : si ∈ F := List.mem_iff_getElem?.2 ⟨_, hsi⟩
  have hsjF : sj ∈ F := List.mem_iff_getElem?.2 ⟨_, hsj⟩
  have hti := root_lt_of_forest hperm hsiF
  have htj := root_lt_of_forest hperm hsjF
  have hc := join_collect_eq s._tree (find_pair s)._i (find_pair s)._j
    (List.range s._row_size) [] (fun x hx => by rw [hlen]; exact List.mem_range.1 hx)
  have hgi : s._tree[(find_pair s)._i]? = some si.root := by
    rw [← hroots, List.getElem?_map, hsi]; rfl
  have hgj : s._tree[(find_pair s)._j]? = some sj.root := by
    rw [← hroots, List.getElem?_map, hsj]; rfl
  obtain ⟨s1, lw, rw_, hrun, htree, hrow, hheap⟩ :=
    join_pair_eq s _ si.root sj.root hc hgi hgj hti htj
  refine ⟨s1, hrun, ⟨?_, ?_, ⟨((List.range F.length).filter (keeps (find_pair s)._i
    (find_pair s)._j)).map (fun x => F.getD x (Shape.leaf 0))
      ++ [Shape.node s.heap.length si sj], ?_, ?_, ?_⟩, ?_⟩, hrow⟩
  · have hp := (perm_remove_two s._row_size _ _ hij hi hj).length_eq
    simp only [List.length_append, List.length_range, List.length_cons, List.length_nil] at hp
    rw [htree, hrow]
    simp only [List.nil_append, List.length_append, List.length_map, List.length_singleton]
    omega
  · rw [hrow]; omega
  · rw [htree, List.map_append, List.map_map]
    simp only [List.nil_append, List.map_cons, List.map_nil, Shape.root_node]
    rw [← hroots, hFlen]
    congr 1
    have := forest_join_roots F (find_pair s)._i (find_pair s)._j
    rw [hFlen] at this
    exact this
  · have hfk : ∀ (p : Option Nat) (n : node_t), ({ n with _parent := p } : node_t).kids = n.kids :=
      fun _ _ => rfl
    have hfw : ∀ (w : ℚ) (n : node_t), ({ n with _weight := w } : node_t).kids = n.kids :=
      fun _ _ => rfl
    have hK : KidsLe (s.heap ++ [⟨"", 0, some si.root, some sj.root, none, true⟩])
        s1.heap := by
      rw [hheap]
      exact (((KidsLe.upd _ _ (hfk _)).trans (KidsLe.upd _ _ (hfk _))).trans
        (KidsLe.upd _ _ (hfw _))).trans (KidsLe.upd _ _ (hfw _))
    have hK0 : KidsLe s.heap s1.heap := (KidsLe.append _ _).trans hK
    intro x hx
    rcases List.mem_append.1 hx with hx | hx
    · exact Shape.RepC.of_kidsLe hK0 (hrep x (forest_join_mem F _ _ x hx))
    · rw [List.mem_singleton] at hx
      subst hx
      refine ⟨?_, Shape.RepC.of_kidsLe hK0 (hrep si hsiF),
        Shape.RepC.of_kidsLe hK0 (hrep sj hsjF)⟩
      obtain ⟨n', hn', e⟩ := hK s.heap.length
        ⟨"", 0, some si.root, some sj.root, none, true⟩ (by simp)
      simp only [node_t.kids, Prod.mk.injEq] at e
      exact ⟨n', hn', e.1, e.2.1, e.2.2⟩
  · have hp := forest_join_perm F (find_pair s)._i (find_pair s)._j s.heap.length si sj
      hsi hsj hij
    refine hp.trans ?_
    rw [hheap]
    simp only [length_upd, List.length_append, List.length_singleton, List.range_succ]
    exact hperm.append_right _
  · have hkp : ∀ (p : Option Nat) (h : List node_t) (a : Nat),
        (upd h a (fun x => { x with _parent := p })).map node_t.key = h.map node_t.key :=
      fun p h a => map_key_upd h a (fun _ => rfl)
    have hkw : ∀ (w : ℚ) (h : List node_t) (a : Nat),
        (upd h a (fun x => { x with _weight := w })).map node_t.key = h.map node_t.key :=
      fun w h a => map_key_upd h a (fun _ => rfl)
    rw [hheap, hkw, hkw, hkp, hkp, List.map_append, hkeys, List.replicate_succ',
      List.append_assoc]
    rfl

end Gstar

namespace Gstar

/-! ## The constructor loop -/

theorem nj_leaves_eq (labels : List String) :
    ∀ (idxs : List Nat), (∀ i ∈ idxs, i < labels.length) →
      nj_leaves labels idxs
        = some (idxs.map (fun i => (⟨labels.getD i "", 0, none, none, none, false⟩ : node_t))) := by
  intro idxs
  induction idxs with
  | nil => intro _; rfl
  | cons i rest ih =>
    intro hb
    have hi : i < labels.length := hb i (by simp)
    rw [nj_leaves, ih (fun x hx => hb x (by simp [hx])), List.getElem?_eq_getElem hi]
    simp [List.getD, List.getElem?_eq_getElem hi, node_t.fresh]

theorem nj_init_inv (dists : List ℚ) (labels : List String) (n : Nat)
    (hd : dists.length = n * n) (hl : labels.length = n) :
    ∃ s0, nj_init dists labels = some s0 ∧ s0._row_size = n ∧ s0._dists = dists ∧
      NJInv labels 0 s0 := by
  have hheap : nj_leaves labels (List.range n)
      = some (labels.map (fun l => (⟨l, 0, none, none, none, false⟩ : node_t))) := by
    rw [nj_leaves_eq labels _ (fun i hi => by rw [hl]; exact List.mem_range.1 hi)]
    have := map_getD_range labels ""
    rw [hl] at this
    conv_rhs => rw [← this]
    rw [List.map_map]
    rfl
  unfold nj_init
  simp only [hd, Nat.sqrt_eq, hheap]
  refine ⟨_, rfl, rfl, rfl, ?_, ?_, ⟨(List.range n).map Shape.leaf, ?_, ?_, ?_⟩, ?_⟩
  · simp
  · simp [hl]
  · simp only [List.map_map]
    conv_rhs => rw [← List.map_id (List.range n)]
    apply List.map_congr_left
    intro a _
    rfl
  · intro x hx
    obtain ⟨a, ha, rfl⟩ := List.mem_map.1 hx
    have ha' : a < labels.length := by rw [hl]; exact List.mem_range.1 ha
    refine ⟨⟨labels[a], 0, none, none, none, false⟩, ?_, rfl, rfl, rfl⟩
    simp [List.getElem?_map, List.getElem?_eq_getElem ha']
  · simp only [List.length_map, hl]
    have : ((List.range n).map Shape.leaf).flatMap Shape.addrs = List.range n := by
      generalize List.range n = l
      induction l with
      | nil => rfl
      | cons a l ih => simp [List.flatMap_cons, Shape.addrs, ih]
    rw [this]
  · simp only [List.map_map, List.replicate_zero, List.append_nil]
    apply List.map_congr_left
    intro a _
    rfl

theorem join_pair_iter_inv (labels : List String) :
    ∀ (m k : Nat) (s : nj_t), NJInv labels k s → m + 1 ≤ s._row_size →
      ∃ sm, join_pair_iter m s = some sm ∧ NJInv labels (k + m) sm ∧
        sm._row_size = s._row_size - m := by
  intro m
  induction m with
  | zero => intro k s hinv _; exact ⟨s, rfl, hinv, rfl⟩
  | succ m ih =>
    intro k s hinv hm
    obtain ⟨s1, hrun, hinv1, hrow1⟩ := join_pair_step labels k s hinv (by omega)
    obtain ⟨sm, hrunm, hinvm, hrowm⟩ := ih (k + 1) s1 hinv1 (by omega)
    refine ⟨sm, ?_, ?_, ?_⟩
    · rw [join_pair_iter, hrun]; exact hrunm
    · have e : k + (m + 1) = k + 1 + m := by omega
      rw [e]; exact hinvm
    · rw [hrowm, hrow1]; omega

theorem nj_loop_eq (labels : List String) :
    ∀ (fuel k : Nat) (s : nj_t), NJInv labels k s → 3 ≤ s._row_size →
      s._row_size - 3 ≤ fuel → nj_loop fuel s = join_pair_iter (s._row_size - 3) s := by
  intro fuel
  induction fuel with
  | zero =>
    intro k s _ h3 hf
    have e : s._row_size - 3 = 0 := by omega
    rw [e, nj_loop, if_neg (by omega)]
    rfl
  | succ fuel ih =>
    intro k s hinv h3 hf
    by_cases hgt : s._row_size > 3
    · obtain ⟨s1, hrun, hinv1, hrow1⟩ := join_pair_step labels k s hinv (by omega)
      have e : s._row_size - 3 = (s1._row_size - 3) + 1 := by omega
      rw [nj_loop, if_pos hgt, hrun, e, join_pair_iter, hrun]
      exact ih (k + 1) s1 hinv1 (by omega) (by omega)
    · have e : s._row_size - 3 = 0 := by omega
      rw [e, nj_loop, if_neg hgt]
      rfl

end Gstar

namespace Gstar

/-! ## `join_final` and the emitted tree -/

theorem join_final_loop_ok (s : nj_t) :
    ∀ (idxs : List Nat) (h : List node_t),
      (∀ i ∈ idxs, ∃ p, s._tree[i]? = some p ∧ p < h.length) →
      ∃ h1, join_final_loop s idxs h = some h1 ∧ KidsLe h h1 ∧
        h1.map node_t.key = h.map node_t.key ∧ h1.length = h.length := by
  intro idxs
  induction idxs with
  | nil => intro h _; exact ⟨h, rfl, KidsLe.refl h, rfl, rfl⟩
  | cons i rest ih =>
    intro h hb
    obtain ⟨p, hp, hlt⟩ := hb i (by simp)
    have hstep : ∃ w : ℚ, join_final_step s h i
        = some (upd h p (fun x => { x with _weight := w })) := by
      unfold join_final_step
      simp only [hp]
      rw [store_eq_upd _ hlt]
      exact ⟨_, rfl⟩
    obtain ⟨w, hw⟩ := hstep
    obtain ⟨h1, hrun, hk, hkey, hlen⟩ := ih (upd h p (fun x => { x with _weight := w }))
      (fun x hx => by
        obtain ⟨q, hq, hql⟩ := hb x (by simp [hx])
        exact ⟨q, hq, by simpa using hql⟩)
    refine ⟨h1, ?_, ?_, ?_, ?_⟩
    · rw [join_final_loop, hw]; exact hrun
    · have h0 : KidsLe h (upd h p (fun x => { x with _weight := w })) :=
        KidsLe.upd h p (fun _ => rfl)
      exact h0.trans hk
    · rw [hkey]
      have h0 : (upd h p (fun x => { x with _weight := w })).map node_t.key
          = h.map node_t.key := map_key_upd h p (fun _ => rfl)
      exact h0
    · rw [hlen, length_upd]

theorem join_final_inv (labels : List String) (k : Nat) (s : nj_t) (hinv : NJInv labels k s)
    (h3 : s._row_size = 3) :
    ∃ s1, join_final s = some s1 ∧ NJInv labels k s1 ∧ s1._row_size = 3 := by
  obtain ⟨hlen, hk, ⟨F, hroots, hrep, hperm⟩, hkeys⟩ := hinv
  obtain ⟨h1, hrun, hkids, hkey, hl⟩ := join_final_loop_ok s (List.range s._row_size) s.heap
    (fun i hi => by
      have hi' : i < F.length := by
        have := List.mem_range.1 hi
        rw [← hlen, ← hroots, List.length_map] at this
        exact this
      refine ⟨F[i].root, ?_, root_lt_of_forest hperm (List.getElem_mem hi')⟩
      rw [← hroots, List.getElem?_map, List.getElem?_eq_getElem hi']
      rfl)
  refine ⟨{ s with heap := h1 }, ?_, ⟨hlen, hk, ⟨F, hroots, ?_, ?_⟩, ?_⟩, h3⟩
  · unfold join_final
    rw [if_pos h3, hrun]
  · intro x hx
    exact Shape.RepC.of_kidsLe hkids (hrep x hx)
  · show (F.flatMap Shape.addrs).Perm (List.range h1.length)
    rw [hl]; exact hperm
  · show h1.map node_t.key = _
    rw [hkey]; exact hkeys

theorem leaf_labels_of_keys (t : tree_t) (hlen : t._tree.length = t._size) :
    leaf_labels t
      = ((t._tree.map node_t.key).filter (fun x => !x.1)).map (fun x => x.2) := by
  unfold leaf_labels
  rw [← hlen, List.take_length, List.filter_map, List.map_map]
  rfl

theorem leaf_labels_perm {t : tree_t} {ks : List (Bool × String)}
    (hlen : t._tree.length = t._size) (hp : (t._tree.map node_t.key).Perm ks) :
    (leaf_labels t).Perm ((ks.filter (fun x => !x.1)).map (fun x => x.2)) := by
  rw [leaf_labels_of_keys t hlen]
  exact (hp.filter _).map _

theorem leaves_of_nj_keys (labels : List String) (k : Nat) :
    (((labels.map (fun l => (false, l)) ++ List.replicate k (true, "")).filter
      (fun x : Bool × String => !x.1)).map (fun x => x.2)) = labels := by
  rw [List.filter_append]
  have h1 : (List.replicate k ((true, "") : Bool × String)).filter (fun x => !x.1) = [] := by
    rw [List.filter_eq_nil_iff]
    intro a ha
    rw [List.eq_of_mem_replicate ha]
    decide
  have h2 : (labels.map (fun l => ((false, l) : Bool × String))).filter (fun x => !x.1)
      = labels.map (fun l => (false, l)) := by
    rw [List.filter_eq_self]
    intro a ha
    obtain ⟨l, _, rfl⟩ := List.mem_map.1 ha
    rfl
  rw [h1, h2, List.append_nil, List.map_map]
  conv_rhs => rw [← List.map_id labels]
  apply List.map_congr_left
  intro a _
  rfl

end Gstar

/-! ## The four-leaf scenario and other concrete runs -/

namespace Gstar

/-- C1 (evaluation at the failing input): for the unrooted tree `(A:1,B:1,(C:1,D:3):1);`, whose
leaf distance matrix is `[[0,2,3,5],[2,0,3,5],[3,3,0,4],[5,5,4,0]]` over the labels `A,B,C,D`,
the tree built by `nj` from that matrix and those labels has distance 4 between `A` and `C`,
and 4 between `A` and `D`, where the input tree has 3 and 5: `join_pair` gives both children
of the joined node half of their distance, because `1/(2*(2*_row_size-2))` is `0`. -/
theorem nj_additive_tree_not_recovered :
    tree_abcd.copy = some tree_abcd ∧
    leaf_labels tree_abcd = ["A", "B", "C", "D"] ∧
    calc_distance_matrix tree_abcd = some [0, 2, 3, 5, 2, 0, 3, 5, 3, 3, 0, 4, 5, 5, 4, 0] ∧
    label_distance tree_abcd "A" "C" = some 3 ∧
    label_distance tree_abcd "A" "D" = some 5 ∧
    (nj [0, 2, 3, 5, 2, 0, 3, 5, 3, 3, 0, 4, 5, 5, 4, 0] ["A", "B", "C", "D"]).bind
      (fun t => label_distance t "A" "C") = some 4 ∧
    (nj [0, 2, 3, 5, 2, 0, 3, 5, 3, 3, 0, 4, 5, 5, 4, 0] ["A", "B", "C", "D"]).bind
      (fun t => label_distance t "A" "D") = some 4 := by
  decide!

/-- C2 (as stated, refuted): in the four-leaf scenario the pair found by the first `join_pair`
is `(_i, _j) = (3, 2)`, not `A` and `B`, and after that step the weights of `A` and `B` are
still `0`, not `2` and `3`. -/
theorem scenario_first_join_is_not_AB :
    ((nj_init scenario_dists scenario_labels).bind join_pair).map
        (fun s => ((s._i, s._j), (s.heap[0]?.map (fun n => (n._label, n._weight)),
                                  s.heap[1]?.map (fun n => (n._label, n._weight)))))
      = some ((3, 2), (some ("A", 0), some ("B", 0))) ∧
    ((nj_init scenario_dists scenario_labels).bind join_pair).map (fun s => (s._i, s._j))
      ≠ some (1, 0) := by
  decide!

/-- C2 (amended): in the four-leaf scenario the Q values of the pairs `(1,0)` (`A`,`B`) and
`(3,2)` (`D`,`C`) tie at `-38`, the minimum; the first `join_pair` step joins `D` (left child)
and `C` (right child) under the new node at address 4 and gives each the weight `4`; it is the
only step (`_row_size` becomes 3, the reduced matrix is `[[0,5,5],[5,0,6],[5,6,0]]`), and the
weights `2` of `A` and `3` of `B` are assigned by `join_final`. -/
theorem scenario_first_join :
    ((nj_init scenario_dists scenario_labels).map find_pair).map
        (fun s => (s._q_vec.getD (1 * 4 + 0) 0, s._q_vec.getD (3 * 4 + 2) 0,
                   s._q_vec.getD (2 * 4 + 0) 0, s._q_vec.getD (2 * 4 + 1) 0,
                   s._q_vec.getD (3 * 4 + 0) 0, s._q_vec.getD (3 * 4 + 1) 0))
      = some (-38, -38, -32, -32, -32, -32) ∧
    ((nj_init scenario_dists scenario_labels).bind join_pair).map
        (fun s => (s._i, s._j, s._row_size, s._tree, s._dists))
      = some (3, 2, 3, [0, 1, 4], [0, 5, 5, 5, 0, 6, 5, 6, 0]) ∧
    ((nj_init scenario_dists scenario_labels).bind join_pair).map (fun s => s.heap)
      = some [⟨"A", 0, none, none, none, false⟩, ⟨"B", 0, none, none, none, false⟩,
              ⟨"C", 4, none, none, some 4, false⟩, ⟨"D", 4, none, none, some 4, false⟩,
              ⟨"", 0, some 3, some 2, none, true⟩] ∧
    (nj_init scenario_dists scenario_labels).bind (fun s0 => nj_loop s0._row_size s0)
      = (nj_init scenario_dists scenario_labels).bind join_pair ∧
    (nj_run scenario_dists scenario_labels).map
        (fun s => (s.heap[0]?.map (fun n => (n._label, n._weight)),
                   s.heap[1]?.map (fun n => (n._label, n._weight))))
      = some (some ("A", 2), some ("B", 3)) := by
  refine ⟨by decide!, by decide!, by decide!, by decide!, by decide!⟩

/-- C3 (as stated, refuted): the tree emitted in the four-leaf scenario, after `sort()`, has
three top-level members, not two, and its first two top-level members are the leaves `A` and
`B` themselves, not an internal node with children `A` and `B`. -/
theorem scenario_tree_has_three_groups :
    ((nj scenario_dists scenario_labels).bind tree_t.sort).map (fun t => t._unroot.length)
      = some 3 ∧
    ((nj scenario_dists scenario_labels).bind tree_t.sort).map
        (fun t => t._unroot.map (fun u => t._tree[u]?.map (fun n => (n._label, n._children))))
      = some [some ("A", false), some ("B", false), some ("", true)] := by
  decide!

/-- C3 (amended): in the four-leaf scenario the tree emitted by `nj`, after `sort()` and
`to_string`, is `(A:2,B:3,(C:4,D:4):3);` (each weight rendered by the formatter): three
top-level groups, the leaves `A` with weight 2 and `B` with weight 3, and an internal node of
weight 3 whose children are the leaves `C` and `D`, both of weight 4. -/
theorem scenario_tree_string (fmt : ℚ → String) :
    (nj scenario_dists scenario_labels).bind tree_t.sort = some scenario_sorted ∧
    scenario_sorted.to_string fmt
      = some ("(" ++ ("A:" ++ fmt 2 ++ "," ++ ("B:" ++ fmt 3 ++ ","
          ++ ("(" ++ ("C:" ++ fmt 4) ++ "," ++ ("D:" ++ fmt 4) ++ ")" ++ ":" ++ fmt 3)))
          ++ ")" ++ ";") := by
  refine ⟨by decide!, ?_⟩
  have hne : ∀ x : String, "(" ++ x ++ ")" ≠ "" := by
    intro x hx
    have := congrArg String.length hx
    simp at this
    exact absurd this.1.1 (by decide)
  simp [tree_t.to_string, scenario_sorted, unroot_to_string, node_to_string, hne]

end Gstar

namespace Gstar

/-- C4: for every `n >= 3`, every matrix of `n*n` distances and every list of `n` labels, the
constructor of `nj_t` runs to its end: the loop `while(_row_size>3)` makes exactly `n-3`
calls of `join_pair`, after `m` of them `_row_size` is `n-m`, `join_final` and `make_tree`
succeed, and the emitted tree has an unroot set of 3 members, `2n-3` nodes, and as leaves
exactly the input labels, each once. -/
theorem nj_runs_and_emits_unrooted_tree (n : Nat) (dists : List ℚ) (labels : List String)
    (hn : 3 ≤ n) (hd : dists.length = n * n) (hl : labels.length = n) :
    ∃ s0 s1 s2 t, nj_init dists labels = some s0 ∧ s0._row_size = n ∧
      (∀ m, m ≤ n - 3 → ∃ sm, join_pair_iter m s0 = some sm ∧ sm._row_size = n - m) ∧
      join_pair_iter (n - 3) s0 = some s1 ∧ s1._row_size = 3 ∧
      nj_loop s0._row_size s0 = some s1 ∧
      join_final s1 = some s2 ∧
      nj dists labels = some t ∧ t._unroot.length = 3 ∧ t._size = 2 * n - 3 ∧
      t._tree.length = 2 * n - 3 ∧ (leaf_labels t).Perm labels := by
  obtain ⟨s0, hinit, hrow0, -, hinv0⟩ := nj_init_inv dists labels n hd hl
  obtain ⟨s1, hiter, hinv1, hrow1⟩ := join_pair_iter_inv labels (n - 3) 0 s0 hinv0
    (by rw [hrow0]; omega)
  have hrow1' : s1._row_size = 3 := by rw [hrow1, hrow0]; omega
  have hloop : nj_loop s0._row_size s0 = some s1 := by
    rw [nj_loop_eq labels s0._row_size 0 s0 hinv0 (by rw [hrow0]; exact hn) (by omega), hrow0]
    exact hiter
  obtain ⟨s2, hfin, hinv2, -⟩ := join_final_inv labels (0 + (n - 3)) s1 hinv1 hrow1'
  obtain ⟨hlen2, -, ⟨F, hroots, hrep, hperm⟩, hkeys⟩ := hinv2
  obtain ⟨t, hrun, hwf, hsize, htl, hur, hkp, -⟩ := make_flat_tree_summary s2.heap F hrep hperm
  have hFlen : F.length = 3 := by
    have := congrArg List.length hroots
    rw [List.length_map, hlen2] at this
    have h3 : s2._row_size = 3 := by
      unfold join_final at hfin
      rw [if_pos hrow1'] at hfin
      cases hl1 : join_final_loop s1 (List.range s1._row_size) s1.heap with
      | none => rw [hl1] at hfin; cases hfin
      | some hh =>
        rw [hl1] at hfin
        cases hfin
        exact hrow1'
    rw [this, h3]
  have hheap : s2.heap.length = 2 * n - 3 := by
    have := congrArg List.length hkeys
    simp only [List.length_map, List.length_append, List.length_replicate] at this
    rw [this, hl]; omega
  refine ⟨s0, s1, s2, t, hinit, hrow0, ?_, hiter, hrow1', hloop, hfin, ?_, ?_, ?_, ?_, ?_⟩
  · intro m hm
    obtain ⟨sm, h1, -, h3⟩ := join_pair_iter_inv labels m 0 s0 hinv0 (by rw [hrow0]; omega)
    exact ⟨sm, h1, by rw [h3, hrow0]⟩
  · unfold nj nj_run
    rw [hinit]
    simp only []
    rw [hloop]
    simp only []
    rw [hfin]
    simp only []
    rw [← hroots]
    exact hrun
  · rw [hur, List.length_range, hFlen]
  · rw [hsize, hheap]
  · rw [htl, hheap]
  · have := leaf_labels_perm (htl.trans hsize.symm) hkp
    rw [hkeys, leaves_of_nj_keys] at this
    exact this

theorem nj_runs_and_emits_unrooted_tree_witness :
    3 ≤ 4 ∧ scenario_dists.length = 4 * 4 ∧ scenario_labels.length = 4 ∧
    ∃ s0 s1 s2 t, nj_init scenario_dists scenario_labels = some s0 ∧ s0._row_size = 4 ∧
      (∀ m, m ≤ 4 - 3 → ∃ sm, join_pair_iter m s0 = some sm ∧ sm._row_size = 4 - m) ∧
      join_pair_iter (4 - 3) s0 = some s1 ∧ s1._row_size = 3 ∧
      nj_loop s0._row_size s0 = some s1 ∧
      join_final s1 = some s2 ∧
      nj scenario_dists scenario_labels = some t ∧ t._unroot.length = 3 ∧
      t._size = 2 * 4 - 3 ∧ t._tree.length = 2 * 4 - 3 ∧
      (leaf_labels t).Perm scenario_labels :=
  ⟨by decide, rfl, rfl,
    nj_runs_and_emits_unrooted_tree 4 scenario_dists scenario_labels (by decide) rfl rfl⟩

end Gstar

namespace Gstar

/-- C5 (defect of the code): the second call of `find_pair` on the leaf distances of the
tree `((A:3,B:3):1,C:4,(D:1,E:5):1);`.  The first `join_pair` joins `D` and `E` and leaves
the symmetric matrix `0 6 8 5 / 6 0 8 5 / 8 8 0 5 / 5 5 5 0` with zero diagonal over the
clusters `A, B, C, (D,E)`, whose row sums are `19, 19, 21, 15`.  `compute_r` adds these row
sums to the row sums of the first round, so `find_pair` works with `49, 49, 53, 39`, and it
selects the pair `(2, 1)`.  The Q values of the current matrix over the strict lower
triangle, in scan order, are `-26, -24, -24, -24, -24, -26`: the selected pair is not a pair
of minimal Q value, which `(1, 0)` and `(3, 2)` are.  All values are integers, on which the
`float` operations are exact: the run with rounded operations selects the same pair. -/
theorem find_pair_uses_stale_row_sums :
    (nj_init uneven_dists five_labels).bind join_pair = some uneven_state ∧
    uneven_state._row_size = 4 ∧ uneven_state.symmetric ∧ uneven_state.zero_diagonal ∧
    row_sums uneven_state = [19, 19, 21, 15] ∧
    (find_pair uneven_state)._r_vec = [49, 49, 53, 39] ∧
    ((find_pair uneven_state)._i, (find_pair uneven_state)._j) = (2, 1) ∧
    [uneven_state.criterion 1 0, uneven_state.criterion 2 0, uneven_state.criterion 2 1,
      uneven_state.criterion 3 0, uneven_state.criterion 3 1, uneven_state.criterion 3 2]
      = [-26, -24, -24, -24, -24, -26] ∧
    uneven_state.criterion 1 0 < uneven_state.criterion 2 1 ∧
    [(find_pair uneven_state).Q 1 0, (find_pair uneven_state).Q 2 0,
      (find_pair uneven_state).Q 2 1, (find_pair uneven_state).Q 3 0,
      (find_pair uneven_state).Q 3 1, (find_pair uneven_state).Q 3 2]
      = [-86, -86, -86, -78, -78, -82] ∧
    (nj_init uneven_dists five_labels).bind (join_pair_fl round_single round_double)
      = some uneven_state ∧
    ((find_pair_fl round_single uneven_state)._i, (find_pair_fl round_single uneven_state)._j)
      = (2, 1) := by
  refine ⟨by decide!, rfl, by decide!, by decide!, by decide!, by decide!, by decide!,
    by decide!, by decide!, by decide!, by decide!, by decide!⟩

end Gstar

namespace Gstar

/-- C6 (evaluation at the failing input): in the unrooted tree `((A:1,B:1):1,C:1,D:1);` the
leaves `A` and `B` are at distance 2 and `B` and `C` at distance 3; after `set_outgroup("A")`
(the outgroup lies below an unroot member) they are at distance 3 and 2: the nodes on the
reversed path keep their weights, which now measure the branch to their new parent. -/
theorem set_outgroup_changes_distances :
    tree_cherry.copy = some tree_cherry ∧
    leaf_labels tree_cherry = ["C", "D", "A", "B"] ∧
    label_distance tree_cherry "A" "B" = some 2 ∧
    label_distance tree_cherry "B" "C" = some 3 ∧
    (set_outgroup tree_cherry "A").bind (fun t => label_distance t "A" "B") = some 3 ∧
    (set_outgroup tree_cherry "A").bind (fun t => label_distance t "B" "C") = some 2 := by
  refine ⟨by decide!, by decide!, by decide!, by decide!, by decide!, by decide!⟩

/-- C7 (evaluation at the failing input): for the unrooted tree `((A:1,B:1):1,C:1,D:1);`, the
tree after `set_outgroup("A")` has distance 3 between `A` and `B`, and the tree after
`set_outgroup("A")`, `make_unrooted()`, `set_outgroup("A")` has distance 2 between them. -/
theorem reroot_unroot_reroot_changes_distances :
    (set_outgroup tree_cherry "A").bind (fun t => label_distance t "A" "B") = some 3 ∧
    (((set_outgroup tree_cherry "A").bind make_unrooted).bind
        (fun t => set_outgroup t "A")).bind (fun t => label_distance t "A" "B") = some 2 ∧
    (set_outgroup tree_cherry "A").bind calc_distance_matrix
      = some [0, 3, 3, 3, 3, 0, 2, 2, 3, 2, 0, 2, 3, 2, 2, 0] ∧
    (((set_outgroup tree_cherry "A").bind make_unrooted).bind
        (fun t => set_outgroup t "A")).bind calc_distance_matrix
      = some [0, 2, 2, 2, 2, 0, 2, 2, 2, 2, 0, 2, 2, 2, 2, 0] ∧
    (set_outgroup tree_cherry "A").map leaf_labels = some ["A", "B", "C", "D"] ∧
    (((set_outgroup tree_cherry "A").bind make_unrooted).bind
        (fun t => set_outgroup t "A")).map leaf_labels = some ["A", "B", "C", "D"] := by
  refine ⟨by decide!, by decide!, by decide!, by decide!, by decide!, by decide!⟩

end Gstar

namespace Gstar

/-- The unrooted tree `((A:1,B:1):1,C:1,D:1);` is well-formed. -/
theorem tree_cherry_wf : tree_cherry.WF := by
  refine ⟨[Shape.node 0 (Shape.leaf 3) (Shape.leaf 4), Shape.leaf 1, Shape.leaf 2],
    rfl, rfl, ?_, by decide⟩
  intro s hs
  simp only [List.mem_cons, List.mem_singleton, List.not_mem_nil, or_false] at hs
  rcases hs with rfl | rfl | rfl <;>
    simp [Shape.Rep, tree_cherry, node_t.is_leaf, node_t.is_inner]

/-- The unrooted tree `(A:1,B:1,(C:1,D:1)A:1);` is well-formed. -/
theorem tree_inner_label_wf : tree_inner_label.WF := by
  refine ⟨[Shape.leaf 0, Shape.leaf 1, Shape.node 2 (Shape.leaf 3) (Shape.leaf 4)],
    rfl, rfl, ?_, by decide⟩
  intro s hs
  simp only [List.mem_cons, List.mem_singleton, List.not_mem_nil, or_false] at hs
  rcases hs with rfl | rfl | rfl <;>
    simp [Shape.Rep, tree_inner_label, node_t.is_leaf, node_t.is_inner]

/-- C8 (as stated, refuted): the tree `(A:1,B:1,(C:1,D:1)A:1);` is a well-formed unrooted tree
with 5 nodes whose leaves have the pairwise distinct labels `A, B, C, D`, and `A` is the label
of a leaf; `set_outgroup("A")` takes the last array slot labelled `A`, which is the internal
node, so the first member of the new unroot set is an internal node, not the leaf `A`. -/
theorem set_outgroup_picks_internal_node :
    tree_inner_label.WF ∧ tree_inner_label._unroot.length = 3 ∧
    leaf_labels tree_inner_label = ["A", "B", "C", "D"] ∧
    (set_outgroup tree_inner_label "A").map (fun t => t._unroot) = some [0, 1] ∧
    (set_outgroup tree_inner_label "A").map
        (fun t => t._tree[0]?.map (fun n => (n._label, n._children)))
      = some (some ("A", true)) ∧
    ¬ ∃ t n, set_outgroup tree_inner_label "A" = some t ∧ t._tree[0]? = some n ∧
      n._children = false := by
  refine ⟨tree_inner_label_wf, rfl, by decide!, by decide!, by decide!, ?_⟩
  rintro ⟨t, n, ht, hn, hc⟩
  have h : (set_outgroup tree_inner_label "A").map
      (fun t => t._tree[0]?.map (fun n => n._children)) = some (some true) := by decide!
  rw [ht] at h
  simp only [Option.map_some', hn, Option.some.injEq] at h
  rw [hc] at h
  cases h

/-- C8 (amended): for every well-formed unrooted tree (unroot set of size 3) with `N` nodes and
every label `L` carried by a leaf at slot `o` such that every later slot labelled `L` is a leaf
too (in particular when no internal node carries the label `L`), `set_outgroup(L)` returns a
well-formed tree whose unroot set is the two slots 0 and 1, slot 0 being a leaf labelled `L`
and slot 1 an internal node; the tree has `N+1` nodes and its leaf labels are those of the tree
before the call.  Both cases of `set_root` are covered. -/
theorem set_outgroup_roots_at_leaf (t : tree_t) (L : String) (o : Nat) (n : node_t)
    (hwf : t.WF) (h3 : t._unroot.length = 3)
    (hleaf : t._tree[o]? = some n) (hlab : n._label = L) (hch : n._children = false)
    (hlater : ∀ k m, o < k → t._tree[k]? = some m → m._label = L → m._children = false) :
    ∃ t', set_outgroup t L = some t' ∧ t'.WF ∧ t'._unroot = [0, 1] ∧
      (∃ n0, t'._tree[0]? = some n0 ∧ n0._children = false ∧ n0._label = L) ∧
      (∃ n1, t'._tree[1]? = some n1 ∧ n1._children = true) ∧
      t'._size = t._size + 1 ∧ t'._tree.length = t._size + 1 ∧
      (leaf_labels t').Perm (leaf_labels t) := by
  obtain ⟨F, hF⟩ := hwf
  obtain ⟨o', t', ho', ⟨n', hn', hl'⟩, hlast, hrun, hwf', hsz, hur, hkeys, h0, h1⟩ :=
    set_outgroup_forest t L ⟨F, hF⟩ h3 ⟨n, List.mem_iff_getElem?.2 ⟨o, hleaf⟩, hlab⟩
  have hc' : n'._children = false := by
    rcases Nat.lt_trichotomy o o' with hlt | heq | hgt
    · exact hlater o' n' hlt hn' hl'
    · subst heq
      rw [hleaf] at hn'
      cases hn'
      exact hch
    · exact absurd hlab (hlast o n hgt hleaf)
  obtain ⟨F', hF'⟩ := hwf'
  have hlen' : t'._tree.length = t'._size := hF'.1
  refine ⟨t', hrun, ⟨F', hF'⟩, hur, ?_, ?_, hsz, by rw [hlen', hsz], ?_⟩
  · rw [hn'] at h0
    cases hx : t'._tree[0]? with
    | none => rw [hx] at h0; cases h0
    | some n0 =>
      rw [hx] at h0
      simp only [Option.map_some', Option.some.injEq, node_t.key, Prod.mk.injEq] at h0
      exact ⟨n0, rfl, h0.1.trans hc', h0.2.trans hl'⟩
  · cases hx : t'._tree[1]? with
    | none => rw [hx] at h1; cases h1
    | some n1 =>
      rw [hx] at h1
      simp only [Option.map_some', Option.some.injEq] at h1
      exact ⟨n1, rfl, h1⟩
  · have hp := leaf_labels_perm hlen' hkeys
    rw [leaf_labels_of_keys t hF.1]
    simpa [List.filter_append] using hp

theorem set_outgroup_roots_at_leaf_witness :
    tree_cherry.WF ∧ tree_cherry._unroot.length = 3 ∧
    tree_cherry._tree[3]? = some ⟨"A", 1, none, none, some 0, false⟩ ∧
    ∃ t', set_outgroup tree_cherry "A" = some t' ∧ t'.WF ∧ t'._unroot = [0, 1] ∧
      (∃ n0, t'._tree[0]? = some n0 ∧ n0._children = false ∧ n0._label = "A") ∧
      (∃ n1, t'._tree[1]? = some n1 ∧ n1._children = true) ∧
      t'._size = tree_cherry._size + 1 ∧ t'._tree.length = tree_cherry._size + 1 ∧
      (leaf_labels t').Perm (leaf_labels tree_cherry) :=
  ⟨tree_cherry_wf, rfl, rfl,
    set_outgroup_roots_at_leaf tree_cherry "A" 3 ⟨"A", 1, none, none, some 0, false⟩
      tree_cherry_wf rfl rfl rfl rfl (by
        intro k m hk hm _
        have hk5 : k < 5 := by
          have := (List.getElem?_eq_some_iff.1 hm).1
          exact this
        have hk4 : k = 4 := by omega
        subst hk4
        have : m = ⟨"B", 1, none, none, some 0, false⟩ := by
          have h4 : tree_cherry._tree[4]? = some ⟨"B", 1, none, none, some 0, false⟩ := rfl
          rw [h4] at hm
          exact (Option.some.inj hm).symm
        rw [this])⟩

end Gstar

namespace Gstar

theorem tree_t.WF.invariants_hold {t : tree_t} (hwf : t.WF) : t.invariants_hold :=
  hwf.invariants

/-- The rooted tree `(A:1,((C:1,D:1),B:1):1);` is well-formed. -/
theorem tree_cherry_rooted_wf : tree_cherry_rooted.WF := by
  refine ⟨[Shape.leaf 0,
      Shape.node 1 (Shape.node 2 (Shape.leaf 4) (Shape.leaf 5)) (Shape.leaf 3)],
    rfl, rfl, ?_, by decide⟩
  intro s hs
  simp only [List.mem_cons, List.mem_singleton, List.not_mem_nil, or_false] at hs
  rcases hs with rfl | rfl <;>
    simp [Shape.Rep, tree_cherry_rooted, node_t.is_leaf, node_t.is_inner]

/-- C9: the structural operations keep the invariants.  A well-formed packed tree is one whose
array is a forest of binary trees rooted at the unroot members; it satisfies I1 and I2, its
unroot members have no parent and every slot is reachable from exactly one unroot member.
`make_flat_tree` on a forest of heap nodes satisfying I1 returns a well-formed tree;
`set_outgroup(L)` on a well-formed unrooted tree `t` (3 unroot members) holding the label `L`
returns a well-formed tree with 2 unroot members, in both cases of `set_root`;
`make_unrooted` on a well-formed rooted tree `r` with more than 2 nodes returns only
well-formed trees with 3 unroot members, and it does return one when the unroot set has 2
members or the tree more than 3 nodes.  Every returned tree satisfies I1 and I2, has
parentless unroot members and every slot reachable from exactly one of them. -/
theorem structural_operations_keep_invariants (h : List node_t) (F : List Shape)
    (t r : tree_t) (L : String)
    (hF : ∀ s ∈ F, s.RepC h) (hd : (F.flatMap Shape.addrs).Nodup)
    (ht : t.WF) (h3 : t._unroot.length = 3) (hL : ∃ n ∈ t._tree, n._label = L)
    (hr : r.WF) (hrooted : r.is_rooted = true) (hsz : 2 < r._size) :
    (t.invariants_hold ∧ r.invariants_hold) ∧
    (∃ t', make_flat_tree h (F.map Shape.root) = some t' ∧ t'.WF ∧ t'.invariants_hold) ∧
    (∃ t', set_outgroup t L = some t' ∧ t'.WF ∧ t'._unroot.length = 2 ∧
      t'.invariants_hold) ∧
    (∀ t', make_unrooted r = some t' →
      t'.WF ∧ t'._unroot.length = 3 ∧ t'.invariants_hold) ∧
    ((r._unroot.length = 2 ∨ 3 < r._size) → ∃ t', make_unrooted r = some t') := by
  refine ⟨⟨ht.invariants_hold, hr.invariants_hold⟩, ?_, ?_, ?_⟩
  · obtain ⟨t', hrun, hforest, -⟩ := make_flat_tree_wf h F hF hd
    exact ⟨t', hrun, ⟨_, hforest⟩, tree_t.WF.invariants_hold ⟨_, hforest⟩⟩
  · obtain ⟨o, t', -, -, -, hrun, hwf', -, hur, -⟩ := set_outgroup_forest t L ht h3 hL
    exact ⟨t', hrun, hwf', by rw [hur]; rfl, hwf'.invariants_hold⟩
  · rcases make_unrooted_forest r hr hrooted hsz with ⟨t', hrun, hwf', h3'⟩ | ⟨hnone, h1, h3'⟩
    · refine ⟨?_, fun _ => ⟨t', hrun⟩⟩
      intro t'' hrun'
      rw [hrun] at hrun'
      cases hrun'
      exact ⟨hwf', h3', hwf'.invariants_hold⟩
    · refine ⟨?_, ?_⟩
      · intro t'' hrun'
        rw [hnone] at hrun'
        cases hrun'
      · intro hc
        omega

/-- The array of the sorted scenario tree realises its forest. -/
theorem scenario_forest_repC : ∀ s ∈ scenario_forest, s.RepC scenario_sorted._tree := by
  intro s hs
  simp only [scenario_forest, List.mem_cons, List.mem_singleton, List.not_mem_nil,
    or_false] at hs
  rcases hs with rfl | rfl | rfl <;>
    simp [Shape.RepC, scenario_sorted, node_t.is_leaf, node_t.is_inner]

/-- The sorted scenario tree is well-formed. -/
theorem scenario_sorted_forest : scenario_sorted.Forest scenario_forest := by
  refine ⟨rfl, rfl, ?_, by decide⟩
  intro s hs
  simp only [scenario_forest, List.mem_cons, List.mem_singleton, List.not_mem_nil,
    or_false] at hs
  rcases hs with rfl | rfl | rfl <;>
    simp [Shape.Rep, scenario_sorted, node_t.is_leaf, node_t.is_inner]

theorem structural_operations_keep_invariants_witness :
    ((∀ s ∈ scenario_forest, s.RepC scenario_sorted._tree) ∧
      (scenario_forest.flatMap Shape.addrs).Nodup ∧
      tree_cherry.WF ∧ tree_cherry._unroot.length = 3 ∧
      (∃ n ∈ tree_cherry._tree, n._label = "A") ∧
      tree_cherry_rooted.WF ∧ tree_cherry_rooted.is_rooted = true ∧
      2 < tree_cherry_rooted._size) ∧
    ((tree_cherry.invariants_hold ∧ tree_cherry_rooted.invariants_hold) ∧
    (∃ t', make_flat_tree scenario_sorted._tree (scenario_forest.map Shape.root) = some t' ∧
      t'.WF ∧ t'.invariants_hold) ∧
    (∃ t', set_outgroup tree_cherry "A" = some t' ∧ t'.WF ∧ t'._unroot.length = 2 ∧
      t'.invariants_hold) ∧
    (∀ t', make_unrooted tree_cherry_rooted = some t' →
      t'.WF ∧ t'._unroot.length = 3 ∧ t'.invariants_hold) ∧
    ((tree_cherry_rooted._unroot.length = 2 ∨ 3 < tree_cherry_rooted._size) →
      ∃ t', make_unrooted tree_cherry_rooted = some t')) := by
  have hF := scenario_forest_repC
  have hL : ∃ n ∈ tree_cherry._tree, n._label = "A" :=
    ⟨⟨"A", 1, none, none, some 0, false⟩, by simp [tree_cherry], rfl⟩
  exact ⟨⟨hF, by decide, tree_cherry_wf, rfl, hL, tree_cherry_rooted_wf, rfl, by decide⟩,
    structural_operations_keep_invariants scenario_sorted._tree _ tree_cherry
      tree_cherry_rooted "A" hF (by decide) tree_cherry_wf rfl hL tree_cherry_rooted_wf rfl
      (by decide)⟩

end Gstar

namespace Gstar

theorem Shape.Img.root_get {h t : List node_t} {σ : Nat → Nat} {s : Shape} {par : Option Nat}
    (hs : s.Img h t σ par) : t[σ s.root]? = some ((node_at h s.root).moved par σ) := by
  cases s with
  | leaf a => exact hs
  | node a l r => exact hs.1

theorem slot_of_root_get {F : List Shape} (hd : (F.flatMap Shape.addrs).Nodup) (i : Nat)
    (hi : i < F.length) : slot_of F F[i].root = i := by
  have h := congrArg (fun l => l[i]?) (slot_of_root hd)
  simp only [List.getElem?_map, List.getElem?_eq_getElem hi, Option.map_some',
    List.getElem?_range hi, Option.some.injEq] at h
  exact h

/-- C10 (as stated, refuted): the tree of the four-leaf scenario after `sort()` is a
well-formed tree whose array is `A, B, (internal), D, C`; its copy has the same `to_string`
but the array `A, B, (internal), C, D`: `sort()` exchanges child pointers in place, and the
copy constructor lays the nodes out again in queue order. -/
theorem copy_of_sorted_tree_reorders_array :
    scenario_sorted.WF ∧
    (nj scenario_dists scenario_labels).bind tree_t.sort = some scenario_sorted ∧
    scenario_sorted._tree.map (fun n => n._label) = ["A", "B", "", "D", "C"] ∧
    scenario_sorted.copy.map (fun t => t._tree.map (fun n => n._label))
      = some ["A", "B", "", "C", "D"] ∧
    scenario_sorted.copy ≠ some scenario_sorted := by
  refine ⟨⟨scenario_forest, scenario_sorted_forest⟩, by decide!, by decide!, by decide!,
    by decide!⟩

/-- C10 (amended): for every forest of root nodes satisfying I1 (any number of roots, so also
1 to 3), `make_flat_tree` returns a tree whose size is the number of nodes of the forest, whose
unroot set is the slots `0 .. k-1`, slot `i` holding the copy of the `i`-th given root, and
whose trees are the source trees with every node moved to its slot in queue order (same shape,
left/right order, labels and weights), so that `to_string` of the result is the serialisation
of the source forest and is defined; the result is a fixed point of the copy constructor (same
array, same order).  Copy-constructing any well-formed `tree_t` gives a tree with the same
`to_string`, and with the same array order when the array of the source is in queue order;
after `sort()` it need not be. -/
theorem make_flat_tree_refines (fmt : ℚ → String) (h : List node_t) (F : List Shape)
    (hF : ∀ s ∈ F, s.RepC h) (hd : (F.flatMap Shape.addrs).Nodup) :
    (∃ t, make_flat_tree h (F.map Shape.root) = some t ∧
      t._size = (F.flatMap Shape.addrs).length ∧ t._tree.length = t._size ∧
      t._unroot = List.range F.length ∧
      (∀ i (hi : i < F.length),
        t._tree[i]? = some ((node_at h F[i].root).moved none (slot_of F))) ∧
      t.Forest (F.map (Shape.map (slot_of F))) ∧
      (∀ s ∈ F, s.Img h t._tree (slot_of F) none) ∧
      t.to_string fmt = tree_t.to_string fmt ⟨h, F.map Shape.root, h.length⟩ ∧
      (∃ str, t.to_string fmt = some str) ∧
      t.copy = some t) ∧
    (∀ (t0 : tree_t) (F0 : List Shape), t0.Forest F0 →
      ∃ c, t0.copy = some c ∧ c.to_string fmt = t0.to_string fmt ∧
        (queue_of F0 = List.range t0._size → c = t0)) := by
  constructor
  · obtain ⟨t, hrun, hforest, hsize, hur, himg⟩ := make_flat_tree_wf h F hF hd
    obtain ⟨hstr, hex⟩ := make_flat_tree_to_string fmt h F hF hd t hrun
    refine ⟨t, hrun, ?_, hforest.1, hur, ?_, hforest, himg, hstr, hex,
      make_flat_tree_copy h F hF hd t hrun⟩
    · rw [hsize, List.length_flatMap]
      congr 1
      apply List.map_congr_left
      intro s _
      exact s.length_addrs.symm
    · intro i hi
      have := (himg F[i] (List.getElem_mem hi)).root_get
      rw [slot_of_root_get hd i hi] at this
      exact this
  · intro t0 F0 hF0
    have hrep : ∀ s ∈ F0, s.RepC t0._tree := fun s hs => (hF0.2.2.1 s hs).repC
    obtain ⟨c, hrun, -⟩ := make_flat_tree_wf t0._tree F0 hrep hF0.nodup
    obtain ⟨hstr, -⟩ := make_flat_tree_to_string fmt t0._tree F0 hrep hF0.nodup c hrun
    have hcopy : t0.copy = some c := by
      unfold tree_t.copy
      rw [← hF0.2.1]
      exact hrun
    refine ⟨c, hcopy, ?_, ?_⟩
    · rw [hstr, hF0.2.1, hF0.1]
    · intro hq
      have := tree_t.copy_of_canonical hF0 hq
      rw [hcopy] at this
      exact Option.some.inj this

theorem make_flat_tree_refines_witness :
    ((∀ s ∈ scenario_forest, s.RepC scenario_sorted._tree) ∧
      (scenario_forest.flatMap Shape.addrs).Nodup) ∧
    (∃ t, make_flat_tree scenario_sorted._tree (scenario_forest.map Shape.root) = some t ∧
      t._size = (scenario_forest.flatMap Shape.addrs).length ∧ t._tree.length = t._size ∧
      t._unroot = List.range scenario_forest.length ∧
      (∀ i (hi : i < scenario_forest.length),
        t._tree[i]? = some ((node_at scenario_sorted._tree scenario_forest[i].root).moved none
          (slot_of scenario_forest))) ∧
      t.Forest (scenario_forest.map (Shape.map (slot_of scenario_forest))) ∧
      (∀ s ∈ scenario_forest, s.Img scenario_sorted._tree t._tree (slot_of scenario_forest)
        none) ∧
      t.to_string (fun _ => "1") = tree_t.to_string (fun _ => "1")
        ⟨scenario_sorted._tree, scenario_forest.map Shape.root,
          scenario_sorted._tree.length⟩ ∧
      (∃ str, t.to_string (fun _ => "1") = some str) ∧
      t.copy = some t) ∧
    (∀ (t0 : tree_t) (F0 : List Shape), t0.Forest F0 →
      ∃ c, t0.copy = some c ∧ c.to_string (fun _ => "1") = t0.to_string (fun _ => "1") ∧
        (queue_of F0 = List.range t0._size → c = t0)) :=
  ⟨⟨scenario_forest_repC, by decide⟩,
    make_flat_tree_refines (fun _ => "1") scenario_sorted._tree scenario_forest
      scenario_forest_repC (by decide)⟩

end Gstar

namespace Gstar

/-! ## Labels through the structural operations -/

theorem map_label_set {t : List node_t} {a : Nat} {n n' : node_t} (hn : t[a]? = some n)
    (hl : n'._label = n._label) :
    (t.set a n').map (fun x => x._label) = t.map (fun x => x._label) := by
  apply List.ext_getElem?
  intro i
  rw [List.getElem?_map, List.getElem?_map, List.getElem?_set]
  by_cases hia : a = i
  · subst hia
    have ha : a < t.length := (List.getElem?_eq_some_iff.1 hn).1
    simp [ha, hn, hl]
  · simp [hia]

theorem store_labels {h h' : List node_t} {a : Nat} {f : node_t → node_t}
    (hs : store h a f = some h') (hf : ∀ n, (f n)._label = n._label) :
    h'.map (fun x => x._label) = h.map (fun x => x._label) := by
  unfold store at hs
  cases hn : h[a]? with
  | none => rw [hn] at hs; cases hs
  | some n =>
    rw [hn] at hs
    cases hs
    exact map_label_set hn (hf n)

theorem flat_copy_mem (h : List node_t) :
    ∀ (q : List Nat) (t0 : List node_t), flat_copy h q = some t0 → ∀ n ∈ t0, n ∈ h := by
  intro q
  induction q with
  | nil =>
    intro t0 h0 n hn
    simp only [flat_copy, Option.some.injEq] at h0
    subst h0
    cases hn
  | cons a q ih =>
    intro t0 h0 n hn
    rw [flat_copy] at h0
    cases ha : h[a]? with
    | none => simp [ha] at h0
    | some x =>
      cases hq : flat_copy h q with
      | none => simp [ha, hq] at h0
      | some rest =>
        simp only [ha, hq, Option.some.injEq] at h0
        subst h0
        rcases List.mem_cons.1 hn with rfl | hn
        · exact List.mem_iff_getElem?.2 ⟨a, ha⟩
        · exact ih rest hq n hn

theorem update_children_labels (m : List (Nat × Nat)) :
    ∀ (fuel : Nat) (t : List node_t) (self : Nat) (p : Option Nat) (t' : List node_t),
      update_children m fuel t self p = some t' →
      t'.map (fun x => x._label) = t.map (fun x => x._label) := by
  intro fuel
  induction fuel with
  | zero => intro t self p t' h; simp [update_children] at h
  | succ fuel ih =>
    intro t self p t' h
    rw [update_children] at h
    cases hn : t[self]? with
    | none => simp [hn] at h
    | some n =>
      simp only [hn] at h
      by_cases hc : n._children = true
      · simp only [hc, if_true] at h
        split at h
        · rename_i l r hl hr
          split at h
          · cases h
          · rename_i t2 h1
            have e1 := ih _ _ _ _ h1
            have e0 : (t.set self ⟨n._label, n._weight, some l, some r, p, true⟩).map
                (fun x => x._label) = t.map (fun x => x._label) := map_label_set hn rfl
            rw [e0] at e1
            split at h
            · cases h
            · split at h
              · cases h
              · rw [ih _ _ _ _ h, e1]
        · cases h
      · simp only [hc, Bool.false_eq_true, if_false, Option.some.injEq] at h
        subst h
        exact map_label_set hn rfl

theorem flat_update_labels (m : List (Nat × Nat)) (fuel : Nat) :
    ∀ (us : List Nat) (t : List node_t) (ur : List Nat) (t' : List node_t) (ur' : List Nat),
      flat_update m fuel us t ur = some (t', ur') →
      t'.map (fun x => x._label) = t.map (fun x => x._label) := by
  intro us
  induction us with
  | nil =>
    intro t ur t' ur' h
    simp only [flat_update, Option.some.injEq, Prod.mk.injEq] at h
    rw [h.1]
  | cons i rest ih =>
    intro t ur t' ur' h
    rw [flat_update] at h
    cases hs : m.lookup i with
    | none => simp [hs] at h
    | some s =>
      simp only [hs] at h
      cases h1 : update_children m fuel t s none with
      | none => simp [h1] at h
      | some t1 =>
        simp only [h1] at h
        rw [ih _ _ _ _ h, update_children_labels m fuel t s none t1 h1]

/-- Every label of the array built by `make_flat_tree` is a label of the heap it read. -/
theorem make_flat_tree_labels {h : List node_t} {ur : List Nat} {t : tree_t}
    (hrun : make_flat_tree h ur = some t) :
    ∀ n ∈ t._tree, ∃ x ∈ h, x._label = n._label := by
  unfold make_flat_tree at hrun
  cases hq : flat_traverse h h.length ur.reverse ur with
  | none => simp [hq] at hrun
  | some q =>
    simp only [hq] at hrun
    cases hc : flat_copy h q with
    | none => simp [hc] at hrun
    | some t0 =>
      simp only [hc] at hrun
      cases hu : flat_update (flat_node_map q 0 []) q.length ur t0 [] with
      | none => simp [hu] at hrun
      | some r =>
        obtain ⟨t1, ur1⟩ := r
        simp only [hu, Option.some.injEq] at hrun
        subst hrun
        have hl := flat_update_labels _ _ _ _ _ _ _ hu
        intro n hn
        have : n._label ∈ t1.map (fun x => x._label) := List.mem_map.2 ⟨n, hn, rfl⟩
        rw [hl] at this
        obtain ⟨x, hx, e⟩ := List.mem_map.1 this
        exact ⟨x, flat_copy_mem h q t0 hc x hx, e⟩

theorem unroot_loop_labels :
    ∀ (fuel : Nat) (h : List node_t) (ur : List Nat) (h' : List node_t) (ur' : List Nat),
      unroot_loop fuel h ur = some (h', ur') →
      h'.map (fun x => x._label) = h.map (fun x => x._label) := by
  intro fuel
  induction fuel with
  | zero =>
    intro h ur h' ur' hr
    rw [unroot_loop] at hr
    split_ifs at hr
    simp only [Option.some.injEq, Prod.mk.injEq] at hr
    rw [hr.1]
  | succ fuel ih =>
    intro h ur h' ur' hr
    rw [unroot_loop] at hr
    split_ifs at hr with h3
    · cases hf : first_internal h ur 0 with
      | none => simp [hf] at hr
      | some o =>
        cases o with
        | none => simp [hf] at hr
        | some pr =>
          obtain ⟨tmp_n, idx⟩ := pr
          simp only [hf] at hr
          cases hn : h[tmp_n]? with
          | none => simp [hn] at hr
          | some n =>
            simp only [hn] at hr
            cases hl : n._lchild with
            | none => simp [hl] at hr
            | some l =>
              cases hrc : n._rchild with
              | none => simp [hl, hrc] at hr
              | some r =>
                simp only [hl, hrc] at hr
                cases h1 : store h l (fun x => { x with _parent := none }) with
                | none => simp [h1] at hr
                | some s1 =>
                  simp only [h1] at hr
                  cases h2 : store s1 r (fun x => { x with _parent := none }) with
                  | none => simp [h2] at hr
                  | some s2 =>
                    simp only [h2] at hr
                    cases h3' : store s2 tmp_n (fun x =>
                        { x with _lchild := none, _rchild := none, _children := false }) with
                    | none => simp [h3'] at hr
                    | some s3 =>
                      simp only [h3'] at hr
                      rw [ih _ _ _ _ hr, store_labels h3' (fun _ => rfl),
                        store_labels h2 (fun _ => rfl), store_labels h1 (fun _ => rfl)]
    · simp only [Option.some.injEq, Prod.mk.injEq] at hr
      rw [hr.1]

/-- Every label of the tree returned by `make_unrooted` is a label of the tree it was given. -/
theorem make_unrooted_labels {t t' : tree_t} (hrun : make_unrooted t = some t') :
    ∀ n ∈ t'._tree, ∃ x ∈ t._tree, x._label = n._label := by
  unfold make_unrooted at hrun
  split_ifs at hrun
  cases hl : unroot_loop (t._size + 1) t._tree t._unroot with
  | none => simp [hl] at hrun
  | some r =>
    obtain ⟨h, ur⟩ := r
    simp only [hl] at hrun
    intro n hn
    obtain ⟨x, hx, e⟩ := make_flat_tree_labels hrun n hn
    have : x._label ∈ h.map (fun x => x._label) := List.mem_map.2 ⟨x, hx, rfl⟩
    rw [unroot_loop_labels _ _ _ _ _ hl] at this
    obtain ⟨y, hy, e'⟩ := List.mem_map.1 this
    exact ⟨y, hy, e'.trans e⟩

end Gstar

namespace Gstar

/-! ## The constructor of `nj_t` without a dimension check -/

theorem nj_init_of_sqrt (dists dists' : List ℚ) (labels : List String)
    (h : Nat.sqrt dists.length = Nat.sqrt dists'.length) :
    nj_init dists labels = (nj_init dists' labels).map (fun s => { s with _dists := dists }) := by
  unfold nj_init
  simp only [h]
  cases nj_leaves labels (List.range (Nat.sqrt dists'.length)) <;> rfl

theorem nj_init_inv_sqrt (dists : List ℚ) (labels : List String) (n : Nat)
    (hsq : Nat.sqrt dists.length = n) (hl : labels.length = n) :
    ∃ s0, nj_init dists labels = some s0 ∧ s0._row_size = n ∧ NJInv labels 0 s0 := by
  obtain ⟨s0, hinit, hrow, -, hinv⟩ := nj_init_inv (List.replicate (n * n) 0) labels n
    (by simp) hl
  have hs : Nat.sqrt dists.length = Nat.sqrt (List.replicate (n * n) (0 : ℚ)).length := by
    rw [hsq, List.length_replicate, Nat.sqrt_eq]
  refine ⟨{ s0 with _dists := dists }, ?_, hrow, hinv⟩
  rw [nj_init_of_sqrt dists _ labels hs, hinit]
  rfl

/-- From an initial state with at least three rows the constructor runs to its end and emits
an unrooted tree over the given labels. -/
theorem nj_of_init (dists : List ℚ) (labels : List String) (s0 : nj_t) (n : Nat)
    (hinit : nj_init dists labels = some s0) (hrow0 : s0._row_size = n)
    (hinv0 : NJInv labels 0 s0) (hn : 3 ≤ n) (hl : labels.length = n) :
    ∃ t, nj dists labels = some t ∧ t._unroot.length = 3 ∧ t._size = 2 * n - 3 ∧
      t._tree.length = 2 * n - 3 ∧ (leaf_labels t).Perm labels := by
  obtain ⟨s1, hiter, hinv1, hrow1⟩ := join_pair_iter_inv labels (n - 3) 0 s0 hinv0
    (by rw [hrow0]; omega)
  have hrow1' : s1._row_size = 3 := by rw [hrow1, hrow0]; omega
  have hloop : nj_loop s0._row_size s0 = some s1 := by
    rw [nj_loop_eq labels s0._row_size 0 s0 hinv0 (by rw [hrow0]; exact hn) (by omega), hrow0]
    exact hiter
  obtain ⟨s2, hfin, hinv2, hrow2⟩ := join_final_inv labels (0 + (n - 3)) s1 hinv1 hrow1'
  obtain ⟨hlen2, -, ⟨F, hroots, hrep, hperm⟩, hkeys⟩ := hinv2
  obtain ⟨t, hrun, hwf, hsize, htl, hur, hkp, -⟩ := make_flat_tree_summary s2.heap F hrep hperm
  have hFlen : F.length = 3 := by
    have := congrArg List.length hroots
    rw [List.length_map, hlen2, hrow2] at this
    exact this
  have hheap : s2.heap.length = 2 * n - 3 := by
    have := congrArg List.length hkeys
    simp only [List.length_map, List.length_append, List.length_replicate] at this
    rw [this, hl]; omega
  refine ⟨t, ?_, ?_, ?_, ?_, ?_⟩
  · unfold nj nj_run
    rw [hinit]
    simp only []
    rw [hloop]
    simp only []
    rw [hfin]
    simp only []
    rw [← hroots]
    exact hrun
  · rw [hur, List.length_range, hFlen]
  · rw [hsize, hheap]
  · rw [htl, hheap]
  · have := leaf_labels_perm (htl.trans hsize.symm) hkp
    rw [hkeys, leaves_of_nj_keys] at this
    exact this

theorem nj_loop_small (fuel : Nat) (s : nj_t) (h : s._row_size ≤ 3) :
    nj_loop fuel s = some s := by
  cases fuel <;> simp [nj_loop, Nat.not_lt.2 h]

/-- With fewer than three rows the constructor stops in `join_final`. -/
theorem nj_small (dists : List ℚ) (labels : List String) (h : Nat.sqrt dists.length < 3) :
    nj dists labels = none ∧
      ∀ s0, nj_init dists labels = some s0 →
        nj_loop s0._row_size s0 = some s0 ∧ join_final s0 = none := by
  have hrow : ∀ s0, nj_init dists labels = some s0 → s0._row_size = Nat.sqrt dists.length := by
    intro s0 hs0
    unfold nj_init at hs0
    simp only [] at hs0
    split at hs0
    · cases hs0
    · cases hs0
      rfl
  have hfin : ∀ s0, nj_init dists labels = some s0 → join_final s0 = none := by
    intro s0 hs0
    unfold join_final
    rw [if_neg (by rw [hrow s0 hs0]; omega)]
  refine ⟨?_, fun s0 hs0 => ⟨nj_loop_small _ _ (by rw [hrow s0 hs0]; omega), hfin s0 hs0⟩⟩
  unfold nj nj_run
  cases hi : nj_init dists labels with
  | none => rfl
  | some s0 =>
    simp only []
    rw [nj_loop_small _ _ (by rw [hrow s0 hi]; omega)]
    simp only []
    rw [hfin s0 hi]

end Gstar

namespace Gstar

/-! ## Leaves of a forest and of the trees built from it -/

theorem shape_leaf_filter {h : List node_t} :
    ∀ {s : Shape}, s.RepC h →
      ((s.addrs.map (node_at h)).filter (fun n => !n._children)).map (fun n => n._label)
        = s.leaves.map (fun a => (node_at h a)._label) := by
  intro s
  induction s with
  | leaf a =>
    intro hs
    obtain ⟨n, hn, hc, -, -⟩ := hs
    simp [Shape.addrs, Shape.leaves, node_at, hn, hc]
  | node a l r ihl ihr =>
    intro hs
    obtain ⟨⟨n, hn, hc, -, -⟩, hL, hR⟩ := hs
    simp only [Shape.addrs, Shape.leaves, List.map_cons, List.map_append, List.filter_append]
    rw [List.filter_cons_of_neg (by simp [node_at, hn, hc]), List.filter_append,
      List.map_append, ihl hL, ihr hR]

theorem forest_leaf_filter {h : List node_t} :
    ∀ {F : List Shape}, (∀ s ∈ F, s.RepC h) →
      (((F.flatMap Shape.addrs).map (node_at h)).filter (fun n => !n._children)).map
          (fun n => n._label)
        = (F.flatMap Shape.leaves).map (fun a => (node_at h a)._label) := by
  intro F
  induction F with
  | nil => intro _; rfl
  | cons s F ih =>
    intro hF
    simp only [List.flatMap_cons, List.map_append, List.filter_append]
    rw [shape_leaf_filter (hF s (by simp)), ih (fun x hx => hF x (by simp [hx]))]

theorem map_node_at_range (h : List node_t) : (List.range h.length).map (node_at h) = h := by
  apply List.ext_getElem?
  intro i
  rw [List.getElem?_map]
  by_cases hi : i < h.length
  · rw [List.getElem?_range hi]
    simp [node_at, List.getElem?_eq_getElem hi]
  · rw [List.getElem?_eq_none (by simpa using hi), List.getElem?_eq_none (by simpa using hi)]
    rfl

/-- The leaf labels of a well-formed tree are the labels at the leaves of its forest. -/
theorem leaf_labels_forest {t : tree_t} {F : List Shape} (hF : t.Forest F) :
    (leaf_labels t).Perm ((F.flatMap Shape.leaves).map (fun a => (node_at t._tree a)._label)) := by
  have hrep : ∀ s ∈ F, s.RepC t._tree := fun s hs => (hF.2.2.1 s hs).repC
  rw [← forest_leaf_filter hrep]
  unfold leaf_labels
  rw [← hF.1, List.take_length]
  have hp : (t._tree).Perm ((F.flatMap Shape.addrs).map (node_at t._tree)) := by
    have := (hF.2.2.2.map (node_at t._tree)).symm
    rw [← hF.1, map_node_at_range] at this
    exact this
  exact (hp.filter _).map _

theorem node_at_label_of_map {h h' : List node_t}
    (e : h'.map (fun x => x._label) = h.map (fun x => x._label)) (a : Nat) :
    (node_at h' a)._label = (node_at h a)._label := by
  have := congrArg (fun l => l[a]?) e
  simp only [List.getElem?_map] at this
  unfold node_at
  cases h1 : h'[a]? with
  | none =>
    cases h2 : h[a]? with
    | none => rfl
    | some y => rw [h1, h2] at this; cases this
  | some x =>
    cases h2 : h[a]? with
    | none => rw [h1, h2] at this; cases this
    | some y =>
      rw [h1, h2] at this
      simpa using this

end Gstar

namespace Gstar

theorem Shape.leaves_map (f : Nat → Nat) (s : Shape) : (s.map f).leaves = s.leaves.map f := by
  induction s with
  | leaf a => rfl
  | node a l r ihl ihr => simp [Shape.map, Shape.leaves, ihl, ihr]

theorem Shape.leaves_subset (s : Shape) : ∀ a ∈ s.leaves, a ∈ s.addrs := by
  induction s with
  | leaf a => intro x hx; simpa [Shape.leaves, Shape.addrs] using hx
  | node a l r ihl ihr =>
    intro x hx
    simp only [Shape.leaves, List.mem_append] at hx
    simp only [Shape.addrs, List.mem_cons, List.mem_append]
    rcases hx with hx | hx
    · exact Or.inr (Or.inl (ihl x hx))
    · exact Or.inr (Or.inr (ihr x hx))

theorem flatMap_leaves_map (σ : Nat → Nat) (F : List Shape) :
    (F.map (Shape.map σ)).flatMap Shape.leaves = (F.flatMap Shape.leaves).map σ := by
  induction F with
  | nil => rfl
  | cons s F ih => simp [List.flatMap_cons, Shape.leaves_map, ih]

/-- The leaf labels of the tree built by `make_flat_tree` are the labels at the leaves of the
source forest. -/
theorem make_flat_tree_leaf_labels (h : List node_t) (F : List Shape)
    (hF : ∀ s ∈ F, s.RepC h) (hd : (F.flatMap Shape.addrs).Nodup) (t : tree_t)
    (hrun : make_flat_tree h (F.map Shape.root) = some t) :
    (leaf_labels t).Perm ((F.flatMap Shape.leaves).map (fun a => (node_at h a)._label)) := by
  obtain ⟨t', hrun', hforest, -, -, himg⟩ := make_flat_tree_wf h F hF hd
  rw [hrun] at hrun'
  cases hrun'
  refine (leaf_labels_forest hforest).trans ?_
  rw [flatMap_leaves_map, List.map_map]
  have : (F.flatMap Shape.leaves).map ((fun a => (node_at t._tree a)._label) ∘ slot_of F)
      = (F.flatMap Shape.leaves).map (fun a => (node_at h a)._label) := by
    apply List.map_congr_left
    intro a ha
    obtain ⟨s, hs, has⟩ := List.mem_flatMap.1 ha
    obtain ⟨p, hp⟩ := (himg s hs).get a (s.leaves_subset a has)
    simp [node_at, hp, node_t.moved]
  rw [this]

theorem unroot_loop_two_leaves (fuel : Nat) (h : List node_t) (sx sy : Shape)
    (hx : sx.RepC h) (hy : sy.RepC h) (hnd : ([sx, sy].flatMap Shape.addrs).Nodup)
    (hsz : 2 < sx.size + sy.size) :
    ∃ (h' : List node_t) (F' : List Shape),
      unroot_loop (fuel + 1) h [sx.root, sy.root] = some (h', F'.map Shape.root) ∧
      F'.length = 3 ∧ (∀ s ∈ F', s.RepC h') ∧ (F'.flatMap Shape.addrs).Nodup ∧
      (F'.flatMap Shape.leaves).Perm ([sx, sy].flatMap Shape.leaves) := by
  simp only [List.flatMap_cons, List.flatMap_nil, List.append_nil, List.nodup_append] at hnd
  obtain ⟨hndx, hndy, hdisj⟩ := hnd
  cases sx with
  | node a l r =>
    obtain ⟨n, h1, h2, h3, hn, hl, hr, hs1, hs2, hs3, hkeep⟩ := unroot_expand h a l r hx
    simp only [Shape.addrs, List.nodup_cons, List.mem_append, not_or, List.nodup_append] at hndx
    obtain ⟨⟨hal, har⟩, hndl, hndr, hdlr⟩ := hndx
    have hay : a ∉ sy.addrs := fun hm => hdisj (by simp [Shape.addrs]) hm
    refine ⟨h3, [sy, l, r], ?_, rfl, ?_, ?_, ?_⟩
    · rw [unroot_loop]
      simp only [List.length_cons, List.length_nil, Shape.root_node]
      rw [if_pos (by decide), first_internal_node hx]
      simp only [hn, hl, hr, hs1, hs2, hs3]
      rw [unroot_loop_three _ _ _ (by simp)]
      simp
    · intro s hs
      simp only [List.mem_cons, List.mem_singleton, List.not_mem_nil, or_false] at hs
      rcases hs with rfl | rfl | rfl
      · exact hkeep _ hy hay
      · exact hkeep _ hx.2.1 hal
      · exact hkeep _ hx.2.2 har
    · simp only [List.flatMap_cons, List.flatMap_nil, List.append_nil, List.nodup_append]
      refine ⟨hndy, ⟨hndl, hndr, hdlr⟩, ?_⟩
      intro b hb hb'
      refine hdisj ?_ hb
      simp only [Shape.addrs, List.mem_cons, List.mem_append]
      exact Or.inr (List.mem_append.1 hb')
    · simp only [List.flatMap_cons, List.flatMap_nil, List.append_nil, Shape.leaves]
      exact List.perm_append_comm
  | leaf a =>
    cases sy with
    | node b l r =>
      obtain ⟨n, h1, h2, h3, hn, hl, hr, hs1, hs2, hs3, hkeep⟩ := unroot_expand h b l r hy
      simp only [Shape.addrs, List.nodup_cons, List.mem_append, not_or, List.nodup_append]
        at hndy
      obtain ⟨⟨hbl, hbr⟩, hndl, hndr, hdlr⟩ := hndy
      have hbx : b ∉ (Shape.leaf a).addrs := fun hm => hdisj hm (by simp [Shape.addrs])
      refine ⟨h3, [Shape.leaf a, l, r], ?_, rfl, ?_, ?_, ?_⟩
      · rw [unroot_loop]
        simp only [List.length_cons, List.length_nil, Shape.root_node, Shape.root_leaf]
        rw [if_pos (by decide), first_internal_leaf hx, first_internal_node hy]
        simp only [hn, hl, hr, hs1, hs2, hs3]
        rw [unroot_loop_three _ _ _ (by simp)]
        simp
      · intro s hs
        simp only [List.mem_cons, List.mem_singleton, List.not_mem_nil, or_false] at hs
        rcases hs with rfl | rfl | rfl
        · exact hkeep _ hx hbx
        · exact hkeep _ hy.2.1 hbl
        · exact hkeep _ hy.2.2 hbr
      · simp only [List.flatMap_cons, List.flatMap_nil, List.append_nil, List.nodup_append]
        refine ⟨hndx, ⟨hndl, hndr, hdlr⟩, ?_⟩
        intro c hc hc'
        refine hdisj hc ?_
        simp only [Shape.addrs, List.mem_cons, List.mem_append]
        exact Or.inr (List.mem_append.1 hc')
      · simp only [List.flatMap_cons, List.flatMap_nil, List.append_nil, Shape.leaves]
        exact List.Perm.refl _
    | leaf b =>
      exfalso
      simp [Shape.size] at hsz

theorem unroot_loop_one_leaves (fuel : Nat) (h : List node_t) (s : Shape)
    (hs : s.RepC h) (hnd : s.addrs.Nodup) (hsz : 3 < s.size) :
    ∃ (h' : List node_t) (F' : List Shape),
      unroot_loop (fuel + 2) h [s.root] = some (h', F'.map Shape.root) ∧
      F'.length = 3 ∧ (∀ x ∈ F', x.RepC h') ∧ (F'.flatMap Shape.addrs).Nodup ∧
      (F'.flatMap Shape.leaves).Perm s.leaves := by
  cases s with
  | leaf a => simp [Shape.size] at hsz
  | node a l r =>
    obtain ⟨n, h1, h2, h3, hn, hl, hr, hs1, hs2, hs3, hkeep⟩ := unroot_expand h a l r hs
    simp only [Shape.addrs, List.nodup_cons, List.mem_append, not_or, List.nodup_append] at hnd
    obtain ⟨⟨hal, har⟩, hndl, hndr, hdlr⟩ := hnd
    have hstep : unroot_loop (fuel + 2) h [(Shape.node a l r).root]
        = unroot_loop (fuel + 1) h3 [l.root, r.root] := by
      rw [unroot_loop]
      simp only [List.length_cons, List.length_nil, Shape.root_node]
      rw [if_pos (by decide), first_internal_node hs]
      simp only [hn, hl, hr, hs1, hs2, hs3]
      simp
    rw [hstep]
    have hnd2 : ([l, r].flatMap Shape.addrs).Nodup := by
      simp only [List.flatMap_cons, List.flatMap_nil, List.append_nil, List.nodup_append]
      exact ⟨hndl, hndr, hdlr⟩
    obtain ⟨h', F', hrun, h3', hrep, hnd', hperm⟩ :=
      unroot_loop_two_leaves fuel h3 l r (hkeep _ hs.2.1 hal) (hkeep _ hs.2.2 har) hnd2
        (by simp only [Shape.size] at hsz; omega)
    refine ⟨h', F', hrun, h3', hrep, hnd', ?_⟩
    simpa [Shape.leaves] using hperm

/-- The function `make_unrooted` on a well-formed rooted tree that is not a single root with
two leaf children: it returns a well-formed tree with three unroot members and the same leaf
labels. -/
theorem make_unrooted_leaves (t : tree_t) (hwf : t.WF) (hr : t.is_rooted = true)
    (hsz : 2 < t._size) (hok : t._unroot.length = 2 ∨ 3 < t._size) :
    ∃ t', make_unrooted t = some t' ∧ t'.WF ∧ t'._unroot.length = 3 ∧
      (leaf_labels t').Perm (leaf_labels t) := by
  obtain ⟨F, hF⟩ := hwf
  have hnd := hF.nodup
  have hlen : F.length = t._unroot.length := by
    have := congrArg List.length hF.2.1
    simpa using this
  have hlen2 : F.length ≤ 2 := by
    simp only [tree_t.is_rooted, decide_eq_true_eq] at hr
    omega
  have hsize := hF.size_eq
  have hfin : ∀ (h' : List node_t) (F' : List Shape),
      h'.map (fun x => x._label) = t._tree.map (fun x => x._label) →
      F'.length = 3 → (∀ x ∈ F', x.RepC h') →
      (F'.flatMap Shape.addrs).Nodup → (F'.flatMap Shape.leaves).Perm (F.flatMap Shape.leaves) →
      ∃ t', make_flat_tree h' (F'.map Shape.root) = some t' ∧ t'.WF ∧ t'._unroot.length = 3 ∧
        (leaf_labels t').Perm (leaf_labels t) := by
    intro h' F' hlab h3 hrep hnd' hperm
    obtain ⟨t', hrun, hfor, -, hur, -⟩ := make_flat_tree_wf h' F' hrep hnd'
    refine ⟨t', hrun, ⟨_, hfor⟩, by rw [hur, h3]; simp, ?_⟩
    refine (make_flat_tree_leaf_labels h' F' hrep hnd' t' hrun).trans ?_
    refine List.Perm.trans ?_ (leaf_labels_forest hF).symm
    have e : (F'.flatMap Shape.leaves).map (fun a => (node_at h' a)._label)
        = (F'.flatMap Shape.leaves).map (fun a => (node_at t._tree a)._label) :=
      List.map_congr_left (fun a _ => node_at_label_of_map hlab a)
    rw [e]
    exact hperm.map _
  have hcond : (t.is_rooted = true ∧ t._size > 2) := ⟨hr, hsz⟩
  unfold make_unrooted
  simp only [hcond, and_self, if_true]
  match F, hF, hnd, hlen, hlen2, hsize, hfin with
  | [], hF, _, _, _, hsize, _ => simp at hsize; omega
  | [s], hF, hnd, hlen, _, hsize, hfin =>
    have hur : t._unroot = [s.root] := by simpa using hF.2.1.symm
    obtain ⟨k, hk⟩ : ∃ k, t._size + 1 = k + 2 := ⟨t._size - 1, by omega⟩
    rw [hur, hk]
    have hnd1 : s.addrs.Nodup := by simpa using hnd
    have hs3 : 3 < s.size := by
      simp only [List.length_singleton] at hlen
      simp only [List.map_cons, List.map_nil, List.sum_cons, List.sum_nil, add_zero] at hsize
      omega
    obtain ⟨h', F', hrun, h3, hrep, hnd', hperm⟩ :=
      unroot_loop_one_leaves k t._tree s (hF.2.2.1 s (by simp)).repC hnd1 hs3
    obtain ⟨t', hflat, hwf', hur', hl'⟩ := hfin h' F'
      (unroot_loop_labels _ _ _ _ _ hrun) h3 hrep hnd' (by simpa using hperm)
    exact ⟨t', by simp only [hrun]; exact hflat, hwf', hur', hl'⟩
  | [sx, sy], hF, hnd, _, _, hsize, hfin =>
    have hur : t._unroot = [sx.root, sy.root] := by simpa using hF.2.1.symm
    rw [hur]
    have hs2 : 2 < sx.size + sy.size := by
      simp only [List.map_cons, List.map_nil, List.sum_cons, List.sum_nil, add_zero] at hsize
      omega
    obtain ⟨h', F', hrun, h3, hrep, hnd', hperm⟩ :=
      unroot_loop_two_leaves t._size t._tree sx sy (hF.2.2.1 sx (by simp)).repC
        (hF.2.2.1 sy (by simp)).repC hnd hs2
    obtain ⟨t', hflat, hwf', hur', hl'⟩ := hfin h' F'
      (unroot_loop_labels _ _ _ _ _ hrun) h3 hrep hnd' hperm
    exact ⟨t', by simp only [hrun]; exact hflat, hwf', hur', hl'⟩

end Gstar

namespace Gstar

/-! ## `set_outgroup` on rooted and on unrooted trees -/

theorem mem_leaf_labels {t : tree_t} {L : String} (h : L ∈ leaf_labels t) :
    ∃ n ∈ t._tree, n._label = L := by
  unfold leaf_labels at h
  obtain ⟨n, hn, e⟩ := List.mem_map.1 h
  exact ⟨n, List.mem_of_mem_take (List.mem_filter.1 hn).1, e⟩

theorem tree_t.Forest.three_le {t : tree_t} {F : List Shape} (hF : t.Forest F)
    (h3 : 3 ≤ t._unroot.length) : 2 < t._size := by
  have hlen : F.length = t._unroot.length := by
    have := congrArg List.length hF.2.1
    simpa using this
  have hsum : ∀ G : List Shape, G.length ≤ (G.map Shape.size).sum := by
    intro G
    induction G with
    | nil => simp
    | cons s G ih =>
      have := s.size_pos
      simp only [List.length_cons, List.map_cons, List.sum_cons]
      omega
  have := hsum F
  rw [← hF.size_eq] at this
  omega

/-- On a well-formed rooted tree with more than 2 nodes `set_outgroup` is `make_unrooted`
followed by `set_outgroup` on the unrooted tree. -/
theorem set_outgroup_rooted (t : tree_t) (L : String) (hwf : t.WF) (hr : t.is_rooted = true)
    (hsz : 2 < t._size) :
    set_outgroup t L = (make_unrooted t).bind (fun t1 => set_outgroup t1 L) := by
  have hns : ¬ t._size ≤ 2 := by omega
  rcases make_unrooted_forest t hwf hr hsz with ⟨t1, hrun, ⟨F1, hF1⟩, h3⟩ | ⟨hnone, -, -⟩
  · have hsz1 : ¬ t1._size ≤ 2 := by
      have := hF1.three_le (by omega)
      omega
    have hnr : t1.is_rooted = false := by
      simp [tree_t.is_rooted, h3]
    unfold set_outgroup
    simp only [hns, if_false, hr, if_true, hrun, Option.some_bind, hsz1, hnr,
      Bool.false_eq_true]
  · unfold set_outgroup
    simp only [hns, if_false, hr, if_true, hnone, Option.none_bind]

/-- On a well-formed tree with 3 unroot members `set_outgroup` returns a tree exactly when
some node carries the label. -/
theorem set_outgroup_unrooted_none (t : tree_t) (L : String) (hwf : t.WF)
    (h3 : t._unroot.length = 3) (hfail : set_outgroup t L = none) :
    (∀ n ∈ t._tree, n._label ≠ L) := by
  intro n hn hl
  obtain ⟨o, t', -, -, -, hrun, -⟩ := set_outgroup_forest t L hwf h3 ⟨n, hn, hl⟩
  rw [hrun] at hfail
  cases hfail

end Gstar

namespace Gstar

/-! ## The walk of `calc_distance` over two parent lists -/

theorem diverge_walk_ne (sl dl : List (Option Nat)) (fuel si di : Nat) (a b : Option Nat)
    (ha : sl[si]? = some a) (hb : dl[di]? = some b) (hab : a ≠ b) :
    diverge_walk sl dl (fuel + 1) si di = some (si + 1, di + 1) := by
  cases si with
  | zero =>
    rw [diverge_walk.eq_3 _ _ _ _ _ (fun _ _ h _ => by cases h), ha, hb]
    simp [hab]
  | succ si =>
    cases di with
    | zero =>
      rw [diverge_walk.eq_3 _ _ _ _ _ (fun _ _ _ h => by cases h), ha, hb]
      simp [hab]
    | succ di =>
      rw [diverge_walk.eq_2, ha, hb]
      simp [hab]

theorem diverge_walk_eq (sl dl : List (Option Nat)) (fuel si di : Nat) (a : Option Nat)
    (ha : sl[si + 1]? = some a) (hb : dl[di + 1]? = some a) :
    diverge_walk sl dl (fuel + 1) (si + 1) (di + 1) = diverge_walk sl dl fuel si di := by
  rw [diverge_walk.eq_2, ha, hb]
  simp

theorem diverge_walk_split (A B C : List (Option Nat)) (x y : Option Nat) (hxy : x ≠ y) :
    ∀ (j fuel : Nat), j ≤ C.length → j < fuel →
      diverge_walk (A ++ x :: C) (B ++ y :: C) fuel (A.length + j) (B.length + j)
        = some (A.length + 1, B.length + 1) := by
  intro j
  induction j with
  | zero =>
    intro fuel _ hf
    obtain ⟨f, rfl⟩ : ∃ f, fuel = f + 1 := ⟨fuel - 1, by omega⟩
    have ha : (A ++ x :: C)[A.length + 0]? = some x := by
      rw [List.getElem?_append_right (by omega)]
      simp
    have hb : (B ++ y :: C)[B.length + 0]? = some y := by
      rw [List.getElem?_append_right (by omega)]
      simp
    exact diverge_walk_ne _ _ f _ _ x y ha hb hxy
  | succ j ih =>
    intro fuel hj hf
    obtain ⟨f, rfl⟩ : ∃ f, fuel = f + 1 := ⟨fuel - 1, by omega⟩
    have ha : (A ++ x :: C)[A.length + j + 1]? = some (C.get ⟨j, by omega⟩) := by
      rw [List.getElem?_append_right (by omega)]
      have : A.length + j + 1 - A.length = j + 1 := by omega
      rw [this, List.getElem?_cons_succ, List.getElem?_eq_getElem (by omega)]
      rfl
    have hb : (B ++ y :: C)[B.length + j + 1]? = some (C.get ⟨j, by omega⟩) := by
      rw [List.getElem?_append_right (by omega)]
      have : B.length + j + 1 - B.length = j + 1 := by omega
      rw [this, List.getElem?_cons_succ, List.getElem?_eq_getElem (by omega)]
      rfl
    have := diverge_walk_eq _ _ f _ _ _ ha hb
    rw [← ih f (by omega) (by omega)]
    exact this

theorem common_start_split : ∀ (X Y : List Nat),
    ∃ X' Y', X = common_start X Y ++ X' ∧ Y = common_start X Y ++ Y' ∧
      ∀ x y xs ys, X' = x :: xs → Y' = y :: ys → x ≠ y := by
  intro X
  induction X with
  | nil =>
    intro Y
    refine ⟨[], Y, rfl, by simp [common_start], ?_⟩
    intro x y xs ys h
    cases h
  | cons a X ih =>
    intro Y
    cases Y with
    | nil =>
      refine ⟨a :: X, [], by simp [common_start], rfl, ?_⟩
      intro x y xs ys _ h
      cases h
    | cons b Y =>
      by_cases hab : a = b
      · subst hab
        obtain ⟨X', Y', hX, hY, hne⟩ := ih Y
        refine ⟨X', Y', ?_, ?_, hne⟩
        · simp only [common_start, if_true, List.cons_append]
          rw [← hX]
        · simp only [common_start, if_true, List.cons_append]
          rw [← hY]
      · refine ⟨a :: X, b :: Y, by simp [common_start, hab], by simp [common_start, hab], ?_⟩
        intro x y xs ys h1 h2
        cases h1
        cases h2
        exact hab

/-- Two lists split into their common upper end and two lower parts whose last elements
differ. -/
theorem shared_top_split (U V : List Nat) :
    ∃ U' V' C, U = U' ++ C ∧ V = V' ++ C ∧ C.length = shared_top U V ∧
      C.length = shared_top V U ∧
      ∀ A B x y, U' = A ++ [x] → V' = B ++ [y] → x ≠ y := by
  obtain ⟨X', Y', hX, hY, hne⟩ := common_start_split U.reverse V.reverse
  have hsym : ∀ P Q : List Nat, common_start P Q = common_start Q P := by
    intro P
    induction P with
    | nil => intro Q; cases Q <;> rfl
    | cons a P ih =>
      intro Q
      cases Q with
      | nil => rfl
      | cons b Q =>
        by_cases hab : a = b
        · subst hab
          simp [common_start, ih Q]
        · have hba : ¬ b = a := fun e => hab e.symm
          simp [common_start, hab, hba]
  refine ⟨X'.reverse, Y'.reverse, (common_start U.reverse V.reverse).reverse, ?_, ?_, ?_, ?_, ?_⟩
  · have := congrArg List.reverse hX
    simpa using this
  · have := congrArg List.reverse hY
    simpa using this
  · simp [shared_top]
  · simp [shared_top, hsym V.reverse U.reverse]
  · intro A B x y hA hB
    have h1 : X' = x :: A.reverse := by
      have := congrArg List.reverse hA
      simpa using this
    have h2 : Y' = y :: B.reverse := by
      have := congrArg List.reverse hB
      simpa using this
    exact hne x y _ _ h1 h2

end Gstar

namespace Gstar

/-! ## Parent chains -/

theorem ParentChain.head {h : List node_t} {p : Nat} {R : List Nat}
    (hc : ParentChain h (p :: R)) : ∃ n : node_t, h[p]? = some n ∧ n._parent = R.head? := by
  cases R with
  | nil => exact hc
  | cons b R => exact hc.1

theorem ParentChain.tail {h : List node_t} {p : Nat} {R : List Nat}
    (hc : ParentChain h (p :: R)) : ParentChain h R := by
  cases R with
  | nil => trivial
  | cons b R => exact hc.2

theorem ParentChain.lt {h : List node_t} :
    ∀ {c : List Nat}, ParentChain h c → ∀ x ∈ c, x < h.length := by
  intro c
  induction c with
  | nil => intro _ x hx; cases hx
  | cons p R ih =>
    intro hc x hx
    rcases List.mem_cons.1 hx with rfl | hx
    · obtain ⟨n, hn, -⟩ := hc.head
      exact (List.getElem?_eq_some_iff.1 hn).1
    · exact ih hc.tail x hx

theorem up_chain_of_chain {h : List node_t} :
    ∀ (R : List Nat) (a fuel : Nat), ParentChain h (a :: R) → R.length < fuel →
      up_chain h fuel a = a :: R := by
  intro R
  induction R with
  | nil =>
    intro a fuel hc hf
    obtain ⟨f, rfl⟩ : ∃ f, fuel = f + 1 := ⟨fuel - 1, by omega⟩
    obtain ⟨n, hn, hp⟩ := hc
    simp [up_chain, node_at, hn, hp]
  | cons b R ih =>
    intro a fuel hc hf
    obtain ⟨f, rfl⟩ : ∃ f, fuel = f + 1 := ⟨fuel - 1, by omega⟩
    obtain ⟨⟨n, hn, hp⟩, hrest⟩ := hc
    have := ih b f hrest (by simpa using hf)
    simp [up_chain, node_at, hn, hp, this]

theorem parents_walk_of_chain {h : List node_t} :
    ∀ (R : List Nat) (a fuel : Nat), ParentChain h (a :: R) → (a :: R).Nodup →
      R.length < fuel → parents_walk h fuel a = some (R.map some ++ [none]) := by
  intro R
  induction R with
  | nil =>
    intro a fuel hc _ hf
    obtain ⟨f, rfl⟩ : ∃ f, fuel = f + 1 := ⟨fuel - 1, by omega⟩
    obtain ⟨n, hn, hp⟩ := hc
    simp [parents_walk, hn, hp]
  | cons b R ih =>
    intro a fuel hc hnd hf
    obtain ⟨f, rfl⟩ : ∃ f, fuel = f + 1 := ⟨fuel - 1, by omega⟩
    obtain ⟨⟨n, hn, hp⟩, hrest⟩ := hc
    have hba : ¬ b = a := by
      intro e
      have := (List.nodup_cons.1 hnd).1
      exact this (by simp [e])
    have := ih b f hrest (List.nodup_cons.1 hnd).2 (by simpa using hf)
    simp [parents_walk, hn, hp, hba, this]

theorem parent_distance_self (h : List node_t) (fuel : Nat) (x : Option Nat) :
    parent_distance h fuel x x = some 0 := by
  cases fuel <;> simp [parent_distance]

theorem parent_distance_of_chain {h : List node_t} (Q : List Nat) :
    ∀ (P : List Nat) (fuel : Nat), ParentChain h (P ++ Q) → (P ++ Q).Nodup →
      P.length ≤ fuel →
      parent_distance h fuel (P ++ Q).head? Q.head? = some (weight_sum h P) := by
  intro P
  induction P with
  | nil =>
    intro fuel _ _ _
    simp only [List.nil_append, weight_sum, List.map_nil, List.sum_nil]
    exact parent_distance_self h fuel _
  | cons p P ih =>
    intro fuel hc hnd hf
    obtain ⟨f, rfl⟩ : ∃ f, fuel = f + 1 := ⟨fuel - 1, by simp at hf; omega⟩
    obtain ⟨n, hn, hp⟩ := ParentChain.head hc
    have hne : ¬ (some p = Q.head?) := by
      intro e
      have hq : p ∈ Q := List.mem_of_mem_head? e.symm
      have := (List.nodup_cons.1 hnd).1
      exact this (List.mem_append_right _ hq)
    have hrec := ih f (ParentChain.tail hc) (List.nodup_cons.1 hnd).2 (by simpa using hf)
    simp only [List.cons_append, List.head?_cons]
    rw [parent_distance, if_neg hne]
    simp only [hn]
    have hp' : n._parent = (P ++ Q).head? := hp
    rw [hp', hrec]
    simp [weight_sum, node_at, hn]

end Gstar

namespace Gstar

/-! ## The chains of a well-formed tree -/

theorem Shape.Rep.root_entry {h : List node_t} {s : Shape} {par : Option Nat}
    (hs : s.Rep h par) : ∃ n : node_t, h[s.root]? = some n ∧ n._parent = par := by
  cases s with
  | leaf a =>
    obtain ⟨n, hn, -, hp⟩ := hs
    exact ⟨n, hn, hp⟩
  | node a l r =>
    obtain ⟨⟨n, hn, -, hp⟩, -, -⟩ := hs
    exact ⟨n, hn, hp⟩

theorem pathRep_chain {h : List node_t} :
    ∀ (fs : List Frame) (c : Nat), PathRep h c fs none →
      (∃ n : node_t, h[c]? = some n ∧ n._parent = (fs.map Frame.addr).head?) →
      ParentChain h (c :: fs.map Frame.addr) ∧
        ∀ x ∈ fs.map Frame.addr, (node_at h x)._children = true := by
  intro fs
  induction fs with
  | nil =>
    intro c _ hc
    exact ⟨hc, fun x hx => by cases hx⟩
  | cons f fs ih =>
    intro c hp hc
    obtain ⟨⟨n, hn, hin, hpar⟩, -, hrest⟩ := hp
    have hnext : ∃ m : node_t, h[f.addr]? = some m ∧ m._parent = (fs.map Frame.addr).head? := by
      refine ⟨n, hn, ?_⟩
      rw [hpar]
      cases fs <;> rfl
    obtain ⟨hch, hint⟩ := ih f.addr hrest hnext
    refine ⟨⟨?_, hch⟩, ?_⟩
    · simpa using hc
    · intro x hx
      simp only [List.map_cons, List.mem_cons] at hx
      rcases hx with rfl | hx
      · simp [node_at, hn, hin.1]
      · exact hint x hx

/-- In a well-formed tree every slot has a chain of parents up to an unroot member: the chain
has no repetition and every node above the slot is internal. -/
theorem tree_t.Forest.chain_spec {t : tree_t} {F : List Shape} (hF : t.Forest F) {a : Nat}
    (ha : a < t._size) :
    ∃ R, ParentChain t._tree (a :: R) ∧ (a :: R).Nodup ∧
      (∀ x ∈ R, (node_at t._tree x)._children = true) ∧ t.chain a = a :: R ∧
      R.length < t._size := by
  obtain ⟨s, hs, has⟩ := List.mem_flatMap.1 (hF.mem_iff.2 ha)
  obtain ⟨fs, sub, rfl, hroot⟩ := exists_plug s a has
  have hrep := hF.2.2.1 _ hs
  obtain ⟨hsub, hpath⟩ := rep_plug fs sub none hrep
  have hc0 : ∃ n : node_t, t._tree[a]? = some n ∧ n._parent = (fs.map Frame.addr).head? := by
    obtain ⟨n, hn, hp⟩ := hsub.root_entry
    refine ⟨n, by rw [← hroot]; exact hn, ?_⟩
    rw [hp]
    cases fs <;> rfl
  rw [hroot] at hpath
  obtain ⟨hch, hint⟩ := pathRep_chain fs a hpath hc0
  have hnd : (sub.addrs ++ fs.flatMap Frame.addrs).Nodup :=
    (addrs_plug fs sub).nodup_iff.1 (Shape.nodup_of_mem hF.nodup hs)
  have hnd2 : (a :: fs.map Frame.addr).Nodup := by
    rw [List.nodup_append] at hnd
    refine List.nodup_cons.2 ⟨?_, hnd.2.1.sublist (map_addr_sublist fs)⟩
    intro hmem
    exact hnd.2.2 (hroot ▸ sub.root_mem_addrs) ((map_addr_sublist fs).subset hmem)
  have hlen : (a :: fs.map Frame.addr).length ≤ t._size := by
    refine nodup_length_le hnd2 (fun x hx => ?_)
    have := hch.lt x hx
    rw [hF.1] at this
    exact this
  have hlen' : (fs.map Frame.addr).length < t._size := by
    simp only [List.length_cons] at hlen
    omega
  exact ⟨fs.map Frame.addr, hch, hnd2, hint, up_chain_of_chain _ a t._size hch hlen', hlen'⟩

end Gstar

namespace Gstar

/-! ## `calc_distance` on a well-formed tree -/

theorem get_parents_of_chain {t : tree_t} {a : Nat} {R : List Nat}
    (hc : ParentChain t._tree (a :: R)) (hnd : (a :: R).Nodup) (hlen : R.length < t._size) :
    get_parents_of t a = some ((a :: R).map some ++ [none]) := by
  unfold get_parents_of
  rw [parents_walk_of_chain R a (t._size + 1) hc hnd (by omega)]
  rfl

theorem getElem?_zero_chain (C : List Nat) :
    (C.map some ++ [none])[0]? = some C.head? := by
  cases C <;> simp

theorem up_weight_of_split {t : tree_t} {a b : Nat} {U C cb : List Nat}
    (hca : t.chain a = U ++ C) (hcb : t.chain b = cb)
    (hC : C.length = shared_top (U ++ C) cb) :
    t.up_weight a b = weight_sum t._tree U := by
  unfold tree_t.up_weight tree_t.up_edges
  rw [hca, hcb, ← hC]
  simp

/-- The distance computed by `calc_distance` between two different childless slots of a
well-formed tree: the weights on the way from the first up to the lowest common ancestor plus
the weights on the way from the second up to it. -/
theorem calc_distance_spec {t : tree_t} {F : List Shape} (hF : t.Forest F) {a b : Nat}
    (ha : a < t._size) (hb : b < t._size) (hab : a ≠ b)
    (hla : (node_at t._tree a)._children = false)
    (hlb : (node_at t._tree b)._children = false) :
    calc_distance t a b = some (t.up_weight a b + t.up_weight b a) := by
  obtain ⟨Ra, hca, hnda, hinta, hchaina, hlena⟩ := hF.chain_spec ha
  obtain ⟨Rb, hcb, hndb, hintb, hchainb, hlenb⟩ := hF.chain_spec hb
  obtain ⟨U', V', C, hU, hV, hC1, hC2, hne⟩ := shared_top_split (a :: Ra) (b :: Rb)
  have hU_ne : U' ≠ [] := by
    intro e
    rw [e, List.nil_append] at hU
    have hmem : a ∈ b :: Rb := by
      rw [hV, ← hU]
      exact List.mem_append_right _ (List.mem_cons_self _ _)
    rcases List.mem_cons.1 hmem with e' | hm
    · exact hab e'
    · have := hinta
      have hc := hintb a hm
      rw [hla] at hc
      cases hc
  have hV_ne : V' ≠ [] := by
    intro e
    rw [e, List.nil_append] at hV
    have hmem : b ∈ a :: Ra := by
      rw [hU, ← hV]
      exact List.mem_append_right _ (List.mem_cons_self _ _)
    rcases List.mem_cons.1 hmem with e' | hm
    · exact hab e'.symm
    · have hc := hinta b hm
      rw [hlb] at hc
      cases hc
  obtain ⟨A, x, hA⟩ : ∃ A x, U' = A ++ [x] :=
    ⟨U'.dropLast, U'.getLast hU_ne, (List.dropLast_append_getLast hU_ne).symm⟩
  obtain ⟨B, y, hB⟩ : ∃ B y, V' = B ++ [y] :=
    ⟨V'.dropLast, V'.getLast hV_ne, (List.dropLast_append_getLast hV_ne).symm⟩
  have hxy : x ≠ y := hne A B x y hA hB
  have hsl : get_parents_of t a
      = some (A.map some ++ some x :: (C.map some ++ [none])) := by
    rw [get_parents_of_chain hca hnda hlena, hU, hA]
    simp
  have hdl : get_parents_of t b
      = some (B.map some ++ some y :: (C.map some ++ [none])) := by
    rw [get_parents_of_chain hcb hndb hlenb, hV, hB]
    simp
  have hwalk := diverge_walk_split (A.map some) (B.map some) (C.map some ++ [none])
    (some x) (some y) (by simpa using hxy) (C.map some ++ [none]).length
    ((A.map some ++ some x :: (C.map some ++ [none])).length + 1) (le_refl _)
    (by simp; omega)
  have hsi : (A.map some ++ some x :: (C.map some ++ [none])).length - 1
      = (A.map some).length + (C.map some ++ [none]).length := by simp
  have hdi : (B.map some ++ some y :: (C.map some ++ [none])).length - 1
      = (B.map some).length + (C.map some ++ [none]).length := by simp
  have hga : (A.map some ++ some x :: (C.map some ++ [none]))[(A.map some).length + 1]?
      = some C.head? := by
    rw [List.getElem?_append_right (by omega)]
    have : (A.map some).length + 1 - (A.map some).length = 1 := by omega
    rw [this, List.getElem?_cons_succ]
    exact getElem?_zero_chain C
  have hgb : (B.map some ++ some y :: (C.map some ++ [none]))[(B.map some).length + 1]?
      = some C.head? := by
    rw [List.getElem?_append_right (by omega)]
    have : (B.map some).length + 1 - (B.map some).length = 1 := by omega
    rw [this, List.getElem?_cons_succ]
    exact getElem?_zero_chain C
  have hlenU : U'.length ≤ t._size + 1 := by
    have := congrArg List.length hU
    simp only [List.length_cons, List.length_append] at this
    omega
  have hlenV : V'.length ≤ t._size + 1 := by
    have := congrArg List.length hV
    simp only [List.length_cons, List.length_append] at this
    omega
  have hpa := parent_distance_of_chain C U' (t._size + 1) (hU ▸ hca) (hU ▸ hnda) hlenU
  have hpb := parent_distance_of_chain C V' (t._size + 1) (hV ▸ hcb) (hV ▸ hndb) hlenV
  rw [← hU] at hpa
  rw [← hV] at hpb
  simp only [List.head?_cons] at hpa hpb
  have hwa : t.up_weight a b = weight_sum t._tree U' :=
    up_weight_of_split (hchaina.trans hU) hchainb (by rw [← hU]; exact hC1)
  have hwb : t.up_weight b a = weight_sum t._tree V' :=
    up_weight_of_split (hchainb.trans hV) hchaina (by rw [← hV]; exact hC2)
  unfold calc_distance
  rw [if_neg hab, hsl, hdl]
  simp only []
  rw [hsi, hdi, hwalk]
  simp only []
  rw [hga, hgb]
  simp only []
  rw [hpa, hpb, hwa, hwb]

end Gstar

namespace Gstar

theorem mem_leaf_slots {t : tree_t} {a : Nat} :
    a ∈ leaf_slots t ↔ a < t._size ∧ (node_at t._tree a)._children = false := by
  unfold leaf_slots
  rw [List.mem_filter, List.mem_range]
  simp

theorem common_start_self (X : List Nat) : common_start X X = X := by
  induction X with
  | nil => rfl
  | cons a X ih => simp [common_start, ih]

theorem up_weight_self (t : tree_t) (a : Nat) : t.up_weight a a = 0 := by
  unfold tree_t.up_weight tree_t.up_edges shared_top
  rw [common_start_self]
  simp [weight_sum]

/-- The distance computed by `calc_distance` between two leaves of a well-formed tree. -/
theorem calc_distance_leaves {t : tree_t} (hwf : t.WF) {a b : Nat}
    (ha : a ∈ leaf_slots t) (hb : b ∈ leaf_slots t) :
    calc_distance t a b = some (t.up_weight a b + t.up_weight b a) := by
  obtain ⟨F, hF⟩ := hwf
  obtain ⟨ha1, ha2⟩ := mem_leaf_slots.1 ha
  obtain ⟨hb1, hb2⟩ := mem_leaf_slots.1 hb
  by_cases hab : a = b
  · subst hab
    unfold calc_distance
    rw [if_pos rfl, up_weight_self]
    simp
  · exact calc_distance_spec hF ha1 hb1 hab ha2 hb2

end Gstar

namespace Gstar

/-! ## `set_weights_constant` -/

/-- The recursion `node_t::set_weights_constant` on a realised shape: it sets the weight of
every node of the shape and changes nothing else. -/
theorem node_set_weights_shape (c : ℚ) :
    ∀ (s : Shape) (h : List node_t) (fuel : Nat), s.RepC h → s.size ≤ fuel →
      ∃ h', node_set_weights_constant c fuel h s.root = some h' ∧
        ∀ k, h'[k]? = if k ∈ s.addrs then (h[k]?).map (fun x => { x with _weight := c })
          else h[k]? := by
  intro s
  induction s with
  | leaf a =>
    intro h fuel hs hf
    obtain ⟨f, rfl⟩ : ∃ f, fuel = f + 1 := ⟨fuel - 1, by simp [Shape.size] at hf; omega⟩
    obtain ⟨n, hn, hc, -, -⟩ := hs
    refine ⟨h.set a { n with _weight := c }, ?_, ?_⟩
    · simp [node_set_weights_constant, hn, hc]
    · intro k
      simp only [Shape.addrs, List.mem_singleton]
      rw [List.getElem?_set]
      by_cases hk : a = k
      · subst hk
        have ha : a < h.length := (List.getElem?_eq_some_iff.1 hn).1
        simp [ha, hn]
      · have hk' : ¬ k = a := fun e => hk e.symm
        simp [hk, hk']
  | node a l r ihl ihr =>
    intro h fuel hs hf
    obtain ⟨f, rfl⟩ : ∃ f, fuel = f + 1 := ⟨fuel - 1, by simp [Shape.size] at hf; omega⟩
    obtain ⟨⟨n, hn, hc, hl, hr⟩, hL, hR⟩ := hs
    have ha : a < h.length := (List.getElem?_eq_some_iff.1 hn).1
    have hnode : ({ n with _weight := c } : node_t)
        = ⟨n._label, c, some l.root, some r.root, n._parent, true⟩ := by
      rw [← hl, ← hr, ← hc]
    have h1get : ∀ k, (h.set a ⟨n._label, c, some l.root, some r.root, n._parent, true⟩)[k]?
        = if k = a then (h[k]?).map (fun x => { x with _weight := c }) else h[k]? := by
      intro k
      rw [← hnode, List.getElem?_set]
      by_cases hk : a = k
      · subst hk
        simp [ha, hn]
      · have hk' : ¬ k = a := fun e => hk e.symm
        simp [hk, hk']
    have hkeep : ∀ (h2 : List node_t),
        (∀ k : Nat, ∃ g : node_t → node_t, (∀ x, (g x).kids = x.kids) ∧
          h2[k]? = (h[k]?).map g) →
        ∀ s : Shape, s.RepC h → s.RepC h2 := by
      intro h2 hg s hs
      refine Shape.RepC.congr (fun b _ m hm => ?_) hs
      obtain ⟨g, hgk, hgb⟩ := hg b
      rw [hm] at hgb
      have := hgk m
      simp only [node_t.kids, Prod.mk.injEq] at this
      exact ⟨g m, hgb, this.1, this.2.1, this.2.2⟩
    have hL1 : l.RepC (h.set a ⟨n._label, c, some l.root, some r.root, n._parent, true⟩) := by
      refine hkeep _ (fun k => ?_) l hL
      rw [h1get]
      by_cases hk : k = a
      · exact ⟨fun x => { x with _weight := c }, fun _ => rfl, by rw [if_pos hk]⟩
      · exact ⟨id, fun _ => rfl, by rw [if_neg hk, Option.map_id]; rfl⟩
    simp only [Shape.size] at hf
    obtain ⟨h2, hrun2, hget2⟩ := ihl _ f hL1 (by omega)
    have idem : ∀ o : Option node_t,
        (o.map (fun x => ({ x with _weight := c } : node_t))).map
          (fun x => ({ x with _weight := c } : node_t))
        = o.map (fun x => ({ x with _weight := c } : node_t)) := by
      intro o
      cases o <;> rfl
    have hget2' : ∀ k, h2[k]? = if k = a ∨ k ∈ l.addrs then
        (h[k]?).map (fun x => { x with _weight := c }) else h[k]? := by
      intro k
      rw [hget2, h1get]
      by_cases hk : k = a <;> by_cases hkl : k ∈ l.addrs
      · rw [if_pos hkl, if_pos hk, if_pos (Or.inl hk), idem]
      · rw [if_neg hkl, if_pos hk, if_pos (Or.inl hk)]
      · rw [if_pos hkl, if_neg hk, if_pos (Or.inr hkl)]
      · rw [if_neg hkl, if_neg hk, if_neg (by tauto)]
    have hR2 : r.RepC h2 := by
      refine hkeep _ (fun k => ?_) r hR
      rw [hget2']
      by_cases hk : k = a ∨ k ∈ l.addrs
      · exact ⟨fun x => { x with _weight := c }, fun _ => rfl, by rw [if_pos hk]⟩
      · exact ⟨id, fun _ => rfl, by rw [if_neg hk, Option.map_id]; rfl⟩
    obtain ⟨h3, hrun3, hget3⟩ := ihr _ f hR2 (by omega)
    refine ⟨h3, ?_, ?_⟩
    · rw [Shape.root_node, node_set_weights_constant]
      simp only [hn, hc, if_true, hl, hr]
      rw [hrun2]
      exact hrun3
    · intro k
      rw [hget3, hget2']
      simp only [Shape.addrs, List.mem_cons, List.mem_append]
      by_cases hkr : k ∈ r.addrs <;> by_cases hk : k = a ∨ k ∈ l.addrs
      · rw [if_pos hkr, if_pos hk, if_pos (by tauto), idem]
      · rw [if_pos hkr, if_neg hk, if_pos (by tauto)]
      · rw [if_neg hkr, if_pos hk, if_pos (by tauto)]
      · rw [if_neg hkr, if_neg hk, if_neg (by tauto)]

end Gstar

namespace Gstar

theorem repC_of_map_kids {h h2 : List node_t}
    (hg : ∀ k : Nat, ∃ g : node_t → node_t, (∀ x, (g x).kids = x.kids) ∧
      h2[k]? = (h[k]?).map g) {s : Shape} (hs : s.RepC h) : s.RepC h2 := by
  refine Shape.RepC.congr (fun b _ m hm => ?_) hs
  obtain ⟨g, hgk, hgb⟩ := hg b
  rw [hm] at hgb
  have := hgk m
  simp only [node_t.kids, Prod.mk.injEq] at this
  exact ⟨g m, hgb, this.1, this.2.1, this.2.2⟩

theorem set_weights_loop_forest (c : ℚ) (fuel : Nat) :
    ∀ (F : List Shape) (h : List node_t), (∀ s ∈ F, s.RepC h) → (∀ s ∈ F, s.size ≤ fuel) →
      ∃ h', set_weights_loop c fuel (F.map Shape.root) h = some h' ∧
        ∀ k, h'[k]? = if k ∈ F.flatMap Shape.addrs then
          (h[k]?).map (fun x => { x with _weight := c }) else h[k]? := by
  intro F
  induction F with
  | nil =>
    intro h _ _
    exact ⟨h, rfl, fun k => by simp⟩
  | cons s F ih =>
    intro h hF hsz
    obtain ⟨h1, hrun1, hget1⟩ := node_set_weights_shape c s h fuel (hF s (by simp))
      (hsz s (by simp))
    have hF1 : ∀ x ∈ F, x.RepC h1 := by
      intro x hx
      refine repC_of_map_kids (fun k => ?_) (hF x (by simp [hx]))
      rw [hget1]
      by_cases hk : k ∈ s.addrs
      · exact ⟨fun x => { x with _weight := c }, fun _ => rfl, by rw [if_pos hk]⟩
      · exact ⟨id, fun _ => rfl, by rw [if_neg hk, Option.map_id]; rfl⟩
    obtain ⟨h2, hrun2, hget2⟩ := ih h1 hF1 (fun x hx => hsz x (by simp [hx]))
    refine ⟨h2, ?_, ?_⟩
    · rw [List.map_cons, set_weights_loop, hrun1]
      exact hrun2
    · intro k
      have idem : ∀ o : Option node_t,
          (o.map (fun x => ({ x with _weight := c } : node_t))).map
            (fun x => ({ x with _weight := c } : node_t))
          = o.map (fun x => ({ x with _weight := c } : node_t)) := by
        intro o
        cases o <;> rfl
      rw [hget2, hget1]
      simp only [List.flatMap_cons, List.mem_append]
      by_cases hk : k ∈ s.addrs <;> by_cases hkF : k ∈ F.flatMap Shape.addrs
      · rw [if_pos hkF, if_pos hk, if_pos (by tauto), idem]
      · rw [if_neg hkF, if_pos hk, if_pos (by tauto)]
      · rw [if_pos hkF, if_neg hk, if_pos (by tauto)]
      · rw [if_neg hkF, if_neg hk, if_neg (by tauto)]

/-- On a well-formed tree `set_weights_constant(c)` returns the same tree with every weight
replaced by `c`. -/
theorem set_weights_constant_forest {t : tree_t} {F : List Shape} (hF : t.Forest F) (c : ℚ) :
    t.set_weights_constant c
      = some ⟨t._tree.map (fun x => { x with _weight := c }), t._unroot, t._size⟩ := by
  have hrep : ∀ s ∈ F, s.RepC t._tree := fun s hs => (hF.2.2.1 s hs).repC
  obtain ⟨h', hrun, hget⟩ := set_weights_loop_forest c t._size F t._tree hrep
    (fun s hs => by
      have := size_le_length hrep hF.nodup hs
      rw [hF.1] at this
      exact this)
  rw [hF.2.1] at hrun
  unfold tree_t.set_weights_constant
  rw [hrun]
  have : h' = t._tree.map (fun x => { x with _weight := c }) := by
    apply List.ext_getElem?
    intro k
    rw [hget, List.getElem?_map]
    by_cases hk : k < t._size
    · rw [if_pos (hF.mem_iff.2 hk)]
    · rw [if_neg (fun hm => hk (hF.mem_iff.1 hm)),
        List.getElem?_eq_none (by rw [hF.1]; omega)]
      rfl
  rw [this]

theorem Shape.Rep.map_weight {h : List node_t} (c : ℚ) :
    ∀ {s : Shape} {par : Option Nat}, s.Rep h par →
      s.Rep (h.map (fun x => { x with _weight := c })) par := by
  intro s
  induction s with
  | leaf a =>
    intro par hs
    obtain ⟨n, hn, hl, hp⟩ := hs
    exact ⟨{ n with _weight := c }, by rw [List.getElem?_map, hn]; rfl, hl, hp⟩
  | node a l r ihl ihr =>
    intro par hs
    obtain ⟨⟨n, hn, hi, hp⟩, hL, hR⟩ := hs
    exact ⟨⟨{ n with _weight := c }, by rw [List.getElem?_map, hn]; rfl, hi, hp⟩,
      ihl hL, ihr hR⟩

theorem tree_t.Forest.map_weight_forest {t : tree_t} {F : List Shape} (hF : t.Forest F) (c : ℚ) :
    tree_t.Forest ⟨t._tree.map (fun x => { x with _weight := c }), t._unroot, t._size⟩ F :=
  ⟨by simpa using hF.1, hF.2.1, fun s hs => (hF.2.2.1 s hs).map_weight c, hF.2.2.2⟩

theorem node_at_map_weight (h : List node_t) (c : ℚ) (a : Nat) :
    (node_at (h.map (fun x => { x with _weight := c })) a)._parent = (node_at h a)._parent ∧
    (node_at (h.map (fun x => { x with _weight := c })) a)._children
      = (node_at h a)._children := by
  unfold node_at
  rw [List.getElem?_map]
  cases h[a]? <;> exact ⟨rfl, rfl⟩

theorem up_chain_map_weight (h : List node_t) (c : ℚ) :
    ∀ (fuel a : Nat), up_chain (h.map (fun x => { x with _weight := c })) fuel a
      = up_chain h fuel a := by
  intro fuel
  induction fuel with
  | zero => intro a; rfl
  | succ f ih =>
    intro a
    rw [up_chain, up_chain, (node_at_map_weight h c a).1]
    cases (node_at h a)._parent with
    | none => rfl
    | some p => simp only [ih p]

theorem weight_sum_map_weight (h : List node_t) (c : ℚ) :
    ∀ (U : List Nat), (∀ x ∈ U, x < h.length) →
      weight_sum (h.map (fun x => { x with _weight := c })) U = c * (U.length : ℚ) := by
  intro U
  induction U with
  | nil => intro _; simp [weight_sum]
  | cons x U ih =>
    intro hU
    have hx : x < h.length := hU x (by simp)
    have := ih (fun y hy => hU y (by simp [hy]))
    unfold weight_sum at this ⊢
    rw [List.map_cons, List.sum_cons, this]
    simp only [node_at, List.getElem?_map, List.getElem?_eq_getElem hx, Option.map_some',
      Option.getD_some, List.length_cons]
    push_cast
    ring

end Gstar

namespace Gstar

/-! ## `make_label_map` -/

theorem leaf_labels_eq_slots {t : tree_t} (hlen : t._tree.length = t._size) :
    leaf_labels t = (leaf_slots t).map (fun a => (node_at t._tree a)._label) := by
  unfold leaf_labels leaf_slots
  rw [← hlen, List.take_length]
  conv_lhs => rw [← map_node_at_range t._tree]
  rw [List.filter_map, List.map_map]
  rfl

theorem lookup_of_mem {l : List (String × Nat)} (hnd : (l.map Prod.fst).Nodup) {a : String}
    {b : Nat} (hm : (a, b) ∈ l) : l.lookup a = some b := by
  induction l with
  | nil => cases hm
  | cons e l ih =>
    obtain ⟨k, v⟩ := e
    simp only [List.map_cons, List.nodup_cons] at hnd
    rcases List.mem_cons.1 hm with h | h
    · cases h
      simp [List.lookup]
    · have hne : a ≠ k := by
        intro e
        subst e
        exact hnd.1 (List.mem_map.2 ⟨(a, b), h, rfl⟩)
      have hb : (a == k) = false := by simpa using hne
      rw [List.lookup_cons, hb]
      exact ih hnd.2 h

theorem label_map_loop_eq :
    ∀ (nodes : List node_t) (k : Nat) (m : List (String × Nat)),
      ((nodes.filter (fun n => !n._children)).map (fun n => n._label)).Nodup →
      (∀ l ∈ (nodes.filter (fun n => !n._children)).map (fun n => n._label),
        ∀ e ∈ m, e.1 ≠ l) →
      label_map_loop nodes k m
        = (((nodes.filter (fun n => !n._children)).map (fun n => n._label)).zip
            (List.range' k ((nodes.filter (fun n => !n._children)).map
              (fun n => n._label)).length)).reverse ++ m := by
  intro nodes
  induction nodes with
  | nil => intro k m _ _; simp [label_map_loop]
  | cons n rest ih =>
    intro k m hnd hm
    by_cases hc : n._children = true
    · have hf : (n :: rest).filter (fun n => !n._children)
          = rest.filter (fun n => !n._children) := by
        rw [List.filter_cons_of_neg (by simp [hc])]
      rw [hf] at hnd hm ⊢
      rw [label_map_loop, if_pos hc]
      exact ih k m hnd hm
    · have hc' : n._children = false := by simpa using hc
      have hf : (n :: rest).filter (fun n => !n._children)
          = n :: rest.filter (fun n => !n._children) := by
        rw [List.filter_cons_of_pos (by simp [hc'])]
      rw [hf] at hnd hm ⊢
      simp only [List.map_cons, List.nodup_cons] at hnd
      have hfilter : m.filter (fun e => e.1 ≠ n._label) = m := by
        rw [List.filter_eq_self]
        intro e he
        simpa using hm n._label (by simp) e he
      rw [label_map_loop, if_neg hc, hfilter, ih (k + 1) _ hnd.2]
      · simp only [List.map_cons, List.length_cons, List.range'_succ, List.zip_cons_cons,
          List.reverse_cons, List.append_assoc, List.singleton_append]
      · intro l hl e he
        rcases List.mem_cons.1 he with rfl | he
        · intro e'
          have e'' : n._label = l := e'
          rw [← e''] at hl
          exact hnd.1 hl
        · exact hm l (by simp only [List.map_cons, List.mem_cons]; exact Or.inr hl) e he

/-- The label map of a tree with pairwise distinct leaf labels: it has one entry per leaf, and
the leaf at position `k` of the array order has index `k`. -/
theorem make_label_map_spec {t : tree_t} (hlen : t._tree.length = t._size)
    (hnd : (leaf_labels t).Nodup) :
    (make_label_map t).length = (leaf_slots t).length ∧
    ∀ k (hk : k < (leaf_slots t).length),
      (make_label_map t).lookup (node_at t._tree ((leaf_slots t).get ⟨k, hk⟩))._label
        = some k := by
  have hL : leaf_labels t
      = ((t._tree.take t._size).filter (fun n => !n._children)).map (fun n => n._label) := rfl
  have hmap : make_label_map t
      = ((leaf_labels t).zip (List.range' 0 (leaf_labels t).length)).reverse := by
    unfold make_label_map
    rw [label_map_loop_eq _ 0 [] (hL ▸ hnd) (fun _ _ e he => by cases he), List.append_nil]
    rfl
  have hlenL : (leaf_labels t).length = (leaf_slots t).length := by
    rw [leaf_labels_eq_slots hlen, List.length_map]
  refine ⟨?_, ?_⟩
  · rw [hmap, List.length_reverse, List.length_zip, List.length_range', hlenL]
    simp
  · intro k hk
    rw [hmap]
    apply lookup_of_mem
    · rw [List.map_reverse, List.nodup_reverse, List.map_fst_zip]
      · exact hnd
      · simp
    · rw [List.mem_reverse]
      have hk' : k < ((leaf_labels t).zip (List.range' 0 (leaf_labels t).length)).length := by
        rw [List.length_zip, List.length_range', hlenL]
        simpa using hk
      have hget : ((leaf_labels t).zip (List.range' 0 (leaf_labels t).length))[k]
          = ((node_at t._tree ((leaf_slots t).get ⟨k, hk⟩))._label, k) := by
        rw [List.getElem_zip]
        simp only [List.getElem_range', Nat.zero_add, Nat.one_mul, Prod.mk.injEq, and_true]
        simp only [leaf_labels_eq_slots hlen, List.getElem_map]
        rfl
      rw [← hget]
      exact List.getElem_mem hk'

end Gstar

namespace Gstar

/-! ## The loops of `calc_distance_matrix` -/

theorem dist_row_spec (t : tree_t) (lm : List (String × Nat)) (idx : Nat → Nat)
    (D : Nat → Nat → ℚ) (i mi : Nat) (hlen : t._tree.length = t._size)
    (hlook : ∀ j, j < t._size → (node_at t._tree j)._children = false →
      lm.lookup (node_at t._tree j)._label = some (idx j) ∧ idx j < lm.length)
    (hdist : ∀ j, j < t._size → (node_at t._tree j)._children = false →
      calc_distance t i j = some (D i j))
    (hinj : ∀ j j', j < t._size → j' < t._size → (node_at t._tree j)._children = false →
      (node_at t._tree j')._children = false → idx j = idx j' → j = j') :
    ∀ (js : List Nat) (d : List ℚ), (∀ j ∈ js, j < t._size) →
      lm.length * mi + lm.length ≤ d.length →
      ∃ d', dist_row t lm i mi js d = some d' ∧ d'.length = d.length ∧
        (∀ j ∈ js, (node_at t._tree j)._children = false →
          d'.getD (lm.length * mi + idx j) 0 = D i j) ∧
        (∀ x, (∀ j ∈ js, (node_at t._tree j)._children = false →
          x ≠ lm.length * mi + idx j) → d'.getD x 0 = d.getD x 0) := by
  intro js
  induction js with
  | nil =>
    intro d _ _
    exact ⟨d, rfl, rfl, fun j hj _ => (by cases hj), fun _ _ => rfl⟩
  | cons j rest ih =>
    intro d hjs hb
    have hj : j < t._size := hjs j (by simp)
    have hget : t._tree[j]? = some (node_at t._tree j) := by
      unfold node_at
      rw [List.getElem?_eq_getElem (by rw [hlen]; exact hj)]
      rfl
    by_cases hc : (node_at t._tree j)._children = true
    · obtain ⟨d', hrun, hl, h1, h2⟩ := ih d (fun x hx => hjs x (by simp [hx])) hb
      refine ⟨d', ?_, hl, ?_, ?_⟩
      · rw [dist_row, hget]
        simp only [hc, if_true]
        exact hrun
      · intro j' hj' hleaf
        rcases List.mem_cons.1 hj' with rfl | hj'
        · rw [hc] at hleaf
          cases hleaf
        · exact h1 j' hj' hleaf
      · intro x hx
        exact h2 x (fun j' hj' hleaf => hx j' (by simp [hj']) hleaf)
    · have hc' : (node_at t._tree j)._children = false := by simpa using hc
      obtain ⟨hlk, hidx⟩ := hlook j hj hc'
      have hpos : lm.length * mi + idx j < d.length := by omega
      obtain ⟨d', hrun, hl, h1, h2⟩ := ih (d.set (lm.length * mi + idx j) (D i j))
        (fun x hx => hjs x (by simp [hx])) (by simpa using hb)
      refine ⟨d', ?_, by simpa using hl, ?_, ?_⟩
      · rw [dist_row, hget]
        simp only [hc, Bool.false_eq_true, if_false, hlk, hdist j hj hc']
        exact hrun
      · intro j' hj' hleaf
        by_cases hex : ∃ j'' ∈ rest, (node_at t._tree j'')._children = false ∧
            idx j'' = idx j'
        · obtain ⟨j'', hj'', hl'', he⟩ := hex
          have hj'lt : j' < t._size := hjs j' hj'
          have := hinj j'' j' (hjs j'' (by simp [hj''])) hj'lt hl'' hleaf he
          subst this
          exact h1 j'' hj'' hl''
        · rcases List.mem_cons.1 hj' with rfl | hj'r
          · rw [h2 _ (fun j'' hj'' hl'' e => hex ⟨j'', hj'', hl'', by omega⟩), getD_set]
            simp [hpos]
          · exact h1 j' hj'r hleaf
      · intro x hx
        rw [h2 x (fun j' hj' hleaf => hx j' (by simp [hj']) hleaf), getD_set]
        have := hx j (by simp) hc'
        simp [this]

end Gstar

namespace Gstar

theorem row_disjoint {L a b x : Nat} (hab : a ≠ b) (h1 : L * b ≤ x) (h2 : x < L * b + L) :
    x < L * a ∨ L * a + L ≤ x := by
  rcases Nat.lt_or_gt_of_ne hab with h | h
  · right
    have := Nat.mul_le_mul_left L (Nat.succ_le_of_lt h)
    rw [Nat.mul_succ] at this
    omega
  · left
    have := Nat.mul_le_mul_left L (Nat.succ_le_of_lt h)
    rw [Nat.mul_succ] at this
    omega

theorem dist_rows_spec (t : tree_t) (lm : List (String × Nat)) (idx : Nat → Nat)
    (D : Nat → Nat → ℚ) (hlen : t._tree.length = t._size)
    (hlook : ∀ j, j < t._size → (node_at t._tree j)._children = false →
      lm.lookup (node_at t._tree j)._label = some (idx j) ∧ idx j < lm.length)
    (hdist : ∀ i j, i < t._size → j < t._size → (node_at t._tree i)._children = false →
      (node_at t._tree j)._children = false → calc_distance t i j = some (D i j))
    (hinj : ∀ j j', j < t._size → j' < t._size → (node_at t._tree j)._children = false →
      (node_at t._tree j')._children = false → idx j = idx j' → j = j') :
    ∀ (is : List Nat) (d : List ℚ), (∀ i ∈ is, i < t._size) →
      lm.length * lm.length ≤ d.length →
      ∃ d', dist_rows t lm is d = some d' ∧ d'.length = d.length ∧
        (∀ i ∈ is, (node_at t._tree i)._children = false →
          ∀ j, j < t._size → (node_at t._tree j)._children = false →
            d'.getD (lm.length * idx i + idx j) 0 = D i j) ∧
        (∀ x, (∀ i ∈ is, (node_at t._tree i)._children = false →
          (x < lm.length * idx i ∨ lm.length * idx i + lm.length ≤ x)) →
          d'.getD x 0 = d.getD x 0) := by
  intro is
  induction is with
  | nil =>
    intro d _ _
    exact ⟨d, rfl, rfl, fun i hi _ => (by cases hi), fun _ _ => rfl⟩
  | cons i rest ih =>
    intro d his hb
    have hi : i < t._size := his i (by simp)
    have hget : t._tree[i]? = some (node_at t._tree i) := by
      unfold node_at
      rw [List.getElem?_eq_getElem (by rw [hlen]; exact hi)]
      rfl
    by_cases hc : (node_at t._tree i)._children = true
    · obtain ⟨d', hrun, hl, h1, h2⟩ := ih d (fun x hx => his x (by simp [hx])) hb
      refine ⟨d', ?_, hl, ?_, ?_⟩
      · rw [dist_rows, hget]
        simp only [hc, if_true]
        exact hrun
      · intro i' hi' hleaf
        rcases List.mem_cons.1 hi' with rfl | hi'
        · rw [hc] at hleaf
          cases hleaf
        · exact h1 i' hi' hleaf
      · intro x hx
        exact h2 x (fun i' hi' hleaf => hx i' (by simp [hi']) hleaf)
    · have hc' : (node_at t._tree i)._children = false := by simpa using hc
      obtain ⟨hlk, hidx⟩ := hlook i hi hc'
      have hrow : lm.length * idx i + lm.length ≤ lm.length * lm.length := by
        have := Nat.mul_le_mul_left lm.length (Nat.succ_le_of_lt hidx)
        rw [Nat.mul_succ] at this
        exact this
      obtain ⟨d2, hrun2, hl2, h21, h22⟩ := dist_row_spec t lm idx D i (idx i) hlen hlook
        (fun j hj hlj => hdist i j hi hj hc' hlj) hinj (List.range t._size)
        (d.set (idx i * lm.length) 0) (fun j hj => List.mem_range.1 hj)
        (by rw [List.length_set]; omega)
      rw [List.length_set] at hl2
      obtain ⟨d', hrun, hl, h1, h2⟩ := ih d2 (fun x hx => his x (by simp [hx]))
        (by rw [hl2]; exact hb)
      refine ⟨d', ?_, by rw [hl, hl2], ?_, ?_⟩
      · rw [dist_rows, hget]
        simp only [hc, Bool.false_eq_true, if_false, hlk, hrun2]
        exact hrun
      · intro i' hi' hleaf j hj hlj
        by_cases hex : ∃ i'' ∈ rest, (node_at t._tree i'')._children = false ∧
            idx i'' = idx i'
        · obtain ⟨i'', hi'', hl'', he⟩ := hex
          have := hinj i'' i' (his i'' (by simp [hi''])) (his i' hi') hl'' hleaf he
          subst this
          exact h1 i'' hi'' hl'' j hj hlj
        · rcases List.mem_cons.1 hi' with rfl | hi'r
          · have hjidx := (hlook j hj hlj).2
            rw [h2 _ (fun i'' hi'' hl'' => row_disjoint
              (fun e => hex ⟨i'', hi'', hl'', e⟩) (Nat.le_add_right _ _) (by omega))]
            exact h21 j (List.mem_range.2 hj) hlj
          · exact h1 i' hi'r hleaf j hj hlj
      · intro x hx
        rw [h2 x (fun i' hi' hleaf => hx i' (by simp [hi']) hleaf)]
        have hxi := hx i (by simp) hc'
        rw [h22 x (fun j hj hlj => by
          have := (hlook j (List.mem_range.1 hj) hlj).2
          omega), getD_set]
        have hne : ¬ x = idx i * lm.length := by
          rw [Nat.mul_comm]
          omega
        simp [hne]

end Gstar

namespace Gstar

/-! ## Exchanges of children and the canonical order -/

theorem LTree.key_mem_labels : ∀ T : LTree, T.key ∈ T.labels := by
  intro T
  induction T with
  | leaf l w => simp [LTree.key, LTree.labels]
  | node w l r ihl ihr =>
    simp only [LTree.key, LTree.labels, List.mem_append]
    split
    · exact Or.inr ihr
    · exact Or.inl ihl

theorem LTree.SwapEq.labels_perm {A B : LTree} (h : LTree.SwapEq A B) :
    A.labels.Perm B.labels := by
  induction h with
  | leaf l w => exact List.Perm.refl _
  | same w _ _ ihl ihr => exact ihl.append ihr
  | swap w _ _ ihl ihr => exact (ihl.append ihr).trans List.perm_append_comm

theorem LTree.SwapEq.key_eq {A B : LTree} (h : LTree.SwapEq A B) : A.key = B.key := by
  induction h with
  | leaf l w => rfl
  | same w _ _ ihl ihr => simp only [LTree.key, ihl, ihr]
  | @swap w l l' r r' _ _ ihl ihr =>
    simp only [LTree.key, ihl, ihr]
    by_cases h1 : r'.key < l'.key
    · rw [if_pos h1, if_neg (lt_asymm h1)]
    · rw [if_neg h1]
      by_cases h2 : l'.key < r'.key
      · rw [if_pos h2]
      · rw [if_neg h2]
        exact le_antisymm (not_lt.1 h1) (not_lt.1 h2)

theorem LTree.SwapEq.canon_eq {A B : LTree} (h : LTree.SwapEq A B) :
    A.labels.Nodup → A.canon = B.canon := by
  induction h with
  | leaf l w => intro _; rfl
  | same w hl hr ihl ihr =>
    intro hnd
    simp only [LTree.labels] at hnd
    have hnd' := List.nodup_append.1 hnd
    simp only [LTree.canon, ihl hnd'.1, ihr hnd'.2.1, hl.key_eq, hr.key_eq]
  | @swap w l l' r r' hl hr ihl ihr =>
    intro hnd
    simp only [LTree.labels] at hnd
    have hnd' := List.nodup_append.1 hnd
    have hne : l'.key ≠ r'.key := by
      intro e
      have h1 : l.key ∈ l.labels := l.key_mem_labels
      have h2 : r.key ∈ r.labels := r.key_mem_labels
      rw [hl.key_eq, e, ← hr.key_eq] at h1
      exact hnd'.2.2 h1 h2
    simp only [LTree.canon, ihl hnd'.1, ihr hnd'.2.1, hl.key_eq, hr.key_eq]
    by_cases h1 : r'.key < l'.key
    · rw [if_pos h1, if_neg (lt_asymm h1)]
    · rw [if_neg h1]
      have h2 : l'.key < r'.key := lt_of_le_of_ne (not_lt.1 h1) hne
      rw [if_pos h2]

theorem LTree.key_canon : ∀ T : LTree, T.canon.key = T.key := by
  intro T
  induction T with
  | leaf l w => rfl
  | node w l r ihl ihr =>
    by_cases h1 : r.key < l.key
    · simp only [LTree.canon, LTree.key, if_pos h1, ihl, ihr, if_neg (lt_asymm h1)]
    · simp only [LTree.canon, LTree.key, if_neg h1, ihl, ihr]

/-- Forests that differ by the order of the trees and by exchanges of children have the same
canonical trees, up to order. -/
theorem ForestEq.canon_perm {A B : List LTree} (h : ForestEq A B)
    (hnd : (A.flatMap LTree.labels).Nodup) :
    (A.map (fun T => (T.key, T.canon))).Perm (B.map (fun T => (T.key, T.canon))) := by
  obtain ⟨C, hp, hf⟩ := h
  refine (hp.map _).trans ?_
  have hndC : (C.flatMap LTree.labels).Nodup := by
    have : (A.flatMap LTree.labels).Perm (C.flatMap LTree.labels) := List.Perm.flatMap_right _ hp
    exact this.nodup_iff.1 hnd
  clear hp hnd
  induction hf with
  | nil => exact List.Perm.refl _
  | @cons a b l1 l2 hab _ ih =>
    simp only [List.flatMap_cons] at hndC
    have hnd' := List.nodup_append.1 hndC
    simp only [List.map_cons]
    rw [hab.key_eq, hab.canon_eq hnd'.1]
    exact (ih hnd'.2.1).cons _

/-- The strings of the trees of a forest with pairwise distinct leaf labels are pairwise
distinct. -/
theorem keys_nodup : ∀ A : List LTree, (A.flatMap LTree.labels).Nodup →
    (A.map LTree.key).Nodup := by
  intro A
  induction A with
  | nil => intro _; exact List.nodup_nil
  | cons a l ih =>
    intro hnd
    simp only [List.flatMap_cons] at hnd
    have hnd' := List.nodup_append.1 hnd
    simp only [List.map_cons, List.nodup_cons]
    refine ⟨?_, ih hnd'.2.1⟩
    intro hm
    obtain ⟨b, hb, e⟩ := List.mem_map.1 hm
    refine hnd'.2.2 a.key_mem_labels ?_
    rw [← e]
    exact List.mem_flatMap.2 ⟨b, hb, b.key_mem_labels⟩

end Gstar

namespace Gstar

/-! ## The double loop of `tree_t::sort` -/

theorem sort_swap_eq_net (st : List String × List Nat) (i k : Nat) :
    sort_swap st i k = net_swap st i k := by
  unfold sort_swap net_swap
  cases st.1[i]? <;> cases st.1[k]? <;> cases st.2[i]? <;> cases st.2[k]? <;> rfl

theorem net_swap_map {α β : Type} (f : α → β) (ks : List String) (us : List α) (i k : Nat) :
    net_swap (ks, us.map f) i k
      = ((net_swap (ks, us) i k).1, (net_swap (ks, us) i k).2.map f) := by
  unfold net_swap
  simp only [List.getElem?_map]
  cases ks[i]? <;> cases ks[k]? <;> cases us[i]? <;> cases us[k]? <;>
    simp only [Option.map_none', Option.map_some']
  split
  · simp only [List.map_set]
  · rfl

theorem net_inner_map {α β : Type} (f : α → β) (i : Nat) :
    ∀ (l : List Nat) (ks : List String) (us : List α),
      l.foldl (fun st k => if k ≤ i then st else net_swap st i k) (ks, us.map f)
        = ((l.foldl (fun st k => if k ≤ i then st else net_swap st i k) (ks, us)).1,
           (l.foldl (fun st k => if k ≤ i then st else net_swap st i k) (ks, us)).2.map f) := by
  intro l
  induction l with
  | nil => intro ks us; rfl
  | cons k l ih =>
    intro ks us
    simp only [List.foldl_cons]
    by_cases hk : k ≤ i
    · simp only [if_pos hk]
      exact ih ks us
    · simp only [if_neg hk]
      rw [net_swap_map]
      exact ih _ _

theorem net_outer_map {α β : Type} (f : α → β) (n : Nat) :
    ∀ (l : List Nat) (ks : List String) (us : List α),
      l.foldl (fun st i =>
          (List.range n).foldl (fun st k => if k ≤ i then st else net_swap st i k) st)
          (ks, us.map f)
        = ((l.foldl (fun st i =>
            (List.range n).foldl (fun st k => if k ≤ i then st else net_swap st i k) st)
            (ks, us)).1,
           (l.foldl (fun st i =>
            (List.range n).foldl (fun st k => if k ≤ i then st else net_swap st i k) st)
            (ks, us)).2.map f) := by
  intro l
  induction l with
  | nil => intro ks us; rfl
  | cons i l ih =>
    intro ks us
    simp only [List.foldl_cons]
    rw [net_inner_map]
    exact ih _ _

/-- The double loop moves the items by looking at the labels only. -/
theorem net_sort_map {α β : Type} (f : α → β) (n : Nat) (ks : List String) (us : List α) :
    net_sort n (ks, us.map f)
      = ((net_sort n (ks, us)).1, (net_sort n (ks, us)).2.map f) :=
  net_outer_map f n _ ks us

theorem net_sort_two {α : Type} (st : List String × List α) :
    net_sort 2 st = net_swap st 0 1 := rfl

theorem net_sort_three {α : Type} (st : List String × List α) :
    net_sort 3 st = net_swap (net_swap (net_swap st 0 1) 0 2) 1 2 := rfl

theorem net_swap_01 {α : Type} (a b : String) (x y : α) (ks : List String) (us : List α) :
    net_swap (a :: b :: ks, x :: y :: us) 0 1
      = if b < a then (b :: a :: ks, y :: x :: us) else (a :: b :: ks, x :: y :: us) := by
  simp [net_swap]

theorem net_swap_02 {α : Type} (a b c : String) (x y z : α) (ks : List String) (us : List α) :
    net_swap (a :: b :: c :: ks, x :: y :: z :: us) 0 2
      = if c < a then (c :: b :: a :: ks, z :: y :: x :: us)
        else (a :: b :: c :: ks, x :: y :: z :: us) := by
  simp [net_swap]

theorem net_swap_12 {α : Type} (a b c : String) (x y z : α) (ks : List String) (us : List α) :
    net_swap (a :: b :: c :: ks, x :: y :: z :: us) 1 2
      = if c < b then (a :: c :: b :: ks, x :: z :: y :: us)
        else (a :: b :: c :: ks, x :: y :: z :: us) := by
  simp [net_swap]

theorem sorted_two {a b : String} (h : a ≤ b) : [a, b].Sorted (· ≤ ·) := by
  simp only [List.Sorted, List.pairwise_cons, List.mem_singleton, forall_eq,
    List.not_mem_nil, false_implies, implies_true, List.Pairwise.nil, and_true]
  exact h

theorem sorted_three {a b c : String} (h1 : a ≤ b) (h2 : b ≤ c) :
    [a, b, c].Sorted (· ≤ ·) := by
  simp only [List.Sorted, List.pairwise_cons, List.mem_cons, List.mem_singleton,
    forall_eq_or_imp, forall_eq, List.not_mem_nil, false_implies, implies_true,
    List.Pairwise.nil, and_true]
  exact ⟨⟨h1, le_trans h1 h2⟩, h2⟩

theorem perm_three {β : Type} (p q r : β) :
    [q, p, r].Perm [p, q, r] ∧ [p, r, q].Perm [p, q, r] ∧ [r, q, p].Perm [p, q, r] ∧
      [q, r, p].Perm [p, q, r] ∧ [r, p, q].Perm [p, q, r] := by
  have s1 : [q, p, r].Perm [p, q, r] := List.Perm.swap _ _ _
  have s2 : [p, r, q].Perm [p, q, r] := (List.Perm.swap _ _ _).cons _
  have s3 : [q, r, p].Perm [q, p, r] := (List.Perm.swap _ _ _).cons _
  have s4 : [r, q, p].Perm [q, r, p] := List.Perm.swap _ _ _
  have s5 : [r, p, q].Perm [p, r, q] := List.Perm.swap _ _ _
  exact ⟨s1, s2, (s4.trans s3).trans s1, s3.trans s1, s5.trans s2⟩

theorem net_sort_sorted_two {α : Type} (a b : String) (x y : α) :
    ((net_sort 2 ([a, b], [x, y])).1.zip (net_sort 2 ([a, b], [x, y])).2).Perm
        ([a, b].zip [x, y]) ∧
      (net_sort 2 ([a, b], [x, y])).1.Sorted (· ≤ ·) ∧
      (net_sort 2 ([a, b], [x, y])).1.length = (net_sort 2 ([a, b], [x, y])).2.length := by
  rw [net_sort_two, net_swap_01]
  by_cases h1 : b < a
  · rw [if_pos h1]
    exact ⟨List.Perm.swap _ _ _, sorted_two (le_of_lt h1), rfl⟩
  · rw [if_neg h1]
    exact ⟨List.Perm.refl _, sorted_two (not_lt.1 h1), rfl⟩

theorem net_sort_sorted_three {α : Type} (a b c : String) (x y z : α) :
    ((net_sort 3 ([a, b, c], [x, y, z])).1.zip (net_sort 3 ([a, b, c], [x, y, z])).2).Perm
        ([a, b, c].zip [x, y, z]) ∧
      (net_sort 3 ([a, b, c], [x, y, z])).1.Sorted (· ≤ ·) ∧
      (net_sort 3 ([a, b, c], [x, y, z])).1.length
        = (net_sort 3 ([a, b, c], [x, y, z])).2.length := by
  obtain ⟨p1, p2, p3, p4, p5⟩ := perm_three (a, x) (b, y) (c, z)
  rw [net_sort_three, net_swap_01]
  by_cases h1 : b < a
  · rw [if_pos h1, net_swap_02]
    by_cases h2 : c < b
    · rw [if_pos h2, net_swap_12, if_pos h1]
      exact ⟨p3, sorted_three (le_of_lt h2) (le_of_lt h1), rfl⟩
    · rw [if_neg h2, net_swap_12]
      by_cases h3 : c < a
      · rw [if_pos h3]
        exact ⟨p4, sorted_three (not_lt.1 h2) (le_of_lt h3), rfl⟩
      · rw [if_neg h3]
        exact ⟨p1, sorted_three (le_of_lt h1) (not_lt.1 h3), rfl⟩
  · rw [if_neg h1, net_swap_02]
    by_cases h2 : c < a
    · rw [if_pos h2, net_swap_12]
      by_cases h3 : a < b
      · rw [if_pos h3]
        exact ⟨p5, sorted_three (le_of_lt h2) (le_of_lt h3), rfl⟩
      · rw [if_neg h3]
        exact ⟨p3, sorted_three (le_trans (le_of_lt h2) (not_lt.1 h1)) (not_lt.1 h3), rfl⟩
    · rw [if_neg h2, net_swap_12]
      by_cases h3 : c < b
      · rw [if_pos h3]
        exact ⟨p2, sorted_three (not_lt.1 h2) (le_of_lt h3), rfl⟩
      · rw [if_neg h3]
        exact ⟨List.Perm.refl _, sorted_three (not_lt.1 h1) (not_lt.1 h3), rfl⟩

/-- On at most three labels the double loop of `tree_t::sort` is a sort: the labels end in
non-decreasing order, and labels and items are moved together. -/
theorem net_sort_sorted {α : Type} (ks : List String) (us : List α)
    (hlen : ks.length = us.length) (h3 : ks.length ≤ 3) :
    ((net_sort ks.length (ks, us)).1.zip (net_sort ks.length (ks, us)).2).Perm (ks.zip us) ∧
      (net_sort ks.length (ks, us)).1.Sorted (· ≤ ·) ∧
      (net_sort ks.length (ks, us)).1.length = (net_sort ks.length (ks, us)).2.length := by
  obtain _ | ⟨a, _ | ⟨b, _ | ⟨c, _ | ⟨d, ks⟩⟩⟩⟩ := ks
  · obtain _ | ⟨x, us⟩ := us
    · exact ⟨List.Perm.refl _, List.sorted_nil, rfl⟩
    · simp at hlen
  · obtain _ | ⟨x, _ | ⟨y, us⟩⟩ := us
    · simp at hlen
    · exact ⟨List.Perm.refl _, List.sorted_singleton _, rfl⟩
    · simp at hlen
  · obtain _ | ⟨x, _ | ⟨y, _ | ⟨z, us⟩⟩⟩ := us
    · simp at hlen
    · simp at hlen
    · exact net_sort_sorted_two a b x y
    · simp at hlen
  · obtain _ | ⟨x, _ | ⟨y, _ | ⟨z, _ | ⟨v, us⟩⟩⟩⟩ := us
    · simp at hlen
    · simp at hlen
    · simp at hlen
    · exact net_sort_sorted_three a b c x y z
    · simp at hlen
  · simp at h3

end Gstar

namespace Gstar

/-! ## The sorted order does not depend on the order of the input -/

theorem zip_key_canon (A : List LTree) :
    (A.map LTree.key).zip (A.map LTree.canon) = A.map (fun T => (T.key, T.canon)) := by
  induction A with
  | nil => rfl
  | cons a l ih => simp only [List.map_cons, List.zip_cons_cons, ih]

theorem sorted_pairs_unique {β : Type} {P Q : List (String × β)} (hp : P.Perm Q)
    (hP : (P.map Prod.fst).Sorted (· ≤ ·)) (hQ : (Q.map Prod.fst).Sorted (· ≤ ·))
    (hnd : (P.map Prod.fst).Nodup) : P = Q := by
  have hndQ : (Q.map Prod.fst).Nodup := (hp.map Prod.fst).nodup_iff.1 hnd
  have h1 : P.Sorted (fun p q => p.1 < q.1) := by
    have := hP.lt_of_le hnd
    exact List.pairwise_map.1 this
  have h2 : Q.Sorted (fun p q => p.1 < q.1) := by
    have := hQ.lt_of_le hndQ
    exact List.pairwise_map.1 this
  haveI : IsAntisymm (String × β) (fun p q => p.1 < q.1) :=
    ⟨fun a b h1 h2 => absurd h2 (lt_asymm h1)⟩
  exact List.eq_of_perm_of_sorted hp h1 h2

/-- The double loop of `tree_t::sort` puts the canonical trees of two forests that differ by
the order of the trees and by exchanges of children in the same order. -/
theorem net_sort_unique (A B : List LTree) (hlen : A.length ≤ 3) (hAB : ForestEq A B)
    (hnd : (A.flatMap LTree.labels).Nodup) :
    A.length = B.length ∧
      (net_sort A.length (A.map LTree.key, A.map LTree.canon)).2
        = (net_sort B.length (B.map LTree.key, B.map LTree.canon)).2 := by
  have hl : A.length = B.length := by
    obtain ⟨C, hp, hf⟩ := hAB
    rw [hp.length_eq, hf.length_eq]
  have hpAB := hAB.canon_perm hnd
  have hA := net_sort_sorted (A.map LTree.key) (A.map LTree.canon) (by simp) (by simpa using hlen)
  have hB := net_sort_sorted (B.map LTree.key) (B.map LTree.canon) (by simp)
    (by simpa [← hl] using hlen)
  simp only [List.length_map] at hA hB
  rw [zip_key_canon] at hA hB
  refine ⟨hl, ?_⟩
  generalize net_sort A.length (A.map LTree.key, A.map LTree.canon) = rA at hA
  generalize net_sort B.length (B.map LTree.key, B.map LTree.canon) = rB at hB
  obtain ⟨pA, sA, lA⟩ := hA
  obtain ⟨pB, sB, lB⟩ := hB
  have fA : (rA.1.zip rA.2).map Prod.fst = rA.1 := List.map_fst_zip _ _ (le_of_eq lA)
  have fB : (rB.1.zip rB.2).map Prod.fst = rB.1 := List.map_fst_zip _ _ (le_of_eq lB)
  have hndA : ((rA.1.zip rA.2).map Prod.fst).Nodup := by
    refine (pA.map Prod.fst).nodup_iff.2 ?_
    rw [List.map_map]
    exact keys_nodup A hnd
  have e : rA.1.zip rA.2 = rB.1.zip rB.2 :=
    sorted_pairs_unique ((pA.trans hpAB).trans pB.symm) (by rw [fA]; exact sA)
      (by rw [fB]; exact sB) hndA
  have gA : (rA.1.zip rA.2).map Prod.snd = rA.2 := List.map_snd_zip _ _ (le_of_eq lA.symm)
  have gB : (rB.1.zip rB.2).map Prod.snd = rB.2 := List.map_snd_zip _ _ (le_of_eq lB.symm)
  rw [← gA, ← gB, e]

end Gstar

namespace Gstar

/-! ## `node_t::sort` on a realised shape -/

theorem Shape.abs_congr {h h' : List node_t}
    (hlw : ∀ k, (node_at h' k)._label = (node_at h k)._label ∧
      (node_at h' k)._weight = (node_at h k)._weight) :
    ∀ s : Shape, s.abs h' = s.abs h := by
  intro s
  induction s with
  | leaf a => simp only [Shape.abs, (hlw a).1, (hlw a).2]
  | node a l r ihl ihr => simp only [Shape.abs, (hlw a).2, ihl, ihr]

theorem Shape.str_abs (fmt : ℚ → String) (h : List node_t) :
    ∀ s : Shape, s.str fmt h = (s.abs h).str fmt := by
  intro s
  induction s with
  | leaf a => rfl
  | node a l r ihl ihr => simp only [Shape.str, Shape.abs, LTree.str, ihl, ihr]

theorem Shape.labels_abs (h : List node_t) :
    ∀ s : Shape, (s.abs h).labels = s.leaves.map (fun a => (node_at h a)._label) := by
  intro s
  induction s with
  | leaf a => rfl
  | node a l r ihl ihr => simp only [Shape.abs, LTree.labels, Shape.leaves, List.map_append, ihl, ihr]

theorem node_at_set_self {h : List node_t} {a : Nat} {n m : node_t} (hn : h[a]? = some n) :
    node_at (h.set a m) a = m := by
  have hlt : a < h.length := (List.getElem?_eq_some_iff.1 hn).1
  unfold node_at
  rw [List.getElem?_set_self hlt]
  rfl

theorem node_at_set_ne (h : List node_t) {a k : Nat} (m : node_t) (hk : a ≠ k) :
    node_at (h.set a m) k = node_at h k := by
  unfold node_at
  rw [List.getElem?_set_ne hk]

/-- The function `node_t::sort` on the root of a realised tree with unlabelled internal nodes
returns the smallest-first string of the tree and leaves the canonical tree in the array,
touching no node outside the tree and no label or weight. -/
theorem node_sort_shape :
    ∀ (s : Shape) (h : List node_t) (fuel : Nat), s.RepC h → s.addrs.Nodup →
      (∀ a ∈ s.addrs, ∀ n, h[a]? = some n → n._children = true → n._label = "") →
      s.size ≤ fuel →
      ∃ (h' : List node_t) (s' : Shape),
        node_sort fuel h s.root = some (h', (s.abs h).key) ∧ s'.RepC h' ∧ s'.root = s.root ∧
          s'.addrs.Perm s.addrs ∧ s'.size = s.size ∧ s'.abs h' = (s.abs h).canon ∧
          (∀ k, k ∉ s.addrs → h'[k]? = h[k]?) ∧
          (∀ k, (node_at h' k)._label = (node_at h k)._label ∧
            (node_at h' k)._weight = (node_at h k)._weight) := by
  intro s
  induction s with
  | leaf a =>
    intro h fuel hrep _ _ hfuel
    obtain ⟨n, hn, hleaf⟩ := hrep
    have hc : n._children = false := hleaf.1
    obtain ⟨fuel, rfl⟩ : ∃ f, fuel = f + 1 := ⟨fuel - 1, by simp only [Shape.size] at hfuel; omega⟩
    refine ⟨h, .leaf a, ?_, ⟨n, hn, hleaf⟩, rfl, List.Perm.refl _, rfl, rfl,
      fun _ _ => rfl, fun _ => ⟨rfl, rfl⟩⟩
    simp only [Shape.root, node_sort, hn, hc, Shape.abs, LTree.key, node_at_of_get hn]
    rfl
  | node a l r ihl ihr =>
    intro h fuel hrep hnd hint hfuel
    obtain ⟨⟨n, hn, hc, hl, hr⟩, hlrep, hrrep⟩ := hrep
    obtain ⟨fuel, rfl⟩ : ∃ f, fuel = f + 1 := ⟨fuel - 1, by simp only [Shape.size] at hfuel; omega⟩
    simp only [Shape.size] at hfuel
    simp only [Shape.addrs, List.nodup_cons, List.mem_append, not_or] at hnd
    obtain ⟨⟨hal, har⟩, hnd2⟩ := hnd
    obtain ⟨hndl, hndr, hdis⟩ := List.nodup_append.1 hnd2
    have hlabel : n._label = "" := hint a (by simp [Shape.addrs]) n hn hc
    -- the left subtree
    obtain ⟨h1, l', e1, rep1, root1, perm1, size1, abs1, fr1, lw1⟩ :=
      ihl h fuel hlrep hndl
        (fun k hk => hint k (by simp [Shape.addrs, hk])) (by omega)
    have h1a : h1[a]? = some n := by rw [fr1 a hal, hn]
    have hr1 : ∀ k ∈ r.addrs, h1[k]? = h[k]? := fun k hk => fr1 k (fun hk' => hdis hk' hk)
    -- the right subtree
    obtain ⟨h2, r', e2, rep2, root2, perm2, size2, abs2, fr2, lw2⟩ :=
      ihr h1 fuel (hrrep.frame hr1) hndr
        (fun k hk m hm => hint k (by simp [Shape.addrs, hk]) m (by rw [← hr1 k hk, hm]))
        (by omega)
    rw [Shape.abs_congr lw1 r] at e2 abs2
    have h2a : h2[a]? = some n := by rw [fr2 a har, h1a]
    have rep1' : l'.RepC h2 :=
      rep1.frame (fun k hk => fr2 k (fun hk' => hdis (perm1.subset hk) hk'))
    have abs1' : l'.abs h2 = (l.abs h).canon := by rw [Shape.abs_congr lw2 l', abs1]
    have lw12 : ∀ k, (node_at h2 k)._label = (node_at h k)._label ∧
        (node_at h2 k)._weight = (node_at h k)._weight :=
      fun k => ⟨(lw2 k).1.trans (lw1 k).1, (lw2 k).2.trans (lw1 k).2⟩
    have hna : node_at h a = n := node_at_of_get hn
    obtain ⟨m, hm⟩ : ∃ m : node_t, m = ⟨n._label, n._weight, n._rchild, n._lchild,
      n._parent, n._children⟩ := ⟨_, rfl⟩
    have hrun : node_sort (fuel + 1) h a
        = some (if (r.abs h).key < (l.abs h).key then h2.set a m else h2,
            if (r.abs h).key < (l.abs h).key then (r.abs h).key else (l.abs h).key) := by
      simp only [node_sort, hn, hc, hl, e1, h1a, hr, e2, h2a, hlabel, or_true, if_true, hm]
    have hml : m._label = n._label := by rw [hm]
    have hmw : m._weight = n._weight := by rw [hm]
    have hmc : m._children = true := by rw [hm]; exact hc
    have hmlc : m._lchild = some r'.root := by rw [hm, root2]; exact hr
    have hmrc : m._rchild = some l'.root := by rw [hm, root1]; exact hl
    simp only [Shape.root, Shape.abs, LTree.key, LTree.canon, hrun]
    by_cases hlt : (r.abs h).key < (l.abs h).key
    · simp only [if_pos hlt]
      have hlw3 : ∀ k, (node_at (h2.set a m) k)._label = (node_at h k)._label ∧
          (node_at (h2.set a m) k)._weight = (node_at h k)._weight := by
        intro k
        by_cases hk : a = k
        · subst hk
          rw [node_at_set_self h2a, hna]
          exact ⟨hml, hmw⟩
        · rw [node_at_set_ne h2 _ hk]
          exact lw12 k
      have rep2' : r'.RepC (h2.set a m) := by
        refine rep2.frame (fun k hk => List.getElem?_set_ne ?_)
        rintro rfl
        exact har (perm2.subset hk)
      have rep1'' : l'.RepC (h2.set a m) := by
        refine rep1'.frame (fun k hk => List.getElem?_set_ne ?_)
        rintro rfl
        exact hal (perm1.subset hk)
      refine ⟨_, .node a r' l', rfl, ⟨⟨m, List.getElem?_set_self
        (List.getElem?_eq_some_iff.1 h2a).1, hmc, hmlc, hmrc⟩, rep2', rep1''⟩, rfl, ?_, ?_, ?_,
        ?_, hlw3⟩
      · simp only [Shape.addrs]
        exact ((perm2.append perm1).trans List.perm_append_comm).cons _
      · simp only [Shape.size, size1, size2]; omega
      · have e3 : r'.abs (h2.set a m) = (r.abs h).canon := by
          rw [Shape.abs_congr (fun k => ⟨((hlw3 k).1).trans (lw12 k).1.symm,
            ((hlw3 k).2).trans (lw12 k).2.symm⟩) r', abs2]
        have e4 : l'.abs (h2.set a m) = (l.abs h).canon := by
          rw [Shape.abs_congr (fun k => ⟨((hlw3 k).1).trans (lw12 k).1.symm,
            ((hlw3 k).2).trans (lw12 k).2.symm⟩) l', abs1']
        simp only [Shape.abs, e3, e4, (hlw3 a).2]
      · intro k hk
        simp only [Shape.addrs, List.mem_cons, List.mem_append, not_or] at hk
        rw [List.getElem?_set_ne (fun e => hk.1 e.symm), fr2 k hk.2.2, fr1 k hk.2.1]
    · simp only [if_neg hlt]
      refine ⟨_, .node a l' r', rfl, ⟨⟨n, h2a, hc, ?_, ?_⟩, rep1', rep2⟩, rfl, ?_, ?_, ?_, ?_,
        lw12⟩
      · simp only [hl, root1]
      · simp only [hr, root2]
      · simp only [Shape.addrs]
        exact (perm1.append perm2).cons _
      · simp only [Shape.size, size1, size2]
      · simp only [Shape.abs, abs1', abs2, (lw12 a).2]
      · intro k hk
        simp only [Shape.addrs, List.mem_cons, List.mem_append, not_or] at hk
        rw [fr2 k hk.2.2, fr1 k hk.2.1]

end Gstar

namespace Gstar

/-! ## `tree_t::sort` on a forest -/

/-- The first loop of `tree_t::sort` on a forest with unlabelled internal nodes: every tree
is left in canonical form, and the strings returned are the smallest-first strings. -/
theorem sort_members_forest (fuel : Nat) :
    ∀ (F : List Shape) (h : List node_t), (∀ s ∈ F, s.RepC h) →
      (F.flatMap Shape.addrs).Nodup →
      (∀ a ∈ F.flatMap Shape.addrs, ∀ n, h[a]? = some n → n._children = true →
        n._label = "") →
      (∀ s ∈ F, s.size ≤ fuel) →
      ∃ (h' : List node_t) (F' : List Shape),
        sort_members fuel (F.map Shape.root) h
            = some (h', F.map (fun s => (s.abs h).key)) ∧
          (∀ s' ∈ F', s'.RepC h') ∧ F'.map Shape.root = F.map Shape.root ∧
          F'.map (Shape.abs h') = F.map (fun s => (s.abs h).canon) ∧
          (∀ s' ∈ F', s'.size ≤ fuel) ∧
          (∀ k, k ∉ F.flatMap Shape.addrs → h'[k]? = h[k]?) ∧
          (∀ k, (node_at h' k)._label = (node_at h k)._label ∧
            (node_at h' k)._weight = (node_at h k)._weight) ∧
          (F'.flatMap Shape.addrs).Perm (F.flatMap Shape.addrs) := by
  intro F
  induction F with
  | nil =>
    intro h _ _ _ _
    exact ⟨h, [], rfl, fun _ hs => (by cases hs), rfl, rfl, fun _ hs => (by cases hs),
      fun _ _ => rfl, fun _ => ⟨rfl, rfl⟩, List.Perm.refl _⟩
  | cons s F ih =>
    intro h hrep hnd hint hfuel
    simp only [List.flatMap_cons] at hnd hint
    obtain ⟨hnds, hndF, hdis⟩ := List.nodup_append.1 hnd
    obtain ⟨h1, s', e1, rep1, root1, perm1, size1, abs1, fr1, lw1⟩ :=
      node_sort_shape s h fuel (hrep s (List.mem_cons_self _ _)) hnds
        (fun a ha => hint a (List.mem_append_left _ ha)) (hfuel s (List.mem_cons_self _ _))
    have hF1 : ∀ k ∈ F.flatMap Shape.addrs, h1[k]? = h[k]? :=
      fun k hk => fr1 k (fun hk' => hdis hk' hk)
    obtain ⟨h2, F', e2, rep2, root2, abs2, size2, fr2, lw2, perm2⟩ :=
      ih h1
        (fun x hx => (hrep x (List.mem_cons_of_mem _ hx)).frame
          (fun k hk => hF1 k (List.mem_flatMap.2 ⟨x, hx, hk⟩)))
        hndF
        (fun a ha n hn => hint a (List.mem_append_right _ ha) n (by rw [← hF1 a ha, hn]))
        (fun x hx => hfuel x (List.mem_cons_of_mem _ hx))
    have ek : F.map (fun x => (x.abs h1).key) = F.map (fun x => (x.abs h).key) :=
      List.map_congr_left (fun x _ => by rw [Shape.abs_congr lw1 x])
    have ec : F.map (fun x => (x.abs h1).canon) = F.map (fun x => (x.abs h).canon) :=
      List.map_congr_left (fun x _ => by rw [Shape.abs_congr lw1 x])
    rw [ek] at e2
    rw [ec] at abs2
    refine ⟨h2, s' :: F', ?_, ?_, ?_, ?_, ?_, ?_, ?_, ?_⟩
    · simp only [List.map_cons, sort_members, e1, e2]
    · intro x hx
      rcases List.mem_cons.1 hx with rfl | hx
      · exact rep1.frame (fun k hk => fr2 k (fun hk' => hdis (perm1.subset hk) hk'))
      · exact rep2 x hx
    · simp only [List.map_cons, root1, root2]
    · simp only [List.map_cons, abs2, Shape.abs_congr lw2 s', abs1]
    · intro x hx
      rcases List.mem_cons.1 hx with rfl | hx
      · rw [size1]; exact hfuel s (List.mem_cons_self _ _)
      · exact size2 x hx
    · intro k hk
      simp only [List.flatMap_cons, List.mem_append, not_or] at hk
      rw [fr2 k hk.2, fr1 k hk.1]
    · exact fun k => ⟨(lw2 k).1.trans (lw1 k).1, (lw2 k).2.trans (lw1 k).2⟩
    · simp only [List.flatMap_cons]
      exact perm1.append perm2

theorem wrap_string_eq (fmt : ℚ → String) (h : List node_t) (us : List Nat) (size : Nat)
    (body : String) (hb : unroot_to_string fmt h (size + 1) us = some body) :
    tree_t.to_string fmt ⟨h, us, size⟩ = some (wrap_string us.length body) := by
  simp only [tree_t.to_string, hb, wrap_string]

/-- The function `tree_t::sort` followed by `to_string` on a packed tree with at most three
unroot members and unlabelled internal nodes: the canonical trees of the unroot members,
written smallest string first. -/
theorem sort_to_string (fmt : ℚ → String) {t : tree_t} {F : List Shape} (hF : t.Forest F)
    (h3 : F.length ≤ 3)
    (hint : ∀ n ∈ t._tree, n._children = true → n._label = "") :
    t.sort.bind (tree_t.to_string fmt)
      = some (wrap_string F.length (comma_join
          ((net_sort F.length ((F.map (Shape.abs t._tree)).map LTree.key,
            (F.map (Shape.abs t._tree)).map LTree.canon)).2.map (LTree.str fmt)))) := by
  have hrep : ∀ s ∈ F, s.RepC t._tree := fun s hs => (hF.2.2.1 s hs).repC
  have hfuel : ∀ s ∈ F, s.size ≤ t._size + 1 := fun s hs =>
    Nat.le_succ_of_le (hF.1 ▸ size_le_length hrep hF.nodup hs)
  obtain ⟨h', F', e, rep', root', abs', size', -, -, -⟩ :=
    sort_members_forest (t._size + 1) F t._tree hrep hF.nodup
      (fun a _ n hn => hint n (List.getElem?_mem hn)) hfuel
  have hlen : t._unroot.length = F.length := by rw [← hF.2.1, List.length_map]
  have hlen' : F'.length = F.length := by
    have := congrArg List.length root'
    simpa using this
  have hk : F.map (fun s => (s.abs t._tree).key) = (F.map (Shape.abs t._tree)).map LTree.key := by
    rw [List.map_map]; rfl
  have hc : F.map (fun s => (s.abs t._tree).canon)
      = (F.map (Shape.abs t._tree)).map LTree.canon := by
    rw [List.map_map]; rfl
  have hkl : ((F.map (Shape.abs t._tree)).map LTree.key).length = F.length := by
    simp only [List.length_map]
  rw [hk] at e
  rw [hc] at abs'
  generalize (F.map (Shape.abs t._tree)).map LTree.key = ks at e hkl
  generalize (F.map (Shape.abs t._tree)).map LTree.canon = cs at abs'
  -- the run of `sort`
  have hsort : t.sort
      = some ⟨h', (net_sort F.length (ks, F'.map Shape.root)).2, t._size⟩ := by
    unfold tree_t.sort
    rw [if_pos (by rw [hlen]; exact h3), hlen, ← hF.2.1, e, root']
    simp only [sort_swap_eq_net]
    rfl
  rw [net_sort_map Shape.root] at hsort
  have hsorted := net_sort_sorted ks F' (hkl.trans hlen'.symm) (by rw [hkl]; exact h3)
  rw [hkl] at hsorted
  have habs := net_sort_map (Shape.abs h') F.length ks F'
  rw [abs'] at habs
  generalize net_sort F.length (ks, F') = r at hsort hsorted habs
  obtain ⟨pr, -, lr⟩ := hsorted
  have hperm : r.2.Perm F' := by
    have := pr.map Prod.snd
    rwa [List.map_snd_zip _ _ (le_of_eq lr.symm),
      List.map_snd_zip _ _ (le_of_eq (hkl.trans hlen'.symm).symm)] at this
  have hbody := unroot_to_string_forest fmt h' (t._size + 1) r.2
    (fun x hx => rep' x (hperm.subset hx)) (fun x hx => size' x (hperm.subset hx))
  have hstr : r.2.map (Shape.str fmt h')
      = (net_sort F.length (ks, cs)).2.map (LTree.str fmt) := by
    rw [habs, List.map_map]
    exact List.map_congr_left (fun x _ => Shape.str_abs fmt h' x)
  rw [hstr] at hbody
  rw [hsort]
  show tree_t.to_string fmt ⟨h', r.2.map Shape.root, t._size⟩ = _
  rw [wrap_string_eq fmt h' _ t._size _ hbody, List.length_map, hperm.length_eq, hlen']

end Gstar

namespace Gstar

/-! ## `join_final` on three clusters -/

theorem join_final_run (s : nj_t) (p0 p1 p2 : Nat) (h3 : s._row_size = 3)
    (ht : s._tree = [p0, p1, p2]) (hl0 : p0 < s.heap.length) (hl1 : p1 < s.heap.length)
    (hl2 : p2 < s.heap.length) :
    join_final s = some ⟨s._dists, s._tree, s._row_size, s._r_vec, s._q_vec, s._i, s._j,
      upd (upd (upd s.heap p0 (fun x => { x with _weight := final_weight s 0 }))
        p1 (fun x => { x with _weight := final_weight s 1 }))
        p2 (fun x => { x with _weight := final_weight s 2 })⟩ := by
  have e0 : join_final_step s s.heap 0
      = some (upd s.heap p0 (fun x => { x with _weight := final_weight s 0 })) := by
    unfold join_final_step
    simp only [ht, List.getElem?_cons_zero]
    rw [store_eq_upd _ hl0]
    simp only [final_weight, nj_t.D, h3]
    congr 2
    funext x
    congr 1
    ring
  have e1 : join_final_step s (upd s.heap p0 (fun x => { x with _weight := final_weight s 0 })) 1
      = some (upd (upd s.heap p0 (fun x => { x with _weight := final_weight s 0 }))
          p1 (fun x => { x with _weight := final_weight s 1 })) := by
    unfold join_final_step
    simp only [ht, List.getElem?_cons_succ, List.getElem?_cons_zero]
    rw [store_eq_upd _ (by simpa using hl1)]
    simp only [final_weight, nj_t.D, h3]
    congr 2
    funext x
    congr 1
    ring
  have e2 : join_final_step s (upd (upd s.heap p0
        (fun x => { x with _weight := final_weight s 0 }))
        p1 (fun x => { x with _weight := final_weight s 1 })) 2
      = some (upd (upd (upd s.heap p0 (fun x => { x with _weight := final_weight s 0 }))
          p1 (fun x => { x with _weight := final_weight s 1 }))
          p2 (fun x => { x with _weight := final_weight s 2 })) := by
    unfold join_final_step
    simp only [ht, List.getElem?_cons_succ, List.getElem?_cons_zero]
    rw [store_eq_upd _ (by simpa using hl2)]
    simp only [final_weight, nj_t.D, h3]
    congr 2
    funext x
    congr 1
    ring
  unfold join_final
  rw [if_pos h3, h3]
  have hr : List.range 3 = [0, 1, 2] := rfl
  rw [hr]
  simp only [join_final_loop, e0, e1, e2]

theorem node_at_upd (h : List node_t) (a k : Nat) (f : node_t → node_t) (ha : a < h.length) :
    node_at (upd h a f) k = if k = a then f (node_at h a) else node_at h k := by
  unfold node_at
  rw [getElem?_upd]
  by_cases hk : k = a
  · subst hk
    rw [if_pos rfl, if_pos rfl, List.getElem?_eq_getElem ha]
    rfl
  · rw [if_neg hk, if_neg hk]

theorem unweighted_upd (h : List node_t) (a k : Nat) (w : ℚ) :
    (node_at (upd h a (fun x => { x with _weight := w })) k).unweighted
      = (node_at h k).unweighted := by
  unfold node_at
  rw [getElem?_upd]
  by_cases hk : k = a
  · rw [if_pos hk]
    cases h[k]? <;> rfl
  · rw [if_neg hk]

/-- The heap after `join_final`: the three clusters carry the weights of the final join,
every other field and every other node is as before. -/
theorem join_final_heap (s : nj_t) (h3 : s._row_size = 3) (hlen : s._tree.length = 3)
    (hnd : s._tree.Nodup) (hlt : ∀ p ∈ s._tree, p < s.heap.length) :
    ∃ s1, join_final s = some s1 ∧ s1._dists = s._dists ∧ s1._tree = s._tree ∧
      s1._row_size = 3 ∧ s1.heap.length = s.heap.length ∧
      (∀ x, x < 3 → (node_at s1.heap (s._tree.getD x 0))._weight = final_weight s x) ∧
      (∀ k, k ∉ s._tree → s1.heap[k]? = s.heap[k]?) ∧
      (∀ k, (node_at s1.heap k).unweighted = (node_at s.heap k).unweighted) := by
  obtain ⟨p0, p1, p2, ht⟩ : ∃ p0 p1 p2, s._tree = [p0, p1, p2] := by
    match hs : s._tree, hlen with
    | [a, b, c], _ => exact ⟨a, b, c, rfl⟩
  rw [ht] at hnd hlt
  simp only [List.nodup_cons, List.mem_cons, List.mem_singleton, List.not_mem_nil, not_or,
    not_false_eq_true, List.nodup_nil, and_true] at hnd
  obtain ⟨⟨h01, h02⟩, h12⟩ := hnd
  have hl0 := hlt p0 (by simp)
  have hl1 := hlt p1 (by simp)
  have hl2 := hlt p2 (by simp)
  refine ⟨_, join_final_run s p0 p1 p2 h3 ht hl0 hl1 hl2, rfl, rfl, h3, by simp, ?_, ?_, ?_⟩
  · intro x hx
    simp only [ht]
    interval_cases x
    · simp [node_at_upd, hl0, hl1, hl2, h01, h02]
    · simp [node_at_upd, hl0, hl1, hl2, h12]
    · simp [node_at_upd, hl0, hl1, hl2]
  · intro k hk
    rw [ht] at hk
    simp only [List.mem_cons, List.mem_singleton, List.not_mem_nil, or_false, not_or] at hk
    simp only []
    rw [getElem?_upd_ne _ hk.2.2, getElem?_upd_ne _ hk.2.1, getElem?_upd_ne _ hk.1]
  · intro k
    simp only []
    rw [unweighted_upd, unweighted_upd, unweighted_upd]

end Gstar

namespace Gstar

/-! ## The tree of three leaves -/

theorem make_flat_tree_three_leaves (l0 l1 l2 : String) (w0 w1 w2 : ℚ) :
    make_flat_tree [⟨l0, w0, none, none, none, false⟩, ⟨l1, w1, none, none, none, false⟩,
        ⟨l2, w2, none, none, none, false⟩] [0, 1, 2]
      = some ⟨[⟨l0, w0, none, none, none, false⟩, ⟨l1, w1, none, none, none, false⟩,
        ⟨l2, w2, none, none, none, false⟩], [0, 1, 2], 3⟩ := by
  rfl

theorem calc_distance_three_leaves (l0 l1 l2 : String) (w0 w1 w2 : ℚ) :
    ∀ x y, x < 3 → y < 3 →
      calc_distance ⟨[⟨l0, w0, none, none, none, false⟩, ⟨l1, w1, none, none, none, false⟩,
        ⟨l2, w2, none, none, none, false⟩], [0, 1, 2], 3⟩ x y
      = some (if x = y then 0 else [w0, w1, w2].getD x 0 + [w0, w1, w2].getD y 0) := by
  intro x y hx hy
  have e : ∀ (a b : Option Nat), [a, b][1] = b := fun _ _ => rfl
  interval_cases x <;> interval_cases y <;>
    simp [calc_distance, get_parents_of, parents_walk, diverge_walk, parent_distance, e]

end Gstar

namespace Gstar

/-! ## `nj_t` on three leaves -/

theorem nj_init_three {dists : List ℚ} {labels : List String} {s : nj_t}
    (hinit : nj_init dists labels = some s) (h3 : s._row_size = 3) :
    ∃ l0 l1 l2, labels[0]? = some l0 ∧ labels[1]? = some l1 ∧ labels[2]? = some l2 ∧
      s = ⟨dists, [0, 1, 2], 3, [], [], 0, 0,
        [⟨l0, 0, none, none, none, false⟩, ⟨l1, 0, none, none, none, false⟩,
          ⟨l2, 0, none, none, none, false⟩]⟩ := by
  unfold nj_init at hinit
  simp only [] at hinit
  split at hinit
  · cases hinit
  · rename_i h hl
    cases hinit
    simp only [] at h3
    rw [h3] at hl ⊢
    have hr : List.range 3 = [0, 1, 2] := rfl
    rw [hr] at hl ⊢
    simp only [nj_leaves] at hl
    cases h0 : labels[0]? with
    | none => simp [h0] at hl
    | some l0 =>
      cases h1 : labels[1]? with
      | none => simp [h0, h1] at hl
      | some l1 =>
        cases h2 : labels[2]? with
        | none => simp [h0, h1, h2] at hl
        | some l2 =>
          simp only [h0, h1, h2, Option.some.injEq] at hl
          subst hl
          exact ⟨l0, l1, l2, rfl, rfl, rfl, rfl⟩

/-- The tree `nj_t` emits for three leaves: no pair is joined, the three leaves get the
weights of the final join and are the unroot set. -/
theorem nj_three {dists : List ℚ} {labels : List String} {s : nj_t}
    (hinit : nj_init dists labels = some s) (h3 : s._row_size = 3) :
    ∃ l0 l1 l2, labels[0]? = some l0 ∧ labels[1]? = some l1 ∧ labels[2]? = some l2 ∧
      nj dists labels = some ⟨[⟨l0, final_weight s 0, none, none, none, false⟩,
        ⟨l1, final_weight s 1, none, none, none, false⟩,
        ⟨l2, final_weight s 2, none, none, none, false⟩], [0, 1, 2], 3⟩ := by
  obtain ⟨l0, l1, l2, h0, h1, h2, hs⟩ := nj_init_three hinit h3
  refine ⟨l0, l1, l2, h0, h1, h2, ?_⟩
  have hlen : s.heap.length = 3 := by rw [hs]; rfl
  have hrun := join_final_run s 0 1 2 h3 (by rw [hs]) (by omega) (by omega) (by omega)
  unfold nj nj_run
  rw [hinit]
  simp only []
  have hloop : nj_loop s._row_size s = some s := by
    rw [h3]
    unfold nj_loop
    rw [if_neg (by rw [h3]; decide)]
  rw [hloop]
  simp only []
  rw [hrun]
  simp only []
  have hheap : upd (upd (upd s.heap 0 (fun x => { x with _weight := final_weight s 0 }))
        1 (fun x => { x with _weight := final_weight s 1 }))
        2 (fun x => { x with _weight := final_weight s 2 })
      = [⟨l0, final_weight s 0, none, none, none, false⟩,
        ⟨l1, final_weight s 1, none, none, none, false⟩,
        ⟨l2, final_weight s 2, none, none, none, false⟩] := by
    generalize final_weight s 0 = w0
    generalize final_weight s 1 = w1
    generalize final_weight s 2 = w2
    rw [hs]
    rfl
  have htree : s._tree = [0, 1, 2] := by rw [hs]
  rw [hheap, htree]
  exact make_flat_tree_three_leaves _ _ _ _ _ _

end Gstar

namespace Gstar

/-! ## Loops of writes that agree with a table -/

/-- A loop whose steps keep an invariant, never spoil an index that is already right, and make
right the indices they are meant to write, leaves all those indices right. -/
theorem foldl_good {α : Type} (Inv : List ℚ → Prop) (G : Nat → List ℚ → Prop)
    (Hits : α → Nat → Prop) (step : List ℚ → α → List ℚ) :
    ∀ (L : List α),
      (∀ t, ∀ x ∈ L, Inv t → Inv (step t x)) →
      (∀ t, ∀ x ∈ L, ∀ k, Inv t → G k t → G k (step t x)) →
      (∀ t, ∀ x ∈ L, ∀ k, Inv t → Hits x k → G k (step t x)) →
      ∀ t, Inv t → Inv (L.foldl step t) ∧ (∀ k, G k t → G k (L.foldl step t)) ∧
        (∀ x ∈ L, ∀ k, Hits x k → G k (L.foldl step t)) := by
  intro L
  induction L with
  | nil =>
    intro _ _ _ t ht
    exact ⟨ht, fun _ h => h, fun _ hx => (by cases hx)⟩
  | cons x L ih =>
    intro hinv hpres hhit t ht
    have hx : x ∈ x :: L := List.mem_cons_self _ _
    obtain ⟨h1, h2, h3⟩ := ih (fun t y hy => hinv t y (List.mem_cons_of_mem _ hy))
      (fun t y hy => hpres t y (List.mem_cons_of_mem _ hy))
      (fun t y hy => hhit t y (List.mem_cons_of_mem _ hy)) (step t x) (hinv t x hx ht)
    refine ⟨h1, fun k hk => h2 k (hpres t x hx k ht hk), ?_⟩
    intro y hy k hyk
    rcases List.mem_cons.1 hy with rfl | hy'
    · exact h2 k (hhit t y hx k ht hyk)
    · exact h3 y hy' k hyk

/-- A write of the value the table gives for the index keeps every right index right and
makes the written index right. -/
theorem set_good (F : Nat → ℚ) (t : List ℚ) (idx : Nat) (v : ℚ) (hv : v = F idx)
    (hidx : idx < t.length) :
    (∀ k, t.getD k 0 = F k → (t.set idx v).getD k 0 = F k) ∧
      (t.set idx v).getD idx 0 = F idx := by
  constructor
  · intro k hk
    rw [getD_set]
    by_cases h : k = idx ∧ idx < t.length
    · rw [if_pos h, hv, h.1]
    · rw [if_neg h, hk]
  · rw [getD_set, if_pos ⟨rfl, hidx⟩, hv]

/-! ## The indices of the surviving clusters -/

theorem new_index_facts {n si sj a : Nat} (hij : si ≠ sj) (hi : si < n) (hj : sj < n)
    (ha : a < n) (hai : a ≠ si) (haj : a ≠ sj) :
    join_shift si sj a = new_index si sj a ∧ join_shift sj si a = new_index si sj a ∧
      new_index si sj a < n - 2 ∧ old_index si sj (new_index si sj a) = a := by
  unfold join_shift new_index old_index
  rcases Nat.lt_or_gt_of_ne hij with h | h
  · rw [Nat.min_eq_left (le_of_lt h), Nat.max_eq_right (le_of_lt h)]
    split_ifs <;> omega
  · rw [Nat.min_eq_right (le_of_lt h), Nat.max_eq_left (le_of_lt h)]
    split_ifs <;> omega

theorem old_index_facts {n si sj p : Nat} (hij : si ≠ sj) (hi : si < n) (hj : sj < n)
    (hp : p < n - 2) :
    old_index si sj p < n ∧ old_index si sj p ≠ si ∧ old_index si sj p ≠ sj ∧
      new_index si sj (old_index si sj p) = p := by
  unfold new_index old_index
  rcases Nat.lt_or_gt_of_ne hij with h | h
  · rw [Nat.min_eq_left (le_of_lt h), Nat.max_eq_right (le_of_lt h)]
    split_ifs <;> omega
  · rw [Nat.min_eq_right (le_of_lt h), Nat.max_eq_left (le_of_lt h)]
    split_ifs <;> omega

theorem index_div_mod {m p q : Nat} (hq : q < m) :
    (p * m + q) / m = p ∧ (p * m + q) % m = q := by
  have hm : 0 < m := by omega
  constructor
  · rw [Nat.add_comm, Nat.add_mul_div_right _ _ hm, Nat.div_eq_of_lt hq, Nat.zero_add]
  · rw [Nat.add_comm, Nat.add_mul_mod_self_right, Nat.mod_eq_of_lt hq]

theorem index_lt {m p q : Nat} (hp : p < m) (hq : q < m) : p * m + q < m * m := by
  have : (p + 1) * m ≤ m * m := Nat.mul_le_mul_right m hp
  have e : (p + 1) * m = p * m + m := Nat.succ_mul p m
  omega

end Gstar

namespace Gstar

/-! ## The reduced matrix of `join_pair` -/

theorem reduced_entry_survivors {d : List ℚ} {n si sj a b : Nat} (hij : si ≠ sj) (hi : si < n)
    (hj : sj < n) (ha : a < n) (hai : a ≠ si) (haj : a ≠ sj) (hb : b < n) (hbi : b ≠ si)
    (hbj : b ≠ sj) :
    reduced_entry d n si sj (new_index si sj a * (n - 1) + new_index si sj b)
      = d.getD (a * n + b) 0 := by
  obtain ⟨-, -, hpa, hoa⟩ := new_index_facts hij hi hj ha hai haj
  obtain ⟨-, -, hpb, hob⟩ := new_index_facts hij hi hj hb hbi hbj
  obtain ⟨hdiv, hmod⟩ := @index_div_mod (n - 1) (new_index si sj a) (new_index si sj b)
    (by omega)
  unfold reduced_entry
  rw [hdiv, hmod, if_neg (by omega), if_neg (by omega), hoa, hob]

theorem reduced_entry_column {d : List ℚ} {n si sj i : Nat} (hn : 2 ≤ n) :
    reduced_entry d n si sj (i * (n - 1) + (n - 2)) = reflect_value d n si sj i := by
  obtain ⟨hdiv, hmod⟩ := @index_div_mod (n - 1) i (n - 2) (by omega)
  unfold reduced_entry
  rw [hdiv, hmod, if_pos rfl]

theorem reduced_entry_row {d : List ℚ} {n si sj i : Nat} (hi : i < n - 1) :
    reduced_entry d n si sj ((n - 1) * (n - 2) + i) = reflect_value d n si sj i := by
  obtain ⟨hdiv, hmod⟩ := @index_div_mod (n - 1) (n - 2) i hi
  have e : (n - 1) * (n - 2) = (n - 2) * (n - 1) := Nat.mul_comm _ _
  unfold reduced_entry
  rw [e, hdiv, hmod]
  by_cases h : i = n - 2
  · rw [if_pos h, h]
  · rw [if_neg h, if_pos rfl]

/-- The second matrix loop of `join_pair` writes, for every pair of surviving clusters, their
distance at the new indices, and nothing that disagrees with the table
`reduced_entry`. -/
theorem join_copy_good (d : List ℚ) (n si sj : Nat) (hij : si ≠ sj) (hi : si < n)
    (hj : sj < n) (t : List ℚ) (ht : t.length = (n - 1) * (n - 1)) :
    (join_copy d n si sj t).length = (n - 1) * (n - 1) ∧
      (∀ k, t.getD k 0 = reduced_entry d n si sj k →
        (join_copy d n si sj t).getD k 0 = reduced_entry d n si sj k) ∧
      ∀ a b, a < n → a ≠ si → a ≠ sj → b < n → b ≠ si → b ≠ sj →
        (join_copy d n si sj t).getD (new_index si sj a * (n - 1) + new_index si sj b) 0
          = d.getD (a * n + b) 0 := by
  have hinner : ∀ i, i < n → i ≠ si → i ≠ sj → ∀ t : List ℚ, t.length = (n - 1) * (n - 1) →
      ((List.range n).foldl (fun t j =>
        if j = sj ∨ j = si then t
        else t.set (join_shift si sj i * (n - 1) + join_shift sj si j) (d.getD (i * n + j) 0))
        t).length = (n - 1) * (n - 1) ∧
      (∀ k, t.getD k 0 = reduced_entry d n si sj k →
        ((List.range n).foldl (fun t j =>
          if j = sj ∨ j = si then t
          else t.set (join_shift si sj i * (n - 1) + join_shift sj si j)
            (d.getD (i * n + j) 0)) t).getD k 0 = reduced_entry d n si sj k) ∧
      (∀ j ∈ List.range n, ∀ k,
        (j ≠ si ∧ j ≠ sj ∧ k = new_index si sj i * (n - 1) + new_index si sj j) →
        ((List.range n).foldl (fun t j =>
          if j = sj ∨ j = si then t
          else t.set (join_shift si sj i * (n - 1) + join_shift sj si j)
            (d.getD (i * n + j) 0)) t).getD k 0 = reduced_entry d n si sj k) := by
    intro i hin hisi hisj
    obtain ⟨hsi, -, hpi, -⟩ := new_index_facts hij hi hj hin hisi hisj
    have hstep : ∀ (t : List ℚ) (j : Nat), j ∈ List.range n → j ≠ si → j ≠ sj →
        t.length = (n - 1) * (n - 1) →
        (∀ k, t.getD k 0 = reduced_entry d n si sj k →
          (t.set (join_shift si sj i * (n - 1) + join_shift sj si j)
            (d.getD (i * n + j) 0)).getD k 0 = reduced_entry d n si sj k) ∧
        (t.set (join_shift si sj i * (n - 1) + join_shift sj si j)
            (d.getD (i * n + j) 0)).getD (new_index si sj i * (n - 1) + new_index si sj j) 0
          = reduced_entry d n si sj (new_index si sj i * (n - 1) + new_index si sj j) := by
      intro t j hjn hjsi hjsj ht
      have hjn' := List.mem_range.1 hjn
      obtain ⟨-, hsj, hpj, -⟩ := new_index_facts hij hi hj hjn' hjsi hjsj
      rw [hsi, hsj]
      exact set_good (reduced_entry d n si sj) t _ _
        (reduced_entry_survivors hij hi hj hin hisi hisj hjn' hjsi hjsj).symm
        (by rw [ht]; exact index_lt (by omega) (by omega))
    refine foldl_good (fun t => t.length = (n - 1) * (n - 1))
      (fun k t => t.getD k 0 = reduced_entry d n si sj k)
      (fun j k => j ≠ si ∧ j ≠ sj ∧ k = new_index si sj i * (n - 1) + new_index si sj j)
      _ (List.range n) ?_ ?_ ?_
    · intro t j _ ht
      split_ifs
      · exact ht
      · rw [List.length_set]; exact ht
    · intro t j hjn k ht hk
      by_cases hskip : j = sj ∨ j = si
      · rw [if_pos hskip]; exact hk
      · rw [if_neg hskip]
        exact (hstep t j hjn (fun e => hskip (Or.inr e)) (fun e => hskip (Or.inl e)) ht).1 k hk
    · intro t j hjn k ht hhit
      obtain ⟨h1, h2, rfl⟩ := hhit
      rw [if_neg (by tauto)]
      exact (hstep t j hjn h1 h2 ht).2
  have houter := foldl_good (fun t => t.length = (n - 1) * (n - 1))
    (fun k t => t.getD k 0 = reduced_entry d n si sj k)
    (fun i k => i ≠ si ∧ i ≠ sj ∧ ∃ j, j < n ∧ j ≠ si ∧ j ≠ sj ∧
      k = new_index si sj i * (n - 1) + new_index si sj j)
    (fun t i =>
      if i = si ∨ i = sj then t
      else
        (List.range n).foldl (fun t j =>
          if j = sj ∨ j = si then t
          else t.set (join_shift si sj i * (n - 1) + join_shift sj si j)
            (d.getD (i * n + j) 0)) t)
    (List.range n)
    (by
      intro t i hin ht
      simp only []
      by_cases hskip : i = si ∨ i = sj
      · rw [if_pos hskip]; exact ht
      · rw [if_neg hskip]
        exact (hinner i (List.mem_range.1 hin) (fun e => hskip (Or.inl e))
          (fun e => hskip (Or.inr e)) t ht).1)
    (by
      intro t i hin k ht hk
      simp only []
      by_cases hskip : i = si ∨ i = sj
      · rw [if_pos hskip]; exact hk
      · rw [if_neg hskip]
        exact (hinner i (List.mem_range.1 hin) (fun e => hskip (Or.inl e))
          (fun e => hskip (Or.inr e)) t ht).2.1 k hk)
    (by
      intro t i hin k ht hhit
      obtain ⟨h1, h2, j, hjn, hj1, hj2, rfl⟩ := hhit
      simp only []
      rw [if_neg (by tauto)]
      exact (hinner i (List.mem_range.1 hin) h1 h2 t ht).2.2 j (List.mem_range.2 hjn) _
        ⟨hj1, hj2, rfl⟩)
    t ht
  obtain ⟨h1, h2, h3⟩ := houter
  refine ⟨h1, h2, ?_⟩
  intro a b ha hai haj hb hbi hbj
  have := h3 a (List.mem_range.2 ha) _ ⟨hai, haj, b, hb, hbi, hbj, rfl⟩
  simp only [] at this
  rw [reduced_entry_survivors hij hi hj ha hai haj hb hbi hbj] at this
  exact this

/-- The third matrix loop of `join_pair` writes the last column and the last row of the
reduced matrix, and nothing that disagrees with the table `reduced_entry`. -/
theorem join_reflect_good (d : List ℚ) (n si sj : Nat) (hn : 2 ≤ n) (t : List ℚ)
    (ht : t.length = (n - 1) * (n - 1)) :
    (join_reflect d n si sj t).length = (n - 1) * (n - 1) ∧
      (∀ k, t.getD k 0 = reduced_entry d n si sj k →
        (join_reflect d n si sj t).getD k 0 = reduced_entry d n si sj k) ∧
      ∀ i, i < n - 1 →
        (join_reflect d n si sj t).getD (i * (n - 1) + (n - 2)) 0 = reflect_value d n si sj i ∧
        (join_reflect d n si sj t).getD ((n - 1) * (n - 2) + i) 0
          = reflect_value d n si sj i := by
  have e : n - 1 - 1 = n - 2 := by omega
  have hstep : ∀ (t : List ℚ) (i : Nat), i ∈ List.range (n - 1) →
      t.length = (n - 1) * (n - 1) →
      ((t.set (i * (n - 1) + (n - 2)) (reflect_value d n si sj i)).set
          ((n - 1) * (n - 2) + i)
          ((t.set (i * (n - 1) + (n - 2)) (reflect_value d n si sj i)).getD
            (i * (n - 1) + (n - 2)) 0)).length = (n - 1) * (n - 1) ∧
      (∀ k, t.getD k 0 = reduced_entry d n si sj k →
        ((t.set (i * (n - 1) + (n - 2)) (reflect_value d n si sj i)).set
          ((n - 1) * (n - 2) + i)
          ((t.set (i * (n - 1) + (n - 2)) (reflect_value d n si sj i)).getD
            (i * (n - 1) + (n - 2)) 0)).getD k 0 = reduced_entry d n si sj k) ∧
      (∀ k, (k = i * (n - 1) + (n - 2) ∨ k = (n - 1) * (n - 2) + i) →
        ((t.set (i * (n - 1) + (n - 2)) (reflect_value d n si sj i)).set
          ((n - 1) * (n - 2) + i)
          ((t.set (i * (n - 1) + (n - 2)) (reflect_value d n si sj i)).getD
            (i * (n - 1) + (n - 2)) 0)).getD k 0 = reduced_entry d n si sj k) := by
    intro t i hi ht
    have hi' := List.mem_range.1 hi
    have hidx1 : i * (n - 1) + (n - 2) < t.length := by
      rw [ht]; exact index_lt hi' (by omega)
    have hidx2 : (n - 1) * (n - 2) + i < t.length := by
      rw [ht, Nat.mul_comm (n - 1) (n - 2)]; exact index_lt (by omega) hi'
    obtain ⟨g1, g2⟩ := set_good (reduced_entry d n si sj) t (i * (n - 1) + (n - 2))
      (reflect_value d n si sj i) (reduced_entry_column hn).symm hidx1
    have hv : (t.set (i * (n - 1) + (n - 2)) (reflect_value d n si sj i)).getD
        (i * (n - 1) + (n - 2)) 0 = reduced_entry d n si sj ((n - 1) * (n - 2) + i) := by
      rw [g2, reduced_entry_column hn, reduced_entry_row hi']
    obtain ⟨g3, g4⟩ := set_good (reduced_entry d n si sj)
      (t.set (i * (n - 1) + (n - 2)) (reflect_value d n si sj i)) ((n - 1) * (n - 2) + i)
      _ hv (by rw [List.length_set]; exact hidx2)
    refine ⟨by rw [List.length_set, List.length_set]; exact ht, fun k hk => g3 k (g1 k hk), ?_⟩
    intro k hk
    rcases hk with rfl | rfl
    · exact g3 _ g2
    · exact g4
  have hfold := foldl_good (fun t => t.length = (n - 1) * (n - 1))
    (fun k t => t.getD k 0 = reduced_entry d n si sj k)
    (fun i k => k = i * (n - 1) + (n - 2) ∨ k = (n - 1) * (n - 2) + i)
    (fun t i =>
      (t.set (i * (n - 1) + (n - 2)) (reflect_value d n si sj i)).set
        ((n - 1) * (n - 2) + i)
        ((t.set (i * (n - 1) + (n - 2)) (reflect_value d n si sj i)).getD
          (i * (n - 1) + (n - 2)) 0))
    (List.range (n - 1))
    (fun t i hi ht => (hstep t i hi ht).1)
    (fun t i hi k ht hk => (hstep t i hi ht).2.1 k hk)
    (fun t i hi k ht hk => (hstep t i hi ht).2.2 k hk)
    t ht
  have hdef : join_reflect d n si sj t
      = (List.range (n - 1)).foldl (fun t i =>
          (t.set (i * (n - 1) + (n - 2)) (reflect_value d n si sj i)).set
            ((n - 1) * (n - 2) + i)
            ((t.set (i * (n - 1) + (n - 2)) (reflect_value d n si sj i)).getD
              (i * (n - 1) + (n - 2)) 0)) t := by
    unfold join_reflect reflect_value
    simp only [e]
  rw [hdef]
  obtain ⟨h1, h2, h3⟩ := hfold
  refine ⟨h1, h2, ?_⟩
  intro i hi
  have a1 := h3 i (List.mem_range.2 hi) _ (Or.inl rfl)
  have a2 := h3 i (List.mem_range.2 hi) _ (Or.inr rfl)
  simp only [] at a1 a2
  rw [reduced_entry_column hn] at a1
  rw [reduced_entry_row hi] at a2
  exact ⟨a1, a2⟩

end Gstar

namespace Gstar

/-! ## One call of `join_pair`: the matrix and the cluster list -/

theorem join_pair_fields {s s1 : nj_t} (h : join_pair s = some s1) :
    s1._dists = join_reflect s._dists s._row_size (find_pair s)._i (find_pair s)._j
        (join_copy s._dists s._row_size (find_pair s)._i (find_pair s)._j
          (List.replicate ((s._row_size - 1) * (s._row_size - 1)) 0)) ∧
      s1._i = (find_pair s)._i ∧ s1._j = (find_pair s)._j ∧
      s1._r_vec = (find_pair s)._r_vec := by
  unfold join_pair at h
  simp only [find_pair_row_size, find_pair_dists] at h
  split at h
  · split at h
    · cases h
    · split at h
      · cases h
      · split at h
        · cases h
        · split at h
          · cases h
          · cases h
            exact ⟨rfl, rfl, rfl, rfl⟩
  · cases h

theorem old_index_strict_mono {si sj p q : Nat} (hpq : p < q) :
    old_index si sj p < old_index si sj q := by
  unfold old_index
  split_ifs <;> omega

/-- The surviving indices in their old order are the old indices of `0, 1, ..`. -/
theorem survivors_eq_map {n si sj : Nat} (hij : si ≠ sj) (hi : si < n) (hj : sj < n) :
    (List.range n).filter (keeps si sj) = (List.range (n - 2)).map (old_index si sj) := by
  have hs1 : ((List.range n).filter (keeps si sj)).Sorted (· < ·) :=
    (List.sorted_lt_range n).filter _
  have hs2 : ((List.range (n - 2)).map (old_index si sj)).Sorted (· < ·) := by
    refine List.pairwise_map.2 ?_
    exact (List.sorted_lt_range (n - 2)).imp (fun h => old_index_strict_mono h)
  refine List.eq_of_perm_of_sorted ?_ hs1 hs2
  refine (List.perm_ext_iff_of_nodup hs1.nodup hs2.nodup).2 ?_
  intro x
  simp only [List.mem_filter, List.mem_range, List.mem_map, keeps, decide_eq_true_eq, not_or]
  constructor
  · rintro ⟨hx, hxi, hxj⟩
    obtain ⟨-, -, hp, ho⟩ := new_index_facts hij hi hj hx hxi hxj
    exact ⟨_, hp, ho⟩
  · rintro ⟨p, hp, rfl⟩
    obtain ⟨h1, h2, h3, -⟩ := old_index_facts hij hi hj hp
    exact ⟨h1, h2, h3⟩

/-- One call of `join_pair` on a state with at least two clusters, all of them nodes of the
heap: the call returns, and the new state has the reduced matrix described by
`reduced_entry`, the surviving clusters in their old order followed by the new node, and one
row less. -/
theorem join_pair_spec (s : nj_t) (hn : 2 ≤ s._row_size) (hlen : s._tree.length = s._row_size)
    (hlt : ∀ p ∈ s._tree, p < s.heap.length) :
    ∃ s1, join_pair s = some s1 ∧ s1._i = (find_pair s)._i ∧ s1._j = (find_pair s)._j ∧
      s1._i ≠ s1._j ∧ s1._i < s._row_size ∧ s1._j < s._row_size ∧
      s1._row_size = s._row_size - 1 ∧
      s1._dists.length = (s._row_size - 1) * (s._row_size - 1) ∧
      (∀ a b, a < s._row_size → a ≠ s1._i → a ≠ s1._j → b < s._row_size → b ≠ s1._i →
        b ≠ s1._j →
        s1.D (new_index s1._i s1._j a) (new_index s1._i s1._j b) = s.D a b) ∧
      (∀ i, i < s._row_size - 1 →
        s1.D i (s._row_size - 2) = reflect_value s._dists s._row_size s1._i s1._j i ∧
        s1.D (s._row_size - 2) i = reflect_value s._dists s._row_size s1._i s1._j i) ∧
      s1._tree = ((List.range s._row_size).filter (keeps s1._i s1._j)).map
          (fun a => s._tree.getD a 0) ++ [s.heap.length] ∧
      ∃ m : node_t, s1.heap[s.heap.length]? = some m ∧ m._children = true ∧
        m._lchild = some (s._tree.getD s1._i 0) ∧ m._rchild = some (s._tree.getD s1._j 0) := by
  obtain ⟨hij, hi, hj⟩ := find_pair_valid s hn
  have hti : s._tree[(find_pair s)._i]? = some (s._tree.getD (find_pair s)._i 0) := by
    rw [List.getD_eq_getElem?_getD, List.getElem?_eq_getElem (by omega)]
    rfl
  have htj : s._tree[(find_pair s)._j]? = some (s._tree.getD (find_pair s)._j 0) := by
    rw [List.getD_eq_getElem?_getD, List.getElem?_eq_getElem (by omega)]
    rfl
  have hmi : s._tree.getD (find_pair s)._i 0 ∈ s._tree := List.mem_iff_getElem?.2 ⟨_, hti⟩
  have hmj : s._tree.getD (find_pair s)._j 0 ∈ s._tree := List.mem_iff_getElem?.2 ⟨_, htj⟩
  have hc := join_collect_eq s._tree (find_pair s)._i (find_pair s)._j
    (List.range s._row_size) [] (fun x hx => by rw [hlen]; exact List.mem_range.1 hx)
  obtain ⟨s1, lw, rw_, hrun, htree, hrow, hheap⟩ :=
    join_pair_eq s _ _ _ hc hti htj (hlt _ hmi) (hlt _ hmj)
  obtain ⟨hd, hsi, hsj, -⟩ := join_pair_fields hrun
  obtain ⟨c1, c2, c3⟩ := join_copy_good s._dists s._row_size _ _ hij hi hj
    (List.replicate ((s._row_size - 1) * (s._row_size - 1)) 0) (List.length_replicate _ _)
  obtain ⟨r1, r2, r3⟩ := join_reflect_good s._dists s._row_size (find_pair s)._i
    (find_pair s)._j hn _ c1
  rw [← hd] at r1 r2 r3
  refine ⟨s1, hrun, hsi, hsj, ?_⟩
  rw [hsi, hsj]
  refine ⟨hij, hi, hj, hrow, r1, ?_, ?_, ?_, ?_⟩
  · intro a b ha hai haj hb hbi hbj
    unfold nj_t.D
    rw [hrow]
    have := c3 a b ha hai haj hb hbi hbj
    rw [← reduced_entry_survivors hij hi hj ha hai haj hb hbi hbj] at this ⊢
    exact r2 _ this
  · intro i hi'
    unfold nj_t.D
    rw [hrow]
    have e : (s._row_size - 2) * (s._row_size - 1) = (s._row_size - 1) * (s._row_size - 2) :=
      Nat.mul_comm _ _
    rw [e]
    exact r3 i hi'
  · rw [htree, List.nil_append]
  · refine ⟨⟨"", 0, some (s._tree.getD (find_pair s)._i 0),
      some (s._tree.getD (find_pair s)._j 0), none, true⟩, ?_, rfl, rfl, rfl⟩
    rw [hheap]
    have hne1 : s.heap.length ≠ s._tree.getD (find_pair s)._i 0 :=
      Nat.ne_of_gt (hlt _ hmi)
    have hne2 : s.heap.length ≠ s._tree.getD (find_pair s)._j 0 :=
      Nat.ne_of_gt (hlt _ hmj)
    rw [getElem?_upd_ne _ hne2, getElem?_upd_ne _ hne1, getElem?_upd_ne _ hne2,
      getElem?_upd_ne _ hne1, List.getElem?_append_right (le_refl _)]
    simp [node_t.fresh]

end Gstar

namespace Gstar

/-! ## The backward walk of `calc_distance` -/

/-- When the backward walk over two parent lists returns, it has found a position at which
the lists differ, and returns the indices after it. -/
theorem diverge_walk_some (sl dl : List (Option Nat)) :
    ∀ (fuel i j si di : Nat), diverge_walk sl dl fuel i j = some (si, di) →
      ∃ si' di' x y, si = si' + 1 ∧ di = di' + 1 ∧ si' ≤ i ∧ di' ≤ j ∧
        sl[si']? = some x ∧ dl[di']? = some y ∧ x ≠ y := by
  intro fuel
  induction fuel with
  | zero =>
    intro i j si di h
    simp [diverge_walk] at h
  | succ fuel ih =>
    intro i j si di h
    cases ha : sl[i]? with
    | none => simp [diverge_walk, ha] at h
    | some a =>
      cases hb : dl[j]? with
      | none => simp [diverge_walk, ha, hb] at h
      | some b =>
        by_cases hab : a ≠ b
        · rw [diverge_walk_ne sl dl fuel i j a b ha hb hab] at h
          simp only [Option.some.injEq, Prod.mk.injEq] at h
          exact ⟨i, j, a, b, h.1.symm, h.2.symm, le_refl _, le_refl _, ha, hb, hab⟩
        · have hab' : a = b := not_not.1 hab
          subst hab'
          cases i with
          | zero => simp [diverge_walk, ha, hb] at h
          | succ i1 =>
            cases j with
            | zero => simp [diverge_walk, ha, hb] at h
            | succ j1 =>
              rw [diverge_walk_eq sl dl fuel i1 j1 a ha hb] at h
              obtain ⟨si', di', x, y, e1, e2, l1, l2, g1, g2, hxy⟩ := ih i1 j1 si di h
              exact ⟨si', di', x, y, e1, e2, by omega, by omega, g1, g2, hxy⟩

theorem common_start_of_head_ne {X Y : List Nat} (h : X.head? ≠ Y.head?) :
    common_start X Y = [] := by
  cases X with
  | nil => rfl
  | cons x xs =>
    cases Y with
    | nil => rfl
    | cons y ys =>
      have hxy : x ≠ y := fun e => h (by rw [e]; rfl)
      simp [common_start, hxy]

/-- For nodes whose chains end in different unroot members the way up to the meeting point is
the whole chain, the unroot member included. -/
theorem up_weight_of_last_ne (t : tree_t) (a b : Nat)
    (h : (t.chain a).getLast? ≠ (t.chain b).getLast?) :
    t.up_weight a b = weight_sum t._tree (t.chain a) := by
  unfold tree_t.up_weight tree_t.up_edges shared_top
  rw [common_start_of_head_ne (by rw [List.head?_reverse, List.head?_reverse]; exact h)]
  simp

end Gstar

namespace Gstar

/-! ## `set_weights`: the recursion on a realised shape -/

theorem weight_total_succ (rnd : ℚ → ℚ) (w : Nat → ℚ) (init : ℚ) (d : Nat) :
    weight_total rnd w init (d + 1) = rnd (weight_total rnd w init d + w d) := by
  unfold weight_total
  rw [List.range_succ, List.foldl_append]
  rfl

theorem Shape.Weighted.frame_weighted {h h' : List node_t} {rnd : ℚ → ℚ} {w : Nat → ℚ} {max : ℚ} :
    ∀ {s : Shape} {d : Nat}, (∀ k ∈ s.addrs, h'[k]? = h[k]?) → s.Weighted h rnd w max d →
      s.Weighted h' rnd w max d := by
  intro s
  induction s with
  | leaf a =>
    intro d hfr hs
    have e : node_at h' a = node_at h a := by
      unfold node_at; rw [hfr a (by simp [Shape.addrs])]
    simp only [Shape.Weighted, e] at hs ⊢
    exact hs
  | node a l r ihl ihr =>
    intro d hfr hs
    have e : node_at h' a = node_at h a := by
      unfold node_at; rw [hfr a (by simp [Shape.addrs])]
    simp only [Shape.Weighted, e] at hs ⊢
    exact ⟨hs.1, ihl (fun k hk => hfr k (by simp [Shape.addrs, hk])) hs.2.1,
      ihr (fun k hk => hfr k (by simp [Shape.addrs, hk])) hs.2.2⟩

theorem map_unweighted_set {h : List node_t} {a : Nat} {n m : node_t} (hn : h[a]? = some n)
    (hm : m.unweighted = n.unweighted) :
    (h.set a m).map node_t.unweighted = h.map node_t.unweighted := by
  apply List.ext_getElem?
  intro k
  rw [List.getElem?_map, List.getElem?_map]
  by_cases hk : a = k
  · subst hk
    rw [List.getElem?_set_self (List.getElem?_eq_some_iff.1 hn).1, hn]
    simp only [Option.map_some', hm]
  · rw [List.getElem?_set_ne hk]

theorem get_of_unweighted_eq {h h' : List node_t}
    (e : h'.map node_t.unweighted = h.map node_t.unweighted) {a : Nat} {n : node_t}
    (hn : h[a]? = some n) : ∃ n', h'[a]? = some n' ∧ n'.unweighted = n.unweighted := by
  have := congrArg (fun l => l[a]?) e
  simp only [List.getElem?_map, hn, Option.map_some'] at this
  cases hn' : h'[a]? with
  | none => simp [hn'] at this
  | some n' =>
    simp only [hn', Option.map_some', Option.some.injEq] at this
    exact ⟨n', rfl, this⟩

theorem unweighted_fields {n n' : node_t} (e : n'.unweighted = n.unweighted) :
    n'._label = n._label ∧ n'._lchild = n._lchild ∧ n'._rchild = n._rchild ∧
      n'._parent = n._parent ∧ n'._children = n._children := by
  cases n
  cases n'
  simp only [node_t.unweighted, node_t.mk.injEq] at e
  simp only []
  tauto

/-- The recursion `node_t::set_weights` on a realised tree: it returns, leaves the weights of
`Shape.Weighted` in the tree and changes nothing else. -/
theorem node_set_weights_weighted (rnd : ℚ → ℚ) (w : Nat → ℚ) (max : ℚ) :
    ∀ (s : Shape) (h : List node_t) (fuel d : Nat), s.RepC h → s.addrs.Nodup →
      s.size ≤ fuel →
      ∃ h', node_set_weights rnd w max fuel h s.root d = some h' ∧ s.Weighted h' rnd w max d ∧
        (∀ k, k ∉ s.addrs → h'[k]? = h[k]?) ∧
        h'.map node_t.unweighted = h.map node_t.unweighted := by
  intro s
  induction s with
  | leaf a =>
    intro h fuel d hrep _ hfuel
    obtain ⟨n, hn, hleaf⟩ := hrep
    have hc : n._children = false := hleaf.1
    obtain ⟨fuel, rfl⟩ : ∃ f, fuel = f + 1 :=
      ⟨fuel - 1, by simp only [Shape.size] at hfuel; omega⟩
    obtain ⟨m, hm⟩ : ∃ m : node_t, m = ⟨n._label, rnd (max - weight_total rnd w 0 d), n._lchild,
      n._rchild, n._parent, n._children⟩ := ⟨_, rfl⟩
    have hrun : node_set_weights rnd w max (fuel + 1) h a d = some (h.set a m) := by
      simp only [node_set_weights, hn, hc, hm]
      rfl
    refine ⟨h.set a m, hrun, ?_, ?_, map_unweighted_set hn (by rw [hm]; rfl)⟩
    · simp only [Shape.Weighted]
      rw [node_at_set_self hn, hm]
    · intro k hk
      simp only [Shape.addrs, List.mem_singleton] at hk
      exact List.getElem?_set_ne (fun e => hk e.symm)
  | node a l r ihl ihr =>
    intro h fuel d hrep hnd hfuel
    obtain ⟨⟨n, hn, hc, hl, hr⟩, hlrep, hrrep⟩ := hrep
    obtain ⟨fuel, rfl⟩ : ∃ f, fuel = f + 1 :=
      ⟨fuel - 1, by simp only [Shape.size] at hfuel; omega⟩
    simp only [Shape.size] at hfuel
    simp only [Shape.addrs, List.nodup_cons, List.mem_append, not_or] at hnd
    obtain ⟨⟨hal, har⟩, hnd2⟩ := hnd
    obtain ⟨hndl, hndr, hdis⟩ := List.nodup_append.1 hnd2
    obtain ⟨h1, e1, w1, fr1, u1⟩ := ihl h fuel (d + 1) hlrep hndl (by omega)
    have hr1 : ∀ k ∈ r.addrs, h1[k]? = h[k]? := fun k hk => fr1 k (fun hk' => hdis hk' hk)
    obtain ⟨h2, e2, w2, fr2, u2⟩ := ihr h1 fuel (d + 1) (hrrep.frame hr1) hndr (by omega)
    have h2a : h2[a]? = some n := by rw [fr2 a har, fr1 a hal, hn]
    obtain ⟨m, hm⟩ : ∃ m : node_t, m = ⟨n._label, w d, n._lchild,
      n._rchild, n._parent, n._children⟩ := ⟨_, rfl⟩
    have hrun : node_set_weights rnd w max (fuel + 1) h a d = some (h2.set a m) := by
      simp only [node_set_weights, hn, hc, hl, hr, e1, e2, store, h2a, hm, if_true]
    refine ⟨h2.set a m, hrun, ⟨?_, ?_, ?_⟩, ?_, ?_⟩
    · rw [node_at_set_self h2a, hm]
    · refine Shape.Weighted.frame_weighted (fun k hk => ?_) w1
      rw [List.getElem?_set_ne (fun e : a = k => hal (by rw [e]; exact hk)),
        fr2 k (fun hk' => hdis hk hk')]
    · refine Shape.Weighted.frame_weighted (fun k hk => ?_) w2
      rw [List.getElem?_set_ne (fun e : a = k => har (by rw [e]; exact hk))]
    · intro k hk
      simp only [Shape.addrs, List.mem_cons, List.mem_append, not_or] at hk
      rw [List.getElem?_set_ne (fun e => hk.1 e.symm), fr2 k hk.2.2, fr1 k hk.2.1]
    · rw [map_unweighted_set h2a (by rw [hm]; rfl), u2, u1]

end Gstar

namespace Gstar

/-! ## `set_weights`: the unroot members, and the depth -/

theorem set_weights_members_forest (rnd : ℚ → ℚ) (w : Nat → ℚ) (max : ℚ) (fuel : Nat) :
    ∀ (F : List Shape) (h : List node_t), (∀ s ∈ F, s.RepC h) →
      (F.flatMap Shape.addrs).Nodup → (∀ s ∈ F, s.size ≤ fuel) →
      ∃ h', set_weights_members rnd w max fuel (F.map Shape.root) h = some h' ∧
        (∀ s ∈ F, s.Weighted h' rnd w max 0) ∧
        h'.map node_t.unweighted = h.map node_t.unweighted ∧
        (∀ k, k ∉ F.flatMap Shape.addrs → h'[k]? = h[k]?) := by
  intro F
  induction F with
  | nil =>
    intro h _ _ _
    exact ⟨h, rfl, fun _ hs => (by cases hs), rfl, fun _ _ => rfl⟩
  | cons s F ih =>
    intro h hrep hnd hfuel
    simp only [List.flatMap_cons] at hnd
    obtain ⟨hnds, hndF, hdis⟩ := List.nodup_append.1 hnd
    obtain ⟨h1, e1, w1, fr1, u1⟩ := node_set_weights_weighted rnd w max s h fuel 0
      (hrep s (List.mem_cons_self _ _)) hnds (hfuel s (List.mem_cons_self _ _))
    have hF1 : ∀ k ∈ F.flatMap Shape.addrs, h1[k]? = h[k]? :=
      fun k hk => fr1 k (fun hk' => hdis hk' hk)
    obtain ⟨h2, e2, w2, u2, fr2⟩ := ih h1
      (fun x hx => (hrep x (List.mem_cons_of_mem _ hx)).frame
        (fun k hk => hF1 k (List.mem_flatMap.2 ⟨x, hx, hk⟩)))
      hndF (fun x hx => hfuel x (List.mem_cons_of_mem _ hx))
    refine ⟨h2, ?_, ?_, by rw [u2, u1], ?_⟩
    · simp only [List.map_cons, set_weights_members, e1, e2]
    · intro x hx
      rcases List.mem_cons.1 hx with rfl | hx
      · exact Shape.Weighted.frame_weighted (fun k hk => fr2 k (fun hk' => hdis hk hk')) w1
      · exact w2 x hx
    · intro k hk
      simp only [List.flatMap_cons, List.mem_append, not_or] at hk
      rw [fr2 k hk.2, fr1 k hk.1]

/-- The function `node_t::set_weights_as_root` on the root of a realised tree with two
subtrees: the root gets the weight `0`, the two subtrees the weights of `set_weights` at the
depth given. -/
theorem set_weights_as_root_shape (rnd : ℚ → ℚ) (w : Nat → ℚ) (max : ℚ) (a : Nat) (l r : Shape)
    (h : List node_t) (fuel d : Nat) (hrep : (Shape.node a l r).RepC h)
    (hnd : (Shape.node a l r).addrs.Nodup) (hfuel : (Shape.node a l r).size ≤ fuel) :
    ∃ h', node_set_weights_as_root rnd w max fuel h a d = some h' ∧
      (node_at h' a)._weight = 0 ∧ l.Weighted h' rnd w max d ∧ r.Weighted h' rnd w max d ∧
      h'.map node_t.unweighted = h.map node_t.unweighted := by
  obtain ⟨⟨n, hn, hc, hl, hr⟩, hlrep, hrrep⟩ := hrep
  simp only [Shape.size] at hfuel
  simp only [Shape.addrs, List.nodup_cons, List.mem_append, not_or] at hnd
  obtain ⟨⟨hal, har⟩, hnd2⟩ := hnd
  obtain ⟨hndl, hndr, hdis⟩ := List.nodup_append.1 hnd2
  obtain ⟨m, hm⟩ : ∃ m : node_t, m = ⟨n._label, 0, n._lchild, n._rchild, n._parent,
    n._children⟩ := ⟨_, rfl⟩
  have hfr0 : ∀ k, k ≠ a → (h.set a m)[k]? = h[k]? :=
    fun k hk => List.getElem?_set_ne (fun e => hk e.symm)
  have h0a : (h.set a m)[a]? = some m :=
    List.getElem?_set_self (List.getElem?_eq_some_iff.1 hn).1
  obtain ⟨h1, e1, w1, fr1, u1⟩ := node_set_weights_weighted rnd w max l (h.set a m) fuel d
    (hlrep.frame (fun k hk => hfr0 k (fun e => hal (by rw [← e]; exact hk)))) hndl (by omega)
  have hr1 : ∀ k ∈ r.addrs, h1[k]? = h[k]? := fun k hk => by
    rw [fr1 k (fun hk' => hdis hk' hk), hfr0 k (fun e => har (by rw [← e]; exact hk))]
  obtain ⟨h2, e2, w2, fr2, u2⟩ := node_set_weights_weighted rnd w max r h1 fuel d
    (hrrep.frame hr1) hndr (by omega)
  have hrun : node_set_weights_as_root rnd w max fuel h a d = some h2 := by
    have hm' : (⟨n._label, 0, n._lchild, n._rchild, n._parent, true⟩ : node_t) = m := by
      rw [hm, hc]
    simp only [node_set_weights_as_root, hn, hc, hl, hr, if_true]
    rw [← hl, ← hr, hm', e1]
    exact e2
  refine ⟨h2, hrun, ?_, ?_, w2, ?_⟩
  · have : h2[a]? = some m := by rw [fr2 a har, fr1 a hal, h0a]
    rw [node_at_of_get this, hm]
  · exact Shape.Weighted.frame_weighted (fun k hk => fr2 k (fun hk' => hdis hk hk')) w1
  · rw [u2, u1, map_unweighted_set hn (by rw [hm]; rfl)]

theorem calc_max_depth_shape (h : List node_t) :
    ∀ (s : Shape) (fuel : Nat), s.RepC h → s.size ≤ fuel →
      calc_max_depth fuel h s.root = some s.height := by
  intro s
  induction s with
  | leaf a =>
    intro fuel hrep hfuel
    obtain ⟨n, hn, hleaf⟩ := hrep
    have hc : n._children = false := hleaf.1
    obtain ⟨fuel, rfl⟩ : ∃ f, fuel = f + 1 :=
      ⟨fuel - 1, by simp only [Shape.size] at hfuel; omega⟩
    simp [calc_max_depth, hn, hc, Shape.height]
  | node a l r ihl ihr =>
    intro fuel hrep hfuel
    obtain ⟨⟨n, hn, hc, hl, hr⟩, hlrep, hrrep⟩ := hrep
    obtain ⟨fuel, rfl⟩ : ∃ f, fuel = f + 1 :=
      ⟨fuel - 1, by simp only [Shape.size] at hfuel; omega⟩
    simp only [Shape.size] at hfuel
    simp only [Shape.root_node, calc_max_depth, hn, hc, hl, hr, if_true,
      ihl fuel hlrep (by omega), ihr fuel hrrep (by omega), Shape.height]

theorem depth_loop_forest (h : List node_t) (fuel : Nat) :
    ∀ (F : List Shape) (m : Nat), (∀ s ∈ F, s.RepC h) → (∀ s ∈ F, s.size ≤ fuel) →
      ∃ d, depth_loop fuel h (F.map Shape.root) m = some d := by
  intro F
  induction F with
  | nil => intro m _ _; exact ⟨m, rfl⟩
  | cons s F ih =>
    intro m hrep hfuel
    obtain ⟨d, hd⟩ := ih (if m < s.height then s.height else m)
      (fun x hx => hrep x (List.mem_cons_of_mem _ hx))
      (fun x hx => hfuel x (List.mem_cons_of_mem _ hx))
    refine ⟨d, ?_⟩
    simp only [List.map_cons, depth_loop,
      calc_max_depth_shape h s fuel (hrep s (List.mem_cons_self _ _))
        (hfuel s (List.mem_cons_self _ _))]
    exact hd

theorem Shape.Rep.of_unweighted_eq {h h' : List node_t}
    (e : h'.map node_t.unweighted = h.map node_t.unweighted) :
    ∀ {s : Shape} {par : Option Nat}, s.Rep h par → s.Rep h' par := by
  intro s
  induction s with
  | leaf a =>
    intro par hs
    obtain ⟨n, hn, hl, hp⟩ := hs
    obtain ⟨n', hn', eu⟩ := get_of_unweighted_eq e hn
    obtain ⟨-, f1, f2, f3, f4⟩ := unweighted_fields eu
    exact ⟨n', hn', ⟨by rw [f4]; exact hl.1, by rw [f1]; exact hl.2.1,
      by rw [f2]; exact hl.2.2⟩, by rw [f3]; exact hp⟩
  | node a l r ihl ihr =>
    intro par hs
    obtain ⟨⟨n, hn, hi, hp⟩, hL, hR⟩ := hs
    obtain ⟨n', hn', eu⟩ := get_of_unweighted_eq e hn
    obtain ⟨-, f1, f2, f3, f4⟩ := unweighted_fields eu
    exact ⟨⟨n', hn', ⟨by rw [f4]; exact hi.1, by rw [f1]; exact hi.2.1,
      by rw [f2]; exact hi.2.2⟩, by rw [f3]; exact hp⟩, ihl hL, ihr hR⟩

theorem tree_t.Forest.of_unweighted {t : tree_t} {F : List Shape} (hF : t.Forest F)
    {h' : List node_t} (e : h'.map node_t.unweighted = t._tree.map node_t.unweighted) :
    tree_t.Forest ⟨h', t._unroot, t._size⟩ F := by
  refine ⟨?_, hF.2.1, fun s hs => Shape.Rep.of_unweighted_eq e (hF.2.2.1 s hs), hF.2.2.2⟩
  have := congrArg List.length e
  simp only [List.length_map] at this
  exact this.trans hF.1

end Gstar

namespace Gstar

/-! ## `set_weights`: the sums along the chains -/

theorem ParentChain.cons {h : List node_t} {a : Nat} {C : List Nat}
    (ha : ∃ n : node_t, h[a]? = some n ∧ n._parent = C.head?) (hC : ParentChain h C) :
    ParentChain h (a :: C) := by
  cases C with
  | nil => exact ha
  | cons b C => exact ⟨ha, hC⟩

theorem ParentChain.unique {h : List node_t} :
    ∀ (R R' : List Nat) (a : Nat), ParentChain h (a :: R) → ParentChain h (a :: R') →
      R = R' := by
  intro R
  induction R with
  | nil =>
    intro R' a h1 h2
    obtain ⟨n, hn, hp⟩ := h1
    obtain ⟨n', hn', hp'⟩ := h2.head
    rw [hn] at hn'
    cases hn'
    rw [hp] at hp'
    cases R' with
    | nil => rfl
    | cons b R' => cases hp'
  | cons b R ih =>
    intro R' a h1 h2
    obtain ⟨n, hn, hp⟩ := h1.head
    obtain ⟨n', hn', hp'⟩ := h2.head
    rw [hn] at hn'
    cases hn'
    rw [hp] at hp'
    cases R' with
    | nil => cases hp'
    | cons b' R' =>
      simp only [List.head?_cons, Option.some.injEq] at hp'
      subst hp'
      rw [ih R' b h1.tail h2.tail]

theorem weight_sum_cons (h : List node_t) (a : Nat) (C : List Nat) :
    weight_sum h (a :: C) = (node_at h a)._weight + weight_sum h C := by
  unfold weight_sum
  rw [List.map_cons, List.sum_cons]

theorem sum_range_succ_map (w : Nat → ℚ) (d : Nat) :
    ((List.range (d + 1)).map w).sum = ((List.range d).map w).sum + w d := by
  rw [List.range_succ, List.map_append, List.sum_append]
  simp

/-- In a realised tree that carries the weights of `set_weights` from depth `d` on, below a
chain of ancestors whose weights add up to the sum of `w_func` over the depths below `d`: a
leaf that `set_weights` reaches with depth `d + k` has `k` more nodes above it than the chain
has, its weight is the rounded difference of `max` and the rounded total of `w_func` over the
depths below `d + k`, and the weights on its chain add up to that weight plus the sum of
`w_func` over these depths. -/
theorem weighted_chain_sum {h : List node_t} {rnd : ℚ → ℚ} {w : Nat → ℚ} {max : ℚ} :
    ∀ (s : Shape) (d : Nat) (C : List Nat), s.Rep h C.head? → ParentChain h C →
      s.Weighted h rnd w max d → weight_sum h C = ((List.range d).map w).sum →
      ∀ a ∈ s.leaves, ∃ R k, ParentChain h (a :: R) ∧ R.length = C.length + k ∧
        (node_at h a)._weight = rnd (max - weight_total rnd w 0 (d + k)) ∧
        weight_sum h (a :: R) = rnd (max - weight_total rnd w 0 (d + k))
          + ((List.range (d + k)).map w).sum := by
  intro s
  induction s with
  | leaf a =>
    intro d C hrep hC hw hsum x hx
    simp only [Shape.leaves, List.mem_singleton] at hx
    subst hx
    obtain ⟨n, hn, -, hp⟩ := hrep
    refine ⟨C, 0, ParentChain.cons ⟨n, hn, hp⟩ hC, rfl, ?_, ?_⟩
    · simpa only [Shape.Weighted, Nat.add_zero] using hw
    · simp only [Shape.Weighted] at hw
      rw [weight_sum_cons, hw, hsum]
      rfl
  | node a l r ihl ihr =>
    intro d C hrep hC hw hsum x hx
    obtain ⟨⟨n, hn, -, hp⟩, hL, hR⟩ := hrep
    obtain ⟨hwa, hwl, hwr⟩ := hw
    have hC' : ParentChain h (a :: C) := ParentChain.cons ⟨n, hn, hp⟩ hC
    have hsum' : weight_sum h (a :: C) = ((List.range (d + 1)).map w).sum := by
      rw [weight_sum_cons, hwa, hsum, sum_range_succ_map]
      ring
    have hfin : ∀ R k, ParentChain h (x :: R) ∧ R.length = (a :: C).length + k ∧
        (node_at h x)._weight = rnd (max - weight_total rnd w 0 (d + 1 + k)) ∧
        weight_sum h (x :: R) = rnd (max - weight_total rnd w 0 (d + 1 + k))
          + ((List.range (d + 1 + k)).map w).sum →
        ∃ R k, ParentChain h (x :: R) ∧ R.length = C.length + k ∧
        (node_at h x)._weight = rnd (max - weight_total rnd w 0 (d + k)) ∧
        weight_sum h (x :: R) = rnd (max - weight_total rnd w 0 (d + k))
          + ((List.range (d + k)).map w).sum := by
      rintro R k ⟨h1, h2, h3, h4⟩
      have e : d + 1 + k = d + (k + 1) := by omega
      rw [e] at h3 h4
      exact ⟨R, k + 1, h1, by rw [h2, List.length_cons]; omega, h3, h4⟩
    simp only [Shape.leaves, List.mem_append] at hx
    rcases hx with hx | hx
    · obtain ⟨R, k, hR'⟩ := ihl (d + 1) (a :: C) hL hC' hwl hsum' x hx
      exact hfin R k hR'
    · obtain ⟨R, k, hR'⟩ := ihr (d + 1) (a :: C) hR hC' hwr hsum' x hx
      exact hfin R k hR'

theorem Shape.RepC.leaf_of_mem {h : List node_t} :
    ∀ {s : Shape}, s.RepC h → ∀ a ∈ s.addrs, (node_at h a)._children = false →
      a ∈ s.leaves := by
  intro s
  induction s with
  | leaf a =>
    intro _ x hx _
    simpa [Shape.addrs, Shape.leaves] using hx
  | node a l r ihl ihr =>
    intro hrep x hx hc
    obtain ⟨⟨n, hn, hcn, -, -⟩, hL, hR⟩ := hrep
    simp only [Shape.addrs, List.mem_cons, List.mem_append] at hx
    simp only [Shape.leaves, List.mem_append]
    rcases hx with rfl | hx | hx
    · rw [node_at_of_get hn, hcn] at hc
      cases hc
    · exact Or.inl (ihl hL x hx hc)
    · exact Or.inr (ihr hR x hx hc)

theorem weight_total_zero (rnd : ℚ → ℚ) (w : Nat → ℚ) (init : ℚ) :
    weight_total rnd w init 0 = init := rfl

/-- The weight of a leaf and the sum of the weights on its chain, in a forest whose trees
carry the weights of `set_weights` from depth `d` below a chain `C`. -/
theorem forest_chain_sum {t : tree_t} {F : List Shape} (hF : t.Forest F) {rnd : ℚ → ℚ}
    {w : Nat → ℚ} {max : ℚ} {C : List Nat} {d : Nat} {x : Shape}
    (hrep : x.Rep t._tree C.head?) (hC : ParentChain t._tree C)
    (hw : x.Weighted t._tree rnd w max d)
    (hsum : weight_sum t._tree C = ((List.range d).map w).sum)
    {a : Nat} (ha : a ∈ x.leaves) (hlt : a < t._size) :
    ∃ k, (t.chain a).length = C.length + k + 1 ∧
      (node_at t._tree a)._weight = rnd (max - weight_total rnd w 0 (d + k)) ∧
      weight_sum t._tree (t.chain a) = rnd (max - weight_total rnd w 0 (d + k))
        + ((List.range (d + k)).map w).sum := by
  obtain ⟨R, k, hR, hlen, hwt, hsumR⟩ := weighted_chain_sum x d C hrep hC hw hsum a ha
  obtain ⟨R0, hR0, -, -, hchain, -⟩ := hF.chain_spec hlt
  rw [hchain, ParentChain.unique R0 R a hR0 hR]
  exact ⟨k, by rw [List.length_cons, hlen], hwt, hsumR⟩

theorem weight_total_exact (w : Nat → ℚ) (d : Nat) :
    weight_total (fun x => x) w 0 d = ((List.range d).map w).sum := by
  induction d with
  | zero => rfl
  | succ d ih => rw [weight_total_succ, ih, sum_range_succ_map]

end Gstar

namespace Gstar

/-! ## `calc_distance` with rounded additions -/

theorem parent_distance_fl_self (rnd : ℚ → ℚ) (h : List node_t) (fuel : Nat) (x : Option Nat)
    (d : ℚ) : parent_distance_fl rnd h fuel x x d = some d := by
  cases fuel <;> simp [parent_distance_fl]

theorem parent_distance_fl_of_chain (rnd : ℚ → ℚ) {h : List node_t} (Q : List Nat) :
    ∀ (P : List Nat) (fuel : Nat) (d : ℚ), ParentChain h (P ++ Q) → (P ++ Q).Nodup →
      P.length ≤ fuel →
      parent_distance_fl rnd h fuel (P ++ Q).head? Q.head? d = some (weight_acc rnd h P d) := by
  intro P
  induction P with
  | nil =>
    intro fuel d _ _ _
    simp only [List.nil_append, weight_acc, List.foldl_nil]
    exact parent_distance_fl_self rnd h fuel _ d
  | cons p P ih =>
    intro fuel d hc hnd hf
    obtain ⟨f, rfl⟩ : ∃ f, fuel = f + 1 := ⟨fuel - 1, by simp at hf; omega⟩
    obtain ⟨n, hn, hp⟩ := ParentChain.head hc
    have hne : ¬ (some p = Q.head?) := by
      intro e
      have hq : p ∈ Q := List.mem_of_mem_head? e.symm
      have := (List.nodup_cons.1 hnd).1
      exact this (List.mem_append_right _ hq)
    have hrec := ih f (rnd (d + n._weight)) (ParentChain.tail hc) (List.nodup_cons.1 hnd).2
      (by simpa using hf)
    simp only [List.cons_append, List.head?_cons]
    rw [parent_distance_fl, if_neg hne]
    simp only [hn]
    have hp' : n._parent = (P ++ Q).head? := hp
    rw [hp', hrec]
    simp [weight_acc, node_at, hn]

/-- With the identity as rounding `parent_distance_fl` is `parent_distance`. -/
theorem parent_distance_fl_exact (h : List node_t) :
    ∀ (fuel : Nat) (child parent : Option Nat) (d : ℚ),
      parent_distance_fl (fun x => x) h fuel child parent d
        = (parent_distance h fuel child parent).map (fun x => d + x) := by
  intro fuel
  induction fuel with
  | zero =>
    intro child parent d
    unfold parent_distance_fl parent_distance
    by_cases e : child = parent <;> simp [e]
  | succ f ih =>
    intro child parent d
    unfold parent_distance_fl parent_distance
    by_cases e : child = parent
    · simp [e]
    · rw [if_neg e, if_neg e]
      cases child with
      | none => rfl
      | some c =>
        simp only []
        cases hc : h[c]? with
        | none => rfl
        | some n =>
          simp only []
          rw [ih]
          cases parent_distance h f n._parent parent with
          | none => rfl
          | some x => simp [add_assoc]

/-- With the identity as rounding `calc_distance_fl` is `calc_distance`. -/
theorem calc_distance_fl_exact (t : tree_t) (a b : Nat) :
    calc_distance_fl (fun x => x) t a b = calc_distance t a b := by
  unfold calc_distance_fl calc_distance
  by_cases e : a = b
  · rw [if_pos e, if_pos e]
  · rw [if_neg e, if_neg e]
    cases get_parents_of t a with
    | none => rfl
    | some sl =>
      cases get_parents_of t b with
      | none => rfl
      | some dl =>
        simp only []
        cases diverge_walk sl dl (sl.length + 1) (sl.length - 1) (dl.length - 1) with
        | none => rfl
        | some p =>
          obtain ⟨si, di⟩ := p
          simp only []
          cases sl[si]? with
          | none => rfl
          | some x =>
            cases dl[di]? with
            | none => rfl
            | some y =>
              simp only []
              rw [parent_distance_fl_exact, parent_distance_fl_exact]
              cases parent_distance t._tree (t._size + 1) (some a) x <;>
                cases parent_distance t._tree (t._size + 1) (some b) y <;> simp

theorem take_up_edges_of_split {t : tree_t} {a b : Nat} {U C cb : List Nat}
    (hca : t.chain a = U ++ C) (hcb : t.chain b = cb)
    (hC : C.length = shared_top (U ++ C) cb) :
    (t.chain a).take (t.up_edges a b) = U := by
  unfold tree_t.up_edges
  rw [hca, hcb, ← hC]
  simp

/-- The distance `calc_distance` computes between two different childless slots of a
well-formed tree, additions rounded: the weights on the way from the first slot up to the
lowest common ancestor, added one after the other starting from 0, plus the same for the
second slot. -/
theorem calc_distance_fl_spec (rnd : ℚ → ℚ) {t : tree_t} {F : List Shape} (hF : t.Forest F)
    {a b : Nat}
    (ha : a < t._size) (hb : b < t._size) (hab : a ≠ b)
    (hla : (node_at t._tree a)._children = false)
    (hlb : (node_at t._tree b)._children = false) :
    calc_distance_fl rnd t a b
      = some (rnd (weight_acc rnd t._tree ((t.chain a).take (t.up_edges a b)) 0
          + weight_acc rnd t._tree ((t.chain b).take (t.up_edges b a)) 0)) := by
  obtain ⟨Ra, hca, hnda, hinta, hchaina, hlena⟩ := hF.chain_spec ha
  obtain ⟨Rb, hcb, hndb, hintb, hchainb, hlenb⟩ := hF.chain_spec hb
  obtain ⟨U', V', C, hU, hV, hC1, hC2, hne⟩ := shared_top_split (a :: Ra) (b :: Rb)
  have hU_ne : U' ≠ [] := by
    intro e
    rw [e, List.nil_append] at hU
    have hmem : a ∈ b :: Rb := by
      rw [hV, ← hU]
      exact List.mem_append_right _ (List.mem_cons_self _ _)
    rcases List.mem_cons.1 hmem with e' | hm
    · exact hab e'
    · have := hinta
      have hc := hintb a hm
      rw [hla] at hc
      cases hc
  have hV_ne : V' ≠ [] := by
    intro e
    rw [e, List.nil_append] at hV
    have hmem : b ∈ a :: Ra := by
      rw [hU, ← hV]
      exact List.mem_append_right _ (List.mem_cons_self _ _)
    rcases List.mem_cons.1 hmem with e' | hm
    · exact hab e'.symm
    · have hc := hinta b hm
      rw [hlb] at hc
      cases hc
  obtain ⟨A, x, hA⟩ : ∃ A x, U' = A ++ [x] :=
    ⟨U'.dropLast, U'.getLast hU_ne, (List.dropLast_append_getLast hU_ne).symm⟩
  obtain ⟨B, y, hB⟩ : ∃ B y, V' = B ++ [y] :=
    ⟨V'.dropLast, V'.getLast hV_ne, (List.dropLast_append_getLast hV_ne).symm⟩
  have hxy : x ≠ y := hne A B x y hA hB
  have hsl : get_parents_of t a
      = some (A.map some ++ some x :: (C.map some ++ [none])) := by
    rw [get_parents_of_chain hca hnda hlena, hU, hA]
    simp
  have hdl : get_parents_of t b
      = some (B.map some ++ some y :: (C.map some ++ [none])) := by
    rw [get_parents_of_chain hcb hndb hlenb, hV, hB]
    simp
  have hwalk := diverge_walk_split (A.map some) (B.map some) (C.map some ++ [none])
    (some x) (some y) (by simpa using hxy) (C.map some ++ [none]).length
    ((A.map some ++ some x :: (C.map some ++ [none])).length + 1) (le_refl _)
    (by simp; omega)
  have hsi : (A.map some ++ some x :: (C.map some ++ [none])).length - 1
      = (A.map some).length + (C.map some ++ [none]).length := by simp
  have hdi : (B.map some ++ some y :: (C.map some ++ [none])).length - 1
      = (B.map some).length + (C.map some ++ [none]).length := by simp
  have hga : (A.map some ++ some x :: (C.map some ++ [none]))[(A.map some).length + 1]?
      = some C.head? := by
    rw [List.getElem?_append_right (by omega)]
    have : (A.map some).length + 1 - (A.map some).length = 1 := by omega
    rw [this, List.getElem?_cons_succ]
    exact getElem?_zero_chain C
  have hgb : (B.map some ++ some y :: (C.map some ++ [none]))[(B.map some).length + 1]?
      = some C.head? := by
    rw [List.getElem?_append_right (by omega)]
    have : (B.map some).length + 1 - (B.map some).length = 1 := by omega
    rw [this, List.getElem?_cons_succ]
    exact getElem?_zero_chain C
  have hlenU : U'.length ≤ t._size + 1 := by
    have := congrArg List.length hU
    simp only [List.length_cons, List.length_append] at this
    omega
  have hlenV : V'.length ≤ t._size + 1 := by
    have := congrArg List.length hV
    simp only [List.length_cons, List.length_append] at this
    omega
  have hpa := parent_distance_fl_of_chain rnd C U' (t._size + 1) 0 (hU ▸ hca) (hU ▸ hnda) hlenU
  have hpb := parent_distance_fl_of_chain rnd C V' (t._size + 1) 0 (hV ▸ hcb) (hV ▸ hndb) hlenV
  rw [← hU] at hpa
  rw [← hV] at hpb
  simp only [List.head?_cons] at hpa hpb
  have hwa : (t.chain a).take (t.up_edges a b) = U' :=
    take_up_edges_of_split (hchaina.trans hU) hchainb (by rw [← hU]; exact hC1)
  have hwb : (t.chain b).take (t.up_edges b a) = V' :=
    take_up_edges_of_split (hchainb.trans hV) hchaina (by rw [← hV]; exact hC2)
  unfold calc_distance_fl
  rw [if_neg hab, hsl, hdl]
  simp only []
  rw [hsi, hdi, hwalk]
  simp only []
  rw [hga, hgb]
  simp only []
  rw [hpa, hpb, hwa, hwb]

theorem weight_acc_constant (rnd : ℚ → ℚ) (h : List node_t) (c : ℚ) :
    ∀ (l : List Nat) (k : Nat), (∀ x ∈ l, (node_at h x)._weight = c) →
      weight_acc rnd h l (repeat_add rnd c k) = repeat_add rnd c (k + l.length) := by
  intro l
  induction l with
  | nil => intro k _; rfl
  | cons x l ih =>
    intro k hl
    have hx := hl x (List.mem_cons_self _ _)
    have := ih (k + 1) (fun y hy => hl y (List.mem_cons_of_mem _ hy))
    simp only [weight_acc, List.foldl_cons, List.length_cons] at this ⊢
    rw [hx]
    rw [show k + (l.length + 1) = k + 1 + l.length by omega]
    exact this

theorem repeat_add_exact (rnd : ℚ → ℚ) (c : ℚ) :
    ∀ k : Nat, (∀ j : Nat, j ≤ k → rnd (c * j) = c * j) → repeat_add rnd c k = c * k := by
  intro k
  induction k with
  | zero => intro _; simp [repeat_add]
  | succ k ih =>
    intro hj
    rw [repeat_add, ih (fun j hjk => hj j (by omega))]
    have := hj (k + 1) (le_refl _)
    push_cast at this ⊢
    rw [← this]
    congr 1
    ring

end Gstar

namespace Gstar

/-! ## The constructor of `nj_t` with rounded operations, in the two builds -/

theorem nj_loop_fl_small (rf rd : ℚ → ℚ) (fuel : Nat) (s : nj_t) (h : s._row_size ≤ 3) :
    nj_loop_fl rf rd fuel s = some s := by
  cases fuel <;> simp [nj_loop_fl, Nat.not_lt.2 h]

theorem join_final_step_fl_exact (s : nj_t) (h : List node_t) (i : Nat) :
    join_final_step_fl (fun x => x) (fun x => x) s h i = join_final_step s h i := rfl

theorem join_final_loop_fl_exact (s : nj_t) :
    ∀ (idxs : List Nat) (h : List node_t),
      join_final_loop_fl (fun x => x) (fun x => x) s idxs h = join_final_loop s idxs h := by
  intro idxs
  induction idxs with
  | nil => intro h; rfl
  | cons i rest ih =>
    intro h
    rw [join_final_loop_fl, join_final_loop, join_final_step_fl_exact]
    cases join_final_step s h i with
    | none => rfl
    | some h1 => exact ih h1

theorem join_final_fl_exact (s : nj_t) :
    join_final_fl true (fun x => x) (fun x => x) s = join_final s := by
  unfold join_final_fl join_final
  by_cases h3 : s._row_size = 3
  · rw [if_neg (by simp [h3]), if_pos h3, join_final_loop_fl_exact]
  · rw [if_pos ⟨rfl, h3⟩, if_neg h3]

theorem join_pair_fl_exact (s : nj_t) :
    join_pair_fl (fun x => x) (fun x => x) s = join_pair s := rfl

theorem nj_loop_fl_exact :
    ∀ (fuel : Nat) (s : nj_t),
      nj_loop_fl (fun x => x) (fun x => x) fuel s = nj_loop fuel s := by
  intro fuel
  induction fuel with
  | zero => intro s; rfl
  | succ f ih =>
    intro s
    rw [nj_loop_fl, nj_loop, join_pair_fl_exact]
    by_cases h : s._row_size > 3
    · rw [if_pos h, if_pos h]
      cases join_pair s with
      | none => rfl
      | some s1 => exact ih s1
    · rw [if_neg h, if_neg h]

/-- With the identity as rounding and `DEBUG` defined, `nj_fl` is `nj`. -/
theorem nj_fl_exact (dists : List ℚ) (labels : List String) :
    nj_fl true (fun x => x) (fun x => x) dists labels = nj dists labels := by
  unfold nj_fl nj nj_run_fl nj_run
  cases nj_init dists labels with
  | none => rfl
  | some s0 =>
    simp only []
    rw [nj_loop_fl_exact]
    cases nj_loop s0._row_size s0 with
    | none => rfl
    | some s1 =>
      simp only []
      rw [join_final_fl_exact]

theorem final_weight_fl_three (rf rd : ℚ → ℚ) (s : nj_t) (h3 : s._row_size = 3) (x : Nat) :
    final_weight_fl rf rd s x
      = rd (rf (rf (s.D x ((x + 1) % 3) + s.D x ((x + 2) % 3))
          - s.D ((x + 1) % 3) ((x + 2) % 3)) * (1 / 2 : ℚ)) := by
  unfold final_weight_fl
  rw [h3]

theorem join_final_run_fl (debug : Bool) (rf rd : ℚ → ℚ) (s : nj_t) (p0 p1 p2 : Nat)
    (h3 : s._row_size = 3)
    (ht : s._tree = [p0, p1, p2]) (hl0 : p0 < s.heap.length) (hl1 : p1 < s.heap.length)
    (hl2 : p2 < s.heap.length) :
    join_final_fl debug rf rd s
      = some ⟨s._dists, s._tree, s._row_size, s._r_vec, s._q_vec, s._i, s._j,
      upd (upd (upd s.heap p0 (fun x => { x with _weight := final_weight_fl rf rd s 0 }))
        p1 (fun x => { x with _weight := final_weight_fl rf rd s 1 }))
        p2 (fun x => { x with _weight := final_weight_fl rf rd s 2 })⟩ := by
  have e0 : join_final_step_fl rf rd s s.heap 0
      = some (upd s.heap p0 (fun x => { x with _weight := final_weight_fl rf rd s 0 })) := by
    unfold join_final_step_fl
    simp only [ht, List.getElem?_cons_zero]
    rw [store_eq_upd _ hl0]
    rfl
  have e1 : join_final_step_fl rf rd s
        (upd s.heap p0 (fun x => { x with _weight := final_weight_fl rf rd s 0 })) 1
      = some (upd (upd s.heap p0 (fun x => { x with _weight := final_weight_fl rf rd s 0 }))
          p1 (fun x => { x with _weight := final_weight_fl rf rd s 1 })) := by
    unfold join_final_step_fl
    simp only [ht, List.getElem?_cons_succ, List.getElem?_cons_zero]
    rw [store_eq_upd _ (by simpa using hl1)]
    rfl
  have e2 : join_final_step_fl rf rd s (upd (upd s.heap p0
        (fun x => { x with _weight := final_weight_fl rf rd s 0 }))
        p1 (fun x => { x with _weight := final_weight_fl rf rd s 1 })) 2
      = some (upd (upd (upd s.heap p0
            (fun x => { x with _weight := final_weight_fl rf rd s 0 }))
          p1 (fun x => { x with _weight := final_weight_fl rf rd s 1 }))
          p2 (fun x => { x with _weight := final_weight_fl rf rd s 2 })) := by
    unfold join_final_step_fl
    simp only [ht, List.getElem?_cons_succ, List.getElem?_cons_zero]
    rw [store_eq_upd _ (by simpa using hl2)]
    rfl
  unfold join_final_fl
  rw [if_neg (by simp [h3]), h3]
  have hr : List.range 3 = [0, 1, 2] := rfl
  rw [hr]
  simp only [join_final_loop_fl, e0, e1, e2]

/-- The heap after `join_final`, operations rounded: the three clusters carry the weights of
the final join, every other field and every other node is as before. -/
theorem join_final_heap_fl (debug : Bool) (rf rd : ℚ → ℚ) (s : nj_t) (h3 : s._row_size = 3)
    (hlen : s._tree.length = 3) (hnd : s._tree.Nodup)
    (hlt : ∀ p ∈ s._tree, p < s.heap.length) :
    ∃ s1, join_final_fl debug rf rd s = some s1 ∧ s1._dists = s._dists ∧
      s1._tree = s._tree ∧ s1._row_size = 3 ∧ s1.heap.length = s.heap.length ∧
      (∀ x, x < 3 →
        (node_at s1.heap (s._tree.getD x 0))._weight = final_weight_fl rf rd s x) ∧
      (∀ k, k ∉ s._tree → s1.heap[k]? = s.heap[k]?) ∧
      (∀ k, (node_at s1.heap k).unweighted = (node_at s.heap k).unweighted) := by
  obtain ⟨p0, p1, p2, ht⟩ : ∃ p0 p1 p2, s._tree = [p0, p1, p2] := by
    match hs : s._tree, hlen with
    | [a, b, c], _ => exact ⟨a, b, c, rfl⟩
  rw [ht] at hnd hlt
  simp only [List.nodup_cons, List.mem_cons, List.mem_singleton, List.not_mem_nil, not_or,
    not_false_eq_true, List.nodup_nil, and_true] at hnd
  obtain ⟨⟨h01, h02⟩, h12⟩ := hnd
  have hl0 := hlt p0 (by simp)
  have hl1 := hlt p1 (by simp)
  have hl2 := hlt p2 (by simp)
  refine ⟨_, join_final_run_fl debug rf rd s p0 p1 p2 h3 ht hl0 hl1 hl2, rfl, rfl, h3,
    by simp, ?_, ?_, ?_⟩
  · intro x hx
    simp only [ht]
    interval_cases x
    · simp [node_at_upd, hl0, hl1, hl2, h01, h02]
    · simp [node_at_upd, hl0, hl1, hl2, h12]
    · simp [node_at_upd, hl0, hl1, hl2]
  · intro k hk
    rw [ht] at hk
    simp only [List.mem_cons, List.mem_singleton, List.not_mem_nil, or_false, not_or] at hk
    simp only []
    rw [getElem?_upd_ne _ hk.2.2, getElem?_upd_ne _ hk.2.1, getElem?_upd_ne _ hk.1]
  · intro k
    simp only []
    rw [unweighted_upd, unweighted_upd, unweighted_upd]

theorem calc_distance_fl_three_leaves (rnd : ℚ → ℚ) (l0 l1 l2 : String) (w0 w1 w2 : ℚ) :
    ∀ x y, x < 3 → y < 3 →
      calc_distance_fl rnd ⟨[⟨l0, w0, none, none, none, false⟩,
        ⟨l1, w1, none, none, none, false⟩, ⟨l2, w2, none, none, none, false⟩], [0, 1, 2], 3⟩ x y
      = some (if x = y then 0
          else rnd (rnd (0 + [w0, w1, w2].getD x 0) + rnd (0 + [w0, w1, w2].getD y 0))) := by
  intro x y hx hy
  have e : ∀ (a b : Option Nat), [a, b][1] = b := fun _ _ => rfl
  interval_cases x <;> interval_cases y <;>
    simp [calc_distance_fl, get_parents_of, parents_walk, diverge_walk, parent_distance_fl, e]

/-- The tree `nj_t` emits for three leaves, operations rounded: no pair is joined, the three
leaves get the weights of the final join and are the unroot set. -/
theorem nj_three_fl (debug : Bool) (rf rd : ℚ → ℚ) {dists : List ℚ} {labels : List String}
    {s : nj_t} (hinit : nj_init dists labels = some s) (h3 : s._row_size = 3) :
    ∃ l0 l1 l2, labels[0]? = some l0 ∧ labels[1]? = some l1 ∧ labels[2]? = some l2 ∧
      nj_fl debug rf rd dists labels
        = some ⟨[⟨l0, final_weight_fl rf rd s 0, none, none, none, false⟩,
        ⟨l1, final_weight_fl rf rd s 1, none, none, none, false⟩,
        ⟨l2, final_weight_fl rf rd s 2, none, none, none, false⟩], [0, 1, 2], 3⟩ := by
  obtain ⟨l0, l1, l2, h0, h1, h2, hs⟩ := nj_init_three hinit h3
  refine ⟨l0, l1, l2, h0, h1, h2, ?_⟩
  have hlen : s.heap.length = 3 := by rw [hs]; rfl
  have hrun := join_final_run_fl debug rf rd s 0 1 2 h3 (by rw [hs]) (by omega) (by omega)
    (by omega)
  unfold nj_fl nj_run_fl
  rw [hinit]
  simp only []
  rw [nj_loop_fl_small rf rd _ _ (by omega)]
  simp only []
  rw [hrun]
  simp only []
  have hheap : upd (upd (upd s.heap 0
        (fun x => { x with _weight := final_weight_fl rf rd s 0 }))
        1 (fun x => { x with _weight := final_weight_fl rf rd s 1 }))
        2 (fun x => { x with _weight := final_weight_fl rf rd s 2 })
      = [⟨l0, final_weight_fl rf rd s 0, none, none, none, false⟩,
        ⟨l1, final_weight_fl rf rd s 1, none, none, none, false⟩,
        ⟨l2, final_weight_fl rf rd s 2, none, none, none, false⟩] := by
    generalize final_weight_fl rf rd s 0 = w0
    generalize final_weight_fl rf rd s 1 = w1
    generalize final_weight_fl rf rd s 2 = w2
    rw [hs]
    rfl
  have htree : s._tree = [0, 1, 2] := by rw [hs]
  rw [hheap, htree]
  exact make_flat_tree_three_leaves _ _ _ _ _ _

theorem final_weight_sum (s : nj_t) (h3 : s._row_size = 3) (hsym : s.symmetric) :
    ∀ x y, x < 3 → y < 3 → x ≠ y → final_weight s x + final_weight s y = s.D x y := by
  have h01 : s.D 0 1 = s.D 1 0 := hsym 0 (by omega) 1 (by omega)
  have h02 : s.D 0 2 = s.D 2 0 := hsym 0 (by omega) 2 (by omega)
  have h12 : s.D 1 2 = s.D 2 1 := hsym 1 (by omega) 2 (by omega)
  intro x y hx hy hxy
  interval_cases x <;> interval_cases y <;>
    first
    | exact absurd rfl hxy
    | (simp only [final_weight, Nat.reduceAdd, Nat.reduceMod]; linarith)

/-- When no operation of the final join rounds, the rounded weight is the exact one. -/
theorem final_weight_fl_of_exact (rf rd : ℚ → ℚ) (s : nj_t) (h3 : s._row_size = 3)
    (hex : final_join_exact rf rd s) (x : Nat) (hx : x < 3) :
    final_weight_fl rf rd s x = final_weight s x := by
  obtain ⟨e1, e2, e3, -⟩ := hex x hx
  rw [final_weight_fl_three rf rd s h3, e1, e2]
  have : (s.D x ((x + 1) % 3) + s.D x ((x + 2) % 3) - s.D ((x + 1) % 3) ((x + 2) % 3))
      * (1 / 2 : ℚ) = final_weight s x := by
    unfold final_weight
    ring
  rw [this, e3]

end Gstar

namespace Gstar

/-! ## The constructor of `nj_t` on fewer than three leaves -/

theorem join_final_loop_fl_ok (rf rd : ℚ → ℚ) (s : nj_t) :
    ∀ (idxs : List Nat) (h : List node_t),
      (∀ i ∈ idxs, ∃ p, s._tree[i]? = some p ∧ p < h.length) →
      ∃ h1, join_final_loop_fl rf rd s idxs h = some h1 ∧ KidsLe h h1 ∧
        h1.map node_t.key = h.map node_t.key ∧ h1.length = h.length := by
  intro idxs
  induction idxs with
  | nil => intro h _; exact ⟨h, rfl, KidsLe.refl h, rfl, rfl⟩
  | cons i rest ih =>
    intro h hb
    obtain ⟨p, hp, hlt⟩ := hb i (by simp)
    have hstep : ∃ w : ℚ, join_final_step_fl rf rd s h i
        = some (upd h p (fun x => { x with _weight := w })) := by
      unfold join_final_step_fl
      simp only [hp]
      rw [store_eq_upd _ hlt]
      exact ⟨_, rfl⟩
    obtain ⟨w, hw⟩ := hstep
    obtain ⟨h1, hrun, hk, hkey, hlen⟩ := ih (upd h p (fun x => { x with _weight := w }))
      (fun x hx => by
        obtain ⟨q, hq, hql⟩ := hb x (by simp [hx])
        exact ⟨q, hq, by simpa using hql⟩)
    refine ⟨h1, ?_, ?_, ?_, ?_⟩
    · rw [join_final_loop_fl, hw]; exact hrun
    · have h0 : KidsLe h (upd h p (fun x => { x with _weight := w })) :=
        KidsLe.upd h p (fun _ => rfl)
      exact h0.trans hk
    · rw [hkey]
      have h0 : (upd h p (fun x => { x with _weight := w })).map node_t.key
          = h.map node_t.key := map_key_upd h p (fun _ => rfl)
      exact h0
    · rw [hlen, length_upd]

/-- Without `DEBUG` the function `join_final` returns on every state that satisfies the
invariant of the constructor, whatever the row size, and keeps the invariant. -/
theorem join_final_fl_inv (rf rd : ℚ → ℚ) (labels : List String) (k : Nat) (s : nj_t)
    (hinv : NJInv labels k s) :
    ∃ s1, join_final_fl false rf rd s = some s1 ∧ NJInv labels k s1 ∧
      s1._row_size = s._row_size := by
  obtain ⟨hlen, hk, ⟨F, hroots, hrep, hperm⟩, hkeys⟩ := hinv
  obtain ⟨h1, hrun, hkids, hkey, hl⟩ := join_final_loop_fl_ok rf rd s
    (List.range s._row_size) s.heap
    (fun i hi => by
      have hi' : i < F.length := by
        have := List.mem_range.1 hi
        rw [← hlen, ← hroots, List.length_map] at this
        exact this
      refine ⟨F[i].root, ?_, root_lt_of_forest hperm (List.getElem_mem hi')⟩
      rw [← hroots, List.getElem?_map, List.getElem?_eq_getElem hi']
      rfl)
  refine ⟨{ s with heap := h1 }, ?_, ⟨hlen, hk, ⟨F, hroots, ?_, ?_⟩, ?_⟩, rfl⟩
  · unfold join_final_fl
    rw [if_neg (by simp), hrun]
  · intro x hx
    exact Shape.RepC.of_kidsLe hkids (hrep x hx)
  · show (F.flatMap Shape.addrs).Perm (List.range h1.length)
    rw [hl]; exact hperm
  · show h1.map node_t.key = _
    rw [hkey]; exact hkeys

/-- With fewer than three rows: the build with `DEBUG` stops at the assertion of `join_final`;
the build without it joins nothing, runs the loop of `join_final` over the rows there are and
emits a tree whose unroot set are the leaves. -/
theorem nj_fl_small (rf rd : ℚ → ℚ) (dists : List ℚ) (labels : List String) (n : Nat)
    (hsq : Nat.sqrt dists.length = n) (hl : labels.length = n) (hn : n < 3) :
    nj_fl true rf rd dists labels = none ∧
    ∃ t, nj_fl false rf rd dists labels = some t ∧ t._unroot.length = n ∧ t._size = n ∧
      t._tree.length = n ∧ (leaf_labels t).Perm labels ∧
      ∀ m ∈ t._tree, m._children = false := by
  obtain ⟨s0, hinit, hrow0, hinv0⟩ := nj_init_inv_sqrt dists labels n hsq hl
  have hloop : nj_loop_fl rf rd s0._row_size s0 = some s0 :=
    nj_loop_fl_small rf rd _ _ (by omega)
  constructor
  · unfold nj_fl nj_run_fl
    rw [hinit]
    simp only []
    rw [hloop]
    simp only []
    unfold join_final_fl
    rw [if_pos ⟨rfl, by omega⟩]
  · obtain ⟨s2, hfin, hinv2, hrow2⟩ := join_final_fl_inv rf rd labels 0 s0 hinv0
    obtain ⟨hlen2, -, ⟨F, hroots, hrep, hperm⟩, hkeys⟩ := hinv2
    obtain ⟨t, hrun, hwf, hsize, htl, hur, hkp, -⟩ :=
      make_flat_tree_summary s2.heap F hrep hperm
    have hFlen : F.length = n := by
      have := congrArg List.length hroots
      rw [List.length_map, hlen2, hrow2, hrow0] at this
      exact this
    have hheap : s2.heap.length = n := by
      have := congrArg List.length hkeys
      simp only [List.length_map, List.length_append, List.length_replicate] at this
      rw [this, hl]; omega
    refine ⟨t, ?_, ?_, ?_, ?_, ?_, ?_⟩
    · unfold nj_fl nj_run_fl
      rw [hinit]
      simp only []
      rw [hloop]
      simp only []
      rw [hfin]
      simp only []
      rw [← hroots]
      exact hrun
    · rw [hur, List.length_range, hFlen]
    · rw [hsize, hheap]
    · rw [htl, hheap]
    · have := leaf_labels_perm (htl.trans hsize.symm) hkp
      rw [hkeys, leaves_of_nj_keys] at this
      exact this
    · intro m hm
      have hmem : m.key ∈ t._tree.map node_t.key := List.mem_map_of_mem _ hm
      have := hkp.mem_iff.1 hmem
      rw [hkeys] at this
      simp only [List.replicate_zero, List.append_nil, List.mem_map] at this
      obtain ⟨l, -, e⟩ := this
      have : m._children = false := by
        have := congrArg Prod.fst e
        simpa [node_t.key] using this.symm
      exact this

end Gstar

namespace Gstar

/-! ## The loop of the constructor with rounded operations -/

theorem find_pair_fl_tree (rf : ℚ → ℚ) (s : nj_t) : (find_pair_fl rf s)._tree = s._tree := rfl

theorem find_pair_fl_heap (rf : ℚ → ℚ) (s : nj_t) : (find_pair_fl rf s).heap = s.heap := rfl

theorem find_pair_fl_valid (rf : ℚ → ℚ) (s : nj_t) (hn : 2 ≤ s._row_size) :
    (find_pair_fl rf s)._i ≠ (find_pair_fl rf s)._j ∧ (find_pair_fl rf s)._i < s._row_size ∧
      (find_pair_fl rf s)._j < s._row_size := by
  have h := find_pair_scan_mem (compute_q_fl rf s)._q_vec s._row_size
  have hij : ((find_pair_fl rf s)._i, (find_pair_fl rf s)._j)
      = find_pair_scan (compute_q_fl rf s)._q_vec s._row_size := rfl
  rw [← hij] at h
  rcases h with h | h
  · simp only [Prod.mk.injEq] at h
    rw [h.1, h.2]
    exact ⟨by decide, by omega, by omega⟩
  · have := mem_scan_pairs.1 h
    simp only at this
    exact ⟨by omega, by omega, by omega⟩

theorem join_pair_fl_eq (rf rd : ℚ → ℚ) (s0 : nj_t) (tmp_tree : List Nat) (ti tj : Nat)
    (hc : join_collect s0._tree (find_pair_fl rf s0)._i (find_pair_fl rf s0)._j
      (List.range s0._row_size) [] = some tmp_tree)
    (hi : s0._tree[(find_pair_fl rf s0)._i]? = some ti)
    (hj : s0._tree[(find_pair_fl rf s0)._j]? = some tj)
    (hti : ti < s0.heap.length) (htj : tj < s0.heap.length) :
    ∃ (s1 : nj_t) (lw rw : ℚ), join_pair_fl rf rd s0 = some s1 ∧ s1._tree = tmp_tree ++ [s0.heap.length] ∧
      s1._row_size = s0._row_size - 1 ∧
      s1.heap = upd (upd (upd (upd
        (s0.heap ++ [{ node_t.fresh with _lchild := some ti, _rchild := some tj,
                                         _children := true }])
        ti (fun x => { x with _parent := some s0.heap.length }))
        tj (fun x => { x with _parent := some s0.heap.length }))
        ti (fun x => { x with _weight := lw }))
        tj (fun x => { x with _weight := rw }) := by
  have hrs : (find_pair_fl rf s0)._row_size = s0._row_size := rfl
  unfold join_pair_fl
  simp only [find_pair_fl_tree, find_pair_fl_heap, hrs, hc, hi, hj]
  rw [store_eq_upd _ (by simp; omega)]
  simp only []
  rw [store_eq_upd _ (by simp; omega)]
  simp only []
  rw [store_eq_upd _ (by simp; omega)]
  simp only []
  rw [store_eq_upd _ (by simp; omega)]
  exact ⟨_, _, _, rfl, rfl, rfl, rfl⟩

/-- One call of `join_pair` keeps the invariant of the constructor loop and removes one
cluster. -/
theorem join_pair_fl_step (rf rd : ℚ → ℚ) (labels : List String) (k : Nat) (s : nj_t) (hinv : NJInv labels k s)
    (hn : 2 ≤ s._row_size) :
    ∃ s1, join_pair_fl rf rd s = some s1 ∧ NJInv labels (k + 1) s1 ∧
      s1._row_size = s._row_size - 1 := by
  obtain ⟨hlen, hk, ⟨F, hroots, hrep, hperm⟩, hkeys⟩ := hinv
  obtain ⟨hij, hi, hj⟩ := find_pair_fl_valid rf s hn
  have hFlen : F.length = s._row_size := by
    rw [← hlen, ← hroots, List.length_map]
  have hi' : (find_pair_fl rf s)._i < F.length := by omega
  have hj' : (find_pair_fl rf s)._j < F.length := by omega
  have hsi : F[(find_pair_fl rf s)._i]? = some F[(find_pair_fl rf s)._i] := List.getElem?_eq_getElem hi'
  have hsj : F[(find_pair_fl rf s)._j]? = some F[(find_pair_fl rf s)._j] := List.getElem?_eq_getElem hj'
  generalize F[(find_pair_fl rf s)._i] = si at hsi
  generalize F[(find_pair_fl rf s)._j] = sj at hsj
  have hsiF : si ∈ F := List.mem_iff_getElem?.2 ⟨_, hsi⟩
  have hsjF : sj ∈ F := List.mem_iff_getElem?.2 ⟨_, hsj⟩
  have hti := root_lt_of_forest hperm hsiF
  have htj := root_lt_of_forest hperm hsjF
  have hc := join_collect_eq s._tree (find_pair_fl rf s)._i (find_pair_fl rf s)._j
    (List.range s._row_size) [] (fun x hx => by rw [hlen]; exact List.mem_range.1 hx)
  have hgi : s._tree[(find_pair_fl rf s)._i]? = some si.root := by
    rw [← hroots, List.getElem?_map, hsi]; rfl
  have hgj : s._tree[(find_pair_fl rf s)._j]? = some sj.root := by
    rw [← hroots, List.getElem?_map, hsj]; rfl
  obtain ⟨s1, lw, rw_, hrun, htree, hrow, hheap⟩ :=
    join_pair_fl_eq rf rd s _ si.root sj.root hc hgi hgj hti htj
  refine ⟨s1, hrun, ⟨?_, ?_, ⟨((List.range F.length).filter (keeps (find_pair_fl rf s)._i
    (find_pair_fl rf s)._j)).map (fun x => F.getD x (Shape.leaf 0))
      ++ [Shape.node s.heap.length si sj], ?_, ?_, ?_⟩, ?_⟩, hrow⟩
  · have hp := (perm_remove_two s._row_size _ _ hij hi hj).length_eq
    simp only [List.length_append, List.length_range, List.length_cons, List.length_nil] at hp
    rw [htree, hrow]
    simp only [List.nil_append, List.length_append, List.length_map, List.length_singleton]
    omega
  · rw [hrow]; omega
  · rw [htree, List.map_append, List.map_map]
    simp only [List.nil_append, List.map_cons, List.map_nil, Shape.root_node]
    rw [← hroots, hFlen]
    congr 1
    have := forest_join_roots F (find_pair_fl rf s)._i (find_pair_fl rf s)._j
    rw [hFlen] at this
    exact this
  · have hfk : ∀ (p : Option Nat) (n : node_t), ({ n with _parent := p } : node_t).kids = n.kids :=
      fun _ _ => rfl
    have hfw : ∀ (w : ℚ) (n : node_t), ({ n with _weight := w } : node_t).kids = n.kids :=
      fun _ _ => rfl
    have hK : KidsLe (s.heap ++ [⟨"", 0, some si.root, some sj.root, none, true⟩])
        s1.heap := by
      rw [hheap]
      exact (((KidsLe.upd _ _ (hfk _)).trans (KidsLe.upd _ _ (hfk _))).trans
        (KidsLe.upd _ _ (hfw _))).trans (KidsLe.upd _ _ (hfw _))
    have hK0 : KidsLe s.heap s1.heap := (KidsLe.append _ _).trans hK
    intro x hx
    rcases List.mem_append.1 hx with hx | hx
    · exact Shape.RepC.of_kidsLe hK0 (hrep x (forest_join_mem F _ _ x hx))
    · rw [List.mem_singleton] at hx
      subst hx
      refine ⟨?_, Shape.RepC.of_kidsLe hK0 (hrep si hsiF),
        Shape.RepC.of_kidsLe hK0 (hrep sj hsjF)⟩
      obtain ⟨n', hn', e⟩ := hK s.heap.length
        ⟨"", 0, some si.root, some sj.root, none, true⟩ (by simp)
      simp only [node_t.kids, Prod.mk.injEq] at e
      exact ⟨n', hn', e.1, e.2.1, e.2.2⟩
  · have hp := forest_join_perm F (find_pair_fl rf s)._i (find_pair_fl rf s)._j s.heap.length si sj
      hsi hsj hij
    refine hp.trans ?_
    rw [hheap]
    simp only [length_upd, List.length_append, List.length_singleton, List.range_succ]
    exact hperm.append_right _
  · have hkp : ∀ (p : Option Nat) (h : List node_t) (a : Nat),
        (upd h a (fun x => { x with _parent := p })).map node_t.key = h.map node_t.key :=
      fun p h a => map_key_upd h a (fun _ => rfl)
    have hkw : ∀ (w : ℚ) (h : List node_t) (a : Nat),
        (upd h a (fun x => { x with _weight := w })).map node_t.key = h.map node_t.key :=
      fun w h a => map_key_upd h a (fun _ => rfl)
    rw [hheap, hkw, hkw, hkp, hkp, List.map_append, hkeys, List.replicate_succ',
      List.append_assoc]
    rfl


/-- The loop of the constructor, operations rounded: from a state with at least three rows
that satisfies the invariant it ends with three rows and the invariant. -/
theorem nj_loop_fl_inv (rf rd : ℚ → ℚ) (labels : List String) :
    ∀ (fuel k : Nat) (s : nj_t), NJInv labels k s → 3 ≤ s._row_size →
      s._row_size - 3 ≤ fuel →
      ∃ s1, nj_loop_fl rf rd fuel s = some s1 ∧ NJInv labels (k + (s._row_size - 3)) s1 ∧
        s1._row_size = 3 := by
  intro fuel
  induction fuel with
  | zero =>
    intro k s hinv h3 hf
    have e : s._row_size - 3 = 0 := by omega
    refine ⟨s, ?_, by rw [e]; exact hinv, by omega⟩
    rw [nj_loop_fl, if_neg (by omega)]
  | succ fuel ih =>
    intro k s hinv h3 hf
    by_cases hgt : s._row_size > 3
    · obtain ⟨s1, hrun, hinv1, hrow1⟩ := join_pair_fl_step rf rd labels k s hinv (by omega)
      obtain ⟨s2, hrun2, hinv2, hrow2⟩ := ih (k + 1) s1 hinv1 (by omega) (by omega)
      refine ⟨s2, ?_, ?_, hrow2⟩
      · rw [nj_loop_fl, if_pos hgt, hrun]
        exact hrun2
      · have e : k + (s._row_size - 3) = k + 1 + (s1._row_size - 3) := by omega
        rw [e]
        exact hinv2
    · have e : s._row_size - 3 = 0 := by omega
      refine ⟨s, ?_, by rw [e]; exact hinv, by omega⟩
      rw [nj_loop_fl, if_neg hgt]

theorem join_final_fl_three (debug : Bool) (rf rd : ℚ → ℚ) (s : nj_t)
    (h3 : s._row_size = 3) :
    join_final_fl debug rf rd s = join_final_fl false rf rd s := by
  unfold join_final_fl
  rw [if_neg (by simp [h3]), if_neg (by simp)]

/-- With at least three rows the constructor runs to its end in both builds, whatever the
rounding, and emits an unrooted tree over the given labels. -/
theorem nj_fl_of_init (debug : Bool) (rf rd : ℚ → ℚ) (dists : List ℚ)
    (labels : List String) (n : Nat) (hsq : Nat.sqrt dists.length = n)
    (hl : labels.length = n) (hn : 3 ≤ n) :
    ∃ t, nj_fl debug rf rd dists labels = some t ∧ t._unroot.length = 3 ∧
      t._size = 2 * n - 3 ∧ t._tree.length = 2 * n - 3 ∧ (leaf_labels t).Perm labels := by
  obtain ⟨s0, hinit, hrow0, hinv0⟩ := nj_init_inv_sqrt dists labels n hsq hl
  obtain ⟨s1, hloop, hinv1, hrow1⟩ := nj_loop_fl_inv rf rd labels s0._row_size 0 s0 hinv0
    (by omega) (by omega)
  obtain ⟨s2, hfin, hinv2, hrow2⟩ := join_final_fl_inv rf rd labels _ s1 hinv1
  rw [← join_final_fl_three debug rf rd s1 hrow1] at hfin
  obtain ⟨hlen2, -, ⟨F, hroots, hrep, hperm⟩, hkeys⟩ := hinv2
  obtain ⟨t, hrun, hwf, hsize, htl, hur, hkp, -⟩ := make_flat_tree_summary s2.heap F hrep hperm
  have hFlen : F.length = 3 := by
    have := congrArg List.length hroots
    rw [List.length_map, hlen2, hrow2, hrow1] at this
    exact this
  have hheap : s2.heap.length = 2 * n - 3 := by
    have := congrArg List.length hkeys
    simp only [List.length_map, List.length_append, List.length_replicate] at this
    rw [this, hl, hrow0]; omega
  refine ⟨t, ?_, ?_, ?_, ?_, ?_⟩
  · unfold nj_fl nj_run_fl
    rw [hinit]
    simp only []
    rw [hloop]
    simp only []
    rw [hfin]
    simp only []
    rw [← hroots]
    exact hrun
  · rw [hur, List.length_range, hFlen]
  · rw [hsize, hheap]
  · rw [htl, hheap]
  · have := leaf_labels_perm (htl.trans hsize.symm) hkp
    rw [hkeys, leaves_of_nj_keys] at this
    exact this

end Gstar

namespace Gstar

/-! ## `set_outgroup` in the two builds, and the state of the tree when a run is aborted -/

theorem make_unrooted_build_eq (debug : Bool) (t : tree_t) (hr : t.is_rooted = true)
    (hsz : 2 < t._size) : make_unrooted_build debug t = make_unrooted t := by
  unfold make_unrooted_build make_unrooted
  have hc : t.is_rooted = true ∧ t._size > 2 := ⟨hr, hsz⟩
  rw [if_neg (fun h => h.2 hc), if_pos hc]

theorem make_unrooted_build_debug (t : tree_t) :
    make_unrooted_build true t = make_unrooted t := by
  unfold make_unrooted_build make_unrooted
  by_cases hc : t.is_rooted = true ∧ t._size > 2
  · rw [if_neg (fun h => h.2 hc), if_pos hc]
  · rw [if_pos ⟨rfl, hc⟩, if_neg hc]

/-- The build with `DEBUG` of `set_outgroup` is `set_outgroup`. -/
theorem set_outgroup_build_debug (t : tree_t) (L : String) :
    set_outgroup_build true t L = set_outgroup t L := by
  unfold set_outgroup_build set_outgroup
  rw [make_unrooted_build_debug]
  by_cases hsz : t._size ≤ 2
  · rw [if_pos hsz, if_pos hsz]
  · rw [if_neg hsz, if_neg hsz]
    cases (if t.is_rooted = true then make_unrooted t else some t) with
    | none => rfl
    | some t1 =>
      simp only []
      by_cases h3 : t1._unroot.length = 3
      · rw [if_neg (fun h => h.2 h3), if_pos h3]
      · rw [if_pos ⟨trivial, h3⟩, if_neg h3]

/-- On a well-formed tree with at most 3 unroot members the two builds of `set_outgroup`
agree. -/
theorem set_outgroup_build_wf (debug : Bool) (t : tree_t) (L : String) (hwf : t.WF)
    (h3 : t._unroot.length ≤ 3) : set_outgroup_build debug t L = set_outgroup t L := by
  unfold set_outgroup_build set_outgroup
  by_cases hsz : t._size ≤ 2
  · rw [if_pos hsz, if_pos hsz]
  · rw [if_neg hsz, if_neg hsz]
    by_cases hr : t.is_rooted = true
    · simp only [hr, if_true]
      rw [make_unrooted_build_eq debug t hr (by omega)]
      rcases make_unrooted_forest t hwf hr (by omega) with ⟨t1, hrun, -, hl⟩ | ⟨hnone, -, -⟩
      · rw [hrun]
        simp only [hl, ne_eq, not_true_eq_false, and_false, if_false, if_true]
      · rw [hnone]
    · have hl : t._unroot.length = 3 := by
        simp only [tree_t.is_rooted, decide_eq_true_eq] at hr
        omega
      simp only [hr, Bool.false_eq_true, if_false, hl, ne_eq, not_true_eq_false, and_false,
        if_true]

/-- A label carried by no node: `set_outgroup` returns no tree in either build, on every tree
with more than 2 nodes. -/
theorem set_outgroup_build_absent (debug : Bool) (t : tree_t) (L : String)
    (habs : ∀ n ∈ t._tree, n._label ≠ L) (hsz : 2 < t._size) :
    set_outgroup_build debug t L = none := by
  have hns : ¬ t._size ≤ 2 := by omega
  have hfind : ∀ s : tree_t, (∀ n ∈ s._tree, n._label ≠ L) →
      find_outgroup L (s._tree.take s._size) 0 none = none := by
    intro s hs
    exact find_outgroup_absent L _ (fun m hm => hs m (List.mem_of_mem_take hm)) 0 none
  unfold set_outgroup_build
  rw [if_neg hns]
  by_cases hr : t.is_rooted = true
  · simp only [hr, if_true]
    rw [make_unrooted_build_eq debug t hr hsz]
    cases hm : make_unrooted t with
    | none => rfl
    | some t1 =>
      have habs1 : ∀ n ∈ t1._tree, n._label ≠ L := by
        intro n hn
        obtain ⟨x, hx, e⟩ := make_unrooted_labels hm n hn
        rw [← e]
        exact habs x hx
      simp only [hfind t1 habs1]
      split <;> rfl
  · simp only [hr, Bool.false_eq_true, if_false, hfind t habs]
    split <;> rfl

theorem unroot_loop_run_result (size : Nat) :
    ∀ (fuel : Nat) (h : List node_t) (ur : List Nat),
      (unroot_loop_run size fuel h ur).result
        = (unroot_loop fuel h ur).map (fun p => ⟨p.1, p.2, size⟩) := by
  intro fuel
  induction fuel with
  | zero =>
    intro h ur
    unfold unroot_loop_run unroot_loop
    by_cases e : ur.length ≠ 3
    · rw [if_pos e, if_pos e]; rfl
    · rw [if_neg e, if_neg e]; rfl
  | succ f ih =>
    intro h ur
    unfold unroot_loop_run unroot_loop
    by_cases e : ur.length ≠ 3
    · rw [if_pos e, if_pos e]
      cases first_internal h ur 0 with
      | none => rfl
      | some o =>
        cases o with
        | none => rfl
        | some p =>
          obtain ⟨tmp_n, idx⟩ := p
          simp only []
          cases h[tmp_n]? with
          | none => rfl
          | some n =>
            simp only []
            cases n._lchild with
            | none => rfl
            | some l =>
              cases n._rchild with
              | none => rfl
              | some r =>
                simp only []
                cases store h l (fun x => { x with _parent := none }) with
                | none => rfl
                | some h1 =>
                  simp only []
                  cases store h1 r (fun x => { x with _parent := none }) with
                  | none => rfl
                  | some h2 =>
                    simp only []
                    cases store h2 tmp_n (fun x =>
                        { x with _lchild := none, _rchild := none, _children := false }) with
                    | none => rfl
                    | some h3 => exact ih h3 _
    · rw [if_neg e, if_neg e]; rfl

theorem Outcome.result_some {o : Outcome} {t : tree_t} (h : o.result = some t) :
    o = Outcome.returned t := by
  cases o with
  | returned t1 =>
    simp only [Outcome.result, Option.some.injEq] at h
    rw [h]
  | aborted t1 => cases h
  | undefined => cases h

/-- The tree `make_unrooted` returns is the tree the run with `DEBUG` returns. -/
theorem make_unrooted_run_result (t : tree_t) :
    (make_unrooted_run t).result = make_unrooted t := by
  unfold make_unrooted_run make_unrooted
  by_cases hc : t.is_rooted = true ∧ t._size > 2
  · rw [if_pos hc, if_pos hc]
    have hres := unroot_loop_run_result t._size (t._size + 1) t._tree t._unroot
    cases hrun : unroot_loop_run t._size (t._size + 1) t._tree t._unroot with
    | returned t1 =>
      rw [hrun] at hres
      cases hl : unroot_loop (t._size + 1) t._tree t._unroot with
      | none => rw [hl] at hres; cases hres
      | some p =>
        rw [hl] at hres
        simp only [Outcome.result, Option.map_some', Option.some.injEq] at hres
        subst hres
        simp only []
        cases make_flat_tree p.1 p.2 <;> rfl
    | aborted t1 =>
      rw [hrun] at hres
      cases hl : unroot_loop (t._size + 1) t._tree t._unroot with
      | none => rfl
      | some p => rw [hl] at hres; cases hres
    | undefined =>
      rw [hrun] at hres
      cases hl : unroot_loop (t._size + 1) t._tree t._unroot with
      | none => rfl
      | some p => rw [hl] at hres; cases hres
  · rw [if_neg hc, if_neg hc]
    rfl

/-- The tree `set_outgroup` returns is the tree the run with `DEBUG` returns. -/
theorem set_outgroup_run_result (t : tree_t) (L : String) :
    (set_outgroup_run t L).result = set_outgroup t L := by
  unfold set_outgroup_run set_outgroup
  by_cases hsz : t._size ≤ 2
  · rw [if_pos hsz, if_pos hsz]
    rfl
  · rw [if_neg hsz, if_neg hsz]
    have hfin : ∀ t1 : tree_t,
        (if t1._unroot.length = 3 then
          match find_outgroup L (t1._tree.take t1._size) 0 none with
          | none => Outcome.aborted t1
          | some o =>
            match set_root t1 o with
            | none => Outcome.undefined
            | some t2 => Outcome.returned t2
        else Outcome.aborted t1).result
        = if t1._unroot.length = 3 then
            match find_outgroup L (t1._tree.take t1._size) 0 none with
            | none => none
            | some o => set_root t1 o
          else none := by
      intro t1
      by_cases h3 : t1._unroot.length = 3
      · rw [if_pos h3, if_pos h3]
        cases find_outgroup L (t1._tree.take t1._size) 0 none with
        | none => rfl
        | some o =>
          simp only []
          cases set_root t1 o <;> rfl
      · rw [if_neg h3, if_neg h3]
        rfl
    by_cases hr : t.is_rooted = true
    · simp only [hr, if_true]
      have hres := make_unrooted_run_result t
      cases hrun : make_unrooted_run t with
      | returned t1 =>
        rw [hrun] at hres
        simp only [Outcome.result] at hres
        rw [← hres]
        exact hfin t1
      | aborted t1 =>
        rw [hrun] at hres
        simp only [Outcome.result] at hres
        rw [← hres]
        rfl
      | undefined =>
        rw [hrun] at hres
        simp only [Outcome.result] at hres
        rw [← hres]
        rfl
    · simp only [hr, Bool.false_eq_true, if_false]
      exact hfin t

/-- On a tree that is not rooted a run of `set_outgroup` that is aborted leaves the tree as it
was. -/
theorem set_outgroup_run_unrooted (t : tree_t) (L : String) (hnr : t.is_rooted = false)
    (s : tree_t) (h : set_outgroup_run t L = Outcome.aborted s) : s = t := by
  unfold set_outgroup_run at h
  by_cases hsz : t._size ≤ 2
  · rw [if_pos hsz] at h
    cases h
  · rw [if_neg hsz] at h
    simp only [hnr, Bool.false_eq_true, if_false] at h
    by_cases h3 : t._unroot.length = 3
    · rw [if_pos h3] at h
      cases hf : find_outgroup L (t._tree.take t._size) 0 none with
      | none =>
        rw [hf] at h
        simp only [Outcome.aborted.injEq] at h
        exact h.symm
      | some o =>
        rw [hf] at h
        simp only [] at h
        cases hs : set_root t o with
        | none => rw [hs] at h; cases h
        | some t2 => rw [hs] at h; cases h
    · rw [if_neg h3] at h
      simp only [Outcome.aborted.injEq] at h
      exact h.symm

/-- A well-formed rooted tree with more than 2 nodes that has neither 2 unroot members nor
more than 3 nodes is a single root with 3 nodes. -/
theorem rooted_small (t : tree_t) (hwf : t.WF) (hr : t.is_rooted = true) (hsz : 2 < t._size)
    (hnok : ¬ (t._unroot.length = 2 ∨ 3 < t._size)) :
    t._unroot.length = 1 ∧ t._size = 3 := by
  obtain ⟨F, hF⟩ := hwf
  have hlen : F.length = t._unroot.length := by
    have := congrArg List.length hF.2.1
    simpa using this
  have hsize := hF.size_eq
  simp only [not_or, not_lt] at hnok
  have h0 : F.length ≠ 0 := by
    intro e
    have : F = [] := List.length_eq_zero.1 e
    rw [this] at hsize
    simp at hsize
    omega
  simp only [tree_t.is_rooted, decide_eq_true_eq] at hr
  omega

theorem shape_size_three {s : Shape} (h : s.size = 3) :
    ∃ a b c, s = Shape.node a (Shape.leaf b) (Shape.leaf c) := by
  cases s with
  | leaf a => simp [Shape.size] at h
  | node a l r =>
    have hl := l.size_pos
    have hr := r.size_pos
    simp only [Shape.size] at h
    have h1 : l.size = 1 := by omega
    have h2 : r.size = 1 := by omega
    cases l with
    | leaf b =>
      cases r with
      | leaf c => exact ⟨a, b, c, rfl⟩
      | node c r1 r2 =>
        have := r1.size_pos
        simp only [Shape.size] at h2
        omega
    | node b l1 l2 =>
      have := l1.size_pos
      simp only [Shape.size] at h1
      omega

/-- The run of `make_unrooted` with `DEBUG` on a well-formed tree that is a single root with
two leaf children: the root is expanded in place, and the run is aborted at the assertion
`tmp_n != nullptr` with two unroot members, the array not repacked. -/
theorem make_unrooted_run_three (t : tree_t) (hwf : t.WF) (h1 : t._unroot.length = 1)
    (hsz : t._size = 3) :
    ∃ s, make_unrooted_run t = Outcome.aborted s ∧ s._unroot.length = 2 ∧
      s._size = t._size ∧
      ∃ a n, t._unroot = [a] ∧ t._tree[a]? = some n ∧ n._children = true ∧
        s._unroot = [n._lchild.getD 0, n._rchild.getD 0] ∧
        (node_at s._tree a)._children = false := by
  obtain ⟨F, hF⟩ := hwf
  have hlen : F.length = 1 := by
    have := congrArg List.length hF.2.1
    simp only [List.length_map] at this
    omega
  obtain ⟨s0, rfl⟩ : ∃ s0, F = [s0] := by
    match F, hlen with
    | [s0], _ => exact ⟨s0, rfl⟩
  have hsize := hF.size_eq
  simp only [List.map_cons, List.map_nil, List.sum_cons, List.sum_nil, add_zero] at hsize
  obtain ⟨a, b, c, rfl⟩ := shape_size_three (hsize.symm.trans hsz)
  have hur : t._unroot = [a] := by simpa using hF.2.1.symm
  have hs : (Shape.node a (Shape.leaf b) (Shape.leaf c)).RepC t._tree :=
    (hF.2.2.1 _ (by simp)).repC
  have hnd : (Shape.node a (Shape.leaf b) (Shape.leaf c)).addrs.Nodup := by
    have := hF.nodup
    simpa using this
  simp only [Shape.addrs, List.nodup_cons, List.mem_append, not_or, List.nodup_append,
    List.mem_singleton, List.cons_append, List.nil_append, List.mem_cons, List.not_mem_nil,
    or_false] at hnd
  obtain ⟨n, hh1, hh2, hh3, hn, hl, hr, hs1, hs2, hs3, hkeep⟩ :=
    unroot_expand t._tree a (Shape.leaf b) (Shape.leaf c) hs
  have hb3 : (Shape.leaf b).RepC hh3 :=
    hkeep _ hs.2.1 (by simp only [Shape.addrs, List.mem_singleton]; exact hnd.1.1)
  have hc3 : (Shape.leaf c).RepC hh3 :=
    hkeep _ hs.2.2 (by simp only [Shape.addrs, List.mem_singleton]; exact hnd.1.2)
  have hcond : t.is_rooted = true ∧ t._size > 2 := by
    refine ⟨?_, by omega⟩
    simp [tree_t.is_rooted, h1]
  have hrun : unroot_loop_run t._size (t._size + 1) t._tree t._unroot
      = Outcome.aborted ⟨hh3, [b, c], t._size⟩ := by
    rw [hur, hsz]
    show unroot_loop_run 3 (2 + 1 + 1) t._tree [a] = _
    rw [unroot_loop_run]
    simp only [List.length_cons, List.length_nil]
    rw [if_pos (by decide), first_internal_node hs]
    simp only [hn, hl, hr, Shape.root_leaf] at hs1 hs2 ⊢
    simp only [hs1, hs2, hs3]
    rw [unroot_loop_run]
    simp only [List.eraseIdx_cons_zero, List.nil_append, List.length_cons, List.length_nil]
    rw [if_pos (by decide), first_internal_leaf hb3, first_internal_leaf hc3]
    rfl
  have ha3 : (node_at hh3 a)._children = false := by
    have hlt : a < hh2.length := by
      by_contra hge
      unfold store at hs3
      rw [List.getElem?_eq_none (by omega)] at hs3
      cases hs3
    rw [store_eq_upd _ hlt] at hs3
    cases hs3
    rw [node_at_upd _ _ _ _ hlt, if_pos rfl]
  refine ⟨⟨hh3, [b, c], t._size⟩, ?_, rfl, rfl, a, n, hur, hn, ?_, ?_, ha3⟩
  · unfold make_unrooted_run
    rw [if_pos hcond, hrun]
  · obtain ⟨n', hn', hc', -⟩ := hs.1
    rw [hn] at hn'
    cases hn'
    exact hc'
  · rw [hl, hr]
    rfl

end Gstar

namespace Gstar

/-! ## `sort` on a well-formed tree: the sorted tree is well-formed -/

theorem SwapLe.refl_swap (h : List node_t) : SwapLe h h :=
  ⟨rfl, fun _ n hn => ⟨n, hn, rfl, rfl, Or.inl ⟨rfl, rfl⟩⟩⟩

theorem SwapLe.trans_swap {h1 h2 h3 : List node_t} (a : SwapLe h1 h2) (b : SwapLe h2 h3) :
    SwapLe h1 h3 := by
  refine ⟨b.1.trans a.1, fun k n hn => ?_⟩
  obtain ⟨n2, hn2, p2, c2, k2⟩ := a.2 k n hn
  obtain ⟨n3, hn3, p3, c3, k3⟩ := b.2 k n2 hn2
  refine ⟨n3, hn3, p3.trans p2, c3.trans c2, ?_⟩
  rcases k2 with ⟨e1, e2⟩ | ⟨e1, e2⟩ <;> rcases k3 with ⟨f1, f2⟩ | ⟨f1, f2⟩
  · exact Or.inl ⟨f1.trans e1, f2.trans e2⟩
  · exact Or.inr ⟨f1.trans e2, f2.trans e1⟩
  · exact Or.inr ⟨f1.trans e1, f2.trans e2⟩
  · exact Or.inl ⟨f1.trans e2, f2.trans e1⟩

theorem SwapLe.set_swap {h : List node_t} {a : Nat} {n : node_t} (hn : h[a]? = some n) :
    SwapLe h (h.set a { n with _lchild := n._rchild, _rchild := n._lchild }) := by
  refine ⟨List.length_set _ _ _, fun k m hm => ?_⟩
  by_cases hk : a = k
  · subst hk
    rw [hn] at hm
    cases hm
    exact ⟨_, List.getElem?_set_self (List.getElem?_eq_some_iff.1 hn).1, rfl, rfl,
      Or.inr ⟨rfl, rfl⟩⟩
  · exact ⟨m, by rw [List.getElem?_set_ne hk]; exact hm, rfl, rfl, Or.inl ⟨rfl, rfl⟩⟩

/-- The function `node_t::sort` exchanges child pointers and changes nothing else in the
links. -/
theorem node_sort_swapLe :
    ∀ (fuel : Nat) (h : List node_t) (a : Nat) (h' : List node_t) (str : String),
      node_sort fuel h a = some (h', str) → SwapLe h h' := by
  intro fuel
  induction fuel with
  | zero => intro h a h' str hrun; cases hrun
  | succ f ih =>
    intro h a h' str hrun
    rw [node_sort] at hrun
    cases hn : h[a]? with
    | none => rw [hn] at hrun; cases hrun
    | some n =>
      rw [hn] at hrun
      simp only [] at hrun
      by_cases hc : n._children = true
      · rw [if_pos hc] at hrun
        cases hl : n._lchild with
        | none => rw [hl] at hrun; cases hrun
        | some l =>
          rw [hl] at hrun
          simp only [] at hrun
          cases e1 : node_sort f h l with
          | none => rw [e1] at hrun; cases hrun
          | some p1 =>
            obtain ⟨h1, ls⟩ := p1
            rw [e1] at hrun
            simp only [] at hrun
            cases hn1 : h1[a]? with
            | none => rw [hn1] at hrun; cases hrun
            | some n1 =>
              rw [hn1] at hrun
              simp only [] at hrun
              cases hr : n1._rchild with
              | none => rw [hr] at hrun; cases hrun
              | some r =>
                rw [hr] at hrun
                simp only [] at hrun
                cases e2 : node_sort f h1 r with
                | none => rw [e2] at hrun; cases hrun
                | some p2 =>
                  obtain ⟨h2, rs⟩ := p2
                  rw [e2] at hrun
                  simp only [] at hrun
                  cases hn2 : h2[a]? with
                  | none => rw [hn2] at hrun; cases hrun
                  | some n2 =>
                    rw [hn2] at hrun
                    simp only [] at hrun
                    have s12 := SwapLe.trans_swap (ih h l h1 ls e1) (ih h1 r h2 rs e2)
                    by_cases hlt : rs < ls
                    · simp only [hlt, if_true] at hrun
                      split at hrun <;>
                        (cases hrun; exact SwapLe.trans_swap s12 (SwapLe.set_swap hn2))
                    · simp only [hlt, if_false] at hrun
                      split at hrun <;> (cases hrun; exact s12)
      · rw [if_neg hc] at hrun
        cases hrun
        exact SwapLe.refl_swap h

theorem sort_members_swapLe (fuel : Nat) :
    ∀ (us : List Nat) (h h' : List node_t) (ss : List String),
      sort_members fuel us h = some (h', ss) → SwapLe h h' := by
  intro us
  induction us with
  | nil =>
    intro h h' ss hrun
    cases hrun
    exact SwapLe.refl_swap h
  | cons a rest ih =>
    intro h h' ss hrun
    rw [sort_members] at hrun
    cases e1 : node_sort fuel h a with
    | none => rw [e1] at hrun; cases hrun
    | some p1 =>
      obtain ⟨h1, s⟩ := p1
      rw [e1] at hrun
      simp only [] at hrun
      cases e2 : sort_members fuel rest h1 with
      | none => rw [e2] at hrun; cases hrun
      | some p2 =>
        obtain ⟨h2, ss2⟩ := p2
        rw [e2] at hrun
        have e3 : h2 = h' := (Prod.mk.inj (Option.some.inj hrun)).1
        rw [← e3]
        exact SwapLe.trans_swap (node_sort_swapLe fuel h a h1 s e1) (ih h1 h2 ss2 e2)

/-- In a realised tree the parent of a child is the node that points to it. -/
theorem Shape.Rep.child_parent {h : List node_t} :
    ∀ {s : Shape} {par : Option Nat}, s.Rep h par → ∀ a ∈ s.addrs, ∀ n, h[a]? = some n →
      ∀ x, (n._lchild = some x ∨ n._rchild = some x) →
        ∃ m, h[x]? = some m ∧ m._parent = some a := by
  intro s
  induction s with
  | leaf b =>
    intro par hs a ha n hn x hx
    simp only [Shape.addrs, List.mem_singleton] at ha
    subst ha
    obtain ⟨n', hn', hleaf, -⟩ := hs
    rw [hn] at hn'
    cases hn'
    obtain ⟨-, h1, h2⟩ := hleaf
    rcases hx with hx | hx
    · rw [h1] at hx; cases hx
    · rw [h2] at hx; cases hx
  | node b l r ihl ihr =>
    intro par hs a ha n hn x hx
    obtain ⟨⟨n', hn', hin, -⟩, hL, hR⟩ := hs
    simp only [Shape.addrs, List.mem_cons, List.mem_append] at ha
    rcases ha with rfl | ha | ha
    · rw [hn] at hn'
      cases hn'
      obtain ⟨-, h1, h2⟩ := hin
      rcases hx with hx | hx
      · rw [h1] at hx
        cases hx
        obtain ⟨m, hm, hp⟩ := hL.root_entry
        exact ⟨m, hm, hp⟩
      · rw [h2] at hx
        cases hx
        obtain ⟨m, hm, hp⟩ := hR.root_entry
        exact ⟨m, hm, hp⟩
    · exact ihl hL a ha n hn x hx
    · exact ihr hR a ha n hn x hx

/-- A shape realised by the child pointers of `h'` is realised by its parent pointers as
well, when `h'` is a heap `h` with child pointers exchanged and the nodes of the shape are
nodes of trees realised in `h`. -/
theorem Shape.Rep.of_swapLe {h h' : List node_t} (hsw : SwapLe h h') {F : List Shape}
    (hF : ∀ s ∈ F, s.Rep h none) :
    ∀ (s' : Shape) (p : Option Nat), s'.RepC h' →
      (∀ a ∈ s'.addrs, a ∈ F.flatMap Shape.addrs) →
      (∃ m, h'[s'.root]? = some m ∧ m._parent = p) → s'.Rep h' p := by
  have hkid : ∀ a ∈ F.flatMap Shape.addrs, ∀ n', h'[a]? = some n' → ∀ x,
      (n'._lchild = some x ∨ n'._rchild = some x) →
      ∃ m', h'[x]? = some m' ∧ m'._parent = some a := by
    intro a ha n' hn' x hx
    obtain ⟨s, hs, has⟩ := List.mem_flatMap.1 ha
    have hrep := hF s hs
    obtain ⟨n, hn⟩ : ∃ n, h[a]? = some n :=
      ⟨_, List.getElem?_eq_getElem (hrep.repC.addrs_lt a has)⟩
    obtain ⟨n2, hn2, -, -, hk⟩ := hsw.2 a n hn
    rw [hn'] at hn2
    cases hn2
    have hx' : n._lchild = some x ∨ n._rchild = some x := by
      rcases hk with ⟨e1, e2⟩ | ⟨e1, e2⟩
      · rw [← e1, ← e2]; exact hx
      · rw [← e1, ← e2]; exact hx.symm
    obtain ⟨m, hm, hp⟩ := hrep.child_parent a has n hn x hx'
    obtain ⟨m', hm', hp', -, -⟩ := hsw.2 x m hm
    exact ⟨m', hm', hp'.trans hp⟩
  intro s'
  induction s' with
  | leaf b =>
    intro p hrep _ hroot
    obtain ⟨n, hn, hleaf⟩ := hrep
    obtain ⟨m, hm, hp⟩ := hroot
    simp only [Shape.root] at hm
    rw [hn] at hm
    cases hm
    exact ⟨n, hn, hleaf, hp⟩
  | node b l r ihl ihr =>
    intro p hrep hsub hroot
    obtain ⟨⟨n, hn, hin⟩, hL, hR⟩ := hrep
    obtain ⟨m, hm, hp⟩ := hroot
    simp only [Shape.root] at hm
    rw [hn] at hm
    cases hm
    have hb : b ∈ F.flatMap Shape.addrs := hsub b (by simp [Shape.addrs])
    refine ⟨⟨n, hn, hin, hp⟩, ?_, ?_⟩
    · exact ihl (some b) hL (fun a ha => hsub a (by simp [Shape.addrs, ha]))
        (hkid b hb n hn l.root (Or.inl hin.2.1))
    · exact ihr (some b) hR (fun a ha => hsub a (by simp [Shape.addrs, ha]))
        (hkid b hb n hn r.root (Or.inr hin.2.2))

/-- The function `tree_t::sort` on a well-formed packed tree with at most three unroot
members and unlabelled internal nodes: it returns a well-formed tree of the same size, the
trees of its unroot members are the canonical trees of the members of the input, in the order
of the strings `node_t::sort` returned, and `to_string` writes them in that order. -/
theorem sort_forest (fmt : ℚ → String) {t : tree_t} {F : List Shape} (hF : t.Forest F)
    (h3 : F.length ≤ 3)
    (hint : ∀ n ∈ t._tree, n._children = true → n._label = "") :
    ∃ (t' : tree_t) (F' : List Shape), t.sort = some t' ∧ t'.Forest F' ∧
      t'._size = t._size ∧
      F'.map (Shape.abs t'._tree)
        = (net_sort F.length ((F.map (Shape.abs t._tree)).map LTree.key,
            (F.map (Shape.abs t._tree)).map LTree.canon)).2 ∧
      t'.to_string fmt
        = some (wrap_string F.length (comma_join
          ((net_sort F.length ((F.map (Shape.abs t._tree)).map LTree.key,
            (F.map (Shape.abs t._tree)).map LTree.canon)).2.map (LTree.str fmt)))) := by
  have hrep : ∀ s ∈ F, s.RepC t._tree := fun s hs => (hF.2.2.1 s hs).repC
  have hfuel : ∀ s ∈ F, s.size ≤ t._size + 1 := fun s hs =>
    Nat.le_succ_of_le (hF.1 ▸ size_le_length hrep hF.nodup hs)
  obtain ⟨h', F', e, rep', root', abs', size', -, -, permF⟩ :=
    sort_members_forest (t._size + 1) F t._tree hrep hF.nodup
      (fun a _ n hn => hint n (List.getElem?_mem hn)) hfuel
  have hsw : SwapLe t._tree h' := sort_members_swapLe _ _ _ _ _ e
  have hlen : t._unroot.length = F.length := by rw [← hF.2.1, List.length_map]
  have hlen' : F'.length = F.length := by
    have := congrArg List.length root'
    simpa using this
  have hk : F.map (fun s => (s.abs t._tree).key) = (F.map (Shape.abs t._tree)).map LTree.key := by
    rw [List.map_map]; rfl
  have hc : F.map (fun s => (s.abs t._tree).canon)
      = (F.map (Shape.abs t._tree)).map LTree.canon := by
    rw [List.map_map]; rfl
  have hkl : ((F.map (Shape.abs t._tree)).map LTree.key).length = F.length := by
    simp only [List.length_map]
  rw [hk] at e
  rw [hc] at abs'
  generalize (F.map (Shape.abs t._tree)).map LTree.key = ks at e hkl
  generalize (F.map (Shape.abs t._tree)).map LTree.canon = cs at abs'
  have hsort : t.sort
      = some ⟨h', (net_sort F.length (ks, F'.map Shape.root)).2, t._size⟩ := by
    unfold tree_t.sort
    rw [if_pos (by rw [hlen]; exact h3), hlen, ← hF.2.1, e, root']
    simp only [sort_swap_eq_net]
    rfl
  rw [net_sort_map Shape.root] at hsort
  have hsorted := net_sort_sorted ks F' (hkl.trans hlen'.symm) (by rw [hkl]; exact h3)
  rw [hkl] at hsorted
  have habs := net_sort_map (Shape.abs h') F.length ks F'
  rw [abs'] at habs
  generalize net_sort F.length (ks, F') = r at hsort hsorted habs
  obtain ⟨pr, -, lr⟩ := hsorted
  have hperm : r.2.Perm F' := by
    have := pr.map Prod.snd
    rwa [List.map_snd_zip _ _ (le_of_eq lr.symm),
      List.map_snd_zip _ _ (le_of_eq (hkl.trans hlen'.symm).symm)] at this
  have hbody := unroot_to_string_forest fmt h' (t._size + 1) r.2
    (fun x hx => rep' x (hperm.subset hx)) (fun x hx => size' x (hperm.subset hx))
  have hstr : r.2.map (Shape.str fmt h')
      = (net_sort F.length (ks, cs)).2.map (LTree.str fmt) := by
    rw [habs, List.map_map]
    exact List.map_congr_left (fun x _ => Shape.str_abs fmt h' x)
  rw [hstr] at hbody
  have hforest : tree_t.Forest ⟨h', r.2.map Shape.root, t._size⟩ r.2 := by
    refine ⟨hsw.1.trans hF.1, rfl, ?_, ?_⟩
    · intro s' hs'
      have hs'F : s' ∈ F' := hperm.subset hs'
      refine Shape.Rep.of_swapLe hsw hF.2.2.1 s' none (rep' s' hs'F) ?_ ?_
      · intro a ha
        exact permF.subset (List.mem_flatMap.2 ⟨s', hs'F, ha⟩)
      · have hroot : s'.root ∈ F.map Shape.root := by
          rw [← root']
          exact List.mem_map_of_mem _ hs'F
        obtain ⟨s0, hs0, e0⟩ := List.mem_map.1 hroot
        obtain ⟨m, hm, hp⟩ := (hF.2.2.1 s0 hs0).root_entry
        rw [e0] at hm
        obtain ⟨m', hm', hp', -, -⟩ := hsw.2 _ m hm
        exact ⟨m', hm', hp'.trans hp⟩
    · exact ((List.Perm.flatMap_right _ hperm).trans permF).trans hF.2.2.2
  refine ⟨_, r.2, hsort, hforest, rfl, ?_, ?_⟩
  · exact (congrArg Prod.snd habs).symm
  · show tree_t.to_string fmt ⟨h', r.2.map Shape.root, t._size⟩ = _
    rw [wrap_string_eq fmt h' _ t._size _ hbody, List.length_map, hperm.length_eq, hlen']

theorem LTree.canon_canon : ∀ T : LTree, T.canon.canon = T.canon := by
  intro T
  induction T with
  | leaf l w => rfl
  | node w l r ihl ihr =>
    by_cases h1 : r.key < l.key
    · simp only [LTree.canon, if_pos h1, LTree.key_canon, if_neg (lt_asymm h1), ihl, ihr]
    · simp only [LTree.canon, if_neg h1, LTree.key_canon, ihl, ihr]

/-- The canonical tree is the tree itself up to exchanges of children. -/
theorem LTree.swapEq_canon : ∀ T : LTree, LTree.SwapEq T T.canon := by
  intro T
  induction T with
  | leaf l w => exact LTree.SwapEq.leaf l w
  | node w l r ihl ihr =>
    by_cases h1 : r.key < l.key
    · simp only [LTree.canon, if_pos h1]
      exact LTree.SwapEq.swap w ihl ihr
    · simp only [LTree.canon, if_neg h1]
      exact LTree.SwapEq.same w ihl ihr

theorem map_of_zip {α β : Type} (f : β → α) :
    ∀ (l1 : List α) (l2 : List β), l1.length = l2.length →
      (∀ p ∈ l1.zip l2, f p.2 = p.1) → l2.map f = l1 := by
  intro l1
  induction l1 with
  | nil =>
    intro l2 hl _
    cases l2 with
    | nil => rfl
    | cons b l2 => cases hl
  | cons a l1 ih =>
    intro l2 hl hp
    cases l2 with
    | nil => cases hl
    | cons b l2 =>
      simp only [List.zip_cons_cons, List.mem_cons, forall_eq_or_imp] at hp
      simp only [List.map_cons, hp.1, ih l2 (by simpa using hl) hp.2]

/-- The forest `tree_t::sort` leaves, for a forest `A` of at most three labelled trees: the
canonical trees of `A` in some order, every one with its children in canonical order, and
the strings of the trees in ascending order. -/
theorem net_sort_canonical (A : List LTree) (h3 : A.length ≤ 3) :
    ((net_sort A.length (A.map LTree.key, A.map LTree.canon)).2).Perm (A.map LTree.canon) ∧
      (((net_sort A.length (A.map LTree.key, A.map LTree.canon)).2).map LTree.key).Sorted
        (· ≤ ·) ∧
      (∀ g ∈ (net_sort A.length (A.map LTree.key, A.map LTree.canon)).2, g.canon = g) ∧
      (net_sort A.length (A.map LTree.key, A.map LTree.canon)).2.length = A.length := by
  have hs := net_sort_sorted (A.map LTree.key) (A.map LTree.canon) (by simp)
    (by simpa using h3)
  simp only [List.length_map] at hs
  generalize net_sort A.length (A.map LTree.key, A.map LTree.canon) = r at hs
  obtain ⟨pr, hsorted, lr⟩ := hs
  have hperm : r.2.Perm (A.map LTree.canon) := by
    have := pr.map Prod.snd
    rwa [List.map_snd_zip _ _ (le_of_eq lr.symm),
      List.map_snd_zip _ _ (by simp)] at this
  have hkeys : r.2.map LTree.key = r.1 := by
    refine map_of_zip LTree.key r.1 r.2 lr (fun p hp => ?_)
    have hp' := pr.subset hp
    rw [zip_key_canon] at hp'
    obtain ⟨T, -, rfl⟩ := List.mem_map.1 hp'
    exact LTree.key_canon T
  refine ⟨hperm, by rw [hkeys]; exact hsorted, ?_, ?_⟩
  · intro g hg
    obtain ⟨T, -, rfl⟩ := List.mem_map.1 (hperm.subset hg)
    exact LTree.canon_canon T
  · rw [hperm.length_eq, List.length_map]

end Gstar

namespace Gstar

/-- The rooted tree `(A:1,B:1)` with a single root is well-formed. -/
theorem tree_root_ab_wf : tree_root_ab.WF := by
  refine ⟨[Shape.node 0 (Shape.leaf 1) (Shape.leaf 2)], rfl, rfl, ?_, by decide⟩
  intro s hs
  simp only [List.mem_singleton] at hs
  subst hs
  simp [Shape.Rep, tree_root_ab, node_t.is_leaf, node_t.is_inner]

/-- C11 (evaluation at the failing input): the tree `(A:1,B:1)` with a single root is
well-formed, its unroot set has 1 member and it has 3 nodes, so it passes both checks of
`make_unrooted`; the loop expands the root, after which the unroot set is the two leaves
(slots 1 and 2), the search for an internal unroot member finds none, and `make_unrooted` does
not return a tree. -/
theorem make_unrooted_fails_on_three_nodes :
    tree_root_ab.WF ∧ tree_root_ab._unroot.length = 1 ∧ 2 < tree_root_ab._size ∧
    tree_root_ab.is_rooted = true ∧
    first_internal tree_root_ab._tree tree_root_ab._unroot 0 = some (some (0, 0)) ∧
    first_internal
      [⟨"", 0, none, none, none, false⟩, ⟨"A", 1, none, none, none, false⟩,
       ⟨"B", 1, none, none, none, false⟩] [1, 2] 0 = some none ∧
    unroot_loop (tree_root_ab._size + 1) tree_root_ab._tree tree_root_ab._unroot = none ∧
    make_unrooted tree_root_ab = none := by
  refine ⟨tree_root_ab_wf, rfl, by decide, by decide!, by decide!, by decide!, by decide!,
    by decide!⟩

end Gstar

namespace Gstar

/-- C12: for every well-formed tree whose `L` leaves have pairwise distinct labels,
`make_label_map` has `L` entries and gives the leaf at position `k` of the array order the
index `k`, and `calc_distance_matrix` returns a matrix of `L*L` entries whose entry at
`index(a)*L + index(b)` is `calc_distance(a, b)` for every pair of leaves `a`, `b` (so every
entry is written), the diagonal being 0. -/
theorem distance_matrix_entries (t : tree_t) (hwf : t.WF) (hnd : (leaf_labels t).Nodup) :
    (make_label_map t).length = (leaf_slots t).length ∧
    (∀ k (hk : k < (leaf_slots t).length),
      (make_label_map t).lookup (node_at t._tree ((leaf_slots t).get ⟨k, hk⟩))._label
        = some k) ∧
    ∃ M, calc_distance_matrix t = some M ∧
      M.length = (leaf_slots t).length * (leaf_slots t).length ∧
      (∀ ka kb (ha : ka < (leaf_slots t).length) (hb : kb < (leaf_slots t).length),
        M[ka * (leaf_slots t).length + kb]?
          = calc_distance t ((leaf_slots t).get ⟨ka, ha⟩) ((leaf_slots t).get ⟨kb, hb⟩) ∧
        ∃ d, M[ka * (leaf_slots t).length + kb]? = some d) ∧
      (∀ k, k < (leaf_slots t).length → M[k * (leaf_slots t).length + k]? = some 0) := by
  obtain ⟨F, hF⟩ := hwf
  obtain ⟨hlmlen, hlmlook⟩ := make_label_map_spec hF.1 hnd
  have hslots_nd : (leaf_slots t).Nodup := (List.nodup_range _).filter _
  have hmem : ∀ j, j < t._size → (node_at t._tree j)._children = false → j ∈ leaf_slots t :=
    fun j h1 h2 => mem_leaf_slots.2 ⟨h1, h2⟩
  have hlook : ∀ j, j < t._size → (node_at t._tree j)._children = false →
      (make_label_map t).lookup (node_at t._tree j)._label
        = some ((leaf_slots t).indexOf j) ∧
      (leaf_slots t).indexOf j < (make_label_map t).length := by
    intro j h1 h2
    have hlt : (leaf_slots t).indexOf j < (leaf_slots t).length :=
      List.indexOf_lt_length.2 (hmem j h1 h2)
    have := hlmlook _ hlt
    rw [List.get_eq_getElem, List.getElem_indexOf hlt] at this
    exact ⟨this, by rw [hlmlen]; exact hlt⟩
  have hinj : ∀ j j', j < t._size → j' < t._size →
      (node_at t._tree j)._children = false → (node_at t._tree j')._children = false →
      (leaf_slots t).indexOf j = (leaf_slots t).indexOf j' → j = j' := by
    intro j j' h1 h1' h2 h2' e
    exact (List.indexOf_inj (hmem j h1 h2) (hmem j' h1' h2')).1 e
  obtain ⟨M, hrun, hMlen, hM1, -⟩ := dist_rows_spec t (make_label_map t)
    (fun j => (leaf_slots t).indexOf j) (fun i j => t.up_weight i j + t.up_weight j i) hF.1
    hlook (fun i j hi hj hli hlj => calc_distance_leaves ⟨F, hF⟩ (hmem i hi hli)
      (hmem j hj hlj)) hinj (List.range t._size)
    (List.replicate ((make_label_map t).length * (make_label_map t).length) 0)
    (fun i hi => List.mem_range.1 hi) (by simp)
  rw [List.length_replicate, hlmlen] at hMlen
  have hentry : ∀ ka kb (ha : ka < (leaf_slots t).length) (hb : kb < (leaf_slots t).length),
      M[ka * (leaf_slots t).length + kb]?
        = calc_distance t ((leaf_slots t).get ⟨ka, ha⟩) ((leaf_slots t).get ⟨kb, hb⟩) := by
    intro ka kb ha hb
    have hma : (leaf_slots t).get ⟨ka, ha⟩ ∈ leaf_slots t := List.get_mem _ _ _
    have hmb : (leaf_slots t).get ⟨kb, hb⟩ ∈ leaf_slots t := List.get_mem _ _ _
    obtain ⟨ha1, ha2⟩ := mem_leaf_slots.1 hma
    obtain ⟨hb1, hb2⟩ := mem_leaf_slots.1 hmb
    have h := hM1 _ (List.mem_range.2 ha1) ha2 _ hb1 hb2
    simp only [List.get_eq_getElem, List.indexOf_getElem hslots_nd] at h
    rw [hlmlen] at h
    have hlt : ka * (leaf_slots t).length + kb < M.length := by
      rw [hMlen]
      have := Nat.mul_le_mul_right (leaf_slots t).length (Nat.succ_le_of_lt ha)
      rw [Nat.succ_mul] at this
      omega
    rw [calc_distance_leaves ⟨F, hF⟩ hma hmb, List.getElem?_eq_getElem hlt]
    rw [Nat.mul_comm] at h
    simp only [List.getD_eq_getElem?_getD, List.getElem?_eq_getElem hlt,
      Option.getD_some] at h
    rw [h]
    rfl
  refine ⟨hlmlen, hlmlook, M, hrun, hMlen, ?_, ?_⟩
  · intro ka kb ha hb
    refine ⟨hentry ka kb ha hb, ?_⟩
    rw [hentry ka kb ha hb]
    exact ⟨_, calc_distance_leaves ⟨F, hF⟩ (List.get_mem _ _ _) (List.get_mem _ _ _)⟩
  · intro k hk
    rw [hentry k k hk hk]
    unfold calc_distance
    rw [if_pos rfl]

theorem distance_matrix_entries_witness :
    (tree_cherry.WF ∧ (leaf_labels tree_cherry).Nodup) ∧
    ((make_label_map tree_cherry).length = (leaf_slots tree_cherry).length ∧
    (∀ k (hk : k < (leaf_slots tree_cherry).length),
      (make_label_map tree_cherry).lookup
          (node_at tree_cherry._tree ((leaf_slots tree_cherry).get ⟨k, hk⟩))._label
        = some k) ∧
    ∃ M, calc_distance_matrix tree_cherry = some M ∧
      M.length = (leaf_slots tree_cherry).length * (leaf_slots tree_cherry).length ∧
      (∀ ka kb (ha : ka < (leaf_slots tree_cherry).length)
          (hb : kb < (leaf_slots tree_cherry).length),
        M[ka * (leaf_slots tree_cherry).length + kb]?
          = calc_distance tree_cherry ((leaf_slots tree_cherry).get ⟨ka, ha⟩)
              ((leaf_slots tree_cherry).get ⟨kb, hb⟩) ∧
        ∃ d, M[ka * (leaf_slots tree_cherry).length + kb]? = some d) ∧
      (∀ k, k < (leaf_slots tree_cherry).length →
        M[k * (leaf_slots tree_cherry).length + k]? = some 0)) :=
  ⟨⟨tree_cherry_wf, by decide!⟩,
    distance_matrix_entries tree_cherry tree_cherry_wf (by decide!)⟩

end Gstar

namespace Gstar

/-- C13: for every well-formed tree and every pair of leaves `a`, `b` (slots of the array
without children), `calc_distance(a, b)` and `calc_distance(b, a)` both return, and return the
same value: the weights on the way from `a` up to the lowest common ancestor plus the weights
on the way from `b` up to it. -/
theorem calc_distance_symmetric (t : tree_t) (a b : Nat) (hwf : t.WF)
    (ha : a ∈ leaf_slots t) (hb : b ∈ leaf_slots t) :
    ∃ d, calc_distance t a b = some d ∧ calc_distance t b a = some d ∧
      d = t.up_weight a b + t.up_weight b a := by
  refine ⟨_, calc_distance_leaves hwf ha hb, ?_, rfl⟩
  rw [calc_distance_leaves hwf hb ha, add_comm]

theorem calc_distance_symmetric_witness :
    (tree_cherry.WF ∧ 3 ∈ leaf_slots tree_cherry ∧ 1 ∈ leaf_slots tree_cherry) ∧
    ∃ d, calc_distance tree_cherry 3 1 = some d ∧ calc_distance tree_cherry 1 3 = some d ∧
      d = tree_cherry.up_weight 3 1 + tree_cherry.up_weight 1 3 :=
  ⟨⟨tree_cherry_wf, by decide!, by decide!⟩,
    calc_distance_symmetric tree_cherry 3 1 tree_cherry_wf (by decide!) (by decide!)⟩

end Gstar

namespace Gstar

/-- The balanced tree of depth 3 is well-formed. -/
theorem tree_balanced3_wf : tree_balanced3.WF := by
  refine ⟨[Shape.node 0
      (Shape.node 1 (Shape.node 9 (Shape.leaf 13) (Shape.leaf 14))
        (Shape.node 10 (Shape.leaf 11) (Shape.leaf 12)))
      (Shape.node 2 (Shape.node 3 (Shape.leaf 7) (Shape.leaf 8))
        (Shape.node 4 (Shape.leaf 5) (Shape.leaf 6)))], rfl, rfl, ?_, by decide⟩
  intro s hs
  simp only [List.mem_singleton] at hs
  subst hs
  simp [Shape.Rep, tree_balanced3, node_t.is_leaf, node_t.is_inner]

/-- The tree `(B,(C,(D,(E,(A,F)))))` is well-formed. -/
theorem tree_caterpillar_wf : tree_caterpillar.WF := by
  refine ⟨[Shape.node 0 (Shape.leaf 1)
      (Shape.node 2 (Shape.leaf 3)
        (Shape.node 4 (Shape.leaf 5)
          (Shape.node 6 (Shape.leaf 7) (Shape.node 8 (Shape.leaf 9) (Shape.leaf 10)))))],
    rfl, rfl, ?_, by decide⟩
  intro s hs
  simp only [List.mem_singleton] at hs
  subst hs
  simp [Shape.Rep, tree_caterpillar, node_t.is_leaf, node_t.is_inner]

theorem node_at_map_weight_eq (h : List node_t) (c : ℚ) {a : Nat} (ha : a < h.length) :
    (node_at (h.map (fun x => { x with _weight := c })) a)._weight = c := by
  simp only [node_at, List.getElem?_map, List.getElem?_eq_getElem ha, Option.map_some',
    Option.getD_some]

/-- C14 (as stated, refuted in the arithmetic of the program): in the tree
`(B,(C,(D,(E,(A,F)))))` with the constant weight `c = 0.1` (the nearest `double`), leaf `A`
is 5 edges below the lowest common ancestor of `A` and `B`, and `B` 1 edge.
`calc_distance(A, B)` adds `c` five times, adds `c` once, and adds the two sums, every
addition rounded to `double`: the result is `5404319552844595 / 2^53`, which is neither the
number `c * 6` nor the `double` product of `c` and `6` (`5404319552844596 / 2^53`). -/
theorem constant_weights_distance_rounds :
    tree_caterpillar.WF ∧
    (tree_caterpillar.up_edges 9 1, tree_caterpillar.up_edges 1 9) = (5, 1) ∧
    tenth = 3602879701896397 / 36028797018963968 ∧
    (tree_caterpillar.set_weights_constant tenth).bind
        (fun t => calc_distance_fl round_double t 9 1)
      = some (5404319552844595 / 9007199254740992) ∧
    tenth * 6 = 10808639105689191 / 18014398509481984 ∧
    round_double (tenth * 6) = 5404319552844596 / 9007199254740992 ∧
    (5404319552844595 / 9007199254740992 : ℚ) ≠ tenth * 6 ∧
    (5404319552844595 / 9007199254740992 : ℚ) ≠ round_double (tenth * 6) := by
  refine ⟨tree_caterpillar_wf, by decide!, by decide!, by decide!, by decide!, by decide!,
    by decide!, by decide!⟩

/-- C14 (amended): on a well-formed tree `set_weights_constant(c)` returns the same tree with
weight `c` at every node.  In that tree, for every pair of distinct leaves `a`, `b` with `ka`
edges from `a` up to their lowest common ancestor and `kb` edges from `b` up to it (for leaves
below different unroot members the edges are counted up to the point where the unroot members
meet), `calc_distance(a, b)` is the rounded sum of `c` added `ka` times to `0` and `c` added
`kb` times to `0`, every addition rounded by the rounding `rnd` of the arithmetic.  When
`rnd` leaves the multiples `c*j`, `j <= ka + kb`, unchanged (no addition rounds), that is
`c * (ka + kb)`, and `2*c*d` for `ka = kb = d`. -/
theorem constant_weights_distance_rounded (rnd : ℚ → ℚ) (t : tree_t) (c : ℚ) (hwf : t.WF) :
    ∃ t', t.set_weights_constant c = some t' ∧ t'.WF ∧ t'._unroot = t._unroot ∧
      t'._size = t._size ∧ t'._tree = t._tree.map (fun x => { x with _weight := c }) ∧
      (∀ n ∈ t'._tree, n._weight = c) ∧ leaf_slots t' = leaf_slots t ∧
      ∀ a b, a ∈ leaf_slots t → b ∈ leaf_slots t → a ≠ b →
        calc_distance_fl rnd t' a b
          = some (rnd (repeat_add rnd c (t.up_edges a b)
              + repeat_add rnd c (t.up_edges b a))) ∧
        ((∀ j : Nat, j ≤ t.up_edges a b + t.up_edges b a → rnd (c * j) = c * j) →
          calc_distance_fl rnd t' a b
            = some (c * ((t.up_edges a b : ℚ) + (t.up_edges b a : ℚ))) ∧
          ∀ d : Nat, t.up_edges a b = d → t.up_edges b a = d →
            calc_distance_fl rnd t' a b = some (2 * c * d)) := by
  obtain ⟨F, hF⟩ := hwf
  have hF' := hF.map_weight_forest c
  have hchain : ∀ a, tree_t.chain
      ⟨t._tree.map (fun x => { x with _weight := c }), t._unroot, t._size⟩ a = t.chain a :=
    fun a => up_chain_map_weight t._tree c t._size a
  have hslots : leaf_slots ⟨t._tree.map (fun x => { x with _weight := c }), t._unroot, t._size⟩
      = leaf_slots t := by
    unfold leaf_slots
    apply List.filter_congr
    intro i _
    simp only [(node_at_map_weight t._tree c i).2]
  have hedges : ∀ a b, tree_t.up_edges
      ⟨t._tree.map (fun x => { x with _weight := c }), t._unroot, t._size⟩ a b
        = t.up_edges a b := by
    intro a b
    unfold tree_t.up_edges
    rw [hchain a, hchain b]
  have hacc : ∀ a b, a ∈ leaf_slots t →
      weight_acc rnd (t._tree.map (fun x => { x with _weight := c }))
        ((t.chain a).take (t.up_edges a b)) 0 = repeat_add rnd c (t.up_edges a b) := by
    intro a b ha
    obtain ⟨R, hc, -, -, hch, -⟩ := hF.chain_spec (mem_leaf_slots.1 ha).1
    have h0 := weight_acc_constant rnd (t._tree.map (fun x => { x with _weight := c })) c
      ((t.chain a).take (t.up_edges a b)) 0 (fun x hx => by
        rw [hch] at hx
        exact node_at_map_weight_eq t._tree c (hc.lt x (List.mem_of_mem_take hx)))
    rw [show repeat_add rnd c 0 = 0 from rfl] at h0
    rw [h0]
    congr 1
    rw [List.length_take]
    unfold tree_t.up_edges
    omega
  have hdist : ∀ a b, a ∈ leaf_slots t → b ∈ leaf_slots t → a ≠ b →
      calc_distance_fl rnd
          ⟨t._tree.map (fun x => { x with _weight := c }), t._unroot, t._size⟩ a b
        = some (rnd (repeat_add rnd c (t.up_edges a b)
            + repeat_add rnd c (t.up_edges b a))) := by
    intro a b ha hb hab
    obtain ⟨ha1, ha2⟩ := mem_leaf_slots.1 (hslots ▸ ha)
    obtain ⟨hb1, hb2⟩ := mem_leaf_slots.1 (hslots ▸ hb)
    rw [calc_distance_fl_spec rnd hF' ha1 hb1 hab ha2 hb2, hedges, hedges, hchain, hchain]
    show some (rnd (weight_acc rnd (t._tree.map (fun x => { x with _weight := c })) _ 0
      + weight_acc rnd (t._tree.map (fun x => { x with _weight := c })) _ 0)) = _
    rw [hacc a b ha, hacc b a hb]
  have hexact : ∀ a b, a ∈ leaf_slots t → b ∈ leaf_slots t → a ≠ b →
      (∀ j : Nat, j ≤ t.up_edges a b + t.up_edges b a → rnd (c * j) = c * j) →
      calc_distance_fl rnd
          ⟨t._tree.map (fun x => { x with _weight := c }), t._unroot, t._size⟩ a b
        = some (c * ((t.up_edges a b : ℚ) + (t.up_edges b a : ℚ))) := by
    intro a b ha hb hab hj
    rw [hdist a b ha hb hab, repeat_add_exact rnd c _ (fun j hjk => hj j (by omega)),
      repeat_add_exact rnd c _ (fun j hjk => hj j (by omega))]
    have := hj (t.up_edges a b + t.up_edges b a) (le_refl _)
    push_cast at this
    rw [← mul_add, this]
  refine ⟨_, set_weights_constant_forest hF c, ⟨F, hF'⟩, rfl, rfl, rfl, ?_, hslots, ?_⟩
  · intro n hn
    obtain ⟨x, -, rfl⟩ := List.mem_map.1 hn
    rfl
  · intro a b ha hb hab
    refine ⟨hdist a b ha hb hab, fun hj => ⟨hexact a b ha hb hab hj, ?_⟩⟩
    intro d h1 h2
    rw [hexact a b ha hb hab hj, h1, h2]
    congr 1
    ring

theorem constant_weights_distance_rounded_witness :
    tree_caterpillar.WF ∧
    (repeat_add round_double tenth 5, repeat_add round_double tenth 1)
      = (1 / 2, 3602879701896397 / 36028797018963968) ∧
    ((tree_balanced3.set_weights_constant 2).bind
        (fun t => calc_distance_fl round_double t 13 14),
      (tree_balanced3.set_weights_constant 2).bind
        (fun t => calc_distance_fl round_double t 13 11),
      (tree_balanced3.set_weights_constant 2).bind
        (fun t => calc_distance_fl round_double t 13 5)) = (some 4, some 8, some 12) ∧
    ∃ t', tree_caterpillar.set_weights_constant tenth = some t' ∧ t'.WF ∧
      t'._unroot = tree_caterpillar._unroot ∧ t'._size = tree_caterpillar._size ∧
      t'._tree = tree_caterpillar._tree.map (fun x => { x with _weight := tenth }) ∧
      (∀ n ∈ t'._tree, n._weight = tenth) ∧ leaf_slots t' = leaf_slots tree_caterpillar ∧
      ∀ a b, a ∈ leaf_slots tree_caterpillar → b ∈ leaf_slots tree_caterpillar → a ≠ b →
        calc_distance_fl round_double t' a b
          = some (round_double (repeat_add round_double tenth (tree_caterpillar.up_edges a b)
              + repeat_add round_double tenth (tree_caterpillar.up_edges b a))) ∧
        ((∀ j : Nat, j ≤ tree_caterpillar.up_edges a b + tree_caterpillar.up_edges b a →
            round_double (tenth * j) = tenth * j) →
          calc_distance_fl round_double t' a b
            = some (tenth * ((tree_caterpillar.up_edges a b : ℚ)
                + (tree_caterpillar.up_edges b a : ℚ))) ∧
          ∀ d : Nat, tree_caterpillar.up_edges a b = d → tree_caterpillar.up_edges b a = d →
            calc_distance_fl round_double t' a b = some (2 * tenth * d)) :=
  ⟨tree_caterpillar_wf, by decide!, by decide!,
    constant_weights_distance_rounded round_double tree_caterpillar tenth tree_caterpillar_wf⟩

end Gstar

namespace Gstar

theorem tree_cherry_forest :
    tree_cherry.Forest [Shape.node 0 (Shape.leaf 3) (Shape.leaf 4), Shape.leaf 1,
      Shape.leaf 2] := by
  refine ⟨rfl, rfl, ?_, by decide⟩
  intro s hs
  simp only [List.mem_cons, List.mem_singleton, List.not_mem_nil, or_false] at hs
  rcases hs with rfl | rfl | rfl <;>
    simp [Shape.Rep, tree_cherry, node_t.is_leaf, node_t.is_inner]

theorem tree_cherry_swapped_forest :
    tree_cherry_swapped.Forest [Shape.leaf 0, Shape.node 1 (Shape.leaf 3) (Shape.leaf 4),
      Shape.leaf 2] := by
  refine ⟨rfl, rfl, ?_, by decide⟩
  intro s hs
  simp only [List.mem_cons, List.mem_singleton, List.not_mem_nil, or_false] at hs
  rcases hs with rfl | rfl | rfl <;>
    simp [Shape.Rep, tree_cherry_swapped, node_t.is_leaf, node_t.is_inner]

theorem leaf_labels_abs {t : tree_t} {F : List Shape} (hF : t.Forest F) :
    (leaf_labels t).Perm ((F.map (Shape.abs t._tree)).flatMap LTree.labels) := by
  refine (leaf_labels_forest hF).trans (List.Perm.of_eq ?_)
  clear hF
  induction F with
  | nil => rfl
  | cons s F ih =>
    simp only [List.flatMap_cons, List.map_cons, List.map_append, ih, Shape.labels_abs]

/-- C15: `sort()` brings a tree into a canonical form that does not depend on the sibling
order.  For two well-formed packed trees with at most three unroot members, unlabelled
internal nodes and pairwise distinct leaf labels, whose labelled trees differ only by
exchanging the left and the right child at some internal nodes and by the order of the unroot
members: `sort()` returns on both, each result is a well-formed tree of the size of its
input, and the two results realise one and the same forest `G` of labelled trees.  `G`
consists of the canonical trees of the input (the trees of the input with the children of
every internal node ordered by the string `node_t::sort` computes), in ascending order of
these strings.  `to_string` returns on both results the serialisation of `G`, so it returns
the same string for both. -/
theorem sort_canonical_string (fmt : ℚ → String) (t1 t2 : tree_t) (F1 F2 : List Shape)
    (hF1 : t1.Forest F1) (hF2 : t2.Forest F2) (h3 : t1._unroot.length ≤ 3)
    (hint1 : ∀ n ∈ t1._tree, n._children = true → n._label = "")
    (hint2 : ∀ n ∈ t2._tree, n._children = true → n._label = "")
    (hnd : (leaf_labels t1).Nodup)
    (hrel : ForestEq (F1.map (Shape.abs t1._tree)) (F2.map (Shape.abs t2._tree))) :
    ∃ (G : List LTree) (t1' t2' : tree_t) (F1' F2' : List Shape),
      t1.sort = some t1' ∧ t2.sort = some t2' ∧
      t1'.Forest F1' ∧ t2'.Forest F2' ∧ t1'._size = t1._size ∧ t2'._size = t2._size ∧
      F1'.map (Shape.abs t1'._tree) = G ∧ F2'.map (Shape.abs t2'._tree) = G ∧
      G.Perm ((F1.map (Shape.abs t1._tree)).map LTree.canon) ∧
      G.Perm ((F2.map (Shape.abs t2._tree)).map LTree.canon) ∧
      (G.map LTree.key).Sorted (· ≤ ·) ∧ (∀ g ∈ G, g.canon = g) ∧
      t1'.to_string fmt = some (wrap_string G.length (comma_join (G.map (LTree.str fmt)))) ∧
      t2'.to_string fmt = some (wrap_string G.length (comma_join (G.map (LTree.str fmt)))) ∧
      t1.sort.bind (tree_t.to_string fmt) = t2.sort.bind (tree_t.to_string fmt) := by
  have hl1 : F1.length ≤ 3 := by
    have := congrArg List.length hF1.2.1
    rw [List.length_map] at this
    omega
  have hnd' : ((F1.map (Shape.abs t1._tree)).flatMap LTree.labels).Nodup :=
    (leaf_labels_abs hF1).nodup_iff.1 hnd
  obtain ⟨hlen, hsame⟩ := net_sort_unique _ _ (by simpa using hl1) hrel hnd'
  simp only [List.length_map] at hlen hsame
  obtain ⟨t1', F1', hs1, hf1, hz1, ha1, hstr1⟩ := sort_forest fmt hF1 hl1 hint1
  obtain ⟨t2', F2', hs2, hf2, hz2, ha2, hstr2⟩ := sort_forest fmt hF2 (hlen ▸ hl1) hint2
  obtain ⟨c1, c2, c3, c4⟩ := net_sort_canonical (F1.map (Shape.abs t1._tree))
    (by simpa using hl1)
  obtain ⟨d1, -, -, -⟩ := net_sort_canonical (F2.map (Shape.abs t2._tree))
    (by simpa using (hlen ▸ hl1))
  simp only [List.length_map] at c1 c2 c3 c4 d1
  rw [← hsame] at ha2 hstr2 d1
  rw [← hlen] at hstr2
  generalize (net_sort F1.length ((F1.map (Shape.abs t1._tree)).map LTree.key,
    (F1.map (Shape.abs t1._tree)).map LTree.canon)).2 = G at ha1 ha2 hstr1 hstr2 c1 c2 c3 c4 d1
  rw [← c4] at hstr1 hstr2
  refine ⟨_, t1', t2', F1', F2', hs1, hs2, hf1, hf2, hz1, hz2, ha1, ha2, c1, d1, c2, c3,
    hstr1, hstr2, ?_⟩
  rw [hs1, hs2]
  exact hstr1.trans hstr2.symm

theorem sort_canonical_string_witness :
    (tree_cherry.Forest [Shape.node 0 (Shape.leaf 3) (Shape.leaf 4), Shape.leaf 1,
        Shape.leaf 2] ∧
      tree_cherry_swapped.Forest [Shape.leaf 0, Shape.node 1 (Shape.leaf 3) (Shape.leaf 4),
        Shape.leaf 2] ∧
      tree_cherry._unroot.length ≤ 3 ∧
      (∀ n ∈ tree_cherry._tree, n._children = true → n._label = "") ∧
      (∀ n ∈ tree_cherry_swapped._tree, n._children = true → n._label = "") ∧
      (leaf_labels tree_cherry).Nodup ∧
      ForestEq
        ([Shape.node 0 (Shape.leaf 3) (Shape.leaf 4), Shape.leaf 1, Shape.leaf 2].map
          (Shape.abs tree_cherry._tree))
        ([Shape.leaf 0, Shape.node 1 (Shape.leaf 3) (Shape.leaf 4), Shape.leaf 2].map
          (Shape.abs tree_cherry_swapped._tree))) ∧
    (tree_cherry.sort.bind (tree_t.to_string (fun _ => "1")),
      tree_cherry_swapped.sort.bind (tree_t.to_string (fun _ => "1")))
      = (some "((A:1,B:1):1,C:1,D:1);", some "((A:1,B:1):1,C:1,D:1);") ∧
    ∃ (G : List LTree) (t1' t2' : tree_t) (F1' F2' : List Shape),
      tree_cherry.sort = some t1' ∧ tree_cherry_swapped.sort = some t2' ∧
      t1'.Forest F1' ∧ t2'.Forest F2' ∧ t1'._size = tree_cherry._size ∧
      t2'._size = tree_cherry_swapped._size ∧
      F1'.map (Shape.abs t1'._tree) = G ∧ F2'.map (Shape.abs t2'._tree) = G ∧
      G.Perm (([Shape.node 0 (Shape.leaf 3) (Shape.leaf 4), Shape.leaf 1, Shape.leaf 2].map
        (Shape.abs tree_cherry._tree)).map LTree.canon) ∧
      G.Perm (([Shape.leaf 0, Shape.node 1 (Shape.leaf 3) (Shape.leaf 4), Shape.leaf 2].map
        (Shape.abs tree_cherry_swapped._tree)).map LTree.canon) ∧
      (G.map LTree.key).Sorted (· ≤ ·) ∧ (∀ g ∈ G, g.canon = g) ∧
      t1'.to_string (fun _ => "1")
        = some (wrap_string G.length (comma_join (G.map (LTree.str (fun _ => "1"))))) ∧
      t2'.to_string (fun _ => "1")
        = some (wrap_string G.length (comma_join (G.map (LTree.str (fun _ => "1"))))) ∧
      tree_cherry.sort.bind (tree_t.to_string (fun _ => "1"))
        = tree_cherry_swapped.sort.bind (tree_t.to_string (fun _ => "1")) := by
  have hrel : ForestEq
      ([Shape.node 0 (Shape.leaf 3) (Shape.leaf 4), Shape.leaf 1, Shape.leaf 2].map
        (Shape.abs tree_cherry._tree))
      ([Shape.leaf 0, Shape.node 1 (Shape.leaf 3) (Shape.leaf 4), Shape.leaf 2].map
        (Shape.abs tree_cherry_swapped._tree)) := by
    refine ⟨[.leaf "D" 1, .node 1 (.leaf "A" 1) (.leaf "B" 1), .leaf "C" 1], ?_, ?_⟩
    · have e : [Shape.node 0 (Shape.leaf 3) (Shape.leaf 4), Shape.leaf 1, Shape.leaf 2].map
          (Shape.abs tree_cherry._tree)
          = [.node 1 (.leaf "A" 1) (.leaf "B" 1), .leaf "C" 1, .leaf "D" 1] := by
        simp [Shape.abs, node_at, tree_cherry, node_t.fresh]
      rw [e]
      exact (perm_three _ _ _).2.2.2.2.symm
    · have e : [Shape.leaf 0, Shape.node 1 (Shape.leaf 3) (Shape.leaf 4), Shape.leaf 2].map
          (Shape.abs tree_cherry_swapped._tree)
          = [.leaf "D" 1, .node 1 (.leaf "B" 1) (.leaf "A" 1), .leaf "C" 1] := by
        simp [Shape.abs, node_at, tree_cherry_swapped, node_t.fresh]
      rw [e]
      exact List.Forall₂.cons (LTree.SwapEq.leaf _ _)
        (List.Forall₂.cons (LTree.SwapEq.swap 1 (LTree.SwapEq.leaf _ _) (LTree.SwapEq.leaf _ _))
          (List.Forall₂.cons (LTree.SwapEq.leaf _ _) List.Forall₂.nil))
  have hi1 : ∀ n ∈ tree_cherry._tree, n._children = true → n._label = "" := by
    intro n hn
    simp only [tree_cherry, List.mem_cons, List.mem_singleton, List.not_mem_nil,
      or_false] at hn
    rcases hn with rfl | rfl | rfl | rfl | rfl <;> simp
  have hi2 : ∀ n ∈ tree_cherry_swapped._tree, n._children = true → n._label = "" := by
    intro n hn
    simp only [tree_cherry_swapped, List.mem_cons, List.mem_singleton, List.not_mem_nil,
      or_false] at hn
    rcases hn with rfl | rfl | rfl | rfl | rfl <;> simp
  have hnd : (leaf_labels tree_cherry).Nodup := by decide!
  exact ⟨⟨tree_cherry_forest, tree_cherry_swapped_forest, by decide, hi1, hi2, hnd, hrel⟩,
    by decide!,
    sort_canonical_string (fun _ => "1") tree_cherry tree_cherry_swapped _ _
      tree_cherry_forest tree_cherry_swapped_forest (by decide) hi1 hi2 hnd hrel⟩

end Gstar

namespace Gstar

/-- C16 (as stated, refuted): a distance vector of 10 entries (10 is not a square) with the
labels `A, B, C` is accepted in both builds, whatever the rounding: the row size is 3 and the
constructor emits the tree of the leading 9 entries.  The vector of 5 entries, the example of
the specification, gives the row size 2: the build with `DEBUG` stops at the assertion of
`join_final`, exactly as it does for the square vector of 4 entries, and the build without
`DEBUG` emits the tree `(A,B);`. -/
theorem nj_accepts_non_square_input :
    ten_dists.length = 10 ∧ (¬ ∃ k, k * k = ten_dists.length) ∧
    (nj_fl true round_single round_double ten_dists ["A", "B", "C"]).map
        (fun t => (t._unroot, t._size, leaf_labels t)) = some ([0, 1, 2], 3, ["A", "B", "C"]) ∧
    (nj_fl false round_single round_double ten_dists ["A", "B", "C"]).map
        (fun t => (t._unroot, t._size, leaf_labels t)) = some ([0, 1, 2], 3, ["A", "B", "C"]) ∧
    (nj_init five_entries ["A", "B"]).map (fun s => s._row_size) = some 2 ∧
    nj_fl true round_single round_double five_entries ["A", "B"] = none ∧
    nj_fl true round_single round_double [0, 5, 5, 0] ["A", "B"] = none ∧
    (nj_fl false round_single round_double five_entries ["A", "B"]).map
        (fun t => (t._unroot, t._size, leaf_labels t)) = some ([0, 1], 2, ["A", "B"]) ∧
    (nj_fl false round_single round_double five_entries ["A", "B"]).bind
        (tree_t.to_string (fun _ => "")) = some "(A,B);" := by
  refine ⟨rfl, ?_, by decide!, by decide!, by decide!, by decide!, by decide!, by decide!,
    by decide!⟩
  rintro ⟨k, hk⟩
  have h10 : k * k = 10 := hk
  have hk4 : k < 4 := by
    by_contra hc
    have : 4 * 4 ≤ k * k := Nat.mul_le_mul (by omega) (by omega)
    omega
  interval_cases k <;> omega

/-- C16 (amended): the constructor of `nj_t` has no check of the length of the distance
vector.  The row size is the integer square root `n` of the length, whether or not the length
is a square.  With `n` labels and `n >= 3` the constructor emits, in both builds and whatever
the rounding of the arithmetic, an unrooted tree with 3 unroot members, `2n-3` nodes and the
given labels as leaves.  With `n < 3` the loop is not
entered; the build with `DEBUG` then stops at the assertion of `join_final` and builds no
tree, and the build without `DEBUG` emits a tree that consists of the `n` leaves, all of them
unroot members, with the given labels, whatever the rounding of the arithmetic. -/
theorem nj_has_no_dimension_check (rf rd : ℚ → ℚ) (dists : List ℚ) (labels : List String)
    (n : Nat) (hsq : Nat.sqrt dists.length = n) (hl : labels.length = n) :
    (∃ s0, nj_init dists labels = some s0 ∧ s0._row_size = n) ∧
    (3 ≤ n → ∀ debug : Bool, ∃ t, nj_fl debug rf rd dists labels = some t ∧
      t._unroot.length = 3 ∧ t._size = 2 * n - 3 ∧ t._tree.length = 2 * n - 3 ∧
      (leaf_labels t).Perm labels) ∧
    (n < 3 → nj_fl true rf rd dists labels = none ∧
      ∃ t, nj_fl false rf rd dists labels = some t ∧ t._unroot.length = n ∧ t._size = n ∧
        t._tree.length = n ∧ (leaf_labels t).Perm labels ∧
        ∀ m ∈ t._tree, m._children = false) := by
  obtain ⟨s0, hinit, hrow, hinv⟩ := nj_init_inv_sqrt dists labels n hsq hl
  refine ⟨⟨s0, hinit, hrow⟩, ?_, ?_⟩
  · intro hn debug
    exact nj_fl_of_init debug rf rd dists labels n hsq hl hn
  · intro hn
    exact nj_fl_small rf rd dists labels n hsq hl hn

theorem nj_has_no_dimension_check_witness :
    (Nat.sqrt five_entries.length = 2 ∧ ["A", "B"].length = 2) ∧
    ((∃ s0, nj_init five_entries ["A", "B"] = some s0 ∧ s0._row_size = 2) ∧
    (3 ≤ 2 → ∀ debug : Bool,
      ∃ t, nj_fl debug round_single round_double five_entries ["A", "B"] = some t ∧
      t._unroot.length = 3 ∧ t._size = 2 * 2 - 3 ∧ t._tree.length = 2 * 2 - 3 ∧
      (leaf_labels t).Perm ["A", "B"]) ∧
    (2 < 3 → nj_fl true round_single round_double five_entries ["A", "B"] = none ∧
      ∃ t, nj_fl false round_single round_double five_entries ["A", "B"] = some t ∧
        t._unroot.length = 2 ∧ t._size = 2 ∧ t._tree.length = 2 ∧
        (leaf_labels t).Perm ["A", "B"] ∧ ∀ m ∈ t._tree, m._children = false)) :=
  ⟨⟨by decide!, rfl⟩,
    nj_has_no_dimension_check round_single round_double five_entries ["A", "B"] 2
      (by decide!) rfl⟩

end Gstar

namespace Gstar

/-- The unrooted tree `(A:1,B:1,(C:1,D:1)X:1);` is well-formed. -/
theorem tree_named_inner_wf : tree_named_inner.WF := by
  refine ⟨[Shape.leaf 0, Shape.leaf 1, Shape.node 2 (Shape.leaf 3) (Shape.leaf 4)],
    rfl, rfl, ?_, by decide⟩
  intro s hs
  simp only [List.mem_cons, List.mem_singleton, List.not_mem_nil, or_false] at hs
  rcases hs with rfl | rfl | rfl <;>
    simp [Shape.Rep, tree_named_inner, node_t.is_leaf, node_t.is_inner]

/-- C17 (as stated, refuted): in both builds, `Z` is not the label of a leaf of the one-leaf
tree `A`, and `set_outgroup("Z")` returns that tree unchanged (the tree has at most 2 nodes);
`X` is not the label of a leaf of `(A:1,B:1,(C:1,D:1)X:1);`, and `set_outgroup("X")` finds the
internal node labelled `X`, goes on into `set_root` and returns a rooted tree. -/
theorem set_outgroup_returns_without_leaf_label :
    "Z" ∉ leaf_labels tree_single ∧
    set_outgroup_build true tree_single "Z" = some tree_single ∧
    set_outgroup_build false tree_single "Z" = some tree_single ∧
    tree_named_inner.WF ∧ "X" ∉ leaf_labels tree_named_inner ∧
    find_outgroup "X" (tree_named_inner._tree.take tree_named_inner._size) 0 none = some 2 ∧
    set_outgroup_build true tree_named_inner "X" = set_root tree_named_inner 2 ∧
    set_outgroup_build false tree_named_inner "X" = set_root tree_named_inner 2 ∧
    (set_root tree_named_inner 2).map (fun t => (t._unroot, t._size)) = some ([0, 1], 6) := by
  refine ⟨by decide!, by decide!, by decide!, tree_named_inner_wf, by decide!, by decide!,
    by decide!, by decide!, by decide!⟩

/-- C17 (amended): for every tree and every label carried by no node of the tree, leaf or
internal, in both builds: a tree with at most 2 nodes is returned unchanged, and on a tree
with more than 2 nodes `set_outgroup` returns no tree.  With `DEBUG` the run does not return,
and on a well-formed tree it is aborted by an assertion (inside `make_unrooted`, or
`_unroot.size() == 3`, or `o != nullptr`), before `set_root` is called; without `DEBUG` there
is no check: the run fails inside `make_unrooted` or calls `set_root` with the null pointer,
which `set_root` reads through in its first statement.  In neither build is an error reported
to the caller. -/
theorem set_outgroup_absent_label (debug : Bool) (t : tree_t) (L : String)
    (habs : ∀ n ∈ t._tree, n._label ≠ L) :
    (t._size ≤ 2 → set_outgroup_build debug t L = some t) ∧
    (2 < t._size → set_outgroup_build debug t L = none ∧
      (∀ s, set_outgroup_run t L ≠ Outcome.returned s) ∧
      (t.WF → ∃ s, set_outgroup_run t L = Outcome.aborted s)) := by
  constructor
  · intro hsz
    unfold set_outgroup_build
    rw [if_pos hsz]
  · intro hsz
    refine ⟨set_outgroup_build_absent debug t L habs hsz, ?_, ?_⟩
    · intro s hs
      have h := set_outgroup_run_result t L
      rw [hs, ← set_outgroup_build_debug, set_outgroup_build_absent true t L habs hsz] at h
      cases h
    · intro hwf
      have hns : ¬ t._size ≤ 2 := by omega
      by_cases hr : t.is_rooted = true
      · by_cases hok : t._unroot.length = 2 ∨ 3 < t._size
        · obtain ⟨t1, hrun, hwf1, h3, -⟩ := make_unrooted_leaves t hwf hr hsz hok
          have hrun' : make_unrooted_run t = Outcome.returned t1 :=
            Outcome.result_some ((make_unrooted_run_result t).trans hrun)
          have habs1 : ∀ n ∈ t1._tree, n._label ≠ L := by
            intro n hn
            obtain ⟨x, hx, e⟩ := make_unrooted_labels hrun n hn
            rw [← e]
            exact habs x hx
          have hfind : find_outgroup L (t1._tree.take t1._size) 0 none = none :=
            find_outgroup_absent L _ (fun m hm => habs1 m (List.mem_of_mem_take hm)) 0 none
          refine ⟨t1, ?_⟩
          unfold set_outgroup_run
          simp only [hns, if_false, hr, if_true, hrun', h3, hfind]
        · obtain ⟨h1, hs3⟩ := rooted_small t hwf hr hsz hok
          obtain ⟨s, hs, -⟩ := make_unrooted_run_three t hwf h1 hs3
          refine ⟨s, ?_⟩
          unfold set_outgroup_run
          simp only [hns, if_false, hr, if_true, hs]
      · have hnr : t.is_rooted = false := by simpa using hr
        have hfind : find_outgroup L (t._tree.take t._size) 0 none = none :=
          find_outgroup_absent L _ (fun m hm => habs m (List.mem_of_mem_take hm)) 0 none
        refine ⟨t, ?_⟩
        unfold set_outgroup_run
        by_cases h3 : t._unroot.length = 3
        · simp only [hns, if_false, hnr, Bool.false_eq_true, h3, if_true, hfind]
        · simp only [hns, if_false, hnr, Bool.false_eq_true, h3]

theorem set_outgroup_absent_label_witness :
    (∀ n ∈ tree_cherry._tree, n._label ≠ "Z") ∧ 2 < tree_cherry._size ∧
    set_outgroup_run tree_cherry "Z" = Outcome.aborted tree_cherry ∧
    ((tree_cherry._size ≤ 2 → set_outgroup_build false tree_cherry "Z" = some tree_cherry) ∧
    (2 < tree_cherry._size → set_outgroup_build false tree_cherry "Z" = none ∧
      (∀ s, set_outgroup_run tree_cherry "Z" ≠ Outcome.returned s) ∧
      (tree_cherry.WF → ∃ s, set_outgroup_run tree_cherry "Z" = Outcome.aborted s))) :=
  ⟨by decide!, by decide, by decide!,
    set_outgroup_absent_label false tree_cherry "Z" (by decide!)⟩

end Gstar

namespace Gstar

/-- C18 (as stated, refuted): the rooted tree `(A:1,((C:1,D:1),B:1):1);` is well-formed and
its unroot set has 2 members; in both builds `set_outgroup("B")` does not fail on it: it
unroots the tree and returns the tree rooted at `B`. -/
theorem set_outgroup_accepts_rooted_tree :
    tree_cherry_rooted.WF ∧ tree_cherry_rooted._unroot.length = 2 ∧
    (make_unrooted tree_cherry_rooted).map (fun t => t._unroot) = some [0, 1, 2] ∧
    (set_outgroup_build true tree_cherry_rooted "B").map
        (fun t => (t._unroot, t._size, t._tree[0]?.map (fun n => (n._label, n._children))))
      = some ([0, 1], 6, some ("B", false)) ∧
    (set_outgroup_build false tree_cherry_rooted "B").map
        (fun t => (t._unroot, t._size, t._tree[0]?.map (fun n => (n._label, n._children))))
      = some ([0, 1], 6, some ("B", false)) := by
  refine ⟨tree_cherry_rooted_wf, rfl, by decide!, by decide!, by decide!⟩

/-- The four leaves `A`, `B`, `C`, `D` as four unroot members are a well-formed tree. -/
theorem tree_four_leaves_wf : tree_four_leaves.WF := by
  refine ⟨[Shape.leaf 0, Shape.leaf 1, Shape.leaf 2, Shape.leaf 3], rfl, rfl, ?_, by decide⟩
  intro s hs
  simp only [List.mem_cons, List.mem_singleton, List.not_mem_nil, or_false] at hs
  rcases hs with rfl | rfl | rfl | rfl <;>
    simp [Shape.Rep, tree_four_leaves, node_t.is_leaf, node_t.is_inner]

/-- C18 (amended): `set_outgroup` raises no error about the size of the unroot set.  For
every well-formed tree whose unroot set does not have exactly 3 members, and every label:
(1) in both builds a tree with at most 2 nodes is returned unchanged; (2) in both builds a
rooted tree (1 or 2 unroot members) with more than 2 nodes that has 2 unroot members or more
than 3 nodes is first turned by `make_unrooted` into a well-formed tree with 3 unroot members
and the same leaf labels, and `set_outgroup` then goes on with that tree: with the label of a
leaf it returns a well-formed tree with the unroot set `0, 1` and one node more than the
unrooted tree, with a label carried by no node it returns no tree; (3) on the remaining
rooted tree, a single root with two leaf children (3 nodes), `make_unrooted` fails in both
builds and `set_outgroup` returns no tree, whatever the label; (4) on a tree with more than 3
unroot members and more than 2 nodes the build with `DEBUG` is aborted at the assertion
`_unroot.size() == 3` with the tree as it was, and the build without `DEBUG` has no check: it
searches the label and calls `set_root` on the tree as it is. -/
theorem set_outgroup_on_other_unroot_sizes (debug : Bool) (t : tree_t) (L : String)
    (hwf : t.WF) (hne : t._unroot.length ≠ 3) :
    (t._size ≤ 2 → set_outgroup_build debug t L = some t) ∧
    (2 < t._size → t.is_rooted = true → (t._unroot.length = 2 ∨ 3 < t._size) →
      ∃ t1, make_unrooted_build debug t = some t1 ∧ t1.WF ∧ t1._unroot.length = 3 ∧
        (leaf_labels t1).Perm (leaf_labels t) ∧
        set_outgroup_build debug t L = set_outgroup_build debug t1 L ∧
        (L ∈ leaf_labels t → ∃ t', set_outgroup_build debug t L = some t' ∧ t'.WF ∧
          t'._unroot = [0, 1] ∧ t'._size = t1._size + 1) ∧
        ((∀ n ∈ t._tree, n._label ≠ L) → set_outgroup_build debug t L = none)) ∧
    (2 < t._size → t.is_rooted = true → ¬ (t._unroot.length = 2 ∨ 3 < t._size) →
      t._unroot.length = 1 ∧ t._size = 3 ∧ make_unrooted_build debug t = none ∧
        set_outgroup_build debug t L = none) ∧
    (2 < t._size → t.is_rooted = false →
      3 < t._unroot.length ∧ set_outgroup_build true t L = none ∧
        set_outgroup_run t L = Outcome.aborted t ∧
        set_outgroup_build false t L
          = (find_outgroup L (t._tree.take t._size) 0 none).bind (set_root t)) := by
  refine ⟨?_, ?_, ?_, ?_⟩
  · intro hsz
    unfold set_outgroup_build
    rw [if_pos hsz]
  · intro hsz hr hok
    have hle : t._unroot.length ≤ 3 := by
      simp only [tree_t.is_rooted, decide_eq_true_eq] at hr
      omega
    obtain ⟨t1, hrun, hwf1, h3, hperm⟩ := make_unrooted_leaves t hwf hr hsz hok
    have heq : set_outgroup_build debug t L = set_outgroup_build debug t1 L := by
      rw [set_outgroup_build_wf debug t L hwf hle,
        set_outgroup_build_wf debug t1 L hwf1 (by omega),
        set_outgroup_rooted t L hwf hr hsz, hrun]
      rfl
    refine ⟨t1, by rw [make_unrooted_build_eq debug t hr hsz]; exact hrun, hwf1, h3, hperm,
      heq, ?_, ?_⟩
    · intro hL
      have hL1 : ∃ n ∈ t1._tree, n._label = L := mem_leaf_labels (hperm.symm.subset hL)
      obtain ⟨o, t', -, -, -, hrun', hwf', hsz', hur', -⟩ :=
        set_outgroup_forest t1 L hwf1 h3 hL1
      refine ⟨t', ?_, hwf', hur', hsz'⟩
      rw [heq, set_outgroup_build_wf debug t1 L hwf1 (by omega)]
      exact hrun'
    · intro habs
      exact set_outgroup_build_absent debug t L habs hsz
  · intro hsz hr hnok
    have hle : t._unroot.length ≤ 3 := by
      simp only [tree_t.is_rooted, decide_eq_true_eq] at hr
      omega
    rcases make_unrooted_forest t hwf hr hsz with ⟨t1, hrun, hwf1, h3⟩ | ⟨hnone, h1, hs3⟩
    · exfalso
      obtain ⟨h1, hs3⟩ := rooted_small t hwf hr hsz hnok
      obtain ⟨s, hs, -⟩ := make_unrooted_run_three t hwf h1 hs3
      have := make_unrooted_run_result t
      rw [hs, hrun] at this
      cases this
    · refine ⟨h1, hs3, by rw [make_unrooted_build_eq debug t hr hsz]; exact hnone, ?_⟩
      rw [set_outgroup_build_wf debug t L hwf hle, set_outgroup_rooted t L hwf hr hsz, hnone]
      rfl
  · intro hsz hnr
    have hns : ¬ t._size ≤ 2 := by omega
    have hlen : 3 < t._unroot.length := by
      simp only [tree_t.is_rooted, decide_eq_false_iff_not] at hnr
      omega
    refine ⟨hlen, ?_, ?_, ?_⟩
    · unfold set_outgroup_build
      simp only [hns, if_false, hnr, Bool.false_eq_true, hne, ne_eq, not_false_eq_true,
        and_self, if_true]
    · unfold set_outgroup_run
      simp only [hns, if_false, hnr, Bool.false_eq_true, hne]
    · unfold set_outgroup_build
      simp only [hns, if_false, hnr, Bool.false_eq_true, false_and]
      cases find_outgroup L (t._tree.take t._size) 0 none <;> rfl

theorem set_outgroup_on_other_unroot_sizes_witness :
    (tree_cherry_rooted.WF ∧ tree_cherry_rooted._unroot.length ≠ 3 ∧
      tree_cherry_rooted.is_rooted = true ∧
      2 < tree_cherry_rooted._size ∧ tree_cherry_rooted._unroot.length = 2 ∧
      "B" ∈ leaf_labels tree_cherry_rooted) ∧
    (tree_root_ab.WF ∧ tree_root_ab.is_rooted = true ∧ 2 < tree_root_ab._size ∧
      ¬ (tree_root_ab._unroot.length = 2 ∨ 3 < tree_root_ab._size) ∧
      (set_outgroup_build true tree_root_ab "A", set_outgroup_build false tree_root_ab "A")
        = (none, none)) ∧
    (tree_four_leaves.WF ∧ tree_four_leaves.is_rooted = false ∧ 2 < tree_four_leaves._size ∧
      set_outgroup_build true tree_four_leaves "A" = none ∧
      (set_outgroup_build false tree_four_leaves "A").map (fun t => (t._unroot, t._size))
        = some ([0, 1], 4)) ∧
    ((tree_cherry_rooted._size ≤ 2 →
      set_outgroup_build false tree_cherry_rooted "B" = some tree_cherry_rooted) ∧
    (2 < tree_cherry_rooted._size → tree_cherry_rooted.is_rooted = true →
      (tree_cherry_rooted._unroot.length = 2 ∨ 3 < tree_cherry_rooted._size) →
      ∃ t1, make_unrooted_build false tree_cherry_rooted = some t1 ∧ t1.WF ∧
        t1._unroot.length = 3 ∧
        (leaf_labels t1).Perm (leaf_labels tree_cherry_rooted) ∧
        set_outgroup_build false tree_cherry_rooted "B" = set_outgroup_build false t1 "B" ∧
        ("B" ∈ leaf_labels tree_cherry_rooted →
          ∃ t', set_outgroup_build false tree_cherry_rooted "B" = some t' ∧ t'.WF ∧
          t'._unroot = [0, 1] ∧ t'._size = t1._size + 1) ∧
        ((∀ n ∈ tree_cherry_rooted._tree, n._label ≠ "B") →
          set_outgroup_build false tree_cherry_rooted "B" = none)) ∧
    (2 < tree_cherry_rooted._size → tree_cherry_rooted.is_rooted = true →
      ¬ (tree_cherry_rooted._unroot.length = 2 ∨ 3 < tree_cherry_rooted._size) →
      tree_cherry_rooted._unroot.length = 1 ∧ tree_cherry_rooted._size = 3 ∧
        make_unrooted_build false tree_cherry_rooted = none ∧
        set_outgroup_build false tree_cherry_rooted "B" = none) ∧
    (2 < tree_cherry_rooted._size → tree_cherry_rooted.is_rooted = false →
      3 < tree_cherry_rooted._unroot.length ∧
        set_outgroup_build true tree_cherry_rooted "B" = none ∧
        set_outgroup_run tree_cherry_rooted "B" = Outcome.aborted tree_cherry_rooted ∧
        set_outgroup_build false tree_cherry_rooted "B"
          = (find_outgroup "B" (tree_cherry_rooted._tree.take tree_cherry_rooted._size) 0
              none).bind (set_root tree_cherry_rooted))) :=
  ⟨⟨tree_cherry_rooted_wf, by decide, by decide!, by decide, rfl, by decide!⟩,
    ⟨tree_root_ab_wf, by decide!, by decide, by decide, by decide!⟩,
    ⟨tree_four_leaves_wf, by decide!, by decide, by decide!, by decide!⟩,
    set_outgroup_on_other_unroot_sizes false tree_cherry_rooted "B" tree_cherry_rooted_wf
      (by decide)⟩

end Gstar

namespace Gstar

/-- C19 (as stated, refuted): in the build with `DEBUG`, on the rooted tree
`(A:1,((C:1,D:1),B:1):1);` (unroot set of 2 members, 6 nodes) `set_outgroup("Z")` is aborted
at the assertion that the outgroup was found, no node carrying the label `Z`; at that moment
the tree has already been replaced by `make_unrooted`: it has 3 unroot members and 5 nodes.
On the tree `(A:1,B:1)` with a single root the run is aborted inside `make_unrooted`, after
the root was expanded in place: the unroot set is `1, 2`, no node has children or a parent,
and the array still has its 3 slots.  In the build without `DEBUG` neither run returns a
tree. -/
theorem set_outgroup_failure_after_unrooting :
    tree_cherry_rooted.WF ∧
    (tree_cherry_rooted._unroot, tree_cherry_rooted._size) = ([0, 1], 6) ∧
    (set_outgroup_run tree_cherry_rooted "Z").stopped = make_unrooted tree_cherry_rooted ∧
    (set_outgroup_run tree_cherry_rooted "Z").stopped.map (fun t => (t._unroot, t._size))
      = some ([0, 1, 2], 5) ∧
    (set_outgroup_run tree_cherry_rooted "Z").stopped ≠ some tree_cherry_rooted ∧
    tree_root_ab.WF ∧
    (set_outgroup_run tree_root_ab "Z").stopped.map
        (fun t => (t._unroot, t._size, t._tree.map (fun n => (n._children, n._parent))))
      = some ([1, 2], 3, [(false, none), (false, none), (false, none)]) ∧
    (set_outgroup_run tree_root_ab "Z").stopped ≠ some tree_root_ab ∧
    set_outgroup_build false tree_cherry_rooted "Z" = none ∧
    set_outgroup_build false tree_root_ab "Z" = none := by
  refine ⟨tree_cherry_rooted_wf, rfl, by decide!, by decide!, by decide!, tree_root_ab_wf,
    by decide!, by decide!, by decide!, by decide!⟩

/-- C19 (amended): `set_outgroup` reports no failure to its caller.  In the build with
`DEBUG` a failed assertion calls `abort()`; the state of the tree object at that moment is:
(1) for every tree `t` that is not rooted (3 or more unroot members), the tree exactly as it
was before the call; (2) for every well-formed rooted tree `r` with more than 2 nodes and
every label `M` carried by no node of `r`, a tree other than the tree of the call: when `r`
has 2 unroot members or more than 3 nodes, the tree `make_unrooted` returned (3 unroot
members), the run being aborted at the assertion `o != nullptr`; otherwise (a single root with
two leaf children) the tree with the root expanded in place (2 unroot members, same number of
slots), the run being aborted inside `make_unrooted`.  In the build without `DEBUG` the run of
case (2) returns no tree. -/
theorem set_outgroup_failure_state (t r : tree_t) (L M : String)
    (hnr : t.is_rooted = false)
    (hwf : r.WF) (hr : r.is_rooted = true) (hsz : 2 < r._size)
    (habs : ∀ n ∈ r._tree, n._label ≠ M) :
    (∀ s, set_outgroup_run t L = Outcome.aborted s → s = t) ∧
    ∃ s, set_outgroup_run r M = Outcome.aborted s ∧ s ≠ r ∧
      ((r._unroot.length = 2 ∨ 3 < r._size) →
        make_unrooted r = some s ∧ s._unroot.length = 3) ∧
      (¬ (r._unroot.length = 2 ∨ 3 < r._size) →
        make_unrooted_run r = Outcome.aborted s ∧ s._unroot.length = 2 ∧
          s._size = r._size) ∧
      set_outgroup_build false r M = none := by
  refine ⟨set_outgroup_run_unrooted t L hnr, ?_⟩
  have hns : ¬ r._size ≤ 2 := by omega
  have hrl : r._unroot.length ≤ 2 := by
    simpa only [tree_t.is_rooted, decide_eq_true_eq] using hr
  have hrel := set_outgroup_build_absent false r M habs hsz
  by_cases hok : r._unroot.length = 2 ∨ 3 < r._size
  · obtain ⟨t1, hrun, hwf1, h3, -⟩ := make_unrooted_leaves r hwf hr hsz hok
    have hrun' : make_unrooted_run r = Outcome.returned t1 :=
      Outcome.result_some ((make_unrooted_run_result r).trans hrun)
    have habs1 : ∀ n ∈ t1._tree, n._label ≠ M := by
      intro n hn
      obtain ⟨x, hx, e⟩ := make_unrooted_labels hrun n hn
      rw [← e]
      exact habs x hx
    have hfind : find_outgroup M (t1._tree.take t1._size) 0 none = none :=
      find_outgroup_absent M _ (fun m hm => habs1 m (List.mem_of_mem_take hm)) 0 none
    refine ⟨t1, ?_, ?_, fun _ => ⟨hrun, h3⟩, fun h => absurd hok h, hrel⟩
    · unfold set_outgroup_run
      simp only [hns, if_false, hr, if_true, hrun', h3, hfind]
    · intro e
      rw [e] at h3
      omega
  · obtain ⟨h1, hs3⟩ := rooted_small r hwf hr hsz hok
    obtain ⟨s, hs, hl2, hsize, -⟩ := make_unrooted_run_three r hwf h1 hs3
    refine ⟨s, ?_, ?_, fun h => absurd h hok, fun _ => ⟨hs, hl2, hsize⟩, hrel⟩
    · unfold set_outgroup_run
      simp only [hns, if_false, hr, if_true, hs]
    · intro e
      rw [e] at hl2
      omega

theorem set_outgroup_failure_state_witness :
    (tree_cherry.is_rooted = false ∧
      tree_cherry_rooted.WF ∧ tree_cherry_rooted.is_rooted = true ∧
      2 < tree_cherry_rooted._size ∧ (∀ n ∈ tree_cherry_rooted._tree, n._label ≠ "Z")) ∧
    set_outgroup_run tree_cherry "Z" = Outcome.aborted tree_cherry ∧
    ((∀ s, set_outgroup_run tree_cherry "Z" = Outcome.aborted s → s = tree_cherry) ∧
    ∃ s, set_outgroup_run tree_cherry_rooted "Z" = Outcome.aborted s ∧
      s ≠ tree_cherry_rooted ∧
      ((tree_cherry_rooted._unroot.length = 2 ∨ 3 < tree_cherry_rooted._size) →
        make_unrooted tree_cherry_rooted = some s ∧ s._unroot.length = 3) ∧
      (¬ (tree_cherry_rooted._unroot.length = 2 ∨ 3 < tree_cherry_rooted._size) →
        make_unrooted_run tree_cherry_rooted = Outcome.aborted s ∧ s._unroot.length = 2 ∧
          s._size = tree_cherry_rooted._size) ∧
      set_outgroup_build false tree_cherry_rooted "Z" = none) :=
  ⟨⟨by decide!, tree_cherry_rooted_wf, by decide!, by decide, by decide!⟩, by decide!,
    set_outgroup_failure_state tree_cherry tree_cherry_rooted "Z" "Z" (by decide!)
      tree_cherry_rooted_wf (by decide!) (by decide) (by decide!)⟩

end Gstar

namespace Gstar

/-- C20 (evaluation at the failing input): for the five leaves `A .. E` with the distances of
`((A:1,B:1):1,C:1,(D:1,E:1):1);`, the first `compute_r` gives the row sums
`13, 13, 12, 13, 13`; the first `join_pair` leaves a matrix of row size 4 whose row sums are
`8, 8, 8, 8` and keeps `_r_vec`; the `compute_r` of the second iteration resizes `_r_vec` to
4 entries, which keeps `13, 13, 12, 13`, and adds the new row sums on top:
`21, 21, 20, 21`. -/
theorem compute_r_accumulates :
    (nj_init five_dists five_labels).map (fun s => ((compute_r s)._r_vec, row_sums s))
      = some ([13, 13, 12, 13, 13], [13, 13, 12, 13, 13]) ∧
    ((nj_init five_dists five_labels).bind join_pair).map
        (fun s => (s._row_size, s._dists, s._r_vec))
      = some (4, [0, 2, 3, 3, 2, 0, 3, 3, 3, 3, 0, 2, 3, 3, 2, 0], [13, 13, 12, 13, 13]) ∧
    ((nj_init five_dists five_labels).bind join_pair).map
        (fun s => ((compute_r s)._r_vec, row_sums s))
      = some ([21, 21, 20, 21], [8, 8, 8, 8]) ∧
    ((nj_init five_dists five_labels).bind join_pair).map
        (fun s => (find_pair s)._r_vec)
      = some [21, 21, 20, 21] := by
  refine ⟨by decide!, by decide!, by decide!, by decide!⟩

end Gstar

namespace Gstar

/-- C21 (evaluation at a failing input): for the four leaves `A .. D` with the distances of
`(A:1,B:1,(C:1,D:3):1);`, `find_pair` selects `_i = 3`, `_j = 2` with `D[3][2] = 4`,
`R[3] = 14`, `R[2] = 10` at row size 4, so the formula of the specification gives the left
child `D` the weight `0.5*4 + (14-10)/12 = 7/3` and the right child `C` the weight `5/3`.
`join_pair` gives both the weight `2`: the factor `1/(2*(2*_row_size-2))` is a division of
integers and is `0`. -/
theorem join_pair_weight_truncates :
    (nj_init skew_dists scenario_labels).map
        (fun s => ((find_pair s)._i, (find_pair s)._j, (find_pair s)._row_size,
          (find_pair s).D 3 2, (find_pair s)._r_vec))
      = some (3, 2, 4, 4, [10, 10, 10, 14]) ∧
    (nj_init skew_dists scenario_labels).map
        (fun s => (left_weight_formula (find_pair s),
          (find_pair s).D 3 2 - left_weight_formula (find_pair s)))
      = some (7 / 3, 5 / 3) ∧
    ((nj_init skew_dists scenario_labels).bind join_pair).map
        (fun s => (s._tree, s.heap[4]?.map (fun n => (n._lchild, n._rchild))))
      = some ([0, 1, 4], some (some 3, some 2)) ∧
    ((nj_init skew_dists scenario_labels).bind join_pair).map
        (fun s => (s.heap[3]?.map (fun n => (n._label, n._weight)),
          s.heap[2]?.map (fun n => (n._label, n._weight))))
      = some (some ("D", 2), some ("C", 2)) ∧
    ((1 / (2 * (2 * 4 - 2)) : Nat) : ℚ) = 0 := by
  refine ⟨by decide!, by decide!, by decide!, by decide!, by decide!⟩

end Gstar

namespace Gstar

/-- C22 (evaluation at a failing input): for the five leaves `A .. E` with `D[A][B] = 2` and
every other distance `10`, the first `join_pair` joins `_i = 1` and `_j = 0`; the surviving
clusters `C`, `D`, `E` (old indices 2, 3, 4) get the new indices 0, 1, 2 and the merged
cluster the index 3.  The formula of the specification gives each of them the distance
`0.5*(10 + 10 - 2) = 9` to the merged cluster.  The reduced matrix of `join_pair` has
`D'[0][3] = D'[3][0] = 0` and `D'[1][3] = D'[3][1] = 0`: the third loop reads row `i` of the
old matrix for the new index `i`, which is the row of the joined cluster `A` or `B`. -/
theorem join_pair_reflect_reads_old_rows :
    (nj_init star_dists five_labels).map
        (fun s => ((find_pair s)._i, (find_pair s)._j,
          [2, 3, 4].map (fun k => (new_index 1 0 k, merged_distance_formula (find_pair s) k))))
      = some (1, 0, [(0, 9), (1, 9), (2, 9)]) ∧
    ((nj_init star_dists five_labels).bind join_pair).map
        (fun s => (s._row_size, s._tree, [0, 1, 2].map (fun k => (s.D k 3, s.D 3 k))))
      = some (4, [2, 3, 4, 5], [(0, 0), (0, 0), (9, 9)]) ∧
    (nj_init star_dists five_labels).map
        (fun s => [0, 1, 2].map (fun k => merged_distance_formula (find_pair s) k))
      = some [0, 0, 9] := by
  refine ⟨by decide!, by decide!, by decide!⟩

end Gstar

namespace Gstar

theorem new_index_strict_mono {si sj a b : Nat} (hij : si ≠ sj) (hai : a ≠ si) (haj : a ≠ sj) (hbi : b ≠ si)
    (hbj : b ≠ sj) (hab : a < b) : new_index si sj a < new_index si sj b := by
  unfold new_index
  split_ifs <;> omega

/-- C23: for every state with at least two clusters, all of them nodes of the heap,
`join_pair` returns.  With `i = _i` and `j = _j` the joined indices and `a'` the index `a`
minus the number of joined indices below `a`: the indices `a'` of the surviving clusters are
below `_row_size - 2` and keep the order of the old indices; `D'[a'][b'] = D[a][b]` for all
surviving `a`, `b`; the cluster list becomes the surviving clusters in their old order
(cluster `a` at position `a'`) followed by the new node, whose children are the old clusters
`i` (left) and `j` (right); and `_row_size` decreases by one. -/
theorem join_pair_keeps_survivors (s : nj_t) (hn : 2 ≤ s._row_size)
    (hlen : s._tree.length = s._row_size) (hlt : ∀ p ∈ s._tree, p < s.heap.length) :
    ∃ s1, join_pair s = some s1 ∧ s1._i ≠ s1._j ∧ s1._i < s._row_size ∧
      s1._j < s._row_size ∧ s1._row_size + 1 = s._row_size ∧
      s1._dists.length = s1._row_size * s1._row_size ∧
      (∀ a b, a < s._row_size → a ≠ s1._i → a ≠ s1._j → b < s._row_size → b ≠ s1._i →
        b ≠ s1._j →
        new_index s1._i s1._j a < s._row_size - 2 ∧
        (a < b → new_index s1._i s1._j a < new_index s1._i s1._j b) ∧
        s1.D (new_index s1._i s1._j a) (new_index s1._i s1._j b) = s.D a b) ∧
      s1._tree = ((List.range s._row_size).filter (keeps s1._i s1._j)).map
          (fun a => s._tree.getD a 0) ++ [s.heap.length] ∧
      s1._tree.length = s1._row_size ∧
      (∀ a, a < s._row_size → a ≠ s1._i → a ≠ s1._j →
        s1._tree[new_index s1._i s1._j a]? = s._tree[a]?) ∧
      s1._tree[s._row_size - 2]? = some s.heap.length ∧
      ∃ m : node_t, s1.heap[s.heap.length]? = some m ∧ m._children = true ∧
        m._lchild = s._tree[s1._i]? ∧ m._rchild = s._tree[s1._j]? := by
  obtain ⟨s1, hrun, -, -, hij, hi, hj, hrow, hdl, hsurv, -, htree, m, hm, hmc, hml, hmr⟩ :=
    join_pair_spec s hn hlen hlt
  have hmap := survivors_eq_map hij hi hj
  have htree2 : s1._tree = (List.range (s._row_size - 2)).map
      (fun p => s._tree.getD (old_index s1._i s1._j p) 0) ++ [s.heap.length] := by
    rw [htree, hmap, List.map_map]
    rfl
  have hget : ∀ a, a < s._row_size → s._tree[a]? = some (s._tree.getD a 0) := by
    intro a ha
    rw [List.getD_eq_getElem?_getD, List.getElem?_eq_getElem (by omega)]
    rfl
  refine ⟨s1, hrun, hij, hi, hj, by omega, by rw [hdl, hrow], ?_, htree, ?_, ?_, ?_,
    m, hm, hmc, by rw [hml, hget _ hi], by rw [hmr, hget _ hj]⟩
  · intro a b ha hai haj hb hbi hbj
    exact ⟨(new_index_facts hij hi hj ha hai haj).2.2.1,
      fun hab => new_index_strict_mono hij hai haj hbi hbj hab, hsurv a b ha hai haj hb hbi hbj⟩
  · rw [htree2, List.length_append, List.length_map, List.length_range, hrow]
    simp only [List.length_singleton]
    omega
  · intro a ha hai haj
    obtain ⟨-, -, hp, ho⟩ := new_index_facts hij hi hj ha hai haj
    rw [htree2, List.getElem?_append_left (by simpa using hp), List.getElem?_map,
      List.getElem?_range hp]
    simp only [Option.map_some', ho]
    exact (hget a ha).symm
  · rw [htree2, List.getElem?_append_right (by simp)]
    simp

theorem join_pair_keeps_survivors_witness :
    (2 ≤ scenario_state._row_size ∧ scenario_state._tree.length = scenario_state._row_size ∧
      ∀ p ∈ scenario_state._tree, p < scenario_state.heap.length) ∧
    ∃ s1, join_pair scenario_state = some s1 ∧ s1._i ≠ s1._j ∧ s1._i < scenario_state._row_size ∧
      s1._j < scenario_state._row_size ∧ s1._row_size + 1 = scenario_state._row_size ∧
      s1._dists.length = s1._row_size * s1._row_size ∧
      (∀ a b, a < scenario_state._row_size → a ≠ s1._i → a ≠ s1._j → b < scenario_state._row_size →
        b ≠ s1._i → b ≠ s1._j →
        new_index s1._i s1._j a < scenario_state._row_size - 2 ∧
        (a < b → new_index s1._i s1._j a < new_index s1._i s1._j b) ∧
        s1.D (new_index s1._i s1._j a) (new_index s1._i s1._j b) = scenario_state.D a b) ∧
      s1._tree = ((List.range scenario_state._row_size).filter (keeps s1._i s1._j)).map
          (fun a => scenario_state._tree.getD a 0) ++ [scenario_state.heap.length] ∧
      s1._tree.length = s1._row_size ∧
      (∀ a, a < scenario_state._row_size → a ≠ s1._i → a ≠ s1._j →
        s1._tree[new_index s1._i s1._j a]? = scenario_state._tree[a]?) ∧
      s1._tree[scenario_state._row_size - 2]? = some scenario_state.heap.length ∧
      ∃ m : node_t, s1.heap[scenario_state.heap.length]? = some m ∧ m._children = true ∧
        m._lchild = scenario_state._tree[s1._i]? ∧ m._rchild = scenario_state._tree[s1._j]? :=
  ⟨⟨by decide, by decide, by decide⟩,
    join_pair_keeps_survivors scenario_state (by decide) (by decide) (by decide)⟩

end Gstar

namespace Gstar

/-- C24: at `_row_size == 3`, with three distinct clusters in the cluster list, `join_final`
returns; the weight of each cluster `x` in `{0, 1, 2}` becomes
`0.5*(D[x,y] + D[x,z] - D[y,z])` with `y = (x+1) mod 3` and `z = (x+2) mod 3`; the matrix, the
cluster list and the row size stay as they are; no node other than the three clusters is
changed, and the three clusters change in their weight only. -/
theorem join_final_sets_three_weights (s : nj_t) (h3 : s._row_size = 3)
    (hlen : s._tree.length = 3) (hnd : s._tree.Nodup)
    (hlt : ∀ p ∈ s._tree, p < s.heap.length) :
    ∃ s1, join_final s = some s1 ∧ s1._dists = s._dists ∧ s1._tree = s._tree ∧
      s1._row_size = 3 ∧ s1.heap.length = s.heap.length ∧
      (∀ x, x < 3 → (node_at s1.heap (s._tree.getD x 0))._weight
        = (1 / 2 : ℚ) * (s.D x ((x + 1) % 3) + s.D x ((x + 2) % 3)
            - s.D ((x + 1) % 3) ((x + 2) % 3))) ∧
      (∀ k, k ∉ s._tree → s1.heap[k]? = s.heap[k]?) ∧
      (∀ k, (node_at s1.heap k).unweighted = (node_at s.heap k).unweighted) := by
  obtain ⟨s1, hrun, hd, ht, hr, hl, hw, hfr, hun⟩ := join_final_heap s h3 hlen hnd hlt
  refine ⟨s1, hrun, hd, ht, hr, hl, ?_, hfr, hun⟩
  intro x hx
  rw [hw x hx]
  rfl

theorem join_final_sets_three_weights_witness :
    (three_state._row_size = 3 ∧ three_state._tree.length = 3 ∧ three_state._tree.Nodup ∧
      ∀ p ∈ three_state._tree, p < three_state.heap.length) ∧
    ∃ s1, join_final three_state = some s1 ∧ s1._dists = three_state._dists ∧
      s1._tree = three_state._tree ∧
      s1._row_size = 3 ∧ s1.heap.length = three_state.heap.length ∧
      (∀ x, x < 3 → (node_at s1.heap (three_state._tree.getD x 0))._weight
        = (1 / 2 : ℚ) * (three_state.D x ((x + 1) % 3) + three_state.D x ((x + 2) % 3)
            - three_state.D ((x + 1) % 3) ((x + 2) % 3))) ∧
      (∀ k, k ∉ three_state._tree → s1.heap[k]? = three_state.heap[k]?) ∧
      (∀ k, (node_at s1.heap k).unweighted = (node_at three_state.heap k).unweighted) :=
  ⟨⟨rfl, rfl, by decide, by decide⟩,
    join_final_sets_three_weights three_state rfl rfl (by decide) (by decide)⟩

end Gstar

namespace Gstar

/-- C25: in a well-formed tree `calc_distance(a, a)` is `0` for every node `a`.  For distinct
leaves `a`, `b`: `calc_distance(a, b)` returns the sum of the weights of the nodes from `a`
upward to, but not including, the lowest common ancestor plus the same sum for `b`; when the
chains of `a` and `b` end in different unroot members, each of the two sums runs over the whole
chain, the unroot member included; and the backward comparison of the two parent lists returns
with a position at which the lists differ, both indices still inside the lists. -/
theorem calc_distance_meets_at_lca (t : tree_t) (hwf : t.WF) :
    (∀ a, calc_distance t a a = some 0) ∧
    ∀ a b, a ∈ leaf_slots t → b ∈ leaf_slots t → a ≠ b →
      calc_distance t a b = some (t.up_weight a b + t.up_weight b a) ∧
      ((t.chain a).getLast? ≠ (t.chain b).getLast? →
        t.up_weight a b = weight_sum t._tree (t.chain a) ∧
        t.up_weight b a = weight_sum t._tree (t.chain b)) ∧
      ∃ sl dl si di x y, get_parents_of t a = some sl ∧ get_parents_of t b = some dl ∧
        diverge_walk sl dl (sl.length + 1) (sl.length - 1) (dl.length - 1)
          = some (si + 1, di + 1) ∧
        si < sl.length ∧ di < dl.length ∧ sl[si]? = some x ∧ dl[di]? = some y ∧ x ≠ y := by
  refine ⟨fun a => by unfold calc_distance; rw [if_pos rfl], ?_⟩
  intro a b ha hb hab
  have hd := calc_distance_leaves hwf ha hb
  refine ⟨hd, fun hne => ⟨up_weight_of_last_ne t a b hne,
    up_weight_of_last_ne t b a (fun e => hne e.symm)⟩, ?_⟩
  unfold calc_distance at hd
  rw [if_neg hab] at hd
  cases hsl : get_parents_of t a with
  | none => simp [hsl] at hd
  | some sl =>
    cases hdl : get_parents_of t b with
    | none => simp [hsl, hdl] at hd
    | some dl =>
      simp only [hsl, hdl] at hd
      cases hw : diverge_walk sl dl (sl.length + 1) (sl.length - 1) (dl.length - 1) with
      | none => simp [hw] at hd
      | some p =>
        obtain ⟨si, di⟩ := p
        obtain ⟨si', di', x, y, e1, e2, -, -, g1, g2, hxy⟩ :=
          diverge_walk_some sl dl _ _ _ si di hw
        subst e1 e2
        exact ⟨sl, dl, si', di', x, y, rfl, rfl, hw, (List.getElem?_eq_some_iff.1 g1).1,
          (List.getElem?_eq_some_iff.1 g2).1, g1, g2, hxy⟩

theorem calc_distance_meets_at_lca_witness :
    tree_cherry.WF ∧
    ((∀ a, calc_distance tree_cherry a a = some 0) ∧
    ∀ a b, a ∈ leaf_slots tree_cherry → b ∈ leaf_slots tree_cherry → a ≠ b →
      calc_distance tree_cherry a b
        = some (tree_cherry.up_weight a b + tree_cherry.up_weight b a) ∧
      ((tree_cherry.chain a).getLast? ≠ (tree_cherry.chain b).getLast? →
        tree_cherry.up_weight a b = weight_sum tree_cherry._tree (tree_cherry.chain a) ∧
        tree_cherry.up_weight b a = weight_sum tree_cherry._tree (tree_cherry.chain b)) ∧
      ∃ sl dl si di x y, get_parents_of tree_cherry a = some sl ∧
        get_parents_of tree_cherry b = some dl ∧
        diverge_walk sl dl (sl.length + 1) (sl.length - 1) (dl.length - 1)
          = some (si + 1, di + 1) ∧
        si < sl.length ∧ di < dl.length ∧ sl[si]? = some x ∧ dl[di]? = some y ∧ x ≠ y) :=
  ⟨tree_cherry_wf, calc_distance_meets_at_lca tree_cherry tree_cherry_wf⟩

end Gstar

namespace Gstar

/-- C26 (as stated, refuted in the arithmetic of the program): on the well-formed tree
`(A,((C,D),B))` (two unroot members) with `w_func(d)` the `double` nearest to `0.1*(d+1)` and
`max = 1`, `set_weights` gives the leaves `A`, `B`, `C`, `D` the weights `1`, `1 - 0.1`,
`1 - (0.1 + 0.2)`, `1 - (0.1 + 0.2)`, every operation rounded to `double`; the weights on
the paths from `A`, from `B` and from `C` up to the unroot members then add up to three
different numbers (`1`, `1 + 2^-55`, `1 - 2^-55`), and the sums the program itself forms along
these paths (`parent_distance` up to the null parent of the unroot member) are `1`, `1` and
`1 - 2^-53`: the tree is not ultrametric. -/
theorem set_weights_rounding_breaks_ultrametric :
    tree_cherry_rooted.WF ∧
    (leaf_slots tree_cherry_rooted).map (fun a => (node_at tree_cherry_rooted._tree a)._label)
      = ["A", "B", "C", "D"] ∧
    (tree_cherry_rooted.set_weights round_double w_tenths 1).map
        (fun t => (leaf_slots t).map (fun a => weight_sum t._tree (t.chain a)))
      = some [1, 36028797018963969 / 36028797018963968, 36028797018963967 / 36028797018963968,
          36028797018963967 / 36028797018963968] ∧
    (tree_cherry_rooted.set_weights round_double w_tenths 1).map
        (fun t => (leaf_slots t).map
          (fun a => parent_distance_fl round_double t._tree t._size (some a) none 0))
      = some [some 1, some 1, some (9007199254740991 / 9007199254740992),
          some (9007199254740991 / 9007199254740992)] := by
  refine ⟨tree_cherry_rooted_wf, by decide!, by decide!, by decide!⟩

/-- C26 (amended): on a well-formed tree with at least one internal node, `get_depth()` and
`set_weights(w_func, max)` return; the result is the same tree with new weights (well-formed,
same unroot set, every node unchanged but for its weight); with a single root the weight of
the root is `0`.  With `M` the value `max` when `max` is not zero and the total of
`w_func(0), .., w_func(get_depth() - 1)` when `max` is `0`, `T(d)` the total of
`w_func(0), .., w_func(d - 1)` as the loop forms it (every addition rounded by the rounding
`rnd` of the arithmetic) and `S(d)` the sum of the same numbers: a leaf that is reached with
depth `d` gets the weight `rnd(M - T(d))`, and the weights on the chain from the leaf up to
its unroot member add up to `rnd(M - T(d)) + S(d)`.  When neither `T(d)` nor the difference
is changed by the rounding, that sum is `M`; in general it depends on the depth of the
leaf. -/
theorem set_weights_path_sums (rnd : ℚ → ℚ) (t : tree_t) (w : Nat → ℚ) (max : ℚ)
    (hwf : t.WF) (hint : ∃ n ∈ t._tree, n._children = true) :
    ∃ depth t', t.get_depth = some depth ∧ t.set_weights rnd w max = some t' ∧ t'.WF ∧
      t'._unroot = t._unroot ∧ t'._size = t._size ∧
      t'._tree.map node_t.unweighted = t._tree.map node_t.unweighted ∧
      (t._unroot.length = 1 → ∀ u ∈ t._unroot, (node_at t'._tree u)._weight = 0) ∧
      ∀ a ∈ leaf_slots t',
        (node_at t'._tree a)._weight
          = rnd ((if max = 0 then weight_total rnd w 0 depth else max)
              - weight_total rnd w 0 (t'.leaf_depth a)) ∧
        weight_sum t'._tree (t'.chain a)
          = rnd ((if max = 0 then weight_total rnd w 0 depth else max)
              - weight_total rnd w 0 (t'.leaf_depth a))
            + ((List.range (t'.leaf_depth a)).map w).sum ∧
        (weight_total rnd w 0 (t'.leaf_depth a) = ((List.range (t'.leaf_depth a)).map w).sum →
          rnd ((if max = 0 then weight_total rnd w 0 depth else max)
              - ((List.range (t'.leaf_depth a)).map w).sum)
            = (if max = 0 then weight_total rnd w 0 depth else max)
              - ((List.range (t'.leaf_depth a)).map w).sum →
          weight_sum t'._tree (t'.chain a)
            = if max = 0 then weight_total rnd w 0 depth else max) := by
  obtain ⟨F, hF⟩ := hwf
  have hrep : ∀ s ∈ F, s.RepC t._tree := fun s hs => (hF.2.2.1 s hs).repC
  have hfuel : ∀ s ∈ F, s.size ≤ t._size := fun s hs =>
    hF.1 ▸ size_le_length hrep hF.nodup hs
  obtain ⟨dm, hdm⟩ := depth_loop_forest t._tree t._size F 0 hrep hfuel
  rw [hF.2.1] at hdm
  have hdepth : t.get_depth
      = some (if t._unroot.length = 1 then dm - 1 else dm) := by
    unfold tree_t.get_depth
    rw [hdm]
  generalize hM : (if max = 0 then
    weight_total rnd w max (if t._unroot.length = 1 then dm - 1 else dm) else max) = M
  have hMeq : (if max = 0 then
      weight_total rnd w 0 (if t._unroot.length = 1 then dm - 1 else dm) else max) = M := by
    rw [← hM]
    by_cases h0 : max = 0
    · rw [if_pos h0, if_pos h0, h0]
    · rw [if_neg h0, if_neg h0]
  suffices main : ∃ t', t.set_weights rnd w max = some t' ∧ t'.WF ∧
      t'._unroot = t._unroot ∧ t'._size = t._size ∧
      t'._tree.map node_t.unweighted = t._tree.map node_t.unweighted ∧
      (t._unroot.length = 1 → ∀ u ∈ t._unroot, (node_at t'._tree u)._weight = 0) ∧
      ∀ a ∈ leaf_slots t',
        (node_at t'._tree a)._weight = rnd (M - weight_total rnd w 0 (t'.leaf_depth a)) ∧
        weight_sum t'._tree (t'.chain a)
          = rnd (M - weight_total rnd w 0 (t'.leaf_depth a))
            + ((List.range (t'.leaf_depth a)).map w).sum by
    obtain ⟨t', h1, h2, h3, h4, h5, h6, h7⟩ := main
    refine ⟨_, t', hdepth, h1, h2, h3, h4, h5, h6, ?_⟩
    intro a ha
    rw [hMeq]
    obtain ⟨hw, hs⟩ := h7 a ha
    refine ⟨hw, hs, ?_⟩
    intro e1 e2
    rw [hs, e1, e2]
    ring
  by_cases h1 : t._unroot.length = 1
  · -- a single root
    obtain ⟨s, hFs⟩ : ∃ s, F = [s] := by
      have hl : F.length = 1 := by rw [← h1, ← hF.2.1, List.length_map]
      match F, hl with
      | [s], _ => exact ⟨s, rfl⟩
    subst hFs
    have hur : t._unroot = [s.root] := by rw [← hF.2.1]; rfl
    cases s with
    | leaf a =>
      exfalso
      obtain ⟨n, hn, hc⟩ := hint
      obtain ⟨k, hk⟩ := List.mem_iff_getElem?.1 hn
      have hklt : k < t._size := by
        rw [← hF.1]; exact (List.getElem?_eq_some_iff.1 hk).1
      have hka := hF.mem_iff.2 hklt
      simp only [List.flatMap_cons, List.flatMap_nil, List.append_nil, Shape.addrs,
        List.mem_singleton] at hka
      subst hka
      obtain ⟨n', hn', hleaf, -⟩ := hF.2.2.1 (Shape.leaf k) (List.mem_singleton_self _)
      rw [hk] at hn'
      cases hn'
      rw [hleaf.1] at hc
      cases hc
    | node a l r =>
      have hnd : (Shape.node a l r).addrs.Nodup := by
        have := hF.nodup
        simpa using this
      obtain ⟨h', hrun, hw0, hwl, hwr, hu⟩ := set_weights_as_root_shape rnd w M a l r t._tree
        t._size 0 (hrep _ (List.mem_singleton_self _)) hnd
        (hfuel _ (List.mem_singleton_self _))
      have hF' := hF.of_unweighted hu
      have hset : t.set_weights rnd w max = some ⟨h', t._unroot, t._size⟩ := by
        unfold tree_t.set_weights
        rw [hdepth]
        simp only [h1, if_true]
        simp only [h1, if_true] at hM
        rw [hM, hur]
        simp only [List.head?_cons, Shape.root_node]
        rw [hrun]
      refine ⟨_, hset, ⟨_, hF'⟩, rfl, rfl, hu, ?_, ?_⟩
      · intro _ u hu'
        rw [hur] at hu'
        simp only [List.mem_singleton, Shape.root_node] at hu'
        subst hu'
        exact hw0
      · intro x hx
        obtain ⟨hxlt, hxc⟩ := mem_leaf_slots.1 hx
        have hroot := hF'.2.2.1 _ (List.mem_singleton_self _)
        obtain ⟨⟨n, hn, -, hp⟩, hL, hR⟩ := hroot
        have hCa : ParentChain h' [a] := ⟨n, hn, hp⟩
        have hsum : weight_sum h' [a] = ((List.range 0).map w).sum := by
          rw [weight_sum_cons, hw0]
          simp [weight_sum]
        have hxa : x ∈ (Shape.node a l r).leaves := by
          refine Shape.RepC.leaf_of_mem (hF'.2.2.1 _ (List.mem_singleton_self _)).repC x ?_ hxc
          have := hF'.mem_iff.2 hxlt
          simpa using this
        have hfin : ∀ k, (tree_t.chain ⟨h', t._unroot, t._size⟩ x).length = [a].length + k + 1 →
            tree_t.leaf_depth ⟨h', t._unroot, t._size⟩ x = 0 + k := by
          intro k hk
          unfold tree_t.leaf_depth
          simp only [h1, if_true]
          rw [hk]
          simp
        simp only [Shape.leaves, List.mem_append] at hxa
        rcases hxa with hxa | hxa
        · obtain ⟨k, hk, hwt, hs⟩ := forest_chain_sum hF' (C := [a]) hL hCa hwl hsum hxa hxlt
          rw [hfin k hk]
          exact ⟨hwt, hs⟩
        · obtain ⟨k, hk, hwt, hs⟩ := forest_chain_sum hF' (C := [a]) hR hCa hwr hsum hxa hxlt
          rw [hfin k hk]
          exact ⟨hwt, hs⟩
  · -- several unroot members
    obtain ⟨h', hrun, hwF, hu, -⟩ := set_weights_members_forest rnd w M t._size F t._tree hrep
      hF.nodup hfuel
    rw [hF.2.1] at hrun
    have hF' := hF.of_unweighted hu
    have hset : t.set_weights rnd w max = some ⟨h', t._unroot, t._size⟩ := by
      unfold tree_t.set_weights
      rw [hdepth]
      simp only [h1, if_false]
      simp only [h1, if_false] at hM
      rw [hM, hrun]
    refine ⟨_, hset, ⟨_, hF'⟩, rfl, rfl, hu, fun h => absurd h h1, ?_⟩
    intro x hx
    obtain ⟨hxlt, hxc⟩ := mem_leaf_slots.1 hx
    obtain ⟨s, hs, hxs⟩ := List.mem_flatMap.1 (hF'.mem_iff.2 hxlt)
    have hxl : x ∈ s.leaves := Shape.RepC.leaf_of_mem (hF'.2.2.1 s hs).repC x hxs hxc
    obtain ⟨k, hk, hwt, hs'⟩ := forest_chain_sum hF' (C := []) (hF'.2.2.1 s hs) trivial
      (hwF s hs) rfl hxl hxlt
    have hld : tree_t.leaf_depth ⟨h', t._unroot, t._size⟩ x = 0 + k := by
      unfold tree_t.leaf_depth
      simp only [h1, if_false]
      rw [hk]
      simp
    rw [hld]
    exact ⟨hwt, hs'⟩

theorem set_weights_path_sums_witness :
    (tree_balanced3.WF ∧ ∃ n ∈ tree_balanced3._tree, n._children = true) ∧
    (tree_balanced3.get_depth = some 3 ∧ weight_total round_double w_succ 0 3 = 6 ∧
      (tree_balanced3.set_weights round_double w_succ 0).map
          (fun t => t._tree.map (fun n => n._weight))
        = some [0, 1, 1, 2, 2, 3, 3, 3, 3, 2, 2, 3, 3, 3, 3] ∧
      (tree_balanced3.set_weights round_double w_succ 0).map
          (fun t => (leaf_slots t).map (fun a => weight_sum t._tree (t.chain a)))
        = some [6, 6, 6, 6, 6, 6, 6, 6]) ∧
    ∃ depth t', tree_balanced3.get_depth = some depth ∧
      tree_balanced3.set_weights round_double w_succ 0 = some t' ∧ t'.WF ∧
      t'._unroot = tree_balanced3._unroot ∧ t'._size = tree_balanced3._size ∧
      t'._tree.map node_t.unweighted = tree_balanced3._tree.map node_t.unweighted ∧
      (tree_balanced3._unroot.length = 1 →
        ∀ u ∈ tree_balanced3._unroot, (node_at t'._tree u)._weight = 0) ∧
      ∀ a ∈ leaf_slots t',
        (node_at t'._tree a)._weight
          = round_double ((if (0 : ℚ) = 0 then weight_total round_double w_succ 0 depth
                else 0)
              - weight_total round_double w_succ 0 (t'.leaf_depth a)) ∧
        weight_sum t'._tree (t'.chain a)
          = round_double ((if (0 : ℚ) = 0 then weight_total round_double w_succ 0 depth
                else 0)
              - weight_total round_double w_succ 0 (t'.leaf_depth a))
            + ((List.range (t'.leaf_depth a)).map w_succ).sum ∧
        (weight_total round_double w_succ 0 (t'.leaf_depth a)
            = ((List.range (t'.leaf_depth a)).map w_succ).sum →
          round_double ((if (0 : ℚ) = 0 then weight_total round_double w_succ 0 depth
                else 0)
              - ((List.range (t'.leaf_depth a)).map w_succ).sum)
            = (if (0 : ℚ) = 0 then weight_total round_double w_succ 0 depth else 0)
              - ((List.range (t'.leaf_depth a)).map w_succ).sum →
          weight_sum t'._tree (t'.chain a)
            = if (0 : ℚ) = 0 then weight_total round_double w_succ 0 depth else 0) :=
  ⟨⟨tree_balanced3_wf, by decide⟩, ⟨by decide!, by decide!, by decide!, by decide!⟩,
    set_weights_path_sums round_double tree_balanced3 w_succ 0 tree_balanced3_wf (by decide)⟩

end Gstar

namespace Gstar

/-- C27 (defect of the code): the comment in `find_pair`, "the way this loop is structured,
i>j", does not hold of the function.  The scan starts from `low_i = 0`, `low_j = 1`, a pair
outside the strict lower triangle it then runs over.  For the labels `A .. D` and the matrix
`asym_dists`, which is not symmetric (`D[0][1] = 1`, `D[1][0] = 20`), the state is the one the
constructor of `nj_t` builds, every Q value of the strict lower triangle is greater than
`Q[0][1] = -59`, and `find_pair` returns the initial pair `_i = 0`, `_j = 1`: `_i > _j` does
not hold.  All values are integers, on which the `float` operations are exact: the run with
rounded operations returns the same pair.  In `float` arithmetic a symmetric matrix does the
same: for `float_sym_dists` the state is symmetric, `Q[1][0] = (2*D[1][0] - R[1]) - R[0]` and
`Q[0][1] = (2*D[0][1] - R[0]) - R[1]` are rounded differently, every Q value of the strict
lower triangle is greater than `Q[0][1]`, and `find_pair` returns `_i = 0`, `_j = 1`. -/
theorem find_pair_keeps_initial_pair :
    nj_init asym_dists scenario_labels = some asym_state ∧
    ((find_pair asym_state)._i, (find_pair asym_state)._j) = (0, 1) ∧
    ¬ (find_pair asym_state)._i > (find_pair asym_state)._j ∧
    (find_pair asym_state).Q 0 1 = -59 ∧
    [(find_pair asym_state).Q 1 0, (find_pair asym_state).Q 2 0, (find_pair asym_state).Q 2 1,
      (find_pair asym_state).Q 3 0, (find_pair asym_state).Q 3 1, (find_pair asym_state).Q 3 2]
      = [-21, -31, -50, -31, -50, -40] ∧
    ((find_pair_fl round_single asym_state)._i, (find_pair_fl round_single asym_state)._j)
      = (0, 1) ∧
    (nj_init float_sym_dists scenario_labels).map (fun s => decide s.symmetric) = some true ∧
    (nj_init float_sym_dists scenario_labels).map
        (fun s => ((find_pair_fl round_single s)._i, (find_pair_fl round_single s)._j))
      = some (0, 1) ∧
    (nj_init float_sym_dists scenario_labels).map
        (fun s => (find_pair_fl round_single s).Q 0 1) = some (-11416372 / 65536) ∧
    (nj_init float_sym_dists scenario_labels).map
        (fun s => [(find_pair_fl round_single s).Q 1 0, (find_pair_fl round_single s).Q 2 0,
          (find_pair_fl round_single s).Q 2 1, (find_pair_fl round_single s).Q 3 0,
          (find_pair_fl round_single s).Q 3 1, (find_pair_fl round_single s).Q 3 2])
      = some [-11416371 / 65536, -6769869 / 65536, -5262541 / 65536, -5262541 / 65536,
          -6769869 / 65536, -11416371 / 65536] := by
  refine ⟨by decide!, by decide!, by decide!, by decide!, by decide!, by decide!, by decide!,
    by decide!, by decide!, by decide!⟩

end Gstar

namespace Gstar

/-- C28 (as stated, refuted in the arithmetic of the program): for the three leaves `A`, `B`,
`C` with the `float` distances `D[A][B] = 0.1f`, `D[A][C] = 0.2f`, `D[B][C] = 0.3f` (symmetric,
zero diagonal), `join_final` computes in `float` and assigns the weights `0`, `0.1f`
(`13421773 / 2^27`) and `0.2f` (`13421773 / 2^26`); `w_1 + w_2` is `40265319 / 2^27`,
which is not `D[B][C] = 0.3f = 5033165 / 2^24`, and in the tree `nj_t` emits
`calc_distance(B, C)` is that sum and not the input distance. -/
theorem join_final_rounding_loses_distance :
    (nj_init tenths_dists ["A", "B", "C"]).map
        (fun s => (s._row_size, decide s.symmetric, decide s.zero_diagonal, s.D 1 2))
      = some (3, true, true, 5033165 / 16777216) ∧
    ((nj_init tenths_dists ["A", "B", "C"]).bind
        (join_final_fl true round_single round_double)).map
        (fun s => s.heap.map (fun n => n._weight))
      = some [0, 13421773 / 134217728, 13421773 / 67108864] ∧
    (13421773 / 134217728 + 13421773 / 67108864 : ℚ) = 40265319 / 134217728 ∧
    (40265319 / 134217728 : ℚ) ≠ 5033165 / 16777216 ∧
    (nj_fl true round_single round_double tenths_dists ["A", "B", "C"]).bind
        (fun t => calc_distance_fl round_double t 1 2) = some (40265319 / 134217728) ∧
    (nj_fl false round_single round_double tenths_dists ["A", "B", "C"]).bind
        (fun t => calc_distance_fl round_double t 1 2) = some (40265319 / 134217728) := by
  refine ⟨by decide!, by decide!, by norm_num, by norm_num, by decide!, by decide!⟩

/-- C28 (amended): for every state with `_row_size == 3` and three distinct clusters, in
either build and with `rf` the rounding of the `float` operations and `rd` the rounding of the
`double` operations, `join_final` returns and assigns cluster `x` the weight
`w_x = rd(rf(rf(D[x,y] + D[x,z]) - D[y,z]) * 0.5)`, `y = (x+1) mod 3`, `z = (x+2) mod 3`.
When the matrix is symmetric and no operation of the final join rounds
(`final_join_exact`), `w_x + w_y = D[x,y]` for every pair `x != y`.  When the state is the one
the constructor builds from a distance vector and a label list (three leaves), `nj_t` emits a
tree of three leaves, leaf `x` in slot `x` with label `labels[x]`, in which
`calc_distance(x, y)` is `rd(rd(0 + w_x) + rd(0 + w_y))` for `x != y` and `0` for `x = y`;
with a symmetric matrix, a zero diagonal and no rounding that is `D[x,y]`. -/
theorem join_final_rounded_distances (debug : Bool) (rf rd : ℚ → ℚ) (s : nj_t)
    (h3 : s._row_size = 3) (hlen : s._tree.length = 3) (hnd : s._tree.Nodup)
    (hlt : ∀ p ∈ s._tree, p < s.heap.length) :
    ∃ s1, join_final_fl debug rf rd s = some s1 ∧
      (∀ x, x < 3 → (node_at s1.heap (s._tree.getD x 0))._weight
        = rd (rf (rf (s.D x ((x + 1) % 3) + s.D x ((x + 2) % 3))
            - s.D ((x + 1) % 3) ((x + 2) % 3)) * (1 / 2 : ℚ))) ∧
      (s.symmetric → final_join_exact rf rd s → ∀ x y, x < 3 → y < 3 → x ≠ y →
        (node_at s1.heap (s._tree.getD x 0))._weight
          + (node_at s1.heap (s._tree.getD y 0))._weight = s.D x y) ∧
      ∀ dists labels, nj_init dists labels = some s →
        ∃ t, nj_fl debug rf rd dists labels = some t ∧ t._size = 3 ∧ t._unroot = [0, 1, 2] ∧
          t._tree.length = 3 ∧
          (∀ x, x < 3 → (node_at t._tree x)._label = labels.getD x "" ∧
            (node_at t._tree x)._children = false ∧
            (node_at t._tree x)._weight = (node_at s1.heap (s._tree.getD x 0))._weight) ∧
          (∀ x y, x < 3 → y < 3 →
            calc_distance_fl rd t x y
              = some (if x = y then 0
                  else rd (rd (0 + (node_at t._tree x)._weight)
                    + rd (0 + (node_at t._tree y)._weight)))) ∧
          (s.symmetric → s.zero_diagonal → final_join_exact rf rd s →
            ∀ x y, x < 3 → y < 3 →
              calc_distance_fl rd t x y = some (dists.getD (x * 3 + y) 0)) := by
  obtain ⟨s1, hrun, -, -, -, -, hw, -, -⟩ := join_final_heap_fl debug rf rd s h3 hlen hnd hlt
  refine ⟨s1, hrun, ?_, ?_, ?_⟩
  · intro x hx
    rw [hw x hx, final_weight_fl_three rf rd s h3]
  · intro hsym hex x y hx hy hxy
    rw [hw x hx, hw y hy, final_weight_fl_of_exact rf rd s h3 hex x hx,
      final_weight_fl_of_exact rf rd s h3 hex y hy]
    exact final_weight_sum s h3 hsym x y hx hy hxy
  · intro dists labels hinit
    obtain ⟨l0, l1, l2, h0, h1, h2, hnj⟩ := nj_three_fl debug rf rd hinit h3
    obtain ⟨l0', l1', l2', -, -, -, hs⟩ := nj_init_three hinit h3
    have htree : s._tree = [0, 1, 2] := by rw [hs]
    have hD : ∀ x y, s.D x y = dists.getD (x * 3 + y) 0 := by
      intro x y
      rw [hs]
      rfl
    have hwt : ∀ x, x < 3 →
        (node_at [(⟨l0, final_weight_fl rf rd s 0, none, none, none, false⟩ : node_t),
          ⟨l1, final_weight_fl rf rd s 1, none, none, none, false⟩,
          ⟨l2, final_weight_fl rf rd s 2, none, none, none, false⟩] x)._weight
        = final_weight_fl rf rd s x := by
      intro x hx
      interval_cases x <;> rfl
    have hgd : ∀ x, x < 3 → [final_weight_fl rf rd s 0, final_weight_fl rf rd s 1,
        final_weight_fl rf rd s 2].getD x 0 = final_weight_fl rf rd s x := by
      intro x hx
      interval_cases x <;> rfl
    have hcd : ∀ x y, x < 3 → y < 3 →
        calc_distance_fl rd ⟨[⟨l0, final_weight_fl rf rd s 0, none, none, none, false⟩,
          ⟨l1, final_weight_fl rf rd s 1, none, none, none, false⟩,
          ⟨l2, final_weight_fl rf rd s 2, none, none, none, false⟩], [0, 1, 2], 3⟩ x y
        = some (if x = y then 0
            else rd (rd (0 + final_weight_fl rf rd s x)
              + rd (0 + final_weight_fl rf rd s y))) := by
      intro x y hx hy
      rw [calc_distance_fl_three_leaves rd _ _ _ _ _ _ x y hx hy, hgd x hx, hgd y hy]
    refine ⟨_, hnj, rfl, rfl, rfl, ?_, ?_, ?_⟩
    · intro x hx
      refine ⟨?_, ?_, ?_⟩
      · interval_cases x
        · simp [node_at, List.getD_eq_getElem?_getD, h0]
        · simp [node_at, List.getD_eq_getElem?_getD, h1]
        · simp [node_at, List.getD_eq_getElem?_getD, h2]
      · interval_cases x <;> rfl
      · rw [hwt x hx, hw x hx]
    · intro x y hx hy
      rw [hcd x y hx hy]
      simp only [hwt x hx, hwt y hy]
    · intro hsym hdiag hex x y hx hy
      rw [hcd x y hx hy, ← hD]
      by_cases hxy : x = y
      · subst hxy
        rw [if_pos rfl, hdiag x (by omega)]
      · rw [if_neg hxy, final_weight_fl_of_exact rf rd s h3 hex x hx,
          final_weight_fl_of_exact rf rd s h3 hex y hy, zero_add, zero_add,
          (hex x hx).2.2.1, (hex y hy).2.2.1, (hex x hx).2.2.2 y hy,
          final_weight_sum s h3 hsym x y hx hy hxy]

theorem three_state_symmetric : three_state.symmetric := by decide!

theorem join_final_rounded_distances_witness :
    (three_state._row_size = 3 ∧ three_state._tree.length = 3 ∧ three_state._tree.Nodup ∧
      (∀ p ∈ three_state._tree, p < three_state.heap.length)) ∧
    (nj_init [0, 3, 4, 3, 0, 5, 4, 5, 0] ["A", "B", "C"] = some three_state ∧
      three_state.symmetric ∧ three_state.zero_diagonal ∧
      final_join_exact round_single round_double three_state) ∧
    ∃ s1, join_final_fl true round_single round_double three_state = some s1 ∧
      (∀ x, x < 3 → (node_at s1.heap (three_state._tree.getD x 0))._weight
        = round_double (round_single (round_single
              (three_state.D x ((x + 1) % 3) + three_state.D x ((x + 2) % 3))
            - three_state.D ((x + 1) % 3) ((x + 2) % 3)) * (1 / 2 : ℚ))) ∧
      (three_state.symmetric → final_join_exact round_single round_double three_state →
        ∀ x y, x < 3 → y < 3 → x ≠ y →
        (node_at s1.heap (three_state._tree.getD x 0))._weight
          + (node_at s1.heap (three_state._tree.getD y 0))._weight = three_state.D x y) ∧
      ∀ dists labels, nj_init dists labels = some three_state →
        ∃ t, nj_fl true round_single round_double dists labels = some t ∧ t._size = 3 ∧
          t._unroot = [0, 1, 2] ∧ t._tree.length = 3 ∧
          (∀ x, x < 3 → (node_at t._tree x)._label = labels.getD x "" ∧
            (node_at t._tree x)._children = false ∧
            (node_at t._tree x)._weight
              = (node_at s1.heap (three_state._tree.getD x 0))._weight) ∧
          (∀ x y, x < 3 → y < 3 →
            calc_distance_fl round_double t x y
              = some (if x = y then 0
                  else round_double (round_double (0 + (node_at t._tree x)._weight)
                    + round_double (0 + (node_at t._tree y)._weight)))) ∧
          (three_state.symmetric → three_state.zero_diagonal →
            final_join_exact round_single round_double three_state →
            ∀ x y, x < 3 → y < 3 →
              calc_distance_fl round_double t x y = some (dists.getD (x * 3 + y) 0)) :=
  ⟨⟨rfl, rfl, by decide, by decide⟩,
    ⟨by decide!, three_state_symmetric, by decide!, by decide!⟩,
    join_final_rounded_distances true round_single round_double three_state rfl rfl
      (by decide) (by decide)⟩

end Gstar

namespace Gstar

/-- C29 (evaluation at a failing input): for the five leaves `A .. E` with `D[A][B] = 2` and
every other distance `10`, the matrix is symmetric with zero diagonal; after the first
`join_pair` (which joins the clusters 1 and 0) the reduced `4 x 4` matrix is symmetric, but
the entry of the merged cluster with itself is `D'[3][3] = 9`: the third loop also runs for
the index of the merged cluster and writes `0.5*(D[3][1] + D[3][0] - D[1][0])` there. -/
theorem join_pair_merged_diagonal_nonzero :
    (nj_init star_dists five_labels).map
        (fun s => (decide s.symmetric, decide s.zero_diagonal, s._row_size))
      = some (true, true, 5) ∧
    ((nj_init star_dists five_labels).bind join_pair).map
        (fun s => (s._row_size, s._dists, decide s.symmetric, decide s.zero_diagonal, s.D 3 3))
      = some (4, [0, 10, 10, 0, 10, 0, 10, 0, 10, 10, 0, 9, 0, 0, 9, 9], true, false, 9) := by
  refine ⟨by decide!, by decide!⟩

end Gstar
